import Mathlib

/-!
# jsoncons object containers: a shallow embedding

The two `json_object` specialisations of `include/jsoncons/json_container_types.hpp`
(the key-sorted one and the insertion-order-preserving one with its auxiliary
`index_`), embedded as Lean functions over lists.

* a `std::vector` is a `List`; an iterator is the position it points at
  (`end()` is the length of the vector);
* keys are elements of a linear order `K` (a `std::string` compared with
  `compare`, i.e. lexicographically by character), values are any type `V`;
* `std::size_t` values are `Nat` (every subtraction of the code is guarded so
  that it cannot wrap);
* an exception (`std::out_of_range` from `vector::at`, a failed
  `JSONCONS_ASSERT`) is an `Except.error`.
-/

namespace jsoncons

/-! ## Data -/

/-- The class `key_value<KeyT,ValueT>`: one object member. -/
structure key_value (K : Type) (V : Type) where
  key : K
  value : V
deriving DecidableEq, Repr

/-- The exceptions the container code can raise. -/
inductive error where
  | out_of_range
  | assertion_failed
deriving DecidableEq, Repr

/-- Scalar JSON values used in the concrete scenarios: an integer, or a decimal
number `mantissa * 10 ^ exp10`. -/
inductive scalar where
  | int64_value (n : Int)
  | double_value (mantissa : Int) (exp10 : Int)
deriving DecidableEq, Repr

/-! ## Standard-library algorithms used by the containers -/

/-- The loop of `std::lower_bound` on the positions `[first, first + len)` of `xs`:
halve the range, move right when `comp` holds at the middle. The first argument
bounds the number of iterations; `len` iterations always suffice. -/
def lower_bound_loop {α : Type} (comp : α → Bool) (xs : List α) : Nat → Nat → Nat → Nat
  | 0, first, _ => first
  | fuel + 1, first, len =>
    if len = 0 then first
    else
      let half := len / 2
      let middle := first + half
      match xs[middle]? with
      | some a =>
        if comp a then lower_bound_loop comp xs fuel (middle + 1) (len - half - 1)
        else lower_bound_loop comp xs fuel first half
      | none => first

/-- The call `std::lower_bound(xs.begin(), xs.end(), k, comp)`, with `comp a`
standing for `comp(a, k)`. -/
def lower_bound {α : Type} (comp : α → Bool) (xs : List α) : Nat :=
  lower_bound_loop comp xs xs.length 0 xs.length

/-- The loop of `std::lower_bound` when the comparison may throw. -/
def lower_bound_loop_except {α : Type} (comp : α → Except error Bool) (xs : List α) :
    Nat → Nat → Nat → Except error Nat
  | 0, first, _ => .ok first
  | fuel + 1, first, len =>
    if len = 0 then .ok first
    else
      let half := len / 2
      let middle := first + half
      match xs[middle]? with
      | some a =>
        match comp a with
        | .ok true => lower_bound_loop_except comp xs fuel (middle + 1) (len - half - 1)
        | .ok false => lower_bound_loop_except comp xs fuel first half
        | .error e => .error e
      | none => .ok first

/-- The call `std::lower_bound(xs.begin(), xs.end(), k, comp)` for a comparison
that may throw. -/
def lower_bound_except {α : Type} (comp : α → Except error Bool) (xs : List α) :
    Except error Nat :=
  lower_bound_loop_except comp xs xs.length 0 xs.length

/-- Insertion of `a` into an already sorted list, behind every element that
`comp` puts strictly before `a` and in front of the rest. -/
def stable_insert {α : Type} (comp : α → α → Bool) (a : α) : List α → List α
  | [] => [a]
  | b :: l => if comp b a then b :: stable_insert comp a l else a :: b :: l

/-- The call `std::stable_sort(first, last, comp)`: the sorted arrangement in which
elements that `comp` does not separate keep their original order. -/
def stable_sort {α : Type} (comp : α → α → Bool) : List α → List α
  | [] => []
  | a :: l => stable_insert comp a (stable_sort comp l)

/-- The scan of `std::unique` behind the element `last` kept most recently. -/
def unique_loop {α : Type} (pred : α → α → Bool) : α → List α → List α
  | _, [] => []
  | last, b :: l => if pred last b then unique_loop pred last l else b :: unique_loop pred b l

/-- The call `std::unique(first, last, pred)`: the range `[first, result)` it
leaves, i.e. the first element of every run of consecutive equivalent elements. -/
def unique {α : Type} (pred : α → α → Bool) : List α → List α
  | [] => []
  | a :: l => a :: unique_loop pred a l

/-- The call `v.erase(v.begin() + first, v.begin() + last)` on a vector. -/
def vector_erase {α : Type} (v : List α) (first last : Nat) : List α :=
  v.take first ++ v.drop last

/-- The call `v.emplace(v.begin() + pos, a)` (or `v.insert`) on a vector. -/
def vector_emplace {α : Type} (v : List α) (pos : Nat) (a : α) : List α :=
  v.take pos ++ a :: v.drop pos

/-- The call `v.at(i)`, which throws `std::out_of_range` when `i >= v.size()`. -/
def vector_at {α : Type} (v : List α) (i : Nat) : Except error α :=
  match v[i]? with
  | some a => .ok a
  | none => .error .out_of_range

/-- The call `(v.begin() + i)->value(x)` on a vector of members: the member at
position `i` keeps its key and gets the value `x`. -/
def assign_value {K V : Type} (v : List (key_value K V)) (i : Nat) (x : V) :
    List (key_value K V) :=
  match v[i]? with
  | some m => v.set i ⟨m.key, x⟩
  | none => v

/-! ## The key-sorted object -/

namespace sorted

/-- The class `json_object` for a policy without `preserve_order`. -/
structure json_object (K : Type) (V : Type) where
  members_ : List (key_value K V)
deriving DecidableEq, Repr

variable {K V : Type} [LinearOrder K]

/-- The comparison lambda passed to `std::lower_bound`:
`string_view_type(a.key()).compare(k) < 0`. -/
def key_less (k : K) (a : key_value K V) : Bool := decide (a.key < k)

/-- The method `size()`. -/
def json_object.size (o : json_object K V) : Nat := o.members_.length

/-- The method `find(name)`; the result is a position, `size()` for `end()`. -/
def json_object.find (o : json_object K V) (name : K) : Nat :=
  let it := lower_bound (key_less name) o.members_
  if h : it < o.members_.length then
    if o.members_[it].key = name then it else o.members_.length
  else o.members_.length

/-- The method `insert_or_assign(name, value)` without a hint; the result is the
new object with the returned pair (position, inserted). -/
def json_object.insert_or_assign (o : json_object K V) (name : K) (value : V) :
    json_object K V × (Nat × Bool) :=
  let it := lower_bound (key_less name) o.members_
  if h : it < o.members_.length then
    if o.members_[it].key = name then
      (⟨assign_value o.members_ it value⟩, (it, false))
    else
      (⟨vector_emplace o.members_ it ⟨name, value⟩⟩, (it, true))
  else
    (⟨o.members_ ++ [⟨name, value⟩]⟩, (o.members_.length + 1 - 1, true))

/-- The method `try_emplace(name, args...)` without a hint. -/
def json_object.try_emplace (o : json_object K V) (name : K) (value : V) :
    json_object K V × (Nat × Bool) :=
  let it := lower_bound (key_less name) o.members_
  if h : it < o.members_.length then
    if o.members_[it].key = name then
      (o, (it, false))
    else
      (⟨vector_emplace o.members_ it ⟨name, value⟩⟩, (it, true))
  else
    (⟨o.members_ ++ [⟨name, value⟩]⟩, (o.members_.length + 1 - 1, true))

/-- The method `erase(name)`. -/
def json_object.erase (o : json_object K V) (name : K) : json_object K V :=
  let it := lower_bound (key_less name) o.members_
  if h : it < o.members_.length then
    if o.members_[it].key = name then ⟨o.members_.eraseIdx it⟩ else o
  else o

/-- The constructor `json_object(InputIt first, InputIt last)`: copy the range,
`std::stable_sort` by key, `std::unique` by key, erase the tail. -/
def json_object.from_range (input : List (key_value K V)) : json_object K V :=
  let members_ := stable_sort (fun a b => decide (a.key < b.key)) input
  ⟨unique (fun a b => decide (a.key = b.key)) members_⟩

/-- The invariant of the sorted object: keys strictly ascending. -/
def json_object.strictly_ascending (o : json_object K V) : Prop :=
  (o.members_.map key_value.key).Sorted (· < ·)

end sorted

/-! ## The insertion-order-preserving object -/

namespace preserve_order

/-- The class `json_object` for a policy with `preserve_order`: the members in
insertion order and the positions of the members in key order. -/
structure json_object (K : Type) (V : Type) where
  members_ : List (key_value K V)
  index_ : List Nat
deriving DecidableEq, Repr

variable {K V : Type} [LinearOrder K]

/-- The comparison lambda of `find` and `insert_index_entry`:
`string_view_type(members_.at(i).key()).compare(k) < 0`. -/
def index_key_less (members_ : List (key_value K V)) (k : K) (i : Nat) :
    Except error Bool :=
  match vector_at members_ i with
  | .ok m => .ok (decide (m.key < k))
  | .error e => .error e

/-- The comparison lambda of `build_index`:
`members_.at(a).key().compare(members_.at(b).key()) < 0`. It is only ever applied
to positions that `build_index` has just counted up to `members_.size()`, where
`at` cannot throw. -/
def index_less (members_ : List (key_value K V)) (a b : Nat) : Bool :=
  match members_[a]?, members_[b]? with
  | some x, some y => decide (x.key < y.key)
  | _, _ => false

/-- The predicate lambda of the constructor's `std::unique`:
`!(members_.at(a).key().compare(members_.at(b).key()))`, applied as `index_less`
is to positions below `members_.size()` only. -/
def index_equal (members_ : List (key_value K V)) (a b : Nat) : Bool :=
  match members_[a]?, members_[b]? with
  | some x, some y => decide (x.key = y.key)
  | _, _ => false

/-- The method `size()`. -/
def json_object.size (o : json_object K V) : Nat := o.members_.length

/-- The method `find(name)`; the result is a position in `members_`,
`size()` for `end()`. -/
def json_object.find (o : json_object K V) (name : K) : Except error Nat := do
  let it ← lower_bound_except (index_key_less o.members_ name) o.index_
  if h : it < o.index_.length then
    let m ← vector_at o.members_ o.index_[it]
    if m.key = name then pure o.index_[it] else pure o.members_.length
  else pure o.members_.length

/-- The renumbering loop of `insert_index_entry`,
`for (i = 0; count > 0 && i < index_.size(); ++i)`, as a pass over the slots from
left to right carrying `count`. -/
def shift_loop (pos : Nat) : Nat → List Nat → List Nat
  | _, [] => []
  | count, x :: rest =>
    if count > 0 then
      if x ≥ pos then (x + 1) :: shift_loop pos (count - 1) rest
      else x :: shift_loop pos count rest
    else x :: rest

/-- The method `insert_index_entry(key, pos)`; the result is the object with its
new index and the returned pair. -/
def json_object.insert_index_entry (o : json_object K V) (key : K) (pos : Nat) :
    Except error (json_object K V × (Nat × Bool)) := do
  if ¬ pos ≤ o.index_.length then throw error.assertion_failed
  let it ← lower_bound_except (index_key_less o.members_ key) o.index_
  if h : it < o.index_.length then
    let m ← vector_at o.members_ o.index_[it]
    if m.key ≠ key then
      let count := o.index_.length - pos
      let index1 := shift_loop pos count o.index_
      pure (⟨o.members_, vector_emplace index1 it pos⟩, (pos, true))
    else
      pure (o, (o.index_[it], false))
  else
    let count := o.index_.length - pos
    let index1 := shift_loop pos count o.index_
    pure (⟨o.members_, index1 ++ [pos]⟩, (pos, true))

/-- The first loop of `erase_index_entries`,
`for (i = 0; i < index_.size(); ++i)`, in which `index_.size()` is read again in
every round. The first argument bounds the number of rounds; `index_.size()`
rounds always suffice because `i` grows in each. -/
def erase_loop (pos1 pos2 offset : Nat) : Nat → Nat → List Nat → List Nat
  | 0, _, index_ => index_
  | fuel + 1, i, index_ =>
    if h : i < index_.length then
      if offset = index_.length then
        erase_loop pos1 pos2 offset fuel (i + offset + 1) (vector_erase index_ i index_.length)
      else if index_[i] ≥ pos1 ∧ index_[i] < pos2 then
        erase_loop pos1 pos2 offset fuel (i + 1) (index_.eraseIdx i)
      else
        erase_loop pos1 pos2 offset fuel (i + 1) index_
    else index_

/-- The second loop of `erase_index_entries`: every slot at or behind `pos2`
moves down by `offset`. -/
def renumber_loop (pos2 offset : Nat) (index_ : List Nat) : List Nat :=
  index_.map (fun x => if x ≥ pos2 then x - offset else x)

/-- The two loops of `erase_index_entries(pos1, pos2)`, between its assertions. -/
def erase_index_entries_loops (index_ : List Nat) (pos1 pos2 : Nat) : List Nat :=
  let offset := pos2 - pos1
  renumber_loop pos2 offset (erase_loop pos1 pos2 offset index_.length 0 index_)

/-- The method `erase_index_entries(pos1, pos2)` on `index_`, with its three
`JSONCONS_ASSERT`s. -/
def erase_index_entries (index_ : List Nat) (pos1 pos2 : Nat) : Except error (List Nat) := do
  if ¬ pos1 ≤ pos2 then throw error.assertion_failed
  if ¬ pos2 ≤ index_.length then throw error.assertion_failed
  let offset := pos2 - pos1
  let n := index_.length - offset
  let index1 := erase_index_entries_loops index_ pos1 pos2
  if ¬ index1.length = n then throw error.assertion_failed
  pure index1

/-- The method `erase(first, last)` on positions. -/
def json_object.erase_range (o : json_object K V) (first last : Nat) :
    Except error (json_object K V) := do
  let pos1 := first
  let pos2 := last
  if pos1 < o.members_.length ∧ pos2 ≤ o.members_.length then
    let index1 ← erase_index_entries o.index_ pos1 pos2
    pure ⟨vector_erase o.members_ first last, index1⟩
  else pure o

/-- The method `erase(name)`. -/
def json_object.erase (o : json_object K V) (name : K) : Except error (json_object K V) := do
  let pos ← o.find name
  if pos ≠ o.members_.length then
    let pos1 := pos
    let pos2 := pos1 + 1
    let index1 ← erase_index_entries o.index_ pos1 pos2
    pure ⟨o.members_.eraseIdx pos, index1⟩
  else pure o

/-- The method `insert_or_assign(name, value)` without a hint. -/
def json_object.insert_or_assign (o : json_object K V) (name : K) (value : V) :
    Except error (json_object K V × (Nat × Bool)) := do
  let (o1, result) ← o.insert_index_entry name o.members_.length
  if result.2 then
    pure (⟨o1.members_ ++ [⟨name, value⟩], o1.index_⟩, (result.1, true))
  else
    pure (⟨assign_value o1.members_ result.1 value, o1.index_⟩, (result.1, false))

/-- The method `try_emplace(name, args...)` without a hint. -/
def json_object.try_emplace (o : json_object K V) (name : K) (value : V) :
    Except error (json_object K V × (Nat × Bool)) := do
  let (o1, result) ← o.insert_index_entry name o.members_.length
  if result.2 then
    pure (⟨o1.members_ ++ [⟨name, value⟩], o1.index_⟩, (result.1, true))
  else
    pure (o1, (result.1, false))

/-- The method `build_index()`: the positions `0 .. size()-1`, stably sorted by
the key they refer to. -/
def build_index (members_ : List (key_value K V)) : List Nat :=
  stable_sort (index_less members_) (List.range members_.length)

/-- The compaction loop of the range constructor,
`for (it = index_.rbegin() + 1; it != index_.rend(); ++it, ++result)`: the first
list holds the slots from `it` on in reverse order, the number is `*result`.
The slots were just sorted ascending, so `*result - *it` does not wrap. -/
def compact_loop : List Nat → Nat → List (key_value K V) → List (key_value K V)
  | [], _, members_ => members_
  | it :: rest, result, members_ =>
    if result - it > 1 then
      compact_loop rest it (vector_erase members_ (it + 1) result)
    else
      compact_loop rest it members_

/-- The part of the range constructor between the two `build_index()` calls:
`std::unique` on the index, then, if that dropped a slot, sort the kept
positions and erase every member between and behind them, last gap first. -/
def remove_duplicates (members_ : List (key_value K V)) (index_ : List Nat) :
    List (key_value K V) :=
  let last_unique := unique (index_equal members_) index_
  if last_unique.length ≠ index_.length then
    let index1 := stable_sort (fun a b => decide (a < b)) last_unique
    match index1.reverse with
    | [] => members_
    | result :: rest =>
      let members1 :=
        if result ≠ members_.length then vector_erase members_ (result + 1) members_.length
        else members_
      compact_loop rest result members1
  else members_

/-- The constructor `json_object(InputIt first, InputIt last)`. -/
def json_object.from_range (input : List (key_value K V)) : json_object K V :=
  let members1 := remove_duplicates input (build_index input)
  ⟨members1, build_index members1⟩

/-- The invariant of the order-preserving object: `index_` is a permutation of
the positions `[0, size)`, and the keys read through it are strictly ascending. -/
def json_object.index_consistent (o : json_object K V) : Prop :=
  o.index_.Perm (List.range o.members_.length) ∧
  o.index_.Pairwise (fun i j => index_less o.members_ i j = true)

end preserve_order

end jsoncons

/-! ## Call sequences, scenario objects and specification-side definitions

The definitions of this section are not methods of the containers: they name the
call sequences, the concrete objects of the scenarios, and the reference
functions that the theorems compare the code with. -/

namespace jsoncons

deriving instance DecidableEq for Except

namespace sorted

variable {K V : Type} [LinearOrder K]

/-- One call of an unhinted inserting method of the sorted object. -/
inductive call (K : Type) (V : Type) where
  | insert_or_assign (name : K) (value : V)
  | try_emplace (name : K) (value : V)

/-- The object after one call, the returned pair dropped. -/
def json_object.after_call (o : json_object K V) : call K V → json_object K V
  | .insert_or_assign name value => (o.insert_or_assign name value).1
  | .try_emplace name value => (o.try_emplace name value).1

/-- The object that a sequence of calls builds from the default-constructed
(empty) object. -/
def json_object.after_calls (calls : List (call K V)) : json_object K V :=
  calls.foldl json_object.after_call ⟨[]⟩

end sorted

end jsoncons

namespace jsoncons

namespace sorted

variable {K V : Type} [LinearOrder K]

instance (o : json_object K V) : Decidable o.strictly_ascending := by
  unfold json_object.strictly_ascending List.Sorted
  infer_instance

/-- The sorted object `{"a": 1, "b": 2}`. -/
def object_a_b : json_object (List Char) Int :=
  ⟨[⟨"a".data, 1⟩, ⟨"b".data, 2⟩]⟩

end sorted

namespace preserve_order

variable {K V : Type} [LinearOrder K]

instance (o : json_object K V) : Decidable o.index_consistent := by
  unfold json_object.index_consistent
  infer_instance

end preserve_order

end jsoncons

namespace jsoncons

namespace preserve_order

variable {K V : Type} [LinearOrder K]

/-- One call of an unhinted mutating method of the order-preserving object. -/
inductive call (K : Type) (V : Type) where
  | insert_or_assign (name : K) (value : V)
  | try_emplace (name : K) (value : V)
  | erase (name : K)

/-- The object after one call, the returned pair dropped; an exception ends
the run. -/
def json_object.after_call (o : json_object K V) : call K V → Except error (json_object K V)
  | .insert_or_assign name value => (o.insert_or_assign name value).map Prod.fst
  | .try_emplace name value => (o.try_emplace name value).map Prod.fst
  | .erase name => o.erase name

/-- The object after a sequence of calls made one after the other on `o`. -/
def json_object.after_calls_from (o : json_object K V) :
    List (call K V) → Except error (json_object K V)
  | [] => .ok o
  | c :: rest =>
    match o.after_call c with
    | .ok o1 => o1.after_calls_from rest
    | .error e => .error e

/-- The object that a sequence of calls builds from the default-constructed
(empty) object. -/
def json_object.after_calls (calls : List (call K V)) : Except error (json_object K V) :=
  (json_object.mk [] []).after_calls_from calls

end preserve_order

end jsoncons

namespace jsoncons

namespace preserve_order

/-- Scenario B: the calls that insert `x = 2.5` and `y = 1.3` into an empty
order-preserving object. -/
def scenario_b_calls : List (call (List Char) scalar) :=
  [.insert_or_assign "x".data (.double_value 25 (-1)),
   .insert_or_assign "y".data (.double_value 13 (-1))]

/-- Scenario C: the calls that build an order-preserving object with the five
members `m, c, x, a, q`, inserted in this order. -/
def scenario_c_calls : List (call (List Char) Int) :=
  [.insert_or_assign "m".data 1, .insert_or_assign "c".data 2, .insert_or_assign "x".data 3,
   .insert_or_assign "a".data 4, .insert_or_assign "q".data 5]

/-- The order-preserving object `{"m": 1, "c": 2, "x": 3, "a": 4, "q": 5}` of
scenario C. -/
def object_m_c_x_a_q : json_object (List Char) Int :=
  ⟨[⟨"m".data, 1⟩, ⟨"c".data, 2⟩, ⟨"x".data, 3⟩, ⟨"a".data, 4⟩, ⟨"q".data, 5⟩], [3, 1, 0, 4, 2]⟩

/-- The order-preserving object `{"x": 2.5, "y": 1.3}` of scenario B. -/
def object_x_y : json_object (List Char) scalar :=
  ⟨[⟨"x".data, .double_value 25 (-1)⟩, ⟨"y".data, .double_value 13 (-1)⟩], [0, 1]⟩

end preserve_order

end jsoncons

namespace jsoncons

namespace preserve_order

variable {K V : Type} [LinearOrder K]

/-- The key of the member at position `i`, and the bottom element when there is
no such member. -/
def key_at (members_ : List (key_value K V)) (i : Nat) : WithBot K :=
  match members_[i]? with
  | some m => (m.key : WithBot K)
  | none => ⊥

/-- What the specification says the range constructor keeps, in its own words:
the input list with every later occurrence of an already-seen key deleted.
The first argument lists the keys seen so far. It is not taken from the code;
the constructor `json_object.from_range` is compared with it. -/
def delete_later_occurrences : List K → List (key_value K V) → List (key_value K V)
  | _, [] => []
  | seen, m :: rest =>
    if m.key ∈ seen then delete_later_occurrences seen rest
    else m :: delete_later_occurrences (m.key :: seen) rest

/-- The order-preserving object `{"a": 1, "b": 2, "c": 3}`. -/
def object_a_b_c : json_object (List Char) Int :=
  ⟨[⟨"a".data, 1⟩, ⟨"b".data, 2⟩, ⟨"c".data, 3⟩], [0, 1, 2]⟩

end preserve_order

end jsoncons

namespace jsoncons

namespace preserve_order

variable {K V : Type} [LinearOrder K]

/-- The positions, in ascending order, of the members whose key does not occur
at an earlier position. -/
def first_positions (members_ : List (key_value K V)) : List Nat :=
  (List.range members_.length).filter
    (fun i => decide (∀ j, j < i → key_at members_ j ≠ key_at members_ i))

end preserve_order

end jsoncons

namespace jsoncons

namespace preserve_order

/-- The order-preserving object `{"a": 1, "b": 2, "c": 3, "d": 4}`. -/
def object_a_b_c_d : json_object (List Char) Int :=
  ⟨[⟨"a".data, 1⟩, ⟨"b".data, 2⟩, ⟨"c".data, 3⟩, ⟨"d".data, 4⟩], [0, 1, 2, 3]⟩

end preserve_order

end jsoncons

/-! ## Bulk operations, hinted insertion, comparison and swap

Further methods of the two containers, translated from the source, and the
concrete objects used to evaluate them. -/

namespace jsoncons

/-- The call `std::lower_bound(xs.begin() + first, xs.end(), k, comp)`. -/
def lower_bound_from {α : Type} (comp : α → Bool) (xs : List α) (first : Nat) : Nat :=
  lower_bound_loop comp xs (xs.length - first) first (xs.length - first)

/-- The operator `==` of `key_value`: `lhs.key_ == rhs.key_ && lhs.value_ == rhs.value_`. -/
def key_value.operator_eq {K V : Type} [DecidableEq K] [DecidableEq V]
    (lhs rhs : key_value K V) : Bool :=
  decide (lhs.key = rhs.key) && decide (lhs.value = rhs.value)

/-- The operator `==` of `std::vector`: equal sizes and element-wise equal. -/
def vector_equal {α : Type} (eq : α → α → Bool) : List α → List α → Bool
  | [], [] => true
  | a :: as, b :: bs => eq a b && vector_equal eq as bs
  | _, _ => false

namespace sorted

variable {K V : Type} [LinearOrder K]

/-- The method `merge(const json_object& source)`: `try_emplace` for every member
of the source, in the order of the source. -/
def json_object.merge (o source : json_object K V) : json_object K V :=
  source.members_.foldl (fun acc m => (acc.try_emplace m.key m.value).1) o

/-- One round of the loop of `merge(json_object&& source)`. -/
def json_object.merge_move_step (o : json_object K V) (m : key_value K V) : json_object K V :=
  let pos := lower_bound (key_less m.key) o.members_
  if h : pos < o.members_.length then
    if m.key ≠ o.members_[pos].key then ⟨vector_emplace o.members_ pos m⟩ else o
  else ⟨o.members_ ++ [m]⟩

/-- The method `merge(json_object&& source)`. -/
def json_object.merge_move (o source : json_object K V) : json_object K V :=
  source.members_.foldl json_object.merge_move_step o

/-- The method `merge_or_update(const json_object& source)`: `insert_or_assign`
for every member of the source. -/
def json_object.merge_or_update (o source : json_object K V) : json_object K V :=
  source.members_.foldl (fun acc m => (acc.insert_or_assign m.key m.value).1) o

/-- One round of the loop of `merge_or_update(json_object&& source)`: append when
`lower_bound` returns `end()`, otherwise `pos->value(it->value())`. -/
def json_object.merge_or_update_move_step (o : json_object K V) (m : key_value K V) :
    json_object K V :=
  let pos := lower_bound (key_less m.key) o.members_
  if pos < o.members_.length then ⟨assign_value o.members_ pos m.value⟩
  else ⟨o.members_ ++ [m]⟩

/-- The method `merge_or_update(json_object&& source)`. -/
def json_object.merge_or_update_move (o source : json_object K V) : json_object K V :=
  source.members_.foldl json_object.merge_or_update_move_step o

/-- The search at the head of the private hinted methods: from the hint when
`hint != members_.end() && hint->key() <= name`, from `begin()` otherwise. -/
def json_object.hinted_lower_bound (o : json_object K V) (hint : Nat) (name : K) : Nat :=
  if h : hint < o.members_.length then
    if o.members_[hint].key ≤ name then lower_bound_from (key_less name) o.members_ hint
    else lower_bound (key_less name) o.members_
  else lower_bound (key_less name) o.members_

/-- The private method `insert_or_assign(container iterator hint, name, value)`;
the result is the new object and the returned position. -/
def json_object.insert_or_assign_hint (o : json_object K V) (hint : Nat) (name : K)
    (value : V) : json_object K V × Nat :=
  let it := o.hinted_lower_bound hint name
  if h : it < o.members_.length then
    if o.members_[it].key = name then
      (⟨assign_value o.members_ it value⟩, it)
    else
      (⟨vector_emplace o.members_ it ⟨name, value⟩⟩, it)
  else
    (⟨o.members_ ++ [⟨name, value⟩]⟩, o.members_.length + 1 - 1)

/-- The private method `try_emplace(container iterator hint, name, args...)`. -/
def json_object.try_emplace_hint (o : json_object K V) (hint : Nat) (name : K)
    (value : V) : json_object K V × Nat :=
  let it := o.hinted_lower_bound hint name
  if h : it < o.members_.length then
    if o.members_[it].key = name then
      (o, it)
    else
      (⟨vector_emplace o.members_ it ⟨name, value⟩⟩, it)
  else
    (⟨o.members_ ++ [⟨name, value⟩]⟩, o.members_.length + 1 - 1)

/-- The loop `for (s = first; s != last; ++s) it = members_.emplace(it, convert(*s))`
of the tagged `insert`: every element is put at the position of the one before. -/
def emplace_each_at (it : Nat) : List (key_value K V) → List (key_value K V) →
    List (key_value K V)
  | members_, [] => members_
  | members_, s :: rest => emplace_each_at it (vector_emplace members_ it s) rest

/-- The method `insert(sorted_unique_range_tag, first, last, convert)`. -/
def json_object.insert_sorted_unique (o : json_object K V) (input : List (key_value K V)) :
    json_object K V :=
  match input with
  | [] => o
  | first :: _ =>
    let it := o.find first.key
    if it ≠ o.members_.length then ⟨emplace_each_at it o.members_ input⟩
    else ⟨o.members_ ++ input⟩

/-- The constructor `json_object(const std::initializer_list<...>& init)`:
`insert_or_assign` for every item. -/
def json_object.from_initializer_list (init : List (key_value K V)) : json_object K V :=
  init.foldl (fun acc item => (acc.insert_or_assign item.key item.value).1) ⟨[]⟩

end sorted

namespace preserve_order

variable {K V : Type} [LinearOrder K]

/-- The loop `for (it = source.begin(); it != source.end(); ++it)` with a body
that may throw. -/
def for_each_member (body : json_object K V → key_value K V → Except error (json_object K V)) :
    json_object K V → List (key_value K V) → Except error (json_object K V)
  | o, [] => .ok o
  | o, m :: rest =>
    match body o m with
    | .ok o1 => for_each_member body o1 rest
    | .error e => .error e

/-- The method `merge(const json_object& source)`. -/
def json_object.merge (o source : json_object K V) : Except error (json_object K V) :=
  for_each_member (fun acc m => (acc.try_emplace m.key m.value).map Prod.fst) o source.members_

/-- One round of the loop of `merge(json_object&& source)`: `find`, and
`try_emplace` when it returned `end()`. -/
def json_object.merge_move_step (o : json_object K V) (m : key_value K V) :
    Except error (json_object K V) := do
  let pos ← o.find m.key
  if pos = o.members_.length then
    (o.try_emplace m.key m.value).map Prod.fst
  else pure o

/-- The method `merge(json_object&& source)`. -/
def json_object.merge_move (o source : json_object K V) : Except error (json_object K V) :=
  for_each_member json_object.merge_move_step o source.members_

/-- The method `merge_or_update(const json_object& source)`. -/
def json_object.merge_or_update (o source : json_object K V) :
    Except error (json_object K V) :=
  for_each_member (fun acc m => (acc.insert_or_assign m.key m.value).map Prod.fst) o
    source.members_

/-- The method `swap(json_object& val)`, whose body is
`members_.swap(val.members_);`. The result is the pair (this object, `val`)
after the call. -/
def json_object.swap (o val : json_object K V) : json_object K V × json_object K V :=
  (⟨val.members_, o.index_⟩, ⟨o.members_, val.index_⟩)

/-- The operator `==`: `members_ == rhs.members_`. -/
def json_object.operator_eq [DecidableEq V] (o rhs : json_object K V) : Bool :=
  vector_equal key_value.operator_eq o.members_ rhs.members_

/-- The constructor `json_object(std::initializer_list<...> init)`:
`insert_or_assign` for every item. -/
def json_object.from_initializer_list (init : List (key_value K V)) :
    Except error (json_object K V) :=
  for_each_member (fun acc item => (acc.insert_or_assign item.key item.value).map Prod.fst)
    ⟨[], []⟩ init

end preserve_order

end jsoncons

namespace jsoncons

namespace sorted

/-- The sorted object `{"b": 7, "c": 8}`. -/
def object_b_c : json_object (List Char) Int :=
  ⟨[⟨"b".data, 7⟩, ⟨"c".data, 8⟩]⟩

end sorted

end jsoncons

namespace jsoncons

namespace sorted

/-- The sorted object `{"b": 1}`. -/
def object_b : json_object (List Char) Int := ⟨[⟨"b".data, 1⟩]⟩

/-- The sorted object `{"a": 2}`. -/
def object_a : json_object (List Char) Int := ⟨[⟨"a".data, 2⟩]⟩

/-- The sorted object `{"z": 1}`. -/
def object_z : json_object (List Char) Int := ⟨[⟨"z".data, 1⟩]⟩

end sorted

namespace preserve_order

/-- The order-preserving object built by inserting `x = 1`, then `y = 2`. -/
def object_x_then_y : json_object (List Char) Int :=
  ⟨[⟨"x".data, 1⟩, ⟨"y".data, 2⟩], [0, 1]⟩

/-- The order-preserving object built by inserting `y = 2`, then `x = 1`. -/
def object_y_then_x : json_object (List Char) Int :=
  ⟨[⟨"y".data, 2⟩, ⟨"x".data, 1⟩], [1, 0]⟩

end preserve_order

/-- The list of pairs `[("a",1),("b",2),("a",3)]`. -/
def pairs_a_b_a : List (key_value (List Char) Int) :=
  [⟨"a".data, 1⟩, ⟨"b".data, 2⟩, ⟨"a".data, 3⟩]

end jsoncons

/-! ## Iterators, member comparison, arrays and positional access

The iterator classes, the comparison operators of `key_value`, the class
`json_array` and the method `at` of the two objects, translated from the
source. A pointer into the contiguous storage of a container is the (signed)
position it points at, relative to the first element. The preprocessor symbol
`JSONCONS_NO_ERASE_TAKING_CONST_ITERATOR`, which is defined outside these
sources, is a Boolean parameter of the methods whose text it selects. -/

namespace jsoncons

/-- The class `sequence_iterator`: the pointer `ptr_`. -/
structure sequence_iterator where
  ptr_ : Int
deriving DecidableEq, Repr

/-- The class `const_sequence_iterator`: the pointer `ptr_`. -/
structure const_sequence_iterator where
  ptr_ : Int
deriving DecidableEq, Repr

/-- Reading the storage `xs` through a pointer: the element at that position, and
nothing when the pointer is outside the storage. -/
def read_pointer {α : Type} (xs : List α) (ptr : Int) : Option α :=
  if 0 ≤ ptr then xs[ptr.toNat]? else none

namespace sequence_iterator

/-- The operator `*`. -/
def dereference {α : Type} (xs : List α) (p : sequence_iterator) : Option α :=
  read_pointer xs p.ptr_

/-- The prefix operator `++`: the iterator after the call (also the returned one). -/
def increment (p : sequence_iterator) : sequence_iterator := ⟨p.ptr_ + 1⟩

/-- The postfix operator `++`: the iterator after the call and the returned copy. -/
def post_increment (p : sequence_iterator) : sequence_iterator × sequence_iterator :=
  let temp := p
  (p.increment, temp)

/-- The prefix operator `--`. -/
def decrement (p : sequence_iterator) : sequence_iterator := ⟨p.ptr_ - 1⟩

/-- The postfix operator `--`: the iterator after the call and the returned copy. -/
def post_decrement (p : sequence_iterator) : sequence_iterator × sequence_iterator :=
  let temp := p
  (p.decrement, temp)

/-- The operator `+=`. -/
def add_assign (p : sequence_iterator) (offset : Int) : sequence_iterator :=
  ⟨p.ptr_ + offset⟩

/-- The operator `+` with an offset on the right: `temp += offset`. -/
def plus (p : sequence_iterator) (offset : Int) : sequence_iterator :=
  let temp := p
  temp.add_assign offset

/-- The operator `-=`: `*this += -offset`. -/
def sub_assign (p : sequence_iterator) (offset : Int) : sequence_iterator :=
  p.add_assign (-offset)

/-- The operator `-` with an offset: `temp -= offset`. -/
def minus (p : sequence_iterator) (offset : Int) : sequence_iterator :=
  let temp := p
  temp.sub_assign offset

/-- The operator `-` between two iterators: `ptr_ - rhs.ptr_`. -/
def difference (p rhs : sequence_iterator) : Int := p.ptr_ - rhs.ptr_

/-- The operator `[]`: `*(*this + offset)`. -/
def subscript {α : Type} (xs : List α) (p : sequence_iterator) (offset : Int) : Option α :=
  dereference xs (p.plus offset)

/-- The operator `==`. -/
def operator_eq (p rhs : sequence_iterator) : Bool := decide (p.ptr_ = rhs.ptr_)

/-- The operator `!=`: `!(*this == rhs)`. -/
def operator_ne (p rhs : sequence_iterator) : Bool := !(p.operator_eq rhs)

/-- The operator `<`. -/
def operator_lt (p rhs : sequence_iterator) : Bool := decide (p.ptr_ < rhs.ptr_)

/-- The operator `>`: `rhs < *this`. -/
def operator_gt (p rhs : sequence_iterator) : Bool := rhs.operator_lt p

/-- The operator `<=`: `!(rhs < *this)`. -/
def operator_le (p rhs : sequence_iterator) : Bool := !(rhs.operator_lt p)

/-- The operator `>=`: `!(*this < rhs)`. -/
def operator_ge (p rhs : sequence_iterator) : Bool := !(p.operator_lt rhs)

/-- The friend operator `+` with the offset on the left: `next += offset`. -/
def offset_plus (offset : Int) (next : sequence_iterator) : sequence_iterator :=
  next.add_assign offset

end sequence_iterator

namespace const_sequence_iterator

/-- The converting constructor from a `sequence_iterator`: `ptr_(iter.ptr_)`. -/
def of_sequence_iterator (iter : sequence_iterator) : const_sequence_iterator :=
  ⟨iter.ptr_⟩

/-- The operator `*`. -/
def dereference {α : Type} (xs : List α) (p : const_sequence_iterator) : Option α :=
  read_pointer xs p.ptr_

/-- The prefix operator `++`. -/
def increment (p : const_sequence_iterator) : const_sequence_iterator := ⟨p.ptr_ + 1⟩

/-- The postfix operator `++`: the iterator after the call and the returned copy. -/
def post_increment (p : const_sequence_iterator) :
    const_sequence_iterator × const_sequence_iterator :=
  let temp := p
  (p.increment, temp)

/-- The prefix operator `--`. -/
def decrement (p : const_sequence_iterator) : const_sequence_iterator := ⟨p.ptr_ - 1⟩

/-- The postfix operator `--`: the iterator after the call and the returned copy. -/
def post_decrement (p : const_sequence_iterator) :
    const_sequence_iterator × const_sequence_iterator :=
  let temp := p
  (p.decrement, temp)

/-- The operator `+=`. -/
def add_assign (p : const_sequence_iterator) (offset : Int) : const_sequence_iterator :=
  ⟨p.ptr_ + offset⟩

/-- The operator `+` with an offset on the right: `temp += offset`. -/
def plus (p : const_sequence_iterator) (offset : Int) : const_sequence_iterator :=
  let temp := p
  temp.add_assign offset

/-- The operator `-=`: `*this += -offset`. -/
def sub_assign (p : const_sequence_iterator) (offset : Int) : const_sequence_iterator :=
  p.add_assign (-offset)

/-- The operator `-` with an offset: `temp -= offset`. -/
def minus (p : const_sequence_iterator) (offset : Int) : const_sequence_iterator :=
  let temp := p
  temp.sub_assign offset

/-- The operator `-` between two iterators: `ptr_ - rhs.ptr_`. -/
def difference (p rhs : const_sequence_iterator) : Int := p.ptr_ - rhs.ptr_

/-- The operator `[]`: `*(*this + offset)`. -/
def subscript {α : Type} (xs : List α) (p : const_sequence_iterator) (offset : Int) :
    Option α :=
  dereference xs (p.plus offset)

/-- The operator `==`. -/
def operator_eq (p rhs : const_sequence_iterator) : Bool := decide (p.ptr_ = rhs.ptr_)

/-- The operator `!=`: `!(*this == rhs)`. -/
def operator_ne (p rhs : const_sequence_iterator) : Bool := !(p.operator_eq rhs)

/-- The operator `<`. -/
def operator_lt (p rhs : const_sequence_iterator) : Bool := decide (p.ptr_ < rhs.ptr_)

/-- The operator `>`: `rhs < *this`. -/
def operator_gt (p rhs : const_sequence_iterator) : Bool := rhs.operator_lt p

/-- The operator `<=`: `!(rhs < *this)`. -/
def operator_le (p rhs : const_sequence_iterator) : Bool := !(rhs.operator_lt p)

/-- The operator `>=`: `!(*this < rhs)`. -/
def operator_ge (p rhs : const_sequence_iterator) : Bool := !(p.operator_lt rhs)

/-- The friend operator `+` with the offset on the left: `next += offset`. -/
def offset_plus (offset : Int) (next : const_sequence_iterator) : const_sequence_iterator :=
  next.add_assign offset

end const_sequence_iterator

namespace key_value

variable {K V : Type} [LinearOrder K] [DecidableEq V] [LT V]
  [DecidableRel (fun a b : V => a < b)]

/-- The operator `!=` of `key_value`: `!(lhs == rhs)`. -/
def operator_ne (lhs rhs : key_value K V) : Bool := !(key_value.operator_eq lhs rhs)

/-- The operator `<` of `key_value`. -/
def operator_lt (lhs rhs : key_value K V) : Bool :=
  if lhs.key < rhs.key then true
  else if lhs.key = rhs.key ∧ lhs.value < rhs.value then true
  else false

/-- The operator `<=` of `key_value`: `!(rhs < lhs)`. -/
def operator_le (lhs rhs : key_value K V) : Bool := !(operator_lt rhs lhs)

/-- The operator `>` of `key_value`: `!(lhs <= rhs)`. -/
def operator_gt (lhs rhs : key_value K V) : Bool := !(operator_le lhs rhs)

/-- The operator `>=` of `key_value`: `!(lhs < rhs)`. -/
def operator_ge (lhs rhs : key_value K V) : Bool := !(operator_lt lhs rhs)

end key_value

/-- The call `v.insert(v.begin() + pos, first, last)` on a vector. -/
def vector_insert_range {α : Type} (v : List α) (pos : Nat) (ys : List α) : List α :=
  v.take pos ++ ys ++ v.drop pos

/-- The call `v.resize(n, val)` on a vector. -/
def vector_resize {α : Type} (v : List α) (n : Nat) (val : α) : List α :=
  v.take n ++ List.replicate (n - v.length) val

/-- The class `json_array`. -/
structure json_array (Json : Type) where
  elements_ : List Json
deriving DecidableEq, Repr

namespace json_array

variable {Json : Type}

/-- The method `size()`. -/
def size (a : json_array Json) : Nat := a.elements_.length

/-- The methods `to_container_iterator` and `from_container_iterator`: the
position `begin + (it - begin)`. -/
def to_container_iterator (_a : json_array Json) (it : Nat) : Nat := 0 + (it - 0)

/-- The method `resize(n, val)`. -/
def resize (a : json_array Json) (n : Nat) (val : Json) : json_array Json :=
  ⟨vector_resize a.elements_ n val⟩

/-- The method `erase(pos)`. -/
def erase (no_erase_taking_const_iterator : Bool) (a : json_array Json) (pos : Nat) :
    json_array Json :=
  let pos2 := a.to_container_iterator pos
  if no_erase_taking_const_iterator then
    let it := 0 + (pos2 - 0)
    ⟨a.elements_.eraseIdx it⟩
  else
    ⟨a.elements_.eraseIdx pos2⟩

/-- The method `erase(first, last)`. -/
def erase_range (no_erase_taking_const_iterator : Bool) (a : json_array Json)
    (first last : Nat) : json_array Json :=
  let first2 := a.to_container_iterator first
  let last2 := a.to_container_iterator last
  if no_erase_taking_const_iterator then
    let it1 := 0 + (first2 - 0)
    let it2 := 0 + (last2 - 0)
    ⟨vector_erase a.elements_ it1 it2⟩
  else
    ⟨vector_erase a.elements_ first2 last2⟩

/-- The method `push_back(value)`: `elements_.emplace_back(value)`. -/
def push_back (a : json_array Json) (value : Json) : json_array Json :=
  ⟨a.elements_ ++ [value]⟩

/-- The method `insert(pos, value)`; the result is the new array and the position
of the returned iterator. -/
def insert (no_erase_taking_const_iterator : Bool) (a : json_array Json) (pos : Nat)
    (value : Json) : json_array Json × Nat :=
  let pos2 := a.to_container_iterator pos
  if no_erase_taking_const_iterator then
    let it := 0 + (pos2 - 0)
    (⟨vector_emplace a.elements_ it value⟩, it)
  else
    (⟨vector_emplace a.elements_ pos2 value⟩, pos2)

/-- The method `insert(pos, first, last)`; the result is the new array and the
position of the returned iterator. With the preprocessor symbol defined the
method returns `first == last ? it : it + 1`. -/
def insert_range (no_erase_taking_const_iterator : Bool) (a : json_array Json) (pos : Nat)
    (ys : List Json) : json_array Json × Nat :=
  let pos2 := a.to_container_iterator pos
  if no_erase_taking_const_iterator then
    let it := 0 + (pos2 - 0)
    (⟨vector_insert_range a.elements_ it ys⟩, if ys.length = 0 then it else it + 1)
  else
    (⟨vector_insert_range a.elements_ pos2 ys⟩, pos2)

/-- The method `emplace(pos, args...)`. -/
def emplace (no_erase_taking_const_iterator : Bool) (a : json_array Json) (pos : Nat)
    (value : Json) : json_array Json × Nat :=
  let pos2 := a.to_container_iterator pos
  if no_erase_taking_const_iterator then
    let it := 0 + (pos2 - 0)
    (⟨vector_emplace a.elements_ it value⟩, it)
  else
    (⟨vector_emplace a.elements_ pos2 value⟩, pos2)

/-- The method `emplace_back(args...)`; the result is the new array and the
returned reference `elements_.back()`. -/
def emplace_back (a : json_array Json) (value : Json) : json_array Json × Option Json :=
  let elements1 := a.elements_ ++ [value]
  (⟨elements1⟩, elements1.getLast?)

end json_array

namespace sorted

variable {K V : Type}

/-- The method `at(i)`. -/
def json_object.at (o : json_object K V) (i : Nat) : Except error V :=
  if h : i ≥ o.members_.length then .error error.out_of_range
  else .ok (o.members_.get ⟨i, Nat.lt_of_not_ge h⟩).value

end sorted

namespace preserve_order

variable {K V : Type}

/-- The method `at(i)`. -/
def json_object.at (o : json_object K V) (i : Nat) : Except error V :=
  if h : i ≥ o.members_.length then .error error.out_of_range
  else .ok (o.members_.get ⟨i, Nat.lt_of_not_ge h⟩).value

/-- Whether a call is one of the two inserting calls. -/
def call.inserts : call K V → Bool
  | .insert_or_assign _ _ => true
  | .try_emplace _ _ => true
  | .erase _ => false

/-- The key a call is made with. -/
def call.name : call K V → K
  | .insert_or_assign name _ => name
  | .try_emplace name _ => name
  | .erase name => name

/-- The keys in the order of their first insertion: every key of the second list
that is not yet listed is put behind the keys listed so far. It is not taken
from the code; the member order the code produces is compared with it. -/
def first_insertion_order [DecidableEq K] : List K → List K → List K
  | listed, [] => listed
  | listed, k :: rest =>
    if k ∈ listed then first_insertion_order listed rest
    else first_insertion_order (listed ++ [k]) rest

end preserve_order

end jsoncons

/-! ## Storage kinds

The enumeration `json_storage_kind` of `json_type.hpp` and the two mask tests on
its codes. -/

namespace jsoncons

/-- The enumeration `json_storage_kind`. -/
inductive json_storage_kind where
  | null
  | boolean
  | int64
  | uint64
  | empty_object
  | float64
  | half_float
  | short_str
  | const_json_pointer
  | byte_str
  | object
  | array
  | long_str
deriving DecidableEq, Repr

/-- The code of a storage kind, `uint8_t(storage_kind)`. -/
def json_storage_kind.to_uint8 : json_storage_kind → Nat
  | .null => 0
  | .boolean => 1
  | .int64 => 2
  | .uint64 => 3
  | .empty_object => 4
  | .float64 => 5
  | .half_float => 6
  | .short_str => 7
  | .const_json_pointer => 8
  | .byte_str => 12
  | .object => 13
  | .array => 14
  | .long_str => 15

/-- The function `is_string_storage`. -/
def is_string_storage (storage_kind : json_storage_kind) : Bool :=
  let mask := json_storage_kind.short_str.to_uint8 &&& json_storage_kind.long_str.to_uint8
  (storage_kind.to_uint8 &&& mask) == mask

/-- The function `is_trivial_storage`. -/
def is_trivial_storage (storage_kind : json_storage_kind) : Bool :=
  let mask := json_storage_kind.long_str.to_uint8 &&& json_storage_kind.byte_str.to_uint8
    &&& json_storage_kind.array.to_uint8 &&& json_storage_kind.object.to_uint8
  (storage_kind.to_uint8 &&& mask) != mask

end jsoncons

/-! ## JSONPath selectors

The class `slice` and the `select` methods of `index_selector` and
`slice_selector` of `json_query.hpp`. A conversion between `std::size_t` and
`int64_t` keeps the 64 bits; the sum `slen + index_` of `index_selector` wraps
as the machine addition does, and so do the sums and differences of `slice` and
of the loops of `slice_selector`. -/

namespace jsoncons

namespace jsonpath_new

/-- The conversion `static_cast<int64_t>(x)` of an integer to 64 signed bits. -/
def to_int64 (x : Int) : Int := (x + 2 ^ 63) % 2 ^ 64 - 2 ^ 63

/-- The conversion `static_cast<std::size_t>(x)` of an integer to 64 unsigned bits. -/
def to_size_t (x : Int) : Nat := (x % 2 ^ 64).toNat

/-- Modelled from the spec: the part of a JSON value `val` that the selectors read,
since the class `basic_json` is outside these sources: whether it is an array
(`is_array()`), and the elements of the array (`size()`, `at(i)`, `operator[]`). -/
inductive json_reference (Json : Type) where
  | array_value (elements : List Json)
  | other_value
deriving DecidableEq, Repr

namespace json_reference

variable {Json : Type}

/-- The method `is_array()`. -/
def is_array : json_reference Json → Bool
  | .array_value _ => true
  | .other_value => false

/-- The method `size()`; a value that is not an array has the size 0. -/
def size : json_reference Json → Nat
  | .array_value elements => elements.length
  | .other_value => 0

end json_reference

/-- The method `at(i)` on an array, which throws when `i` is out of range. -/
def json_reference.at {Json : Type} : json_reference Json → Nat → Except error Json
  | .array_value elements, i => vector_at elements i
  | .other_value, _ => .error error.out_of_range

/-- The class `index_selector`. -/
structure index_selector where
  index_ : Int
deriving DecidableEq, Repr

/-- The method `index_selector::select`; the nodes are the selected elements, the
new ones put behind `nodes`. -/
def index_selector.select {Json : Type} (s : index_selector) (val : json_reference Json)
    (nodes : List Json) : Except error (List Json) :=
  if val.is_array then
    let slen := to_int64 val.size
    if s.index_ ≥ 0 ∧ s.index_ < slen then
      let index := to_size_t s.index_
      (val.at index).map (fun x => nodes ++ [x])
    else if to_int64 (slen + s.index_) ≥ 0 ∧ to_int64 (slen + s.index_) < slen then
      let index := to_size_t (to_int64 (slen + s.index_))
      (val.at index).map (fun x => nodes ++ [x])
    else .ok nodes
  else .ok nodes

/-- The class `slice`. -/
structure slice where
  start_ : Option Int
  stop_ : Option Int
  step_ : Int
deriving DecidableEq, Repr

/-- The method `slice::get_start`. -/
def slice.get_start (s : slice) (size : Nat) : Int :=
  match s.start_ with
  | some start =>
    let len := if start ≥ 0 then start else to_int64 (to_int64 size + start)
    if len ≤ to_int64 size then len else to_int64 size
  | none =>
    if s.step_ ≥ 0 then 0 else to_int64 size

/-- The method `slice::get_stop`. -/
def slice.get_stop (s : slice) (size : Nat) : Int :=
  match s.stop_ with
  | some stop =>
    let len := if stop ≥ 0 then stop else to_int64 (to_int64 size + stop)
    if len ≤ to_int64 size then len else to_int64 size
  | none =>
    if s.step_ ≥ 0 then to_int64 size else -1

/-- The method `slice::step`. -/
def slice.step (s : slice) : Int := s.step_

/-- The loop `for (int64_t i = start; i < end; i += step)` of `slice_selector`: the
positions `j` of the elements `val[j]` it hands to `apply_expressions`, in order.
The sum `i += step` keeps 64 bits. The first argument bounds the number of
rounds; the result is `none` when the bound is reached before the loop ends. -/
def slice_loop_up (end_ step : Int) : Nat → Int → Option (List Nat)
  | 0, _ => none
  | fuel + 1, i =>
    if i < end_ then
      (slice_loop_up end_ step fuel (to_int64 (i + step))).map (fun nodes => to_size_t i :: nodes)
    else some []

/-- The loop `for (int64_t i = start; i > end; i += step)` of `slice_selector`, with
its test `j < val.size()`. The sum `i += step` keeps 64 bits. The first argument
bounds the number of rounds; the result is `none` when the bound is reached
before the loop ends. -/
def slice_loop_down (size : Nat) (end_ step : Int) : Nat → Int → Option (List Nat)
  | 0, _ => none
  | fuel + 1, i =>
    if i > end_ then
      let j := to_size_t i
      if j < size then
        (slice_loop_down size end_ step fuel (to_int64 (i + step))).map (fun nodes => j :: nodes)
      else slice_loop_down size end_ step fuel (to_int64 (i + step))
    else some []

/-- The class `slice_selector` with no sub-selector, for which
`apply_expressions` adds the element it is given as one node. -/
structure slice_selector where
  slice_ : slice
deriving DecidableEq, Repr

/-- The method `slice_selector::select`: the positions of the selected elements
of `val`, in the order of selection. The variable `i` of a loop has at most
`2 ^ 64` values, so a loop that has not ended after `2 ^ 64 + 1` rounds never
ends; the result is `none` for such a loop. -/
def slice_selector.select {Json : Type} (s : slice_selector) (val : json_reference Json) :
    Option (List Nat) :=
  if val.is_array then
    let start := s.slice_.get_start val.size
    let end_ := s.slice_.get_stop val.size
    let step := s.slice_.step
    if step > 0 then
      let start := if start < 0 then 0 else start
      let end_ := if end_ > to_int64 val.size then to_int64 val.size else end_
      slice_loop_up end_ step (2 ^ 64 + 1) start
    else if step < 0 then
      let start :=
        if start ≥ to_int64 val.size then to_int64 (to_int64 val.size - 1) else start
      let end_ := if end_ < -1 then -1 else end_
      slice_loop_down val.size end_ step (2 ^ 64 + 1) start
    else some []
  else some []

/-- The start, stop and step that Python computes for a slice of a sequence of
length `n`, `slice(start, stop, step).indices(n)`, for a step other than 0. It
is not taken from the code; the selection of the code is compared with it. -/
def python_slice_indices (start stop : Option Int) (step : Int) (n : Nat) : Int × Int × Int :=
  let lower : Int := if step < 0 then -1 else 0
  let upper : Int := if step < 0 then (n : Int) - 1 else n
  let clamp : Int → Int := fun x => if x < 0 then max (x + n) lower else min x upper
  let start1 := match start with
    | none => if step < 0 then upper else lower
    | some x => clamp x
  let stop1 := match stop with
    | none => if step < 0 then lower else upper
    | some x => clamp x
  (start1, stop1, step)

/-- The list of Python's `range(start, stop, step)` for a step other than 0. It
is not taken from the code. -/
def python_range (start stop step : Int) : List Int :=
  let len : Int :=
    if step > 0 then (if start < stop then (stop - start - 1) / step + 1 else 0)
    else (if stop < start then (start - stop - 1) / (-step) + 1 else 0)
  (List.range len.toNat).map (fun (k : Nat) => start + (k : Int) * step)

end jsonpath_new

end jsoncons

/-! ## The filter view of a cursor

The class `basic_staj_filter_view` of `staj_cursor.hpp`. The cursor under the
view is an abstract class there. -/

namespace jsoncons

/-- Modelled from the spec: the cursor under a filter view, an implementation of
the abstract class `basic_staj_cursor`, as a finite sequence of events, each with
the context the cursor reports for it, and a position. -/
structure staj_cursor (Event Context : Type) where
  events : List (Event × Context)
  position : Nat
deriving DecidableEq, Repr

namespace staj_cursor

variable {Event Context : Type}

/-- Modelled from the spec: `done()`, the position is behind the last event. -/
def done (c : staj_cursor Event Context) : Bool := decide (c.position ≥ c.events.length)

/-- Modelled from the spec: `current()` with `context()`, the event at the
position. -/
def current (c : staj_cursor Event Context) : Option (Event × Context) :=
  c.events[c.position]?

/-- Modelled from the spec: `next()`, the position moves to the next event. -/
def next (c : staj_cursor Event Context) : staj_cursor Event Context :=
  ⟨c.events, c.position + 1⟩

end staj_cursor

/-- The class `basic_staj_filter_view`: the cursor `cursor_` points to and the
predicate `pred_`. -/
structure basic_staj_filter_view (Event Context : Type) where
  cursor_ : staj_cursor Event Context
  pred_ : Event → Context → Bool

namespace basic_staj_filter_view

variable {Event Context : Type}

/-- The method `done()`. -/
def done (v : basic_staj_filter_view Event Context) : Bool := v.cursor_.done

/-- The method `current()`, together with `context()`. -/
def current (v : basic_staj_filter_view Event Context) : Option (Event × Context) :=
  v.cursor_.current

/-- The loop `while (!done() && !pred_(current(), context())) cursor_->next();` of
the constructor and of `next()`. The first argument bounds the number of rounds. -/
def skip_loop (pred_ : Event → Context → Bool) :
    Nat → staj_cursor Event Context → staj_cursor Event Context
  | 0, c => c
  | fuel + 1, c =>
    if !c.done && !(match c.current with
        | some (event, context) => pred_ event context
        | none => false) then
      skip_loop pred_ fuel c.next
    else c

/-- The constructor of the view. Every round of its loop moves the cursor by one
event, so the number of events behind the position bounds the rounds. -/
def make (cursor : staj_cursor Event Context) (pred : Event → Context → Bool) :
    basic_staj_filter_view Event Context :=
  ⟨skip_loop pred (cursor.events.length - cursor.position) cursor, pred⟩

/-- The method `next()`. -/
def next (v : basic_staj_filter_view Event Context) : basic_staj_filter_view Event Context :=
  let cursor1 := v.cursor_.next
  ⟨skip_loop v.pred_ (cursor1.events.length - cursor1.position) cursor1, v.pred_⟩

/-- The events a caller reads that steps the view to its end,
`for (; !view.done(); view.next()) read(view.current());`. The caller is not part
of the code. The first argument bounds the number of rounds. -/
def read_all : Nat → basic_staj_filter_view Event Context → List (Event × Context)
  | 0, _ => []
  | fuel + 1, v =>
    if !v.done then
      match v.current with
      | some e => e :: read_all fuel v.next
      | none => read_all fuel v.next
    else []

end basic_staj_filter_view

end jsoncons

/-! ## Index entries of a range, hinted insertion and bulk insertion

The index that the claim about `erase_index_entries` describes, the hinted
methods of the order-preserving object and the method `insert(first, last,
convert)` of both objects. -/

namespace jsoncons

namespace preserve_order

variable {K V : Type} [LinearOrder K]

/-- The index that `erase_index_entries(pos1, pos2)` is to produce: the slots
whose stored position lies in `[pos1, pos2)` are removed, and `pos2 - pos1` is
subtracted from every remaining slot whose stored position is `≥ pos2`. It is not
taken from the code; the result of the code is compared with it. -/
def erase_index_entries_expected (index_ : List Nat) (pos1 pos2 : Nat) : List Nat :=
  (index_.filter (fun x => !(decide (pos1 ≤ x) && decide (x < pos2)))).map
    (fun x => if x ≥ pos2 then x - (pos2 - pos1) else x)

/-- The method `insert_or_assign(hint, key, value)` on a container iterator;
the result is the new object and the position of the returned iterator. -/
def json_object.insert_or_assign_hint (o : json_object K V) (hint : Nat) (key : K)
    (value : V) : Except error (json_object K V × Nat) := do
  if hint = o.members_.length then
    let (o1, result) ← o.insert_or_assign key value
    pure (o1, result.1)
  else
    let pos := hint
    let (o1, result) ← o.insert_index_entry key pos
    if result.2 then
      pure (⟨vector_emplace o1.members_ hint ⟨key, value⟩, o1.index_⟩, hint)
    else
      pure (⟨assign_value o1.members_ result.1 value, o1.index_⟩, result.1)

/-- The method `try_emplace(hint, key, args...)` on a container iterator; the
result is the new object and the position of the returned iterator. -/
def json_object.try_emplace_hint (o : json_object K V) (hint : Nat) (key : K)
    (value : V) : Except error (json_object K V × Nat) := do
  if hint = o.members_.length then
    let (o1, result) ← o.try_emplace key value
    pure (o1, result.1)
  else
    let pos := hint
    let (o1, result) ← o.insert_index_entry key pos
    if result.2 then
      pure (⟨vector_emplace o1.members_ hint ⟨key, value⟩, o1.index_⟩, hint)
    else
      pure (o1, result.1)

/-- The method `insert(first, last, convert)`. -/
def json_object.insert_range {α : Type} (o : json_object K V) (input : List α)
    (convert : α → key_value K V) : json_object K V :=
  let members1 := o.members_ ++ input.map convert
  let members2 := remove_duplicates members1 (build_index members1)
  ⟨members2, build_index members2⟩

end preserve_order

namespace sorted

variable {K V : Type} [LinearOrder K]

/-- The method `insert(first, last, convert)`. -/
def json_object.insert_range {α : Type} (o : json_object K V) (input : List α)
    (convert : α → key_value K V) : json_object K V :=
  let members1 := o.members_ ++ input.map convert
  let members2 := stable_sort (fun a b => decide (a.key < b.key)) members1
  ⟨unique (fun a b => decide (a.key = b.key)) members2⟩

end sorted

end jsoncons

/-! ## The parser of normalized paths

The method `parse(path, ec)` of the class `json_location_parser` of
`json_location_parser.hpp`. The text is a list of characters and `p_` is the part
of it that is still to be read. The counters `line_` and `column_`, which only
the message of the throwing overload reads, are left out. The function
`jsoncons::detail::to_integer` is outside these sources and is a parameter: it
returns the number it read, or nothing when it failed. -/

namespace jsoncons

namespace jsonpath

/-- The class `basic_path_element`. -/
structure basic_path_element where
  has_name_ : Bool
  name_ : List Char
  index_ : Nat
deriving DecidableEq, Repr

/-- The constructor `basic_path_element(const string_type& name)`. -/
def basic_path_element.of_name (name : List Char) : basic_path_element := ⟨true, name, 0⟩

/-- The constructor `basic_path_element(std::size_t index)`. -/
def basic_path_element.of_index (index : Nat) : basic_path_element := ⟨false, [], index⟩

/-- Modelled from the spec: the codes of the enumeration `jsonpath_errc` that the
parser sets; the enumeration is declared outside these sources. -/
inductive jsonpath_errc where
  | expected_root_or_current_node
  | expected_lbracket_or_dot
  | expected_single_quote_or_digit
  | expected_rbracket
  | invalid_number
  | illegal_escaped_character
  | unexpected_eof
deriving DecidableEq, Repr

/-- The enumeration `json_location_state`. -/
inductive json_location_state where
  | start
  | relative_location
  | single_quoted_string
  | double_quoted_string
  | unquoted_string
  | selector
  | digit
  | expect_rbracket
  | quoted_string_escape_char
deriving DecidableEq, Repr

/-- The enumeration `selector_separator_kind`. -/
inductive selector_separator_kind where
  | bracket
  | dot
deriving DecidableEq, Repr

/-- The local variables of `parse` and the rest `p_` of the text. -/
structure parse_locals where
  state : json_location_state
  separator_kind : selector_separator_kind
  buffer : List Char
  elements : List basic_path_element
  p_ : List Char
deriving DecidableEq, Repr

/-- The characters of `case ' ':case '\t':case '\r':case '\n':`. -/
def is_space_character (c : Char) : Bool :=
  c = ' ' || c = '\t' || c = '\r' || c = '\n'

/-- The method `advance_past_space_character` on the rest of the text. -/
def advance_past_space_character : List Char → List Char
  | [] => []
  | c :: rest =>
    if c = ' ' ∨ c = '\t' then rest
    else if c = '\r' then
      match rest with
      | d :: rest2 => if d = '\n' then rest2 else rest
      | [] => rest
    else if c = '\n' then rest
    else c :: rest

/-- The state after a quoted or unquoted name has ended: `expect_rbracket` behind
a bracket, `relative_location` behind a dot. -/
def state_after_element (separator_kind : selector_separator_kind) : json_location_state :=
  if separator_kind = selector_separator_kind.bracket then json_location_state.expect_rbracket
  else json_location_state.relative_location

/-- One round of the loop `while (p_ < end_input_)` of `parse`, on the character
`c = *p_` with the text `rest` behind it: the new local variables, or the
returned path and error code when the round returns. -/
def parse_step (to_integer : List Char → Option Nat) (s : parse_locals) (c : Char)
    (rest : List Char) :
    parse_locals ⊕ (List basic_path_element × Option jsonpath_errc) :=
  match s.state with
  | .start =>
    if is_space_character c then .inl { s with p_ := advance_past_space_character (c :: rest) }
    else if c = '$' ∨ c = '@' then
      .inl { s with state := .relative_location, p_ := rest }
    else .inr ([], some .expected_root_or_current_node)
  | .relative_location =>
    if is_space_character c then .inl { s with p_ := advance_past_space_character (c :: rest) }
    else if c = '[' then
      .inl { s with separator_kind := .bracket, state := .selector, p_ := rest }
    else if c = '.' then
      .inl { s with separator_kind := .dot, state := .selector, p_ := rest }
    else .inr ([], some .expected_lbracket_or_dot)
  | .selector =>
    if is_space_character c then .inl { s with p_ := advance_past_space_character (c :: rest) }
    else if c = '\'' then .inl { s with state := .single_quoted_string, p_ := rest }
    else if c = '\"' then .inl { s with state := .double_quoted_string, p_ := rest }
    else if c.isDigit then .inl { s with state := .digit }
    else if c = '-' then .inr ([], some .expected_single_quote_or_digit)
    else if s.separator_kind = .dot then .inl { s with state := .unquoted_string }
    else .inr ([], some .expected_single_quote_or_digit)
  | .single_quoted_string =>
    if c = '\'' then
      .inl { s with elements := s.elements ++ [basic_path_element.of_name s.buffer],
                    buffer := [], state := state_after_element s.separator_kind, p_ := rest }
    else if c = '\\' then .inl { s with state := .quoted_string_escape_char, p_ := rest }
    else .inl { s with buffer := s.buffer ++ [c], p_ := rest }
  | .double_quoted_string =>
    if c = '\"' then
      .inl { s with elements := s.elements ++ [basic_path_element.of_name s.buffer],
                    buffer := [], state := state_after_element s.separator_kind, p_ := rest }
    else if c = '\\' then .inl { s with state := .quoted_string_escape_char, p_ := rest }
    else .inl { s with buffer := s.buffer ++ [c], p_ := rest }
  | .unquoted_string =>
    if c.isAlpha ∨ c.isDigit ∨ c = '_' then
      .inl { s with buffer := s.buffer ++ [c], p_ := rest }
    else if c = '\\' then .inl { s with state := .quoted_string_escape_char, p_ := rest }
    else if c.toNat > 127 then .inl { s with buffer := s.buffer ++ [c], p_ := rest }
    else
      .inl { s with elements := s.elements ++ [basic_path_element.of_name s.buffer],
                    buffer := [], p_ := advance_past_space_character (c :: rest),
                    state := .relative_location }
  | .expect_rbracket =>
    if is_space_character c then .inl { s with p_ := advance_past_space_character (c :: rest) }
    else if c = ']' then .inl { s with state := .relative_location, p_ := rest }
    else .inr ([], some .expected_rbracket)
  | .digit =>
    if c.isDigit then .inl { s with buffer := s.buffer ++ [c], p_ := rest }
    else
      match to_integer s.buffer with
      | none => .inr ([], some .invalid_number)
      | some n =>
        .inl { s with elements := s.elements ++ [basic_path_element.of_index n],
                      buffer := [], state := state_after_element s.separator_kind }
  | .quoted_string_escape_char =>
    if c = '\"' then
      .inl { s with buffer := s.buffer ++ ['\"'], p_ := rest, state := .single_quoted_string }
    else if c = '\'' then
      .inl { s with buffer := s.buffer ++ ['\''], p_ := rest, state := .single_quoted_string }
    else if c = '\\' then
      .inl { s with buffer := s.buffer ++ ['\\'], p_ := rest, state := .single_quoted_string }
    else if c = '/' then
      .inl { s with buffer := s.buffer ++ ['/'], p_ := rest, state := .single_quoted_string }
    else if c = 'b' then
      .inl { s with buffer := s.buffer ++ [Char.ofNat 8], p_ := rest,
                    state := .single_quoted_string }
    else if c = 'f' then
      .inl { s with buffer := s.buffer ++ [Char.ofNat 12], p_ := rest,
                    state := .single_quoted_string }
    else if c = 'n' then
      .inl { s with buffer := s.buffer ++ ['\n'], p_ := rest, state := .single_quoted_string }
    else if c = 'r' then
      .inl { s with buffer := s.buffer ++ ['\r'], p_ := rest, state := .single_quoted_string }
    else if c = 't' then
      .inl { s with buffer := s.buffer ++ ['\t'], p_ := rest, state := .single_quoted_string }
    else if c = 'u' then
      .inl { s with p_ := rest, state := .single_quoted_string }
    else .inr ([], some .illegal_escaped_character)

/-- The part of `parse` behind its loop, reached when the text is read to its
end. -/
def parse_end (to_integer : List Char → Option Nat) (s : parse_locals) :
    List basic_path_element × Option jsonpath_errc :=
  if s.state = .unquoted_string then
    (s.elements ++ [basic_path_element.of_name s.buffer], none)
  else if s.state = .digit then
    match to_integer s.buffer with
    | none => ([], some .invalid_number)
    | some n => (s.elements ++ [basic_path_element.of_index n], none)
  else if s.state ≠ .relative_location then ([], some .unexpected_eof)
  else (s.elements, none)

/-- The loop `while (p_ < end_input_)` of `parse` with the code behind it. The
first argument bounds the number of rounds; the result is `none` when the bound
is reached before the loop ends. -/
def parse_loop (to_integer : List Char → Option Nat) :
    Nat → parse_locals → Option (List basic_path_element × Option jsonpath_errc)
  | fuel, s =>
    match s.p_ with
    | [] => some (parse_end to_integer s)
    | c :: rest =>
      match fuel with
      | 0 => none
      | fuel1 + 1 =>
        match parse_step to_integer s c rest with
        | .inl s1 => parse_loop to_integer fuel1 s1
        | .inr result => some result

/-- The method `parse(path, ec)`: the returned path and the error code, `none`
for an error code that is not set. A round of the loop that reads no character
changes to a state that is closer to reading one, at most twice in a row, so
three rounds for every character bound the loop. -/
def parse (to_integer : List Char → Option Nat) (path : List Char) :
    Option (List basic_path_element × Option jsonpath_errc) :=
  parse_loop to_integer (3 * path.length)
    ⟨.start, .bracket, [], [], path⟩

/-- The text of a normalized path behind its `$`: `['name']` for an element with
a name and `[index]`, the index in decimal digits, for an element with an
index. It is not taken from the code; the parser is applied to it. -/
def normalized_elements : List basic_path_element → List Char
  | [] => []
  | e :: rest =>
    (if e.has_name_ then ['[', '\''] ++ e.name_ ++ ['\'', ']']
      else ['['] ++ Nat.toDigits 10 e.index_ ++ [']']) ++ normalized_elements rest

/-- The text of a normalized path. It is not taken from the code. -/
def normalized_path (elements : List basic_path_element) : List Char :=
  '$' :: normalized_elements elements

/-- The function `to_integer` for decimal digits and 64 bits, an argument for the
parameter `to_integer` in examples: the number written by the digits, and
nothing for an empty text, a character that is no digit, or a number from
`2 ^ 64` on. -/
def decimal_to_integer (buffer : List Char) : Option Nat :=
  if buffer = [] ∨ ∃ c ∈ buffer, ¬ c.isDigit then none
  else
    let n := buffer.foldl (fun acc c => acc * 10 + (c.toNat - 48)) 0
    if n < 2 ^ 64 then some n else none

end jsonpath

end jsoncons

namespace jsoncons

namespace jsonpath

/-- The number of rounds of the loop of `parse` that can pass in a row from a
state without a character being read; it is used to bound the rounds of the
loop. It is not taken from the code. -/
def rounds_without_reading : json_location_state → Nat
  | .selector => 2
  | .unquoted_string => 1
  | .digit => 1
  | _ => 0

end jsonpath

end jsoncons

/-! # Theorems

Everything below this line is a lemma or a theorem about the definitions above. -/

namespace jsoncons

/-! ## Facts about the standard-library algorithms -/

theorem lower_bound_loop_split {α : Type} (comp : α → Bool) (l1 l2 : List α)
    (h1 : ∀ a ∈ l1, comp a = true) (h2 : ∀ a ∈ l2, comp a = false) :
    ∀ fuel first len, len ≤ fuel → first ≤ l1.length → l1.length ≤ first + len →
      first + len ≤ (l1 ++ l2).length →
      lower_bound_loop comp (l1 ++ l2) fuel first len = l1.length := by
  intro fuel
  induction fuel with
  | zero =>
    intro first len hf h3 h4 _
    simp only [lower_bound_loop]
    omega
  | succ fuel ih =>
    intro first len hf h3 h4 h5
    simp only [lower_bound_loop]
    split
    · omega
    · rename_i hlen
      have hhalf : len / 2 < len := Nat.div_lt_self (Nat.pos_of_ne_zero hlen) (by decide)
      have hmid : first + len / 2 < (l1 ++ l2).length := by omega
      rw [List.getElem?_eq_getElem hmid]
      simp only
      by_cases hm : first + len / 2 < l1.length
      · have hc : comp (l1 ++ l2)[first + len / 2] = true := by
          rw [List.getElem_append_left hm]
          exact h1 _ (List.getElem_mem _)
        rw [if_pos hc]
        apply ih <;> omega
      · have hc : comp (l1 ++ l2)[first + len / 2] = false := by
          rw [List.getElem_append_right (by omega)]
          exact h2 _ (List.getElem_mem _)
        rw [hc]
        simp only [Bool.false_eq_true, if_false]
        apply ih <;> omega

theorem lower_bound_append {α : Type} (comp : α → Bool) (l1 l2 : List α)
    (h1 : ∀ a ∈ l1, comp a = true) (h2 : ∀ a ∈ l2, comp a = false) :
    lower_bound comp (l1 ++ l2) = l1.length := by
  unfold lower_bound
  apply lower_bound_loop_split comp l1 l2 h1 h2
  · exact le_refl _
  · exact Nat.zero_le _
  · simp
  · simp

theorem dropWhile_all_false {α : Type} (comp : α → Bool) (R : α → α → Prop)
    (hmono : ∀ a b, R a b → comp b = true → comp a = true) :
    ∀ xs : List α, xs.Pairwise R → ∀ a ∈ xs.dropWhile comp, comp a = false := by
  intro xs
  induction xs with
  | nil => intro _ a ha; simp at ha
  | cons x t ih =>
    intro hp a ha
    rw [List.pairwise_cons] at hp
    by_cases hx : comp x = true
    · rw [List.dropWhile_cons_of_pos hx] at ha
      exact ih hp.2 a ha
    · rw [List.dropWhile_cons_of_neg hx] at ha
      rcases List.mem_cons.1 ha with rfl | hat
      · simpa using hx
      · by_contra hca
        exact hx (hmono x a (hp.1 a hat) (by simpa using hca))

/-- On a list in which `comp` can only switch from true to false,
`std::lower_bound` returns the length of the part where it is true. -/
theorem lower_bound_partition {α : Type} (comp : α → Bool) (R : α → α → Prop)
    (hmono : ∀ a b, R a b → comp b = true → comp a = true)
    (xs : List α) (hp : xs.Pairwise R) :
    ∃ l1 l2, xs = l1 ++ l2 ∧ (∀ a ∈ l1, comp a = true) ∧ (∀ a ∈ l2, comp a = false) ∧
      lower_bound comp xs = l1.length := by
  refine ⟨xs.takeWhile comp, xs.dropWhile comp, (List.takeWhile_append_dropWhile comp xs).symm,
    fun a ha => List.mem_takeWhile_imp ha, dropWhile_all_false comp R hmono xs hp, ?_⟩
  conv_lhs => rw [← List.takeWhile_append_dropWhile comp xs]
  exact lower_bound_append comp _ _ (fun a ha => List.mem_takeWhile_imp ha)
    (dropWhile_all_false comp R hmono xs hp)

theorem lower_bound_loop_except_ok {α : Type} (compE : α → Except error Bool) (comp : α → Bool)
    (xs : List α) (h : ∀ a ∈ xs, compE a = .ok (comp a)) :
    ∀ fuel first len, lower_bound_loop_except compE xs fuel first len =
      .ok (lower_bound_loop comp xs fuel first len) := by
  intro fuel
  induction fuel with
  | zero => intro first len; rfl
  | succ fuel ih =>
    intro first len
    simp only [lower_bound_loop_except, lower_bound_loop]
    split
    · rfl
    · cases hx : xs[first + len / 2]? with
      | none => rfl
      | some a =>
        simp only
        rw [h a (List.getElem?_mem hx)]
        cases hc : comp a
        · simp [ih]
        · simp [ih]

theorem lower_bound_except_ok {α : Type} (compE : α → Except error Bool) (comp : α → Bool)
    (xs : List α) (h : ∀ a ∈ xs, compE a = .ok (comp a)) :
    lower_bound_except compE xs = .ok (lower_bound comp xs) :=
  lower_bound_loop_except_ok compE comp xs h _ _ _

end jsoncons

namespace jsoncons

theorem vector_emplace_append {α : Type} (l1 l2 : List α) (a : α) :
    vector_emplace (l1 ++ l2) l1.length a = l1 ++ a :: l2 := by
  simp [vector_emplace]

theorem assign_value_append {K V : Type} (l1 l2 : List (key_value K V)) (b : key_value K V)
    (x : V) : assign_value (l1 ++ b :: l2) l1.length x = l1 ++ ⟨b.key, x⟩ :: l2 := by
  have h : (l1 ++ b :: l2)[l1.length]? = some b := by
    rw [List.getElem?_append_right (le_refl _)]
    simp
  simp [assign_value, h]

theorem eraseIdx_append_cons {α : Type} (l1 l2 : List α) (b : α) :
    (l1 ++ b :: l2).eraseIdx l1.length = l1 ++ l2 := by
  induction l1 with
  | nil => rfl
  | cons a t ih => simp [List.eraseIdx, ih]

namespace sorted

variable {K V : Type} [LinearOrder K]

theorem strictly_ascending_iff (ms : List (key_value K V)) :
    (json_object.mk ms).strictly_ascending ↔ ms.Pairwise (fun a b => a.key < b.key) := by
  simp [json_object.strictly_ascending, List.Sorted, List.pairwise_map]

/-- A strictly ascending member list splits at any key `k` into the members below
`k`, possibly the member with key `k`, and the members above `k`. -/
theorem members_decompose (ms : List (key_value K V)) (k : K)
    (hs : ms.Pairwise (fun a b => a.key < b.key)) :
    (∃ l1 l2, ms = l1 ++ l2 ∧ (∀ a ∈ l1, a.key < k) ∧ (∀ a ∈ l2, k < a.key)) ∨
    (∃ l1 b l2, ms = l1 ++ b :: l2 ∧ (∀ a ∈ l1, a.key < k) ∧ b.key = k ∧
      (∀ a ∈ l2, k < a.key)) := by
  have h1 : ∀ a ∈ ms.takeWhile (key_less k), a.key < k := fun a ha => by
    simpa [key_less] using List.mem_takeWhile_imp ha
  have h2 : ∀ a ∈ ms.dropWhile (key_less k), k ≤ a.key := fun a ha => by
    have := dropWhile_all_false (key_less k) (fun a b : key_value K V => a.key < b.key)
      (fun a b hab hb => by
        simp only [key_less, decide_eq_true_eq] at hb ⊢
        exact lt_trans hab hb) ms hs a ha
    simpa [key_less] using this
  have hsplit := (List.takeWhile_append_dropWhile (key_less k) ms).symm
  cases hd : ms.dropWhile (key_less k) with
  | nil =>
    left
    refine ⟨ms.takeWhile (key_less k), [], ?_, h1, by simp⟩
    rw [hd] at hsplit
    exact hsplit
  | cons b l2 =>
    rw [hd] at hsplit h2
    have hs2 : (b :: l2).Pairwise (fun a b => a.key < b.key) := by
      rw [hsplit] at hs
      exact (List.pairwise_append.1 hs).2.1
    rw [List.pairwise_cons] at hs2
    have hb : k ≤ b.key := h2 b (List.mem_cons_self _ _)
    rcases eq_or_lt_of_le hb with heq | hlt
    · right
      exact ⟨_, b, l2, hsplit, h1, heq.symm, fun a ha => lt_of_le_of_lt hb (hs2.1 a ha)⟩
    · left
      refine ⟨_, b :: l2, hsplit, h1, ?_⟩
      intro a ha
      rcases List.mem_cons.1 ha with rfl | hat
      · exact hlt
      · exact lt_trans hlt (hs2.1 a hat)

theorem lower_bound_members (l1 l2 : List (key_value K V)) (k : K)
    (h1 : ∀ a ∈ l1, a.key < k) (h2 : ∀ a ∈ l2, k ≤ a.key) :
    lower_bound (key_less k) (l1 ++ l2) = l1.length :=
  lower_bound_append _ l1 l2 (fun a ha => by simpa [key_less] using h1 a ha)
    (fun a ha => by simpa [key_less] using h2 a ha)

theorem find_absent (l1 l2 : List (key_value K V)) (k : K)
    (h1 : ∀ a ∈ l1, a.key < k) (h2 : ∀ a ∈ l2, k < a.key) :
    (json_object.mk (l1 ++ l2)).find k = (l1 ++ l2).length := by
  have hlb := lower_bound_members l1 l2 k h1 (fun a ha => le_of_lt (h2 a ha))
  simp only [json_object.find, hlb]
  split
  · rename_i h
    have hne : (l1 ++ l2)[l1.length].key ≠ k := by
      rw [List.getElem_append_right (le_refl _)]
      exact ne_of_gt (h2 _ (List.getElem_mem _))
    rw [if_neg hne]
  · rfl

theorem find_present (l1 l2 : List (key_value K V)) (b : key_value K V) (k : K)
    (h1 : ∀ a ∈ l1, a.key < k) (hb : b.key = k) (h2 : ∀ a ∈ l2, k < a.key) :
    (json_object.mk (l1 ++ b :: l2)).find k = l1.length := by
  have hlb := lower_bound_members l1 (b :: l2) k h1 (fun a ha => by
    rcases List.mem_cons.1 ha with rfl | hat
    · exact le_of_eq hb.symm
    · exact le_of_lt (h2 a hat))
  simp only [json_object.find, hlb]
  have hlt : l1.length < (l1 ++ b :: l2).length := by simp
  rw [dif_pos hlt]
  have : (l1 ++ b :: l2)[l1.length].key = k := by
    rw [List.getElem_append_right (le_refl _)]
    simpa using hb
  rw [if_pos this]

theorem insert_or_assign_absent (l1 l2 : List (key_value K V)) (k : K) (v : V)
    (h1 : ∀ a ∈ l1, a.key < k) (h2 : ∀ a ∈ l2, k < a.key) :
    (json_object.mk (l1 ++ l2)).insert_or_assign k v =
      (⟨l1 ++ ⟨k, v⟩ :: l2⟩, (l1.length, true)) := by
  have hlb := lower_bound_members l1 l2 k h1 (fun a ha => le_of_lt (h2 a ha))
  simp only [json_object.insert_or_assign, hlb]
  split
  · rename_i h
    have hne : (l1 ++ l2)[l1.length].key ≠ k := by
      rw [List.getElem_append_right (le_refl _)]
      exact ne_of_gt (h2 _ (List.getElem_mem _))
    rw [if_neg hne, vector_emplace_append]
  · rename_i h
    have hl2 : l2 = [] := by
      cases l2 with
      | nil => rfl
      | cons c t => simp at h
    subst hl2
    simp

theorem insert_or_assign_present (l1 l2 : List (key_value K V)) (b : key_value K V) (k : K)
    (v : V) (h1 : ∀ a ∈ l1, a.key < k) (hb : b.key = k) (h2 : ∀ a ∈ l2, k < a.key) :
    (json_object.mk (l1 ++ b :: l2)).insert_or_assign k v =
      (⟨l1 ++ ⟨k, v⟩ :: l2⟩, (l1.length, false)) := by
  have hlb := lower_bound_members l1 (b :: l2) k h1 (fun a ha => by
    rcases List.mem_cons.1 ha with rfl | hat
    · exact le_of_eq hb.symm
    · exact le_of_lt (h2 a hat))
  simp only [json_object.insert_or_assign, hlb]
  have hlt : l1.length < (l1 ++ b :: l2).length := by simp
  rw [dif_pos hlt]
  have : (l1 ++ b :: l2)[l1.length].key = k := by
    rw [List.getElem_append_right (le_refl _)]
    simpa using hb
  rw [if_pos this, assign_value_append, hb]

theorem try_emplace_absent (l1 l2 : List (key_value K V)) (k : K) (v : V)
    (h1 : ∀ a ∈ l1, a.key < k) (h2 : ∀ a ∈ l2, k < a.key) :
    (json_object.mk (l1 ++ l2)).try_emplace k v =
      (⟨l1 ++ ⟨k, v⟩ :: l2⟩, (l1.length, true)) := by
  have hlb := lower_bound_members l1 l2 k h1 (fun a ha => le_of_lt (h2 a ha))
  simp only [json_object.try_emplace, hlb]
  split
  · rename_i h
    have hne : (l1 ++ l2)[l1.length].key ≠ k := by
      rw [List.getElem_append_right (le_refl _)]
      exact ne_of_gt (h2 _ (List.getElem_mem _))
    rw [if_neg hne, vector_emplace_append]
  · rename_i h
    have hl2 : l2 = [] := by
      cases l2 with
      | nil => rfl
      | cons c t => simp at h
    subst hl2
    simp

theorem try_emplace_present (l1 l2 : List (key_value K V)) (b : key_value K V) (k : K)
    (v : V) (h1 : ∀ a ∈ l1, a.key < k) (hb : b.key = k) (h2 : ∀ a ∈ l2, k < a.key) :
    (json_object.mk (l1 ++ b :: l2)).try_emplace k v =
      (⟨l1 ++ b :: l2⟩, (l1.length, false)) := by
  have hlb := lower_bound_members l1 (b :: l2) k h1 (fun a ha => by
    rcases List.mem_cons.1 ha with rfl | hat
    · exact le_of_eq hb.symm
    · exact le_of_lt (h2 a hat))
  simp only [json_object.try_emplace, hlb]
  have hlt : l1.length < (l1 ++ b :: l2).length := by simp
  rw [dif_pos hlt]
  have : (l1 ++ b :: l2)[l1.length].key = k := by
    rw [List.getElem_append_right (le_refl _)]
    simpa using hb
  rw [if_pos this]

theorem erase_absent (l1 l2 : List (key_value K V)) (k : K)
    (h1 : ∀ a ∈ l1, a.key < k) (h2 : ∀ a ∈ l2, k < a.key) :
    (json_object.mk (l1 ++ l2)).erase k = ⟨l1 ++ l2⟩ := by
  have hlb := lower_bound_members l1 l2 k h1 (fun a ha => le_of_lt (h2 a ha))
  simp only [json_object.erase, hlb]
  split
  · rename_i h
    have hne : (l1 ++ l2)[l1.length].key ≠ k := by
      rw [List.getElem_append_right (le_refl _)]
      exact ne_of_gt (h2 _ (List.getElem_mem _))
    rw [if_neg hne]
  · rfl

theorem erase_present (l1 l2 : List (key_value K V)) (b : key_value K V) (k : K)
    (h1 : ∀ a ∈ l1, a.key < k) (hb : b.key = k) (h2 : ∀ a ∈ l2, k < a.key) :
    (json_object.mk (l1 ++ b :: l2)).erase k = ⟨l1 ++ l2⟩ := by
  have hlb := lower_bound_members l1 (b :: l2) k h1 (fun a ha => by
    rcases List.mem_cons.1 ha with rfl | hat
    · exact le_of_eq hb.symm
    · exact le_of_lt (h2 a hat))
  simp only [json_object.erase, hlb]
  have hlt : l1.length < (l1 ++ b :: l2).length := by simp
  rw [dif_pos hlt]
  have : (l1 ++ b :: l2)[l1.length].key = k := by
    rw [List.getElem_append_right (le_refl _)]
    simpa using hb
  rw [if_pos this, eraseIdx_append_cons]

theorem pairwise_insert (l1 l2 : List (key_value K V)) (m : key_value K V)
    (hs : (l1 ++ l2).Pairwise (fun a b => a.key < b.key))
    (h1 : ∀ a ∈ l1, a.key < m.key) (h2 : ∀ a ∈ l2, m.key < a.key) :
    (l1 ++ m :: l2).Pairwise (fun a b => a.key < b.key) := by
  rw [List.pairwise_append] at hs ⊢
  refine ⟨hs.1, List.pairwise_cons.2 ⟨h2, hs.2.1⟩, ?_⟩
  intro a ha b hb
  rcases List.mem_cons.1 hb with rfl | hbt
  · exact h1 a ha
  · exact hs.2.2 a ha b hbt

theorem pairwise_replace (l1 l2 : List (key_value K V)) (b m : key_value K V)
    (hs : (l1 ++ b :: l2).Pairwise (fun a b => a.key < b.key)) (hm : m.key = b.key) :
    (l1 ++ m :: l2).Pairwise (fun a b => a.key < b.key) := by
  rw [List.pairwise_append, List.pairwise_cons] at hs ⊢
  refine ⟨hs.1, ⟨fun a ha => hm ▸ hs.2.1.1 a ha, hs.2.1.2⟩, ?_⟩
  intro a ha c hc
  rcases List.mem_cons.1 hc with rfl | hct
  · rw [hm]; exact hs.2.2 a ha b (List.mem_cons_self _ _)
  · exact hs.2.2 a ha c (List.mem_cons_of_mem _ hct)

theorem insert_or_assign_ascending (o : json_object K V) (k : K) (v : V)
    (h : o.strictly_ascending) : (o.insert_or_assign k v).1.strictly_ascending := by
  obtain ⟨ms⟩ := o
  rw [strictly_ascending_iff] at h
  rcases members_decompose ms k h with ⟨l1, l2, rfl, h1, h2⟩ | ⟨l1, b, l2, rfl, h1, hb, h2⟩
  · rw [insert_or_assign_absent l1 l2 k v h1 h2, strictly_ascending_iff]
    exact pairwise_insert l1 l2 ⟨k, v⟩ h h1 h2
  · rw [insert_or_assign_present l1 l2 b k v h1 hb h2, strictly_ascending_iff]
    exact pairwise_replace l1 l2 b ⟨k, v⟩ h hb.symm

theorem try_emplace_ascending (o : json_object K V) (k : K) (v : V)
    (h : o.strictly_ascending) : (o.try_emplace k v).1.strictly_ascending := by
  obtain ⟨ms⟩ := o
  have h0 := h
  rw [strictly_ascending_iff] at h
  rcases members_decompose ms k h with ⟨l1, l2, rfl, h1, h2⟩ | ⟨l1, b, l2, rfl, h1, hb, h2⟩
  · rw [try_emplace_absent l1 l2 k v h1 h2, strictly_ascending_iff]
    exact pairwise_insert l1 l2 ⟨k, v⟩ h h1 h2
  · rw [try_emplace_present l1 l2 b k v h1 hb h2]
    exact h0

end sorted

end jsoncons

namespace jsoncons

namespace sorted

variable {K V : Type} [LinearOrder K]

theorem after_call_ascending (o : json_object K V) (c : call K V)
    (h : o.strictly_ascending) : (o.after_call c).strictly_ascending := by
  cases c with
  | insert_or_assign name value => exact insert_or_assign_ascending o name value h
  | try_emplace name value => exact try_emplace_ascending o name value h

theorem foldl_after_call_ascending (calls : List (call K V)) :
    ∀ o : json_object K V, o.strictly_ascending →
      (calls.foldl json_object.after_call o).strictly_ascending := by
  induction calls with
  | nil => intro o h; exact h
  | cons c t ih => intro o h; exact ih _ (after_call_ascending o c h)

/-- C1: starting from the empty sorted object, after every call of any finite
sequence of unhinted `insert_or_assign` and `try_emplace` calls (that is, after
every prefix `calls.take n` of the sequence) the keys of the member sequence are
strictly ascending, and therefore no key occurs twice. -/
theorem sorted_object_stays_strictly_ascending (calls : List (call K V)) (n : Nat) :
    (json_object.after_calls (calls.take n)).strictly_ascending ∧
    ((json_object.after_calls (calls.take n)).members_.map key_value.key).Nodup := by
  have h : (json_object.after_calls (calls.take n)).strictly_ascending :=
    foldl_after_call_ascending _ _ (by simp [json_object.strictly_ascending])
  exact ⟨h, List.Sorted.nodup h⟩

/-- C8: in a sorted object with strictly ascending keys, `find(k)` returns the
position of the member whose key equals `k` when there is one (the member at the
returned position has key `k`), and `end()`, i.e. `size()`, when there is none. -/
theorem sorted_find_returns_member_or_end (o : json_object K V) (k : K)
    (h : o.strictly_ascending) :
    (k ∈ o.members_.map key_value.key →
      ∃ m, o.members_[o.find k]? = some m ∧ m.key = k) ∧
    (k ∉ o.members_.map key_value.key → o.find k = o.size) := by
  obtain ⟨ms⟩ := o
  rw [strictly_ascending_iff] at h
  rcases members_decompose ms k h with ⟨l1, l2, rfl, h1, h2⟩ | ⟨l1, b, l2, rfl, h1, hb, h2⟩
  · constructor
    · intro hk
      exfalso
      simp only [List.mem_map, List.mem_append] at hk
      obtain ⟨a, ha, hak⟩ := hk
      rcases ha with ha | ha
      · exact absurd hak (ne_of_lt (h1 a ha))
      · exact absurd hak (ne_of_gt (h2 a ha))
    · intro _
      rw [find_absent l1 l2 k h1 h2]
      rfl
  · constructor
    · intro _
      rw [find_present l1 l2 b k h1 hb h2]
      refine ⟨b, ?_, hb⟩
      show (l1 ++ b :: l2)[l1.length]? = some b
      rw [List.getElem?_append_right (le_refl _)]
      simp
    · intro hk
      exfalso
      apply hk
      simp only [List.mem_map, List.mem_append, List.mem_cons]
      exact ⟨b, Or.inr (Or.inl rfl), hb⟩

theorem sorted_find_returns_member_or_end_witness :
    object_a_b.strictly_ascending ∧
    (("b".data ∈ object_a_b.members_.map key_value.key →
      ∃ m, object_a_b.members_[object_a_b.find "b".data]? = some m ∧ m.key = "b".data) ∧
    ("b".data ∉ object_a_b.members_.map key_value.key →
      object_a_b.find "b".data = object_a_b.size)) :=
  ⟨by decide, sorted_find_returns_member_or_end object_a_b "b".data (by decide)⟩

end sorted

end jsoncons

namespace jsoncons

namespace preserve_order

variable {K V : Type} [LinearOrder K]

theorem index_less_iff (ms : List (key_value K V)) (i j : Nat) :
    index_less ms i j = true ↔
      ∃ x y, ms[i]? = some x ∧ ms[j]? = some y ∧ x.key < y.key := by
  unfold index_less
  cases hi : ms[i]? with
  | none => simp
  | some x =>
    cases hj : ms[j]? with
    | none => simp
    | some y => simp

theorem index_key_less_ok (ms : List (key_value K V)) (k : K) (i : Nat) (m : key_value K V)
    (h : ms[i]? = some m) : index_key_less ms k i = .ok (decide (m.key < k)) := by
  simp [index_key_less, vector_at, h]

theorem vector_at_ok {α : Type} (v : List α) (i : Nat) (a : α) (h : v[i]? = some a) :
    vector_at v i = .ok a := by
  simp [vector_at, h]

/-- Binary search through the index: when the slots split into those whose key is
below `k` and those whose key is not, `lower_bound` returns the length of the
first part and no `at` throws. -/
theorem lower_bound_index (ms : List (key_value K V)) (l1 l2 : List Nat) (k : K)
    (h1 : ∀ i ∈ l1, ∃ m, ms[i]? = some m ∧ m.key < k)
    (h2 : ∀ i ∈ l2, ∃ m, ms[i]? = some m ∧ k ≤ m.key) :
    lower_bound_except (index_key_less ms k) (l1 ++ l2) = .ok l1.length := by
  have hok : ∀ i ∈ l1 ++ l2, index_key_less ms k i =
      .ok (match ms[i]? with | some m => decide (m.key < k) | none => false) := by
    intro i hi
    rcases List.mem_append.1 hi with h | h
    · obtain ⟨m, hm, _⟩ := h1 i h
      rw [index_key_less_ok ms k i m hm, hm]
    · obtain ⟨m, hm, _⟩ := h2 i h
      rw [index_key_less_ok ms k i m hm, hm]
  rw [lower_bound_except_ok _ _ _ hok, lower_bound_append]
  · intro i hi
    obtain ⟨m, hm, hlt⟩ := h1 i hi
    simp [hm, hlt]
  · intro i hi
    obtain ⟨m, hm, hle⟩ := h2 i hi
    simp [hm, not_lt.2 hle]

/-- A consistent index splits at any key `k` into the slots of the members below
`k`, possibly the slot of the member with key `k`, and the slots of the members
above `k`. -/
theorem index_decompose (ms : List (key_value K V)) (idx : List Nat) (k : K)
    (hb : ∀ i ∈ idx, i < ms.length)
    (hp : idx.Pairwise (fun i j => index_less ms i j = true)) :
    (∃ l1 l2, idx = l1 ++ l2 ∧ (∀ i ∈ l1, ∃ m, ms[i]? = some m ∧ m.key < k) ∧
      (∀ i ∈ l2, ∃ m, ms[i]? = some m ∧ k < m.key)) ∨
    (∃ l1 p l2 b, idx = l1 ++ p :: l2 ∧ (∀ i ∈ l1, ∃ m, ms[i]? = some m ∧ m.key < k) ∧
      ms[p]? = some b ∧ b.key = k ∧ (∀ i ∈ l2, ∃ m, ms[i]? = some m ∧ k < m.key)) := by
  let comp : Nat → Bool := fun i =>
    match ms[i]? with | some m => decide (m.key < k) | none => false
  have hget : ∀ i ∈ idx, ∃ m, ms[i]? = some m := fun i hi => by
    have hlt : i < ms.length := hb i hi
    exact ⟨ms[i], List.getElem?_eq_getElem hlt⟩
  have hsplit := (List.takeWhile_append_dropWhile comp idx).symm
  have hsub1 : ∀ i ∈ idx.takeWhile comp, i ∈ idx := fun i hi =>
    (List.takeWhile_sublist comp).subset hi
  have hsub2 : ∀ i ∈ idx.dropWhile comp, i ∈ idx := fun i hi =>
    (List.dropWhile_sublist comp).subset hi
  have h1 : ∀ i ∈ idx.takeWhile comp, ∃ m, ms[i]? = some m ∧ m.key < k := by
    intro i hi
    obtain ⟨m, hm⟩ := hget i (hsub1 i hi)
    have hc : comp i = true := List.mem_takeWhile_imp hi
    simp only [comp, hm, decide_eq_true_eq] at hc
    exact ⟨m, hm, hc⟩
  have h2 : ∀ i ∈ idx.dropWhile comp, ∃ m, ms[i]? = some m ∧ k ≤ m.key := by
    intro i hi
    obtain ⟨m, hm⟩ := hget i (hsub2 i hi)
    have hc := dropWhile_all_false comp (fun i j => index_less ms i j = true)
      (fun a b hab hcb => by
        obtain ⟨x, y, hx, hy, hxy⟩ := (index_less_iff ms a b).1 hab
        simp only [comp, hy, decide_eq_true_eq] at hcb
        simp only [comp, hx, decide_eq_true_eq]
        exact lt_trans hxy hcb) idx hp i hi
    simp only [comp, hm, decide_eq_false_iff_not, not_lt] at hc
    exact ⟨m, hm, hc⟩
  cases hd : idx.dropWhile comp with
  | nil =>
    left
    refine ⟨idx.takeWhile comp, [], ?_, h1, by simp⟩
    rw [hd] at hsplit
    exact hsplit
  | cons p l2 =>
    rw [hd] at hsplit h2
    have hs2 : (p :: l2).Pairwise (fun i j => index_less ms i j = true) := by
      rw [hsplit] at hp
      exact (List.pairwise_append.1 hp).2.1
    rw [List.pairwise_cons] at hs2
    obtain ⟨b, hbm, hbk⟩ := h2 p (List.mem_cons_self _ _)
    have habove : ∀ i ∈ l2, ∃ m, ms[i]? = some m ∧ b.key < m.key := by
      intro i hi
      obtain ⟨x, y, hx, hy, hxy⟩ := (index_less_iff ms p i).1 (hs2.1 i hi)
      rw [hbm] at hx
      cases hx
      exact ⟨y, hy, hxy⟩
    rcases eq_or_lt_of_le hbk with heq | hlt
    · right
      refine ⟨_, p, l2, b, hsplit, h1, hbm, heq.symm, ?_⟩
      intro i hi
      obtain ⟨m, hm, hlt⟩ := habove i hi
      exact ⟨m, hm, lt_of_le_of_lt hbk hlt⟩
    · left
      refine ⟨_, p :: l2, hsplit, h1, ?_⟩
      intro i hi
      rcases List.mem_cons.1 hi with rfl | hit
      · exact ⟨b, hbm, hlt⟩
      · obtain ⟨m, hm, hlt2⟩ := habove i hit
        exact ⟨m, hm, lt_trans hlt hlt2⟩

theorem index_find_absent (ms : List (key_value K V)) (l1 l2 : List Nat) (k : K)
    (h1 : ∀ i ∈ l1, ∃ m, ms[i]? = some m ∧ m.key < k)
    (h2 : ∀ i ∈ l2, ∃ m, ms[i]? = some m ∧ k < m.key) :
    (json_object.mk ms (l1 ++ l2)).find k = .ok ms.length := by
  have hlb := lower_bound_index ms l1 l2 k h1
    (fun i hi => (h2 i hi).imp fun m hm => ⟨hm.1, le_of_lt hm.2⟩)
  simp only [json_object.find, hlb, bind, Except.bind, pure, Except.pure]
  split
  · rename_i h
    have hmem : (l1 ++ l2)[l1.length] ∈ l2 := by
      rw [List.getElem_append_right (le_refl _)]
      exact List.getElem_mem _
    obtain ⟨m, hm, hlt⟩ := h2 _ hmem
    rw [vector_at_ok ms _ m hm]
    simp [ne_of_gt hlt]
  · rfl

theorem index_find_present (ms : List (key_value K V)) (l1 l2 : List Nat) (p : Nat)
    (b : key_value K V) (k : K)
    (h1 : ∀ i ∈ l1, ∃ m, ms[i]? = some m ∧ m.key < k)
    (hb : ms[p]? = some b) (hk : b.key = k)
    (h2 : ∀ i ∈ l2, ∃ m, ms[i]? = some m ∧ k < m.key) :
    (json_object.mk ms (l1 ++ p :: l2)).find k = .ok p := by
  have hlb := lower_bound_index ms l1 (p :: l2) k h1 (fun i hi => by
    rcases List.mem_cons.1 hi with rfl | hit
    · exact ⟨b, hb, le_of_eq hk.symm⟩
    · exact (h2 i hit).imp fun m hm => ⟨hm.1, le_of_lt hm.2⟩)
  simp only [json_object.find, hlb, bind, Except.bind, pure, Except.pure]
  have hlt : l1.length < (l1 ++ p :: l2).length := by simp
  rw [dif_pos hlt]
  have hget : (l1 ++ p :: l2)[l1.length] = p := by
    rw [List.getElem_append_right (le_refl _)]
    simp
  rw [hget, vector_at_ok ms _ b hb]
  simp [hk]

end preserve_order

end jsoncons

namespace jsoncons

namespace preserve_order

variable {K V : Type} [LinearOrder K]

theorem shift_loop_zero (pos : Nat) (l : List Nat) : shift_loop pos 0 l = l := by
  cases l <;> simp [shift_loop]

theorem insert_index_entry_absent (ms : List (key_value K V)) (l1 l2 : List Nat) (k : K)
    (hlen : (l1 ++ l2).length = ms.length)
    (h1 : ∀ i ∈ l1, ∃ m, ms[i]? = some m ∧ m.key < k)
    (h2 : ∀ i ∈ l2, ∃ m, ms[i]? = some m ∧ k < m.key) :
    (json_object.mk ms (l1 ++ l2)).insert_index_entry k ms.length =
      .ok (⟨ms, l1 ++ ms.length :: l2⟩, (ms.length, true)) := by
  have hlb := lower_bound_index ms l1 l2 k h1
    (fun i hi => (h2 i hi).imp fun m hm => ⟨hm.1, le_of_lt hm.2⟩)
  have hle : ms.length ≤ (l1 ++ l2).length := le_of_eq hlen.symm
  have hsub : (l1 ++ l2).length - ms.length = 0 := by omega
  simp only [json_object.insert_index_entry, hlb, hle, hsub, bind, Except.bind, pure,
    Except.pure, not_true_eq_false, if_false, shift_loop_zero]
  split
  · rename_i h
    have hmem : (l1 ++ l2)[l1.length] ∈ l2 := by
      rw [List.getElem_append_right (le_refl _)]
      exact List.getElem_mem _
    obtain ⟨m, hm, hlt⟩ := h2 _ hmem
    rw [vector_at_ok ms _ m hm]
    simp [ne_of_gt hlt, vector_emplace_append]
  · rename_i h
    have hl2 : l2 = [] := by
      cases l2 with
      | nil => rfl
      | cons c t => simp at h
    subst hl2
    simp

theorem insert_index_entry_present (ms : List (key_value K V)) (l1 l2 : List Nat) (p : Nat)
    (b : key_value K V) (k : K)
    (hlen : (l1 ++ p :: l2).length = ms.length)
    (h1 : ∀ i ∈ l1, ∃ m, ms[i]? = some m ∧ m.key < k)
    (hb : ms[p]? = some b) (hk : b.key = k)
    (h2 : ∀ i ∈ l2, ∃ m, ms[i]? = some m ∧ k < m.key) :
    (json_object.mk ms (l1 ++ p :: l2)).insert_index_entry k ms.length =
      .ok (⟨ms, l1 ++ p :: l2⟩, (p, false)) := by
  have hlb := lower_bound_index ms l1 (p :: l2) k h1 (fun i hi => by
    rcases List.mem_cons.1 hi with rfl | hit
    · exact ⟨b, hb, le_of_eq hk.symm⟩
    · exact (h2 i hit).imp fun m hm => ⟨hm.1, le_of_lt hm.2⟩)
  have hle : ms.length ≤ (l1 ++ p :: l2).length := le_of_eq hlen.symm
  simp only [json_object.insert_index_entry, hlb, hle, bind, Except.bind, pure,
    Except.pure, not_true_eq_false, if_false]
  have hlt : l1.length < (l1 ++ p :: l2).length := by simp
  rw [dif_pos hlt]
  have hget : (l1 ++ p :: l2)[l1.length] = p := by
    rw [List.getElem_append_right (le_refl _)]
    simp
  rw [hget, vector_at_ok ms _ b hb]
  simp [hk]

theorem index_insert_or_assign_absent (ms : List (key_value K V)) (l1 l2 : List Nat) (k : K)
    (v : V) (hlen : (l1 ++ l2).length = ms.length)
    (h1 : ∀ i ∈ l1, ∃ m, ms[i]? = some m ∧ m.key < k)
    (h2 : ∀ i ∈ l2, ∃ m, ms[i]? = some m ∧ k < m.key) :
    (json_object.mk ms (l1 ++ l2)).insert_or_assign k v =
      .ok (⟨ms ++ [⟨k, v⟩], l1 ++ ms.length :: l2⟩, (ms.length, true)) := by
  have h := insert_index_entry_absent ms l1 l2 k hlen h1 h2
  simp only [json_object.insert_or_assign] at h ⊢
  rw [h]
  rfl

theorem index_insert_or_assign_present (ms : List (key_value K V)) (l1 l2 : List Nat) (p : Nat)
    (b : key_value K V) (k : K) (v : V)
    (hlen : (l1 ++ p :: l2).length = ms.length)
    (h1 : ∀ i ∈ l1, ∃ m, ms[i]? = some m ∧ m.key < k)
    (hb : ms[p]? = some b) (hk : b.key = k)
    (h2 : ∀ i ∈ l2, ∃ m, ms[i]? = some m ∧ k < m.key) :
    (json_object.mk ms (l1 ++ p :: l2)).insert_or_assign k v =
      .ok (⟨assign_value ms p v, l1 ++ p :: l2⟩, (p, false)) := by
  have h := insert_index_entry_present ms l1 l2 p b k hlen h1 hb hk h2
  simp only [json_object.insert_or_assign] at h ⊢
  rw [h]
  rfl

theorem index_try_emplace_absent (ms : List (key_value K V)) (l1 l2 : List Nat) (k : K)
    (v : V) (hlen : (l1 ++ l2).length = ms.length)
    (h1 : ∀ i ∈ l1, ∃ m, ms[i]? = some m ∧ m.key < k)
    (h2 : ∀ i ∈ l2, ∃ m, ms[i]? = some m ∧ k < m.key) :
    (json_object.mk ms (l1 ++ l2)).try_emplace k v =
      .ok (⟨ms ++ [⟨k, v⟩], l1 ++ ms.length :: l2⟩, (ms.length, true)) := by
  have h := insert_index_entry_absent ms l1 l2 k hlen h1 h2
  simp only [json_object.try_emplace] at h ⊢
  rw [h]
  rfl

theorem index_try_emplace_present (ms : List (key_value K V)) (l1 l2 : List Nat) (p : Nat)
    (b : key_value K V) (k : K) (v : V)
    (hlen : (l1 ++ p :: l2).length = ms.length)
    (h1 : ∀ i ∈ l1, ∃ m, ms[i]? = some m ∧ m.key < k)
    (hb : ms[p]? = some b) (hk : b.key = k)
    (h2 : ∀ i ∈ l2, ∃ m, ms[i]? = some m ∧ k < m.key) :
    (json_object.mk ms (l1 ++ p :: l2)).try_emplace k v =
      .ok (⟨ms, l1 ++ p :: l2⟩, (p, false)) := by
  have h := insert_index_entry_present ms l1 l2 p b k hlen h1 hb hk h2
  simp only [json_object.try_emplace] at h ⊢
  rw [h]
  rfl

end preserve_order

end jsoncons

namespace jsoncons

namespace preserve_order

variable {K V : Type} [LinearOrder K]

theorem erase_loop_past_end (pos1 pos2 offset : Nat) :
    ∀ fuel i (l : List Nat), l.length ≤ i → erase_loop pos1 pos2 offset fuel i l = l := by
  intro fuel i l h
  cases fuel with
  | zero => rfl
  | succ f => simp [erase_loop, Nat.not_lt.2 h]

theorem erase_loop_done (q : Nat) :
    ∀ fuel i (l : List Nat), 1 ≤ i → (∀ x ∈ l.drop i, x ≠ q) →
      erase_loop q (q + 1) 1 fuel i l = l := by
  intro fuel
  induction fuel with
  | zero => intro i l _ _; rfl
  | succ f ih =>
    intro i l hi hq
    simp only [erase_loop]
    split
    · rename_i h
      have h1 : ¬ (1 = l.length) := by omega
      have hmem : l[i] ∈ l.drop i := by
        rw [List.mem_iff_getElem]
        exact ⟨0, by simp; omega, by simp⟩
      have hne : l[i] ≠ q := hq _ hmem
      have h2 : ¬ (l[i] ≥ q ∧ l[i] < q + 1) := by omega
      rw [if_neg h1, if_neg h2]
      apply ih _ _ (by omega)
      intro x hx
      apply hq
      have : l.drop (i + 1) = (l.drop i).drop 1 := by simp [List.drop_drop, Nat.add_comm]
      rw [this] at hx
      exact List.mem_of_mem_drop hx
    · rfl

/-- The first loop of `erase_index_entries` for a single position `q` that
occurs once in the index removes exactly that slot. -/
theorem erase_loop_single (q : Nat) (s2 : List Nat) (hs2 : q ∉ s2) :
    ∀ (s1 pre : List Nat) (fuel : Nat), q ∉ s1 → s1.length + 1 ≤ fuel →
      erase_loop q (q + 1) 1 fuel pre.length (pre ++ (s1 ++ q :: s2)) = pre ++ (s1 ++ s2) := by
  intro s1
  induction s1 with
  | nil =>
    intro pre fuel _ hf
    obtain ⟨f, rfl⟩ : ∃ f, fuel = f + 1 := ⟨fuel - 1, by omega⟩
    have hlt : pre.length < (pre ++ ([] ++ q :: s2)).length := by simp
    have hget : (pre ++ ([] ++ q :: s2))[pre.length] = q := by
      rw [List.getElem_append_right (le_refl _)]
      simp
    simp only [erase_loop]
    rw [dif_pos hlt]
    split
    · rename_i h1
      have hpre : pre = [] := by
        cases pre with
        | nil => rfl
        | cons a t => simp at h1
      have hs : s2 = [] := by
        cases s2 with
        | nil => rfl
        | cons a t => simp at h1; omega
      subst hpre hs
      apply erase_loop_past_end
      simp [vector_erase]
    · rw [hget, if_pos ⟨le_refl _, Nat.lt_succ_self _⟩]
      have he : (pre ++ ([] ++ q :: s2)).eraseIdx pre.length = pre ++ ([] ++ s2) := by
        simpa using eraseIdx_append_cons pre s2 q
      rw [he]
      apply erase_loop_done q f _ _ (by omega)
      intro x hx
      have : x ∈ s2 := by
        have hd : (pre ++ ([] ++ s2)).drop (pre.length + 1) = s2.drop 1 := by
          simp [List.drop_append_eq_append_drop]
        rw [hd] at hx
        exact List.mem_of_mem_drop hx
      exact fun hxq => hs2 (hxq ▸ this)
  | cons x s1 ih =>
    intro pre fuel hq hf
    obtain ⟨f, rfl⟩ : ∃ f, fuel = f + 1 := ⟨fuel - 1, by omega⟩
    have hlt : pre.length < (pre ++ (x :: s1 ++ q :: s2)).length := by simp
    have hget : (pre ++ (x :: s1 ++ q :: s2))[pre.length] = x := by
      rw [List.getElem_append_right (le_refl _)]
      simp
    have hxq : x ≠ q := fun h => hq (h ▸ List.mem_cons_self _ _)
    simp only [erase_loop]
    rw [dif_pos hlt]
    have h1 : ¬ (1 = (pre ++ (x :: s1 ++ q :: s2)).length) := by simp; omega
    have h2 : ¬ ((pre ++ (x :: s1 ++ q :: s2))[pre.length] ≥ q ∧
        (pre ++ (x :: s1 ++ q :: s2))[pre.length] < q + 1) := by rw [hget]; omega
    rw [if_neg h1, if_neg h2]
    have := ih (pre ++ [x]) f (fun h => hq (List.mem_cons_of_mem _ h)) (by simp at hf; omega)
    simpa using this

theorem erase_index_entries_single (l1 l2 : List Nat) (q : Nat)
    (hq1 : q ∉ l1) (hq2 : q ∉ l2) (hlt : q < (l1 ++ q :: l2).length) :
    erase_index_entries (l1 ++ q :: l2) q (q + 1) =
      .ok ((l1 ++ l2).map (fun x => if x ≥ q + 1 then x - 1 else x)) := by
  have hloop : erase_loop q (q + 1) 1 (l1 ++ q :: l2).length 0 (l1 ++ q :: l2) = l1 ++ l2 := by
    have := erase_loop_single q l2 hq2 l1 [] (l1 ++ q :: l2).length hq1 (by simp)
    simpa using this
  have hsucc : q + 1 ≤ (l1 ++ q :: l2).length := hlt
  simp only [erase_index_entries, erase_index_entries_loops, renumber_loop, bind, Except.bind,
    pure, Except.pure, Nat.le_succ, hsucc, not_true_eq_false, if_false, Nat.add_sub_cancel_left,
    hloop]
  simp

end preserve_order

end jsoncons

namespace jsoncons

namespace preserve_order

section
variable {K V : Type}

theorem index_mem_iff (ms : List (key_value K V)) (idx : List Nat)
    (h : idx.Perm (List.range ms.length)) (i : Nat) : i ∈ idx ↔ i < ms.length := by
  rw [h.mem_iff, List.mem_range]

theorem index_nodup (ms : List (key_value K V)) (idx : List Nat)
    (h : idx.Perm (List.range ms.length)) : idx.Nodup :=
  h.nodup_iff.2 (List.nodup_range _)

theorem index_length (ms : List (key_value K V)) (idx : List Nat)
    (h : idx.Perm (List.range ms.length)) : idx.length = ms.length := by
  rw [h.length_eq, List.length_range]

theorem assign_value_length (ms : List (key_value K V)) (p : Nat) (v : V) :
    (assign_value ms p v).length = ms.length := by
  unfold assign_value
  split <;> simp

theorem assign_value_getElem? (ms : List (key_value K V)) (p : Nat) (v : V) (i : Nat) :
    (assign_value ms p v)[i]? =
      (ms[i]?).map (fun m => if i = p then ⟨m.key, v⟩ else m) := by
  unfold assign_value
  cases hp : ms[p]? with
  | none =>
    simp only
    by_cases hip : i = p
    · subst hip; simp [hp]
    · cases ms[i]? <;> simp [hip]
  | some b =>
    simp only
    rw [List.getElem?_set]
    by_cases hip : p = i
    · subst hip
      have hlt := (List.getElem?_eq_some.1 hp).1
      simp [hp, hlt]
    · have hip2 : ¬ i = p := fun h => hip h.symm
      cases ms[i]? <;> simp [hip, hip2]

end

variable {K V : Type} [LinearOrder K]

theorem index_less_append (ms t : List (key_value K V)) (i j : Nat)
    (h : index_less ms i j = true) : index_less (ms ++ t) i j = true := by
  rw [index_less_iff] at h ⊢
  obtain ⟨x, y, hx, hy, hxy⟩ := h
  refine ⟨x, y, ?_, ?_, hxy⟩
  · rw [List.getElem?_append_left (List.getElem?_eq_some.1 hx).1]; exact hx
  · rw [List.getElem?_append_left (List.getElem?_eq_some.1 hy).1]; exact hy

theorem insert_consistent (ms : List (key_value K V)) (l1 l2 : List Nat) (k : K) (v : V)
    (h : (json_object.mk ms (l1 ++ l2)).index_consistent)
    (h1 : ∀ i ∈ l1, ∃ m, ms[i]? = some m ∧ m.key < k)
    (h2 : ∀ i ∈ l2, ∃ m, ms[i]? = some m ∧ k < m.key) :
    (json_object.mk (ms ++ [⟨k, v⟩]) (l1 ++ ms.length :: l2)).index_consistent := by
  obtain ⟨hperm, hpair⟩ := h
  simp only at hperm hpair
  have hnew : (ms ++ [(⟨k, v⟩ : key_value K V)])[ms.length]? = some ⟨k, v⟩ := by
    rw [List.getElem?_append_right (le_refl _)]; simp
  have hold : ∀ (i : Nat) (m : key_value K V), ms[i]? = some m → (ms ++ [(⟨k, v⟩ : key_value K V)])[i]? = some m := by
    intro i m hm
    rw [List.getElem?_append_left (List.getElem?_eq_some.1 hm).1]; exact hm
  constructor
  · simp only [List.length_append, List.length_singleton, List.range_succ]
    exact (List.perm_middle.trans (List.Perm.cons _ hperm)).trans
      (List.perm_append_singleton _ _).symm
  · simp only
    rw [List.pairwise_append] at hpair ⊢
    refine ⟨hpair.1.imp (fun hij => index_less_append ms _ _ _ hij), ?_, ?_⟩
    · rw [List.pairwise_cons]
      refine ⟨?_, hpair.2.1.imp (fun hij => index_less_append ms _ _ _ hij)⟩
      intro j hj
      obtain ⟨m, hm, hlt⟩ := h2 j hj
      exact (index_less_iff _ _ _).2 ⟨_, m, hnew, hold j m hm, hlt⟩
    · intro i hi j hj
      rcases List.mem_cons.1 hj with rfl | hjt
      · obtain ⟨m, hm, hlt⟩ := h1 i hi
        exact (index_less_iff _ _ _).2 ⟨m, _, hold i m hm, hnew, hlt⟩
      · exact index_less_append ms _ _ _ (hpair.2.2 i hi j hjt)

theorem index_less_assign_value (ms : List (key_value K V)) (p : Nat) (v : V) (i j : Nat) :
    index_less (assign_value ms p v) i j = index_less ms i j := by
  unfold index_less
  rw [assign_value_getElem?, assign_value_getElem?]
  cases ms[i]? <;> cases ms[j]? <;> simp
  split <;> split <;> rfl

theorem assign_consistent (ms : List (key_value K V)) (idx : List Nat) (p : Nat) (v : V)
    (h : (json_object.mk ms idx).index_consistent) :
    (json_object.mk (assign_value ms p v) idx).index_consistent := by
  obtain ⟨hperm, hpair⟩ := h
  constructor
  · simp only [assign_value_length]; exact hperm
  · simp only [index_less_assign_value]; exact hpair

end preserve_order

end jsoncons

namespace jsoncons

namespace preserve_order

section
variable {K V : Type}

theorem eraseIdx_getElem?_renumber (ms : List (key_value K V)) (q x : Nat) (hx : x ≠ q) :
    (ms.eraseIdx q)[if x ≥ q + 1 then x - 1 else x]? = ms[x]? := by
  rw [List.getElem?_eraseIdx]
  by_cases h : x ≥ q + 1
  · have h1 : ¬ (x - 1 < q) := by omega
    have h2 : x - 1 + 1 = x := by omega
    simp [h, h1, h2]
  · have h1 : x < q := by omega
    simp [h, h1]

theorem renumber_perm (n q : Nat) (rest : List Nat) (hq : q < n) (hqr : q ∉ rest)
    (hperm : (q :: rest).Perm (List.range n)) :
    (rest.map (fun x => if x ≥ q + 1 then x - 1 else x)).Perm (List.range (n - 1)) := by
  have hnd : (q :: rest).Nodup := hperm.nodup_iff.2 (List.nodup_range _)
  have hmem : ∀ x, x ∈ rest ↔ x < n ∧ x ≠ q := by
    intro x
    have := hperm.mem_iff (a := x)
    rw [List.mem_range, List.mem_cons] at this
    constructor
    · intro hx
      exact ⟨this.1 (Or.inr hx), fun h => hqr (h ▸ hx)⟩
    · intro hx
      rcases this.2 hx.1 with h | h
      · exact absurd h hx.2
      · exact h
  rw [List.perm_ext_iff_of_nodup _ (List.nodup_range _)]
  · intro y
    rw [List.mem_map, List.mem_range]
    constructor
    · rintro ⟨x, hx, rfl⟩
      have := (hmem x).1 hx
      split <;> omega
    · intro hy
      by_cases hyq : y < q
      · exact ⟨y, (hmem y).2 ⟨by omega, by omega⟩, by simp; omega⟩
      · refine ⟨y + 1, (hmem (y + 1)).2 ⟨by omega, by omega⟩, ?_⟩
        have : y + 1 ≥ q + 1 := by omega
        simp [this]
  · apply List.Nodup.map_on _ (List.nodup_cons.1 hnd).2
    intro x hx y hy hxy
    have hx2 := (hmem x).1 hx
    have hy2 := (hmem y).1 hy
    simp only at hxy
    split at hxy <;> split at hxy <;> omega

end

variable {K V : Type} [LinearOrder K]

theorem erase_consistent (ms : List (key_value K V)) (l1 l2 : List Nat) (q : Nat)
    (h : (json_object.mk ms (l1 ++ q :: l2)).index_consistent) :
    (json_object.mk (ms.eraseIdx q)
      ((l1 ++ l2).map (fun x => if x ≥ q + 1 then x - 1 else x))).index_consistent := by
  obtain ⟨hperm, hpair⟩ := h
  simp only at hperm hpair
  have hnd : (l1 ++ q :: l2).Nodup := index_nodup ms _ hperm
  have hq : q < ms.length := (index_mem_iff ms _ hperm q).1 (by simp)
  have hperm2 : (q :: (l1 ++ l2)).Perm (List.range ms.length) :=
    List.perm_middle.symm.trans hperm
  have hnd2 : (q :: (l1 ++ l2)).Nodup := hperm2.nodup_iff.2 (List.nodup_range _)
  have hqr : q ∉ l1 ++ l2 := (List.nodup_cons.1 hnd2).1
  constructor
  · simp only
    rw [List.length_eraseIdx, if_pos hq]
    exact renumber_perm ms.length q (l1 ++ l2) hq hqr hperm2
  · simp only
    rw [List.pairwise_map]
    have hsub : (l1 ++ l2).Sublist (l1 ++ q :: l2) :=
      List.Sublist.append (List.Sublist.refl _) (List.sublist_cons_self _ _)
    refine (hpair.sublist hsub).imp_of_mem ?_
    intro i j hi hj hij
    have hiq : i ≠ q := fun h => hqr (h ▸ hi)
    have hjq : j ≠ q := fun h => hqr (h ▸ hj)
    unfold index_less at hij ⊢
    rw [eraseIdx_getElem?_renumber ms q i hiq, eraseIdx_getElem?_renumber ms q j hjq]
    exact hij

theorem index_erase_absent (ms : List (key_value K V)) (l1 l2 : List Nat) (k : K)
    (h1 : ∀ i ∈ l1, ∃ m, ms[i]? = some m ∧ m.key < k)
    (h2 : ∀ i ∈ l2, ∃ m, ms[i]? = some m ∧ k < m.key) :
    (json_object.mk ms (l1 ++ l2)).erase k = .ok ⟨ms, l1 ++ l2⟩ := by
  simp only [json_object.erase, index_find_absent ms l1 l2 k h1 h2, bind, Except.bind]
  simp [pure, Except.pure]

theorem index_erase_present (ms : List (key_value K V)) (l1 l2 : List Nat) (p : Nat)
    (b : key_value K V) (k : K)
    (hperm : (l1 ++ p :: l2).Perm (List.range ms.length))
    (h1 : ∀ i ∈ l1, ∃ m, ms[i]? = some m ∧ m.key < k)
    (hb : ms[p]? = some b) (hk : b.key = k)
    (h2 : ∀ i ∈ l2, ∃ m, ms[i]? = some m ∧ k < m.key) :
    (json_object.mk ms (l1 ++ p :: l2)).erase k =
      .ok ⟨ms.eraseIdx p, (l1 ++ l2).map (fun x => if x ≥ p + 1 then x - 1 else x)⟩ := by
  have hnd : (l1 ++ p :: l2).Nodup := index_nodup ms _ hperm
  have hp : p < ms.length := (List.getElem?_eq_some.1 hb).1
  have hlen := index_length ms _ hperm
  have hnd2 : (p :: (l1 ++ l2)).Nodup := (List.perm_middle.nodup_iff).1 hnd
  have hq := (List.nodup_cons.1 hnd2).1
  have he := erase_index_entries_single l1 l2 p (fun h => hq (List.mem_append_left _ h))
    (fun h => hq (List.mem_append_right _ h)) (by rw [hlen]; exact hp)
  simp only [json_object.erase, index_find_present ms l1 l2 p b k h1 hb hk h2, bind,
    Except.bind, he]
  simp [pure, Except.pure, ne_of_lt hp]

end preserve_order

end jsoncons

namespace jsoncons

namespace preserve_order

variable {K V : Type} [LinearOrder K]

theorem index_decompose_of_consistent (o : json_object K V) (k : K) (h : o.index_consistent) :
    (∃ l1 l2, o.index_ = l1 ++ l2 ∧ (∀ i ∈ l1, ∃ m, o.members_[i]? = some m ∧ m.key < k) ∧
      (∀ i ∈ l2, ∃ m, o.members_[i]? = some m ∧ k < m.key)) ∨
    (∃ l1 p l2 b, o.index_ = l1 ++ p :: l2 ∧
      (∀ i ∈ l1, ∃ m, o.members_[i]? = some m ∧ m.key < k) ∧
      o.members_[p]? = some b ∧ b.key = k ∧
      (∀ i ∈ l2, ∃ m, o.members_[i]? = some m ∧ k < m.key)) :=
  index_decompose o.members_ o.index_ k
    (fun i hi => (index_mem_iff o.members_ o.index_ h.1 i).1 hi) h.2

theorem insert_or_assign_consistent (o : json_object K V) (k : K) (v : V)
    (h : o.index_consistent) :
    ∃ r, o.insert_or_assign k v = .ok r ∧ r.1.index_consistent := by
  obtain ⟨ms, idx⟩ := o
  rcases index_decompose_of_consistent ⟨ms, idx⟩ k h with
    ⟨l1, l2, hidx, h1, h2⟩ | ⟨l1, p, l2, b, hidx, h1, hb, hk, h2⟩
  · simp only at hidx h1 h2
    subst hidx
    refine ⟨_, index_insert_or_assign_absent ms l1 l2 k v (index_length ms _ h.1) h1 h2, ?_⟩
    exact insert_consistent ms l1 l2 k v h h1 h2
  · simp only at hidx h1 h2 hb
    subst hidx
    refine ⟨_, index_insert_or_assign_present ms l1 l2 p b k v (index_length ms _ h.1)
      h1 hb hk h2, ?_⟩
    exact assign_consistent ms _ p v h

theorem try_emplace_consistent (o : json_object K V) (k : K) (v : V)
    (h : o.index_consistent) :
    ∃ r, o.try_emplace k v = .ok r ∧ r.1.index_consistent := by
  obtain ⟨ms, idx⟩ := o
  rcases index_decompose_of_consistent ⟨ms, idx⟩ k h with
    ⟨l1, l2, hidx, h1, h2⟩ | ⟨l1, p, l2, b, hidx, h1, hb, hk, h2⟩
  · simp only at hidx h1 h2
    subst hidx
    refine ⟨_, index_try_emplace_absent ms l1 l2 k v (index_length ms _ h.1) h1 h2, ?_⟩
    exact insert_consistent ms l1 l2 k v h h1 h2
  · simp only at hidx h1 h2 hb
    subst hidx
    exact ⟨_, index_try_emplace_present ms l1 l2 p b k v (index_length ms _ h.1)
      h1 hb hk h2, h⟩

theorem erase_key_consistent (o : json_object K V) (k : K) (h : o.index_consistent) :
    ∃ r, o.erase k = .ok r ∧ r.index_consistent := by
  obtain ⟨ms, idx⟩ := o
  rcases index_decompose_of_consistent ⟨ms, idx⟩ k h with
    ⟨l1, l2, hidx, h1, h2⟩ | ⟨l1, p, l2, b, hidx, h1, hb, hk, h2⟩
  · simp only at hidx h1 h2
    subst hidx
    exact ⟨_, index_erase_absent ms l1 l2 k h1 h2, h⟩
  · simp only at hidx h1 h2 hb
    subst hidx
    exact ⟨_, index_erase_present ms l1 l2 p b k h.1 h1 hb hk h2, erase_consistent ms l1 l2 p h⟩

theorem after_call_consistent (o : json_object K V) (c : call K V) (h : o.index_consistent) :
    ∃ o1, o.after_call c = .ok o1 ∧ o1.index_consistent := by
  cases c with
  | insert_or_assign name value =>
    obtain ⟨r, hr, hc⟩ := insert_or_assign_consistent o name value h
    exact ⟨r.1, by simp [json_object.after_call, hr, Except.map], hc⟩
  | try_emplace name value =>
    obtain ⟨r, hr, hc⟩ := try_emplace_consistent o name value h
    exact ⟨r.1, by simp [json_object.after_call, hr, Except.map], hc⟩
  | erase name => exact erase_key_consistent o name h

theorem after_calls_from_consistent (calls : List (call K V)) :
    ∀ o : json_object K V, o.index_consistent →
      ∃ o1, o.after_calls_from calls = .ok o1 ∧ o1.index_consistent := by
  induction calls with
  | nil => intro o h; exact ⟨o, rfl, h⟩
  | cons c rest ih =>
    intro o h
    obtain ⟨o1, ho1, hc1⟩ := after_call_consistent o c h
    obtain ⟨o2, ho2, hc2⟩ := ih o1 hc1
    exact ⟨o2, by simp [json_object.after_calls_from, ho1, ho2], hc2⟩

/-- C2: starting from the empty order-preserving object, after every call of any
finite sequence of unhinted `insert_or_assign`, unhinted `try_emplace` and
`erase(key)` calls (that is, after every prefix `calls.take n`), no call has
thrown, `index_` is a permutation of `[0, size)`, and the keys
`members_[index_[0]], members_[index_[1]], ...` are strictly ascending. -/
theorem order_preserving_index_stays_consistent (calls : List (call K V)) (n : Nat) :
    ∃ o, json_object.after_calls (calls.take n) = .ok o ∧
      o.index_.Perm (List.range o.size) ∧
      o.index_.Pairwise (fun i j => ∃ x y, o.members_[i]? = some x ∧
        o.members_[j]? = some y ∧ x.key < y.key) := by
  obtain ⟨o, ho, hc⟩ := after_calls_from_consistent (calls.take n)
    (json_object.mk ([] : List (key_value K V)) []) (by
      constructor
      · simp
      · simp)
  refine ⟨o, ho, hc.1, hc.2.imp ?_⟩
  intro i j hij
  exact (index_less_iff _ _ _).1 hij

end preserve_order

end jsoncons

namespace jsoncons

namespace sorted

variable {K V : Type} [LinearOrder K]

theorem absent_not_mem (l1 l2 : List (key_value K V)) (k : K)
    (h1 : ∀ a ∈ l1, a.key < k) (h2 : ∀ a ∈ l2, k < a.key) :
    k ∉ (l1 ++ l2).map key_value.key := by
  intro hk
  simp only [List.mem_map, List.mem_append] at hk
  obtain ⟨a, ha, hak⟩ := hk
  rcases ha with ha | ha
  · exact absurd hak (ne_of_lt (h1 a ha))
  · exact absurd hak (ne_of_gt (h2 a ha))

omit [LinearOrder K] in
theorem present_mem (l1 l2 : List (key_value K V)) (b : key_value K V) (k : K)
    (hb : b.key = k) : k ∈ (l1 ++ b :: l2).map key_value.key := by
  simp only [List.mem_map, List.mem_append, List.mem_cons]
  exact ⟨b, Or.inr (Or.inl rfl), hb⟩

end sorted

namespace preserve_order

variable {K V : Type} [LinearOrder K]

theorem index_absent_not_mem (ms : List (key_value K V)) (l1 l2 : List Nat) (k : K)
    (hperm : (l1 ++ l2).Perm (List.range ms.length))
    (h1 : ∀ i ∈ l1, ∃ m, ms[i]? = some m ∧ m.key < k)
    (h2 : ∀ i ∈ l2, ∃ m, ms[i]? = some m ∧ k < m.key) :
    k ∉ ms.map key_value.key := by
  intro hk
  obtain ⟨a, ha, hak⟩ := List.mem_map.1 hk
  obtain ⟨i, hi, hia⟩ := List.mem_iff_getElem.1 ha
  have hget : ms[i]? = some a := by rw [List.getElem?_eq_getElem hi, hia]
  have hmem : i ∈ l1 ++ l2 := (index_mem_iff ms _ hperm i).2 hi
  rcases List.mem_append.1 hmem with h | h
  · obtain ⟨m, hm, hlt⟩ := h1 i h
    rw [hget] at hm; cases hm
    exact absurd hak (ne_of_lt hlt)
  · obtain ⟨m, hm, hlt⟩ := h2 i h
    rw [hget] at hm; cases hm
    exact absurd hak (ne_of_gt hlt)

omit [LinearOrder K] in
theorem index_present_mem (ms : List (key_value K V)) (p : Nat) (b : key_value K V) (k : K)
    (hb : ms[p]? = some b) (hk : b.key = k) : k ∈ ms.map key_value.key :=
  List.mem_map.2 ⟨b, List.getElem?_mem hb, hk⟩

/-- In a consistent object `find` returns the position of any member that
carries the key. -/
theorem find_eq_of_member (o : json_object K V) (k : K) (h : o.index_consistent)
    (p : Nat) (m : key_value K V) (hm : o.members_[p]? = some m) (hk : m.key = k) :
    o.find k = .ok p := by
  obtain ⟨ms, idx⟩ := o
  simp only at hm
  rcases index_decompose_of_consistent ⟨ms, idx⟩ k h with
    ⟨l1, l2, hidx, h1, h2⟩ | ⟨l1, q, l2, b, hidx, h1, hb, hbk, h2⟩
  · simp only at hidx h1 h2
    subst hidx
    exact absurd (index_present_mem ms p m k hm hk) (index_absent_not_mem ms l1 l2 k h.1 h1 h2)
  · simp only at hidx h1 h2 hb
    subst hidx
    rw [index_find_present ms l1 l2 q b k h1 hb hbk h2]
    have hp : p ∈ l1 ++ q :: l2 :=
      (index_mem_iff ms _ h.1 p).2 (List.getElem?_eq_some.1 hm).1
    rcases List.mem_append.1 hp with hp1 | hp2
    · obtain ⟨x, hx, hlt⟩ := h1 p hp1
      rw [hm] at hx; cases hx
      exact absurd hk (ne_of_lt hlt)
    · rcases List.mem_cons.1 hp2 with rfl | hp3
      · rfl
      · obtain ⟨x, hx, hlt⟩ := h2 p hp3
        rw [hm] at hx; cases hx
        exact absurd hk (ne_of_gt hlt)

theorem find_eq_end_of_absent (o : json_object K V) (k : K) (h : o.index_consistent)
    (hk : k ∉ o.members_.map key_value.key) : o.find k = .ok o.members_.length := by
  obtain ⟨ms, idx⟩ := o
  rcases index_decompose_of_consistent ⟨ms, idx⟩ k h with
    ⟨l1, l2, hidx, h1, h2⟩ | ⟨l1, q, l2, b, hidx, h1, hb, hbk, h2⟩
  · simp only at hidx h1 h2
    subst hidx
    exact index_find_absent ms l1 l2 k h1 h2
  · exact absurd (index_present_mem ms q b k hb hbk) hk

theorem key_position_unique (o : json_object K V) (h : o.index_consistent)
    (p q : Nat) (a b : key_value K V) (ha : o.members_[p]? = some a)
    (hb : o.members_[q]? = some b) (hab : a.key = b.key) : p = q := by
  have h1 := find_eq_of_member o b.key h p a ha hab
  have h2 := find_eq_of_member o b.key h q b hb rfl
  rw [h1] at h2
  exact Except.ok.inj h2

end preserve_order

end jsoncons

namespace jsoncons

namespace preserve_order

variable {K V : Type} [LinearOrder K]

/-- C9: in an order-preserving object whose index is consistent, `find(k)` returns
the insertion-order position of the member with key `k` when there is one, and
`end()`, i.e. `size()`, otherwise. In scenario C (five members `m, c, x, a, q`):
erasing the middle member `x` by key leaves four members and four index slots;
inserting the new key `d`, which sorts between `c` and `m`, appends it at
position 4 and `find("d")` returns position 4; the index then has five slots,
one per member. -/
theorem order_preserving_find_returns_position (o : json_object K V) (k : K)
    (h : o.index_consistent) :
    (k ∈ o.members_.map key_value.key →
      ∃ p m, o.find k = .ok p ∧ o.members_[p]? = some m ∧ m.key = k) ∧
    (k ∉ o.members_.map key_value.key → o.find k = .ok o.size) ∧
    (∃ o1 o2, json_object.after_calls scenario_c_calls = .ok object_m_c_x_a_q ∧
      object_m_c_x_a_q.erase "x".data = .ok o1 ∧
      o1.size = 4 ∧ o1.index_.Perm (List.range 4) ∧
      o1.insert_or_assign "d".data 6 = .ok (o2, (4, true)) ∧
      o2.members_[4]? = some ⟨"d".data, 6⟩ ∧
      o2.find "d".data = .ok 4 ∧
      o2.size = 5 ∧ o2.index_.Perm (List.range 5)) := by
  refine ⟨?_, find_eq_end_of_absent o k h, ?_⟩
  · intro hk
    obtain ⟨m, hm, hmk⟩ := List.mem_map.1 hk
    obtain ⟨p, hp, hpm⟩ := List.mem_iff_getElem.1 hm
    have hget : o.members_[p]? = some m := by rw [List.getElem?_eq_getElem hp, hpm]
    exact ⟨p, m, find_eq_of_member o k h p m hget hmk, hget, hmk⟩
  · refine ⟨⟨[⟨"m".data, 1⟩, ⟨"c".data, 2⟩, ⟨"a".data, 4⟩, ⟨"q".data, 5⟩], [2, 1, 0, 3]⟩,
      ⟨[⟨"m".data, 1⟩, ⟨"c".data, 2⟩, ⟨"a".data, 4⟩, ⟨"q".data, 5⟩, ⟨"d".data, 6⟩],
        [2, 1, 4, 0, 3]⟩, ?_, ?_, ?_, ?_, ?_, ?_, ?_, ?_, ?_⟩ <;> decide

theorem order_preserving_find_returns_position_witness :
    object_m_c_x_a_q.index_consistent ∧
    ("a".data ∈ object_m_c_x_a_q.members_.map key_value.key →
      ∃ p m, object_m_c_x_a_q.find "a".data = .ok p ∧
        object_m_c_x_a_q.members_[p]? = some m ∧ m.key = "a".data) :=
  ⟨by decide, (order_preserving_find_returns_position object_m_c_x_a_q "a".data (by decide)).1⟩

end preserve_order

end jsoncons

namespace jsoncons

section
variable {K V : Type}

theorem mem_insert_other (l1 l2 : List (key_value K V)) (a m : key_value K V)
    (h : m ≠ a) : m ∈ l1 ++ a :: l2 ↔ m ∈ l1 ++ l2 := by
  simp only [List.mem_append, List.mem_cons]
  constructor
  · rintro (h1 | h2 | h3)
    · exact Or.inl h1
    · exact absurd h2 h
    · exact Or.inr h3
  · rintro (h1 | h3)
    · exact Or.inl h1
    · exact Or.inr (Or.inr h3)

theorem mem_assign_value_other (ms : List (key_value K V)) (q : Nat) (b : key_value K V)
    (v : V) (hb : ms[q]? = some b) (m : key_value K V) (hm : m.key ≠ b.key) :
    m ∈ assign_value ms q v ↔ m ∈ ms := by
  simp only [List.mem_iff_getElem?, preserve_order.assign_value_getElem?]
  constructor
  · rintro ⟨i, hi⟩
    cases hx : ms[i]? with
    | none => rw [hx] at hi; simp at hi
    | some x =>
      rw [hx] at hi
      simp only [Option.map_some'] at hi
      by_cases hiq : i = q
      · subst hiq
        rw [hb] at hx; cases hx
        simp only [if_true, Option.some.injEq] at hi
        exact absurd (by rw [← hi]) hm
      · simp only [hiq, if_false, Option.some.injEq] at hi
        exact ⟨i, by rw [hx, hi]⟩
  · rintro ⟨i, hi⟩
    refine ⟨i, ?_⟩
    have hiq : i ≠ q := by
      intro h
      subst h
      rw [hb] at hi; cases hi
      exact hm rfl
    simp [hi, hiq]

end

section
variable {K V : Type} [LinearOrder K]

theorem sorted_insert_or_assign_spec (o : sorted.json_object K V) (k : K) (v : V)
    (ho : o.strictly_ascending) :
    ∃ o1 pos inserted, o.insert_or_assign k v = (o1, (pos, inserted)) ∧
      (inserted = true ↔ k ∉ o.members_.map key_value.key) ∧
      o1.find k = pos ∧ o1.members_[pos]? = some ⟨k, v⟩ ∧
      o1.size = o.size + (if inserted then 1 else 0) ∧
      (∀ m : key_value K V, m.key ≠ k → (m ∈ o1.members_ ↔ m ∈ o.members_)) := by
  obtain ⟨ms⟩ := o
  rw [sorted.strictly_ascending_iff] at ho
  have hnew : ∀ l1 l2 : List (key_value K V), (l1 ++ (⟨k, v⟩ : key_value K V) :: l2)[l1.length]? =
      some ⟨k, v⟩ := by
    intro l1 l2
    rw [List.getElem?_append_right (le_refl _)]; simp
  rcases sorted.members_decompose ms k ho with
    ⟨l1, l2, rfl, h1, h2⟩ | ⟨l1, b, l2, rfl, h1, hb, h2⟩
  · refine ⟨_, _, _, sorted.insert_or_assign_absent l1 l2 k v h1 h2, ?_,
      sorted.find_present l1 l2 ⟨k, v⟩ k h1 rfl h2, hnew l1 l2, ?_, ?_⟩
    · simp only [true_iff]
      exact sorted.absent_not_mem l1 l2 k h1 h2
    · simp [sorted.json_object.size]; omega
    · intro m hm
      exact mem_insert_other l1 l2 _ m (fun h => hm (by rw [h]))
  · refine ⟨_, _, _, sorted.insert_or_assign_present l1 l2 b k v h1 hb h2, ?_,
      sorted.find_present l1 l2 ⟨k, v⟩ k h1 rfl h2, hnew l1 l2, ?_, ?_⟩
    · simp only [Bool.false_eq_true, false_iff, not_not]
      exact sorted.present_mem l1 l2 b k hb
    · simp [sorted.json_object.size]
    · intro m hm
      rw [mem_insert_other l1 l2 _ m (fun h => hm (by rw [h])),
        mem_insert_other l1 l2 b m (fun h => hm (by rw [h, hb]))]

theorem order_preserving_insert_or_assign_spec (p : preserve_order.json_object K V) (k : K)
    (v : V) (hp : p.index_consistent) :
    ∃ p1 pos inserted, p.insert_or_assign k v = .ok (p1, (pos, inserted)) ∧
      (inserted = true ↔ k ∉ p.members_.map key_value.key) ∧
      p1.find k = .ok pos ∧ p1.members_[pos]? = some ⟨k, v⟩ ∧
      p1.size = p.size + (if inserted then 1 else 0) ∧
      (∀ m : key_value K V, m.key ≠ k → (m ∈ p1.members_ ↔ m ∈ p.members_)) := by
  obtain ⟨ms, idx⟩ := p
  rcases preserve_order.index_decompose_of_consistent ⟨ms, idx⟩ k hp with
    ⟨l1, l2, hidx, h1, h2⟩ | ⟨l1, q, l2, b, hidx, h1, hb, hk, h2⟩
  · simp only at hidx h1 h2
    subst hidx
    have hc := preserve_order.insert_consistent ms l1 l2 k v hp h1 h2
    have hnew : (ms ++ [(⟨k, v⟩ : key_value K V)])[ms.length]? = some ⟨k, v⟩ := by
      rw [List.getElem?_append_right (le_refl _)]; simp
    refine ⟨_, _, _, preserve_order.index_insert_or_assign_absent ms l1 l2 k v
      (preserve_order.index_length ms _ hp.1) h1 h2, ?_,
      preserve_order.find_eq_of_member _ k hc ms.length ⟨k, v⟩ hnew rfl, hnew, ?_, ?_⟩
    · simp only [true_iff]
      exact preserve_order.index_absent_not_mem ms l1 l2 k hp.1 h1 h2
    · simp [preserve_order.json_object.size]
    · intro m hm
      have := mem_insert_other ms [] (⟨k, v⟩ : key_value K V) m (fun h => hm (by rw [h]))
      simpa using this
  · simp only at hidx h1 h2 hb
    subst hidx
    have hc := preserve_order.assign_consistent ms _ q v hp
    have hnew : (assign_value ms q v)[q]? = some ⟨k, v⟩ := by
      rw [preserve_order.assign_value_getElem?, hb]
      simp [hk]
    refine ⟨_, _, _, preserve_order.index_insert_or_assign_present ms l1 l2 q b k v
      (preserve_order.index_length ms _ hp.1) h1 hb hk h2, ?_,
      preserve_order.find_eq_of_member _ k hc q ⟨k, v⟩ hnew rfl, hnew, ?_, ?_⟩
    · simp only [Bool.false_eq_true, false_iff, not_not]
      exact preserve_order.index_present_mem ms q b k hb hk
    · simp [preserve_order.json_object.size, preserve_order.assign_value_length]
    · intro m hm
      exact mem_assign_value_other ms q b v hb m (by rw [hk]; exact hm)

/-- C6: for a sorted object with strictly ascending keys and for an
order-preserving object with a consistent index, unhinted `insert_or_assign(k, v)`
returns `inserted = true` exactly when `k` was absent; afterwards `find(k)` is
the returned position, the member there is `(k, v)`, the size has grown by one
exactly when `inserted = true`, and the members with any other key are the same
as before. -/
theorem insert_or_assign_inserts_or_overwrites (o : sorted.json_object K V)
    (p : preserve_order.json_object K V) (k : K) (v : V)
    (ho : o.strictly_ascending) (hp : p.index_consistent) :
    (∃ o1 pos inserted, o.insert_or_assign k v = (o1, (pos, inserted)) ∧
      (inserted = true ↔ k ∉ o.members_.map key_value.key) ∧
      o1.find k = pos ∧ o1.members_[pos]? = some ⟨k, v⟩ ∧
      o1.size = o.size + (if inserted then 1 else 0) ∧
      (∀ m : key_value K V, m.key ≠ k → (m ∈ o1.members_ ↔ m ∈ o.members_))) ∧
    (∃ p1 pos inserted, p.insert_or_assign k v = .ok (p1, (pos, inserted)) ∧
      (inserted = true ↔ k ∉ p.members_.map key_value.key) ∧
      p1.find k = .ok pos ∧ p1.members_[pos]? = some ⟨k, v⟩ ∧
      p1.size = p.size + (if inserted then 1 else 0) ∧
      (∀ m : key_value K V, m.key ≠ k → (m ∈ p1.members_ ↔ m ∈ p.members_))) :=
  ⟨sorted_insert_or_assign_spec o k v ho, order_preserving_insert_or_assign_spec p k v hp⟩

end

theorem insert_or_assign_inserts_or_overwrites_witness :
    sorted.object_a_b.strictly_ascending ∧ preserve_order.object_m_c_x_a_q.index_consistent ∧
    ((∃ o1 pos inserted,
        sorted.object_a_b.insert_or_assign "b".data 7 = (o1, (pos, inserted)) ∧
        (inserted = true ↔ "b".data ∉ sorted.object_a_b.members_.map key_value.key) ∧
        o1.find "b".data = pos ∧ o1.members_[pos]? = some ⟨"b".data, 7⟩ ∧
        o1.size = sorted.object_a_b.size + (if inserted then 1 else 0) ∧
        (∀ m : key_value (List Char) Int, m.key ≠ "b".data →
          (m ∈ o1.members_ ↔ m ∈ sorted.object_a_b.members_))) ∧
     (∃ p1 pos inserted,
        preserve_order.object_m_c_x_a_q.insert_or_assign "b".data 7 =
          .ok (p1, (pos, inserted)) ∧
        (inserted = true ↔
          "b".data ∉ preserve_order.object_m_c_x_a_q.members_.map key_value.key) ∧
        p1.find "b".data = .ok pos ∧ p1.members_[pos]? = some ⟨"b".data, 7⟩ ∧
        p1.size = preserve_order.object_m_c_x_a_q.size + (if inserted then 1 else 0) ∧
        (∀ m : key_value (List Char) Int, m.key ≠ "b".data →
          (m ∈ p1.members_ ↔ m ∈ preserve_order.object_m_c_x_a_q.members_)))) :=
  ⟨by decide, by decide,
    insert_or_assign_inserts_or_overwrites sorted.object_a_b preserve_order.object_m_c_x_a_q
      "b".data 7 (by decide) (by decide)⟩

end jsoncons

namespace jsoncons

section
variable {K V : Type}

theorem eraseIdx_eq_filter_key [DecidableEq K] :
    ∀ (ms : List (key_value K V)) (q : Nat) (b : key_value K V), ms[q]? = some b →
      (∀ (i : Nat) (m : key_value K V), ms[i]? = some m → m.key = b.key → i = q) →
      ms.eraseIdx q = ms.filter (fun m => decide (m.key ≠ b.key)) := by
  intro ms
  induction ms with
  | nil => intro q b hb; simp at hb
  | cons a t ih =>
    intro q b hb huniq
    cases q with
    | zero =>
      simp only [List.getElem?_cons_zero, Option.some.injEq] at hb
      subst hb
      have hall : ∀ m ∈ t, decide (m.key ≠ a.key) = true := by
        intro m hm
        obtain ⟨i, hi⟩ := List.mem_iff_getElem?.1 hm
        have := huniq (i + 1) m (by simpa using hi)
        simp only [ne_eq, decide_not, Bool.not_eq_eq_eq_not, Bool.not_true, decide_eq_false_iff_not]
        intro hk
        exact absurd (this hk) (by omega)
      show t = List.filter (fun m => decide (m.key ≠ a.key)) (a :: t)
      rw [List.filter_cons_of_neg (by simp), List.filter_eq_self.2 hall]
    | succ q =>
      have hne : a.key ≠ b.key := by
        intro hk
        exact absurd (huniq 0 a (by simp) hk) (by omega)
      have hb2 : t[q]? = some b := by simpa using hb
      have := ih q b hb2 (fun i m hi hk => by
        have := huniq (i + 1) m (by simpa using hi) hk
        omega)
      show a :: t.eraseIdx q = List.filter (fun m => decide (m.key ≠ b.key)) (a :: t)
      rw [List.filter_cons_of_pos (by simpa using hne), this]

end

section
variable {K V : Type} [LinearOrder K]

theorem sorted_try_emplace_present_spec (o : sorted.json_object K V) (k : K) (v : V)
    (ho : o.strictly_ascending) (hk : k ∈ o.members_.map key_value.key) :
    ∃ pos m, o.try_emplace k v = (o, (pos, false)) ∧ o.members_[pos]? = some m ∧ m.key = k := by
  obtain ⟨ms⟩ := o
  rw [sorted.strictly_ascending_iff] at ho
  rcases sorted.members_decompose ms k ho with
    ⟨l1, l2, rfl, h1, h2⟩ | ⟨l1, b, l2, rfl, h1, hb, h2⟩
  · exact absurd hk (sorted.absent_not_mem l1 l2 k h1 h2)
  · refine ⟨l1.length, b, sorted.try_emplace_present l1 l2 b k v h1 hb h2, ?_, hb⟩
    show (l1 ++ b :: l2)[l1.length]? = some b
    rw [List.getElem?_append_right (le_refl _)]; simp

theorem order_preserving_try_emplace_present_spec (p : preserve_order.json_object K V) (k : K)
    (v : V) (hp : p.index_consistent) (hk : k ∈ p.members_.map key_value.key) :
    ∃ pos m, p.try_emplace k v = .ok (p, (pos, false)) ∧ p.members_[pos]? = some m ∧
      m.key = k := by
  obtain ⟨ms, idx⟩ := p
  rcases preserve_order.index_decompose_of_consistent ⟨ms, idx⟩ k hp with
    ⟨l1, l2, hidx, h1, h2⟩ | ⟨l1, q, l2, b, hidx, h1, hb, hbk, h2⟩
  · simp only at hidx h1 h2
    subst hidx
    exact absurd hk (preserve_order.index_absent_not_mem ms l1 l2 k hp.1 h1 h2)
  · simp only at hidx h1 h2 hb
    subst hidx
    exact ⟨q, b, preserve_order.index_try_emplace_present ms l1 l2 q b k v
      (preserve_order.index_length ms _ hp.1) h1 hb hbk h2, hb, hbk⟩

/-- C7: unhinted `try_emplace(k, v)` on an object that already contains the key
`k` (a sorted object with strictly ascending keys, an order-preserving object
with a consistent index) returns the object unchanged (members, values, size
and index) together with the position of the existing member and
`inserted = false`. In scenario B, after inserting `x = 2.5` and `y = 1.3` into
an empty order-preserving object, `try_emplace("x", 99)` leaves `x` at `2.5` and
the size at 2. -/
theorem try_emplace_keeps_existing_member (o : sorted.json_object K V)
    (p : preserve_order.json_object K V) (k : K) (v : V)
    (ho : o.strictly_ascending) (hp : p.index_consistent)
    (hko : k ∈ o.members_.map key_value.key) (hkp : k ∈ p.members_.map key_value.key) :
    (∃ pos m, o.try_emplace k v = (o, (pos, false)) ∧ o.members_[pos]? = some m ∧ m.key = k) ∧
    (∃ pos m, p.try_emplace k v = .ok (p, (pos, false)) ∧ p.members_[pos]? = some m ∧
      m.key = k) ∧
    (preserve_order.json_object.after_calls preserve_order.scenario_b_calls =
        .ok preserve_order.object_x_y ∧
      preserve_order.object_x_y.try_emplace "x".data (.int64_value 99) =
        .ok (preserve_order.object_x_y, (0, false)) ∧
      preserve_order.object_x_y.members_[0]? = some ⟨"x".data, .double_value 25 (-1)⟩ ∧
      preserve_order.object_x_y.size = 2) :=
  ⟨sorted_try_emplace_present_spec o k v ho hko,
    order_preserving_try_emplace_present_spec p k v hp hkp,
    by decide, by decide, by decide, by decide⟩

end

theorem try_emplace_keeps_existing_member_witness :
    sorted.object_a_b.strictly_ascending ∧ preserve_order.object_m_c_x_a_q.index_consistent ∧
    "a".data ∈ sorted.object_a_b.members_.map key_value.key ∧
    "a".data ∈ preserve_order.object_m_c_x_a_q.members_.map key_value.key ∧
    (∃ pos m, sorted.object_a_b.try_emplace "a".data 9 = (sorted.object_a_b, (pos, false)) ∧
      sorted.object_a_b.members_[pos]? = some m ∧ m.key = "a".data) ∧
    (∃ pos m, preserve_order.object_m_c_x_a_q.try_emplace "a".data 9 =
        .ok (preserve_order.object_m_c_x_a_q, (pos, false)) ∧
      preserve_order.object_m_c_x_a_q.members_[pos]? = some m ∧ m.key = "a".data) :=
  ⟨by decide, by decide, by decide, by decide,
    (try_emplace_keeps_existing_member sorted.object_a_b preserve_order.object_m_c_x_a_q
      "a".data 9 (by decide) (by decide) (by decide) (by decide)).1,
    (try_emplace_keeps_existing_member sorted.object_a_b preserve_order.object_m_c_x_a_q
      "a".data 9 (by decide) (by decide) (by decide) (by decide)).2.1⟩

end jsoncons

namespace jsoncons

section
variable {K V : Type} [LinearOrder K]

theorem sorted_erase_spec (o : sorted.json_object K V) (k : K) (ho : o.strictly_ascending) :
    (k ∉ o.members_.map key_value.key → o.erase k = o) ∧
    (k ∈ o.members_.map key_value.key →
      (o.erase k).members_ = o.members_.filter (fun m => decide (m.key ≠ k)) ∧
      (o.erase k).size + 1 = o.size) := by
  obtain ⟨ms⟩ := o
  rw [sorted.strictly_ascending_iff] at ho
  rcases sorted.members_decompose ms k ho with
    ⟨l1, l2, rfl, h1, h2⟩ | ⟨l1, b, l2, rfl, h1, hb, h2⟩
  · refine ⟨fun _ => sorted.erase_absent l1 l2 k h1 h2, fun hk => ?_⟩
    exact absurd hk (sorted.absent_not_mem l1 l2 k h1 h2)
  · refine ⟨fun hk => absurd (sorted.present_mem l1 l2 b k hb) hk, fun _ => ?_⟩
    rw [sorted.erase_present l1 l2 b k h1 hb h2]
    constructor
    · have e1 : l1.filter (fun m => decide (m.key ≠ k)) = l1 :=
        List.filter_eq_self.2 (fun m hm => by simpa using ne_of_lt (h1 m hm))
      have e2 : l2.filter (fun m => decide (m.key ≠ k)) = l2 :=
        List.filter_eq_self.2 (fun m hm => by simpa using ne_of_gt (h2 m hm))
      simp only [List.filter_append]
      rw [List.filter_cons_of_neg (by simpa using hb), e1, e2]
    · simp [sorted.json_object.size]; omega

theorem order_preserving_erase_spec (p : preserve_order.json_object K V) (k : K)
    (hp : p.index_consistent) :
    ∃ p1, p.erase k = .ok p1 ∧
      (k ∉ p.members_.map key_value.key → p1 = p) ∧
      (k ∈ p.members_.map key_value.key →
        p1.members_ = p.members_.filter (fun m => decide (m.key ≠ k)) ∧
        p1.size + 1 = p.size) := by
  obtain ⟨ms, idx⟩ := p
  rcases preserve_order.index_decompose_of_consistent ⟨ms, idx⟩ k hp with
    ⟨l1, l2, hidx, h1, h2⟩ | ⟨l1, q, l2, b, hidx, h1, hb, hbk, h2⟩
  · simp only at hidx h1 h2
    subst hidx
    refine ⟨_, preserve_order.index_erase_absent ms l1 l2 k h1 h2, fun _ => rfl, fun hk => ?_⟩
    exact absurd hk (preserve_order.index_absent_not_mem ms l1 l2 k hp.1 h1 h2)
  · simp only at hidx h1 h2 hb
    subst hidx
    refine ⟨_, preserve_order.index_erase_present ms l1 l2 q b k hp.1 h1 hb hbk h2,
      fun hk => absurd (preserve_order.index_present_mem ms q b k hb hbk) hk, fun _ => ?_⟩
    have hq : q < ms.length := (List.getElem?_eq_some.1 hb).1
    constructor
    · simp only
      rw [← hbk]
      apply eraseIdx_eq_filter_key ms q b hb
      intro i m hi hmk
      exact preserve_order.key_position_unique ⟨ms, l1 ++ q :: l2⟩ hp i q m b hi hb hmk
    · simp only [preserve_order.json_object.size, List.length_eraseIdx, if_pos hq]
      omega

/-- C10: for a sorted object with strictly ascending keys and for an
order-preserving object with a consistent index, `erase(key)` leaves the
container unchanged when the key is absent; when the key is present the new
member sequence is the old one without the member carrying that key (all other
members keep their values and relative order) and the size is one less. -/
theorem erase_key_removes_exactly_that_member (o : sorted.json_object K V)
    (p : preserve_order.json_object K V) (k : K)
    (ho : o.strictly_ascending) (hp : p.index_consistent) :
    ((k ∉ o.members_.map key_value.key → o.erase k = o) ∧
     (k ∈ o.members_.map key_value.key →
       (o.erase k).members_ = o.members_.filter (fun m => decide (m.key ≠ k)) ∧
       (o.erase k).size + 1 = o.size)) ∧
    (∃ p1, p.erase k = .ok p1 ∧
      (k ∉ p.members_.map key_value.key → p1 = p) ∧
      (k ∈ p.members_.map key_value.key →
        p1.members_ = p.members_.filter (fun m => decide (m.key ≠ k)) ∧
        p1.size + 1 = p.size)) :=
  ⟨sorted_erase_spec o k ho, order_preserving_erase_spec p k hp⟩

end

theorem erase_key_removes_exactly_that_member_witness :
    sorted.object_a_b.strictly_ascending ∧ preserve_order.object_m_c_x_a_q.index_consistent ∧
    (sorted.object_a_b.erase "a".data).members_ = [⟨"b".data, 2⟩] ∧
    (("a".data ∉ sorted.object_a_b.members_.map key_value.key →
        sorted.object_a_b.erase "a".data = sorted.object_a_b) ∧
     ("a".data ∈ sorted.object_a_b.members_.map key_value.key →
       (sorted.object_a_b.erase "a".data).members_ =
         sorted.object_a_b.members_.filter (fun m => decide (m.key ≠ "a".data)) ∧
       (sorted.object_a_b.erase "a".data).size + 1 = sorted.object_a_b.size)) ∧
    (∃ p1, preserve_order.object_m_c_x_a_q.erase "a".data = .ok p1 ∧
      ("a".data ∉ preserve_order.object_m_c_x_a_q.members_.map key_value.key →
        p1 = preserve_order.object_m_c_x_a_q) ∧
      ("a".data ∈ preserve_order.object_m_c_x_a_q.members_.map key_value.key →
        p1.members_ =
          preserve_order.object_m_c_x_a_q.members_.filter (fun m => decide (m.key ≠ "a".data)) ∧
        p1.size + 1 = preserve_order.object_m_c_x_a_q.size)) :=
  ⟨by decide, by decide, by decide,
    (erase_key_removes_exactly_that_member sorted.object_a_b preserve_order.object_m_c_x_a_q
      "a".data (by decide) (by decide)).1,
    (erase_key_removes_exactly_that_member sorted.object_a_b preserve_order.object_m_c_x_a_q
      "a".data (by decide) (by decide)).2⟩

end jsoncons

namespace jsoncons

/-! ## Facts about `std::stable_sort` and `std::unique` -/

section
variable {α : Type}

theorem stable_insert_perm (comp : α → α → Bool) (a : α) :
    ∀ l : List α, (stable_insert comp a l).Perm (a :: l) := by
  intro l
  induction l with
  | nil => exact List.Perm.refl _
  | cons b t ih =>
    simp only [stable_insert]
    split
    · exact (List.Perm.cons b ih).trans (List.Perm.swap a b t)
    · exact List.Perm.refl _

theorem stable_sort_perm (comp : α → α → Bool) : ∀ l : List α, (stable_sort comp l).Perm l := by
  intro l
  induction l with
  | nil => exact List.Perm.refl _
  | cons a t ih =>
    simp only [stable_sort]
    exact (stable_insert_perm comp a _).trans (List.Perm.cons a ih)

theorem stable_insert_congr (c1 c2 : α → α → Bool) (a : α) :
    ∀ l : List α, (∀ b ∈ l, c1 b a = c2 b a) → stable_insert c1 a l = stable_insert c2 a l := by
  intro l
  induction l with
  | nil => intro _; rfl
  | cons b t ih =>
    intro h
    simp only [stable_insert]
    rw [h b (List.mem_cons_self _ _), ih (fun x hx => h x (List.mem_cons_of_mem _ hx))]

/-- `std::stable_sort` only applies its comparison to elements of the range. -/
theorem stable_sort_congr (c1 c2 : α → α → Bool) :
    ∀ l : List α, (∀ a ∈ l, ∀ b ∈ l, c1 a b = c2 a b) → stable_sort c1 l = stable_sort c2 l := by
  intro l
  induction l with
  | nil => intro _; rfl
  | cons a t ih =>
    intro h
    simp only [stable_sort]
    rw [ih (fun x hx y hy => h x (List.mem_cons_of_mem _ hx) y (List.mem_cons_of_mem _ hy))]
    apply stable_insert_congr
    intro b hb
    exact h b (List.mem_cons_of_mem _ ((stable_sort_perm c2 t).mem_iff.1 hb)) a
      (List.mem_cons_self _ _)

theorem unique_loop_congr (p1 p2 : α → α → Bool) :
    ∀ (l : List α) (last : α), (∀ a ∈ last :: l, ∀ b ∈ last :: l, p1 a b = p2 a b) →
      unique_loop p1 last l = unique_loop p2 last l := by
  intro l
  induction l with
  | nil => intro _ _; rfl
  | cons b t ih =>
    intro last h
    simp only [unique_loop]
    rw [h last (List.mem_cons_self _ _) b (List.mem_cons_of_mem _ (List.mem_cons_self _ _))]
    rw [ih last (fun x hx y hy => h x (by
        rcases List.mem_cons.1 hx with rfl | hx
        · exact List.mem_cons_self _ _
        · exact List.mem_cons_of_mem _ (List.mem_cons_of_mem _ hx)) y (by
        rcases List.mem_cons.1 hy with rfl | hy
        · exact List.mem_cons_self _ _
        · exact List.mem_cons_of_mem _ (List.mem_cons_of_mem _ hy)))]
    rw [ih b (fun x hx y hy => h x (List.mem_cons_of_mem _ hx) y (List.mem_cons_of_mem _ hy))]

/-- `std::unique` only applies its predicate to elements of the range. -/
theorem unique_congr (p1 p2 : α → α → Bool) (l : List α)
    (h : ∀ a ∈ l, ∀ b ∈ l, p1 a b = p2 a b) : unique p1 l = unique p2 l := by
  cases l with
  | nil => rfl
  | cons a t =>
    simp only [unique]
    rw [unique_loop_congr p1 p2 t a h]

end

section
variable {α K : Type} [LinearOrder K] (f : α → K)

theorem stable_insert_sorted (a : α) :
    ∀ l : List α, l.Pairwise (fun x y => f x ≤ f y) →
      (stable_insert (fun x y => decide (f x < f y)) a l).Pairwise (fun x y => f x ≤ f y) := by
  intro l
  induction l with
  | nil => intro _; simp [stable_insert]
  | cons b t ih =>
    intro h
    rw [List.pairwise_cons] at h
    simp only [stable_insert]
    split
    · rename_i hba
      simp only [decide_eq_true_eq] at hba
      rw [List.pairwise_cons]
      refine ⟨?_, ih h.2⟩
      intro x hx
      rcases List.mem_cons.1 ((stable_insert_perm _ a t).mem_iff.1 hx) with rfl | hxt
      · exact le_of_lt hba
      · exact h.1 x hxt
    · rename_i hba
      simp only [decide_eq_true_eq, not_lt] at hba
      rw [List.pairwise_cons]
      refine ⟨?_, List.pairwise_cons.2 h⟩
      intro x hx
      rcases List.mem_cons.1 hx with rfl | hxt
      · exact hba
      · exact le_trans hba (h.1 x hxt)

/-- The result of `std::stable_sort` by key is ascending by key. -/
theorem stable_sort_sorted :
    ∀ l : List α, (stable_sort (fun x y => decide (f x < f y)) l).Pairwise
      (fun x y => f x ≤ f y) := by
  intro l
  induction l with
  | nil => simp [stable_sort]
  | cons a t ih => exact stable_insert_sorted f a _ ih

theorem stable_insert_filter (a : α) (k : K) :
    ∀ l : List α, (stable_insert (fun x y => decide (f x < f y)) a l).filter
        (fun x => decide (f x = k)) =
      (a :: l).filter (fun x => decide (f x = k)) := by
  intro l
  induction l with
  | nil => rfl
  | cons b t ih =>
    simp only [stable_insert]
    split
    · rename_i hba
      simp only [decide_eq_true_eq] at hba
      rw [List.filter_cons, ih]
      by_cases hb : f b = k
      · have ha : ¬ f a = k := fun h => by rw [← h] at hb; exact absurd hb (ne_of_lt hba)
        simp [List.filter_cons, hb, ha]
      · simp [List.filter_cons, hb]
    · rfl

/-- Stability: `std::stable_sort` by key keeps the members of equal key in their
original order. -/
theorem stable_sort_filter (k : K) :
    ∀ l : List α, (stable_sort (fun x y => decide (f x < f y)) l).filter
        (fun x => decide (f x = k)) =
      l.filter (fun x => decide (f x = k)) := by
  intro l
  induction l with
  | nil => rfl
  | cons a t ih =>
    simp only [stable_sort]
    rw [stable_insert_filter, List.filter_cons, List.filter_cons, ih]

theorem find?_eq_head?_filter (p : α → Bool) :
    ∀ l : List α, l.find? p = (l.filter p).head? := by
  intro l
  induction l with
  | nil => rfl
  | cons a t ih =>
    by_cases h : p a = true
    · rw [List.find?_cons_of_pos _ h, List.filter_cons_of_pos h]
      rfl
    · rw [List.find?_cons_of_neg _ h, List.filter_cons_of_neg h]
      exact ih

theorem stable_sort_find? (k : K) (l : List α) :
    (stable_sort (fun x y => decide (f x < f y)) l).find? (fun x => decide (f x = k)) =
      l.find? (fun x => decide (f x = k)) := by
  rw [find?_eq_head?_filter, find?_eq_head?_filter, stable_sort_filter]

theorem unique_loop_find? (k : K) :
    ∀ (l : List α) (last : α),
      (last :: unique_loop (fun x y => decide (f x = f y)) last l).find?
          (fun x => decide (f x = k)) =
        (last :: l).find? (fun x => decide (f x = k)) := by
  intro l
  induction l with
  | nil => intro _; rfl
  | cons b t ih =>
    intro last
    simp only [unique_loop]
    split
    · rename_i hlb
      simp only [decide_eq_true_eq] at hlb
      rw [ih last]
      by_cases hl : f last = k
      · simp [List.find?_cons, hl]
      · have hb : ¬ f b = k := fun h => hl (hlb.trans h)
        simp [List.find?_cons, hl, hb]
    · by_cases hl : f last = k
      · simp [List.find?_cons, hl]
      · have := ih b
        simp only [List.find?_cons, hl, decide_False] at this ⊢
        exact this

/-- `std::unique` by key keeps the first member of every key. -/
theorem unique_find? (k : K) (l : List α) :
    (unique (fun x y => decide (f x = f y)) l).find? (fun x => decide (f x = k)) =
      l.find? (fun x => decide (f x = k)) := by
  cases l with
  | nil => rfl
  | cons a t => exact unique_loop_find? f k t a

theorem unique_loop_sorted :
    ∀ (l : List α) (last : α), (last :: l).Pairwise (fun x y => f x ≤ f y) →
      (last :: unique_loop (fun x y => decide (f x = f y)) last l).Pairwise
        (fun x y => f x < f y) := by
  intro l
  induction l with
  | nil => intro last _; simp [unique_loop]
  | cons b t ih =>
    intro last h
    rw [List.pairwise_cons, List.pairwise_cons] at h
    simp only [unique_loop]
    split
    · exact ih last (List.pairwise_cons.2 ⟨fun x hx => h.1 x (List.mem_cons_of_mem _ hx), h.2.2⟩)
    · rename_i hlb
      simp only [decide_eq_true_eq] at hlb
      have hlt : f last < f b := lt_of_le_of_ne (h.1 b (List.mem_cons_self _ _)) hlb
      have ihb := ih b (List.pairwise_cons.2 h.2)
      rw [List.pairwise_cons] at ihb ⊢
      refine ⟨?_, List.pairwise_cons.2 ihb⟩
      intro x hx
      rcases List.mem_cons.1 hx with rfl | hxt
      · exact hlt
      · exact lt_trans hlt (ihb.1 x hxt)

/-- On a range ascending by key, `std::unique` by key leaves a strictly
ascending range. -/
theorem unique_sorted (l : List α) (h : l.Pairwise (fun x y => f x ≤ f y)) :
    (unique (fun x y => decide (f x = f y)) l).Pairwise (fun x y => f x < f y) := by
  cases l with
  | nil => simp [unique]
  | cons a t => exact unique_loop_sorted f t a h

theorem mem_of_strictly_sorted_iff_find? (l : List α)
    (h : l.Pairwise (fun x y => f x < f y)) (a : α) :
    a ∈ l ↔ l.find? (fun x => decide (f x = f a)) = some a := by
  constructor
  · intro ha
    induction l with
    | nil => simp at ha
    | cons b t ih =>
      rw [List.pairwise_cons] at h
      rcases List.mem_cons.1 ha with rfl | hat
      · simp [List.find?_cons]
      · have hne : ¬ f b = f a := ne_of_lt (h.1 a hat)
        simp only [List.find?_cons, hne, decide_False]
        exact ih h.2 hat
  · intro hf
    exact List.mem_of_find?_eq_some hf

theorem mem_map_iff_find?_isSome (l : List α) (k : K) :
    k ∈ l.map f ↔ (l.find? (fun x => decide (f x = k))).isSome = true := by
  rw [List.find?_isSome]
  simp [List.mem_map]

end

end jsoncons

namespace jsoncons

namespace sorted

variable {K V : Type} [LinearOrder K]

/-- C4: the range constructor of the sorted object builds, from any finite list
of key/value pairs, a member sequence that is strictly ascending by key and in
which, for every key `k`, the member with key `k` is the FIRST pair of the input
with key `k` (and there is none exactly when the input has none): one member per
distinct key, carrying the value of the key's first occurrence. For
`[("a",1),("b",2),("a",3)]` the result is `{"a":1,"b":2}`. -/
theorem sorted_range_constructor_keeps_first_occurrence (input : List (key_value K V))
    (k : K) :
    (json_object.from_range input).strictly_ascending ∧
    (json_object.from_range input).members_.find? (fun m => decide (m.key = k)) =
      input.find? (fun m => decide (m.key = k)) ∧
    (k ∈ (json_object.from_range input).members_.map key_value.key ↔
      k ∈ input.map key_value.key) ∧
    (json_object.from_range
        [(⟨"a".data, 1⟩ : key_value (List Char) Int), ⟨"b".data, 2⟩, ⟨"a".data, 3⟩]).members_ =
      [⟨"a".data, 1⟩, ⟨"b".data, 2⟩] := by
  have hfind : (json_object.from_range input).members_.find? (fun m => decide (m.key = k)) =
      input.find? (fun m => decide (m.key = k)) := by
    simp only [json_object.from_range]
    rw [unique_find? key_value.key k, stable_sort_find? key_value.key k]
  refine ⟨?_, hfind, ?_, by decide⟩
  · rw [strictly_ascending_iff]
    exact unique_sorted key_value.key _ (stable_sort_sorted key_value.key input)
  · rw [mem_map_iff_find?_isSome, mem_map_iff_find?_isSome, hfind]

end sorted

end jsoncons

namespace jsoncons

namespace preserve_order

variable {K V : Type} [LinearOrder K]

omit [LinearOrder K] in
theorem key_at_of_getElem? (ms : List (key_value K V)) (i : Nat) (m : key_value K V)
    (h : ms[i]? = some m) : key_at ms i = (m.key : WithBot K) := by
  simp [key_at, h]

theorem index_less_eq_key_at (ms : List (key_value K V)) (i j : Nat)
    (hi : i < ms.length) (hj : j < ms.length) :
    index_less ms i j = decide (key_at ms i < key_at ms j) := by
  simp [index_less, key_at, List.getElem?_eq_getElem hi, List.getElem?_eq_getElem hj]

theorem index_equal_eq_key_at (ms : List (key_value K V)) (i j : Nat)
    (hi : i < ms.length) (hj : j < ms.length) :
    index_equal ms i j = decide (key_at ms i = key_at ms j) := by
  simp [index_equal, key_at, List.getElem?_eq_getElem hi, List.getElem?_eq_getElem hj]

theorem build_index_eq (ms : List (key_value K V)) :
    build_index ms =
      stable_sort (fun i j => decide (key_at ms i < key_at ms j)) (List.range ms.length) := by
  unfold build_index
  apply stable_sort_congr
  intro a ha b hb
  exact index_less_eq_key_at ms a b (List.mem_range.1 ha) (List.mem_range.1 hb)

theorem build_index_perm (ms : List (key_value K V)) :
    (build_index ms).Perm (List.range ms.length) :=
  stable_sort_perm _ _

theorem unique_build_index_eq (ms : List (key_value K V)) :
    unique (index_equal ms) (build_index ms) =
      unique (fun i j => decide (key_at ms i = key_at ms j)) (build_index ms) := by
  apply unique_congr
  intro a ha b hb
  have ha2 := List.mem_range.1 ((build_index_perm ms).mem_iff.1 ha)
  have hb2 := List.mem_range.1 ((build_index_perm ms).mem_iff.1 hb)
  exact index_equal_eq_key_at ms a b ha2 hb2

end preserve_order

end jsoncons

namespace jsoncons

theorem range_find?_eq_some (p : Nat → Bool) :
    ∀ n i, (List.range n).find? p = some i ↔
      i < n ∧ p i = true ∧ ∀ j, j < i → p j = false := by
  intro n
  induction n with
  | zero => intro i; simp
  | succ n ih =>
    intro i
    rw [List.range_succ, List.find?_append]
    cases hf : (List.range n).find? p with
    | some i1 =>
      obtain ⟨h1, h2, h3⟩ := (ih i1).1 hf
      simp only [Option.or_some, Option.some.injEq]
      constructor
      · rintro rfl
        exact ⟨by omega, h2, h3⟩
      · rintro ⟨_, g2, g3⟩
        rcases Nat.lt_trichotomy i1 i with hlt | heq | hgt
        · rw [g3 i1 hlt] at h2; cases h2
        · exact heq
        · rw [h3 i hgt] at g2; cases g2
    | none =>
      have hnone : ∀ j, j < n → p j = false := by
        intro j hj
        have := List.find?_eq_none.1 hf j (List.mem_range.2 hj)
        simpa using this
      simp only [Option.none_or]
      by_cases hn : p n = true
      · simp only [List.find?_cons, hn, Option.some.injEq]
        constructor
        · rintro rfl
          exact ⟨by omega, hn, hnone⟩
        · rintro ⟨g1, g2, _⟩
          by_contra hne
          have : i < n := by omega
          rw [hnone i this] at g2; cases g2
      · simp only [List.find?_cons, hn, List.find?_nil]
        constructor
        · intro h; cases h
        · rintro ⟨g1, g2, _⟩
          exfalso
          by_cases hin : i = n
          · subst hin; exact hn g2
          · have : i < n := by omega
            rw [hnone i this] at g2; cases g2

namespace preserve_order

variable {K V : Type} [LinearOrder K]

theorem unique_index_strict (ms : List (key_value K V)) :
    (unique (index_equal ms) (build_index ms)).Pairwise
      (fun i j => key_at ms i < key_at ms j) := by
  rw [unique_build_index_eq, build_index_eq]
  exact unique_sorted (key_at ms) _ (stable_sort_sorted (key_at ms) _)

/-- The slots that `std::unique` keeps in the freshly built index are the positions
of the first occurrences of the keys. -/
theorem mem_unique_index_iff (ms : List (key_value K V)) (i : Nat) :
    i ∈ unique (index_equal ms) (build_index ms) ↔
      i < ms.length ∧ ∀ j, j < i → key_at ms j ≠ key_at ms i := by
  rw [mem_of_strictly_sorted_iff_find? (key_at ms) _ (unique_index_strict ms) i]
  rw [unique_build_index_eq, build_index_eq, unique_find? (key_at ms),
    stable_sort_find? (key_at ms), range_find?_eq_some]
  simp

end preserve_order

end jsoncons

namespace jsoncons

namespace preserve_order

variable {K V : Type} [LinearOrder K]

theorem mem_first_positions_iff (ms : List (key_value K V)) (i : Nat) :
    i ∈ first_positions ms ↔ i < ms.length ∧ ∀ j, j < i → key_at ms j ≠ key_at ms i := by
  simp [first_positions, List.mem_filter]

theorem first_positions_sorted (ms : List (key_value K V)) :
    (first_positions ms).Pairwise (· < ·) :=
  (List.pairwise_lt_range _).sublist (List.filter_sublist _)

/-- After `std::unique` and `std::sort` the index holds the positions of the
first occurrences in ascending order. -/
theorem sort_unique_index_eq (ms : List (key_value K V)) :
    stable_sort (fun a b => decide (a < b)) (unique (index_equal ms) (build_index ms)) =
      first_positions ms := by
  have hnd : (unique (index_equal ms) (build_index ms)).Nodup :=
    (unique_index_strict ms).imp (fun h => fun heq => by rw [heq] at h; exact lt_irrefl _ h)
  have hperm : (stable_sort (fun a b => decide (a < b))
      (unique (index_equal ms) (build_index ms))).Perm (first_positions ms) := by
    refine (stable_sort_perm _ _).trans ?_
    rw [List.perm_ext_iff_of_nodup hnd ((first_positions_sorted ms).imp (fun h => ne_of_lt h))]
    intro i
    rw [mem_unique_index_iff, mem_first_positions_iff]
  have hs1 : (stable_sort (fun a b => decide (a < b))
      (unique (index_equal ms) (build_index ms))).Sorted (· ≤ ·) :=
    stable_sort_sorted (fun x : Nat => x) _
  have hs2 : (first_positions ms).Sorted (· ≤ ·) :=
    (first_positions_sorted ms).imp (fun h => le_of_lt h)
  exact List.eq_of_perm_of_sorted hperm hs1 hs2

theorem unique_index_length (ms : List (key_value K V)) :
    (unique (index_equal ms) (build_index ms)).length = (first_positions ms).length := by
  rw [← sort_unique_index_eq]
  exact ((stable_sort_perm _ _).length_eq).symm

end preserve_order

end jsoncons

namespace jsoncons

section
variable {α : Type}

theorem take_succ_getElem (ms : List α) (r : Nat) (h : r < ms.length) :
    ms.take (r + 1) = ms.take r ++ [ms[r]] := by
  rw [List.take_succ, List.getElem?_eq_getElem h]
  rfl

theorem take_succ_drop (ms : List α) (r : Nat) (h : r < ms.length) :
    (ms.take (r + 1)).drop r = [ms[r]] := by
  rw [List.take_succ, List.getElem?_eq_getElem h]
  have hlen : (ms.take r).length = r := by rw [List.length_take]; omega
  simp only [Option.toList]
  rw [List.drop_append_eq_append_drop, hlen, Nat.sub_self, List.drop_zero]
  rw [List.drop_eq_nil_of_le (by omega)]
  rfl

theorem filterMap_getElem?_singleton (ms : List α) (r : Nat) (h : r < ms.length) :
    [r].filterMap (fun i => ms[i]?) = [ms[r]] := by
  simp [List.filterMap, List.getElem?_eq_getElem h]

end

namespace preserve_order

variable {K V : Type}

/-- The compaction loop of the range constructor: started behind the last kept
position with the members cut off there, it leaves the members in front of the
smallest kept position, then the members at the kept positions. -/
theorem compact_loop_eq (ms : List (key_value K V)) :
    ∀ (rest : List Nat) (result : Nat) (T : List (key_value K V)) (z : Nat),
      (result :: rest).Pairwise (· > ·) → result < ms.length →
      (result :: rest).getLast? = some z →
      compact_loop rest result (ms.take (result + 1) ++ T) =
        ms.take z ++ ((rest.reverse ++ [result]).filterMap (fun i => ms[i]?) ++ T) := by
  intro rest
  induction rest with
  | nil =>
    intro result T z _ hlt hz
    simp only [List.getLast?_singleton, Option.some.injEq] at hz
    subst hz
    simp only [compact_loop, List.reverse_nil, List.nil_append]
    rw [filterMap_getElem?_singleton ms result hlt, take_succ_getElem ms result hlt,
      List.append_assoc]
  | cons it rest ih =>
    intro result T z hp hlt hz
    rw [List.getLast?_cons_cons] at hz
    rw [List.pairwise_cons] at hp
    have hit : it < result := hp.1 it (List.mem_cons_self _ _)
    have hstep : (if result - it > 1 then
          vector_erase (ms.take (result + 1) ++ T) (it + 1) result
        else ms.take (result + 1) ++ T) =
        ms.take (it + 1) ++ ([ms[result]] ++ T) := by
      have hlen : (ms.take (result + 1)).length = result + 1 := by
        rw [List.length_take]; omega
      split
      · simp only [vector_erase]
        rw [List.take_append_of_le_length (by omega), List.take_take,
          List.drop_append_of_le_length (by omega), take_succ_drop ms result hlt]
        rw [Nat.min_eq_left (by omega)]
      · have hr : result = it + 1 := by omega
        subst hr
        rw [take_succ_getElem ms (it + 1) hlt, List.append_assoc]
    have hrec : compact_loop (it :: rest) result (ms.take (result + 1) ++ T) =
        compact_loop rest it (ms.take (it + 1) ++ ([ms[result]] ++ T)) := by
      rw [← hstep]
      simp only [compact_loop]
      split <;> rfl
    rw [hrec, ih it ([ms[result]] ++ T) z hp.2 (by omega) hz]
    simp only [List.reverse_cons, List.filterMap_append, List.append_assoc]
    rw [filterMap_getElem?_singleton ms result hlt]

theorem filterMap_getElem?_snoc (ms : List (key_value K V)) (x : key_value K V) (l : List Nat)
    (h : ∀ i ∈ l, i < ms.length) :
    l.filterMap (fun i => (ms ++ [x])[i]?) = l.filterMap (fun i => ms[i]?) := by
  induction l with
  | nil => rfl
  | cons a t ih =>
    have ha : (ms ++ [x])[a]? = ms[a]? :=
      List.getElem?_append_left (h a (List.mem_cons_self _ _))
    simp only [List.filterMap_cons, ha]
    rw [ih (fun i hi => h i (List.mem_cons_of_mem _ hi))]

theorem filterMap_getElem?_range (ms : List (key_value K V)) :
    (List.range ms.length).filterMap (fun i => ms[i]?) = ms := by
  induction ms using List.reverseRecOn with
  | nil => rfl
  | append_singleton ms x ih =>
    rw [List.length_append, List.length_singleton, List.range_succ, List.filterMap_append,
      filterMap_getElem?_snoc ms x _ (fun i hi => List.mem_range.1 hi), ih]
    simp

end preserve_order

end jsoncons

namespace jsoncons

namespace preserve_order

variable {K V : Type} [LinearOrder K]

theorem zero_mem_first_positions (ms : List (key_value K V)) (h : 0 < ms.length) :
    0 ∈ first_positions ms := by
  rw [mem_first_positions_iff]
  exact ⟨h, fun j hj => absurd hj (Nat.not_lt_zero j)⟩

theorem first_positions_head (ms : List (key_value K V)) (h : 0 < ms.length) :
    ∃ rest, first_positions ms = 0 :: rest := by
  have h0 := zero_mem_first_positions ms h
  have hs := first_positions_sorted ms
  cases hP : first_positions ms with
  | nil => rw [hP] at h0; simp at h0
  | cons a rest =>
    rw [hP] at h0 hs
    rw [List.pairwise_cons] at hs
    rcases List.mem_cons.1 h0 with h1 | h1
    · exact ⟨rest, by rw [← h1]⟩
    · exact absurd (hs.1 0 h1) (Nat.not_lt_zero a)

theorem first_positions_eq_range (ms : List (key_value K V))
    (h : (first_positions ms).length = ms.length) :
    first_positions ms = List.range ms.length := by
  have hsub : (first_positions ms).Sublist (List.range ms.length) := List.filter_sublist _
  exact hsub.eq_of_length (by rw [h, List.length_range])

/-- Between the two `build_index()` calls the range constructor reduces the
members to those at the positions of first occurrences. -/
theorem remove_duplicates_eq (ms : List (key_value K V)) :
    remove_duplicates ms (build_index ms) =
      (first_positions ms).filterMap (fun i => ms[i]?) := by
  have hblen : (build_index ms).length = ms.length := by
    rw [(build_index_perm ms).length_eq, List.length_range]
  unfold remove_duplicates
  simp only [sort_unique_index_eq, unique_index_length, hblen]
  split
  · rename_i hne
    have hpos : 0 < ms.length := by
      rcases Nat.eq_zero_or_pos ms.length with h0 | h0
      · exfalso
        apply hne
        have : ms = [] := List.length_eq_zero.1 h0
        subst this
        rfl
      · exact h0
    obtain ⟨P, hP⟩ := first_positions_head ms hpos
    cases hrev : (first_positions ms).reverse with
    | nil =>
      rw [hP] at hrev
      simp at hrev
    | cons result rest =>
      simp only
      have hmem : result ∈ first_positions ms := by
        rw [← List.mem_reverse, hrev]
        exact List.mem_cons_self _ _
      have hlt : result < ms.length := ((mem_first_positions_iff ms result).1 hmem).1
      have hdesc : (result :: rest).Pairwise (· > ·) := by
        rw [← hrev, List.pairwise_reverse]
        exact first_positions_sorted ms
      have hlast : (result :: rest).getLast? = some 0 := by
        rw [← hrev, hP, List.reverse_cons, List.getLast?_concat]
      have horig : rest.reverse ++ [result] = first_positions ms := by
        rw [← List.reverse_cons, ← hrev, List.reverse_reverse]
      rw [if_pos (ne_of_lt hlt)]
      have hcut : vector_erase ms (result + 1) ms.length = ms.take (result + 1) ++ [] := by
        simp [vector_erase]
      rw [hcut, compact_loop_eq ms rest result [] 0 hdesc hlt hlast, horig]
      simp
  · rename_i heq
    have hlen : (first_positions ms).length = ms.length := by
      by_contra h
      exact heq h
    rw [first_positions_eq_range ms hlen, filterMap_getElem?_range]

end preserve_order

end jsoncons

namespace jsoncons

namespace preserve_order

variable {K V : Type} [LinearOrder K]

omit [LinearOrder K] in
theorem key_at_snoc_lt (ms : List (key_value K V)) (x : key_value K V) (j : Nat)
    (h : j < ms.length) : key_at (ms ++ [x]) j = key_at ms j := by
  unfold key_at
  rw [List.getElem?_append_left h]

omit [LinearOrder K] in
theorem key_at_snoc_length (ms : List (key_value K V)) (x : key_value K V) :
    key_at (ms ++ [x]) ms.length = (x.key : WithBot K) := by
  unfold key_at
  rw [List.getElem?_append_right (le_refl _)]
  simp

omit [LinearOrder K] in
theorem key_at_lt (ms : List (key_value K V)) (j : Nat) (h : j < ms.length) :
    key_at ms j = (ms[j].key : WithBot K) := by
  unfold key_at
  rw [List.getElem?_eq_getElem h]

theorem first_positions_snoc (ms : List (key_value K V)) (x : key_value K V) :
    first_positions (ms ++ [x]) =
      first_positions ms ++ (if x.key ∈ ms.map key_value.key then [] else [ms.length]) := by
  unfold first_positions
  rw [List.length_append, List.length_singleton, List.range_succ, List.filter_append]
  congr 1
  · apply List.filter_congr
    intro i hi
    have hi2 := List.mem_range.1 hi
    apply decide_eq_decide.2
    constructor
    · intro h j hj
      have := h j hj
      rwa [key_at_snoc_lt ms x j (by omega), key_at_snoc_lt ms x i hi2] at this
    · intro h j hj
      rw [key_at_snoc_lt ms x j (by omega), key_at_snoc_lt ms x i hi2]
      exact h j hj
  · by_cases hx : x.key ∈ ms.map key_value.key
    · rw [if_pos hx]
      obtain ⟨m, hm, hmk⟩ := List.mem_map.1 hx
      obtain ⟨j, hj, hjm⟩ := List.mem_iff_getElem.1 hm
      have : ¬ ∀ j, j < ms.length → key_at (ms ++ [x]) j ≠ key_at (ms ++ [x]) ms.length := by
        intro h
        apply h j hj
        rw [key_at_snoc_lt ms x j hj, key_at_snoc_length, key_at_lt ms j hj, hjm, hmk]
      rw [List.filter_cons_of_neg (by simpa using this)]
      rfl
    · rw [if_neg hx]
      have : ∀ j, j < ms.length → key_at (ms ++ [x]) j ≠ key_at (ms ++ [x]) ms.length := by
        intro j hj heq
        rw [key_at_snoc_lt ms x j hj, key_at_snoc_length, key_at_lt ms j hj] at heq
        apply hx
        exact List.mem_map.2 ⟨ms[j], List.getElem_mem _, WithBot.coe_injective heq⟩
      rw [List.filter_cons_of_pos (by simpa using this)]
      rfl

theorem delete_later_occurrences_cons_seen (seen : List K) (m : key_value K V)
    (rest : List (key_value K V)) (h : m.key ∈ seen) :
    delete_later_occurrences seen (m :: rest) = delete_later_occurrences seen rest := by
  rw [delete_later_occurrences, if_pos h]

theorem delete_later_occurrences_cons_new (seen : List K) (m : key_value K V)
    (rest : List (key_value K V)) (h : m.key ∉ seen) :
    delete_later_occurrences seen (m :: rest) =
      m :: delete_later_occurrences (m.key :: seen) rest := by
  rw [delete_later_occurrences, if_neg h]

theorem delete_later_occurrences_snoc (x : key_value K V) :
    ∀ (ms : List (key_value K V)) (seen : List K),
      delete_later_occurrences seen (ms ++ [x]) =
        delete_later_occurrences seen ms ++
          (if x.key ∈ seen ∨ x.key ∈ ms.map key_value.key then [] else [x]) := by
  intro ms
  induction ms with
  | nil =>
    intro seen
    by_cases h : x.key ∈ seen <;> simp [delete_later_occurrences, h]
  | cons a t ih =>
    intro seen
    rw [List.cons_append]
    by_cases ha : a.key ∈ seen
    · rw [delete_later_occurrences_cons_seen _ _ _ ha,
        delete_later_occurrences_cons_seen _ _ _ ha, ih seen]
      congr 1
      by_cases hxs : x.key ∈ seen
      · simp [hxs]
      · have hxa : x.key ≠ a.key := fun h => hxs (h ▸ ha)
        simp [hxs, hxa]
    · rw [delete_later_occurrences_cons_new _ _ _ ha,
        delete_later_occurrences_cons_new _ _ _ ha, ih (a.key :: seen)]
      simp only [List.cons_append, List.mem_cons, List.map_cons]
      congr 2
      apply if_congr _ rfl rfl
      constructor
      · rintro ((h | h) | h)
        · exact Or.inr (Or.inl h)
        · exact Or.inl h
        · exact Or.inr (Or.inr h)
      · rintro (h | h | h)
        · exact Or.inl (Or.inr h)
        · exact Or.inl (Or.inl h)
        · exact Or.inr h

/-- The members at the positions of first occurrences are the input with every
later occurrence of an already-seen key deleted. -/
theorem first_positions_members_eq (ms : List (key_value K V)) :
    (first_positions ms).filterMap (fun i => ms[i]?) = delete_later_occurrences [] ms := by
  induction ms using List.reverseRecOn with
  | nil => rfl
  | append_singleton ms x ih =>
    rw [first_positions_snoc, List.filterMap_append, delete_later_occurrences_snoc,
      filterMap_getElem?_snoc ms x _
        (fun i hi => ((mem_first_positions_iff ms i).1 hi).1), ih]
    congr 1
    by_cases hx : x.key ∈ ms.map key_value.key
    · simp [hx]
    · simp only [hx, if_false, List.not_mem_nil, false_or]
      have : (ms ++ [x])[ms.length]? = some x := by
        rw [List.getElem?_append_right (le_refl _)]; simp
      simp [List.filterMap_cons, this]

end preserve_order

end jsoncons

namespace jsoncons

namespace preserve_order

variable {K V : Type} [LinearOrder K]

/-- On members with pairwise different keys `build_index()` establishes the
invariant of the order-preserving object. -/
theorem build_index_consistent (ms : List (key_value K V))
    (hnd : (ms.map key_value.key).Nodup) :
    (json_object.mk ms (build_index ms)).index_consistent := by
  refine ⟨build_index_perm ms, ?_⟩
  simp only
  have hle : (build_index ms).Pairwise (fun i j => key_at ms i ≤ key_at ms j) := by
    rw [build_index_eq]
    exact stable_sort_sorted (key_at ms) _
  have hne : (build_index ms).Pairwise (· ≠ ·) :=
    (build_index_perm ms).nodup_iff.2 (List.nodup_range _)
  refine (hle.and hne).imp_of_mem ?_
  intro i j hi hj hij
  have hi2 := List.mem_range.1 ((build_index_perm ms).mem_iff.1 hi)
  have hj2 := List.mem_range.1 ((build_index_perm ms).mem_iff.1 hj)
  rw [index_less_eq_key_at ms i j hi2 hj2, decide_eq_true_eq]
  refine lt_of_le_of_ne hij.1 ?_
  intro heq
  rw [key_at_lt ms i hi2, key_at_lt ms j hj2] at heq
  have hk : ms[i].key = ms[j].key := WithBot.coe_injective heq
  have hi3 : i < (ms.map key_value.key).length := by simpa using hi2
  have hj3 : j < (ms.map key_value.key).length := by simpa using hj2
  have : (ms.map key_value.key)[i] = (ms.map key_value.key)[j] := by
    simpa using hk
  exact hij.2 (hnd.getElem_inj_iff.1 this)

theorem delete_later_occurrences_keys :
    ∀ (ms : List (key_value K V)) (seen : List K),
      ((delete_later_occurrences seen ms).map key_value.key).Nodup ∧
      ∀ k ∈ (delete_later_occurrences seen ms).map key_value.key, k ∉ seen := by
  intro ms
  induction ms with
  | nil => intro seen; simp [delete_later_occurrences]
  | cons a t ih =>
    intro seen
    by_cases ha : a.key ∈ seen
    · rw [delete_later_occurrences_cons_seen _ _ _ ha]
      exact ih seen
    · rw [delete_later_occurrences_cons_new _ _ _ ha]
      obtain ⟨h1, h2⟩ := ih (a.key :: seen)
      constructor
      · rw [List.map_cons, List.nodup_cons]
        refine ⟨fun hmem => ?_, h1⟩
        exact h2 a.key hmem (List.mem_cons_self _ _)
      · intro k hk
        rw [List.map_cons] at hk
        rcases List.mem_cons.1 hk with rfl | hkt
        · exact ha
        · exact fun hs => h2 k hkt (List.mem_cons_of_mem _ hs)

theorem from_range_members (input : List (key_value K V)) :
    (json_object.from_range input).members_ = delete_later_occurrences [] input := by
  simp only [json_object.from_range]
  rw [remove_duplicates_eq, first_positions_members_eq]

/-- C5: the range constructor of the order-preserving object builds, from any
finite list of key/value pairs with any pattern of duplicates, the input list
with every later occurrence of an already-seen key deleted (first occurrences
kept in their original order), and an index that is a permutation of
`[0, size)` through which the keys are strictly ascending. For
`[("a",1),("b",2),("a",3)]` the members are `[("a",1),("b",2)]`. -/
theorem order_preserving_range_constructor_keeps_first_occurrences
    (input : List (key_value K V)) :
    (json_object.from_range input).members_ = delete_later_occurrences [] input ∧
    (json_object.from_range input).index_.Perm
      (List.range (json_object.from_range input).size) ∧
    (json_object.from_range input).index_.Pairwise (fun i j =>
      ∃ x y, (json_object.from_range input).members_[i]? = some x ∧
        (json_object.from_range input).members_[j]? = some y ∧ x.key < y.key) ∧
    (json_object.from_range
        [(⟨"a".data, 1⟩ : key_value (List Char) Int), ⟨"b".data, 2⟩, ⟨"a".data, 3⟩]).members_ =
      [⟨"a".data, 1⟩, ⟨"b".data, 2⟩] := by
  have hm := from_range_members input
  have hc : (json_object.from_range input).index_consistent := by
    have hnd : ((json_object.from_range input).members_.map key_value.key).Nodup := by
      rw [hm]
      exact (delete_later_occurrences_keys input []).1
    exact build_index_consistent _ hnd
  refine ⟨hm, hc.1, hc.2.imp ?_, by decide⟩
  intro i j hij
  exact (index_less_iff _ _ _).1 hij

end preserve_order

end jsoncons

namespace jsoncons

namespace preserve_order

/-- C3, evaluated on the code: `erase(first, last)` does not restore the index.
On `{"a":1,"b":2,"c":3}` (consistent index `[0,1,2]`) the call
`erase(begin(), begin() + 2)` returns normally with the single member `c` but
with the index `[1]`, which is not a permutation of `[0, 1)`, and `find("c")`
on the result runs into `members_.at(1)`, which throws. On
`{"a":1,"b":2,"c":3,"d":4}` the call `erase(begin() + 1, begin() + 3)` leaves
three index slots where two must remain, so the final
`JSONCONS_ASSERT(index_.size() == n)` of `erase_index_entries` fails. -/
theorem erase_range_leaves_stale_index_slots :
    object_a_b_c.index_consistent ∧
    object_a_b_c.erase_range 0 2 = .ok ⟨[⟨"c".data, 3⟩], [1]⟩ ∧
    ¬ (json_object.mk [(⟨"c".data, 3⟩ : key_value (List Char) Int)] [1]).index_consistent ∧
    (json_object.mk [(⟨"c".data, 3⟩ : key_value (List Char) Int)] [1]).find "c".data =
      .error error.out_of_range ∧
    object_a_b_c_d.index_consistent ∧
    erase_index_entries_loops object_a_b_c_d.index_ 1 3 = [0, 2, 1] ∧
    object_a_b_c_d.erase_range 1 3 = .error error.assertion_failed :=
  ⟨by decide, by decide, by decide, by decide, by decide, by decide, by decide⟩

end preserve_order

end jsoncons

namespace jsoncons

/-! ## The iteration bounds are never reached -/

/-- `std::lower_bound` finishes within `len` rounds: any two bounds of at least
`len` give the same result. -/
theorem lower_bound_loop_fuel {α : Type} (comp : α → Bool) (xs : List α) :
    ∀ (f1 f2 first len : Nat), len ≤ f1 → len ≤ f2 →
      lower_bound_loop comp xs f1 first len = lower_bound_loop comp xs f2 first len := by
  intro f1
  induction f1 with
  | zero =>
    intro f2 first len h1 _
    have hl : len = 0 := by omega
    subst hl
    cases f2 <;> simp [lower_bound_loop]
  | succ f1 ih =>
    intro f2 first len h1 h2
    cases f2 with
    | zero =>
      have hl : len = 0 := by omega
      subst hl
      simp [lower_bound_loop]
    | succ f2 =>
      simp only [lower_bound_loop]
      split
      · rfl
      · rename_i hlen
        have hhalf : len / 2 < len := Nat.div_lt_self (Nat.pos_of_ne_zero hlen) (by decide)
        cases xs[first + len / 2]? with
        | none => rfl
        | some a =>
          simp only
          split
          · exact ih f2 _ _ (by omega) (by omega)
          · exact ih f2 _ _ (by omega) (by omega)

namespace preserve_order

/-- The first loop of `erase_index_entries` finishes within `index_.size() - i`
rounds: any two bounds of at least that many give the same result. -/
theorem erase_loop_fuel (pos1 pos2 offset : Nat) :
    ∀ (f1 f2 i : Nat) (l : List Nat), l.length - i ≤ f1 → l.length - i ≤ f2 →
      erase_loop pos1 pos2 offset f1 i l = erase_loop pos1 pos2 offset f2 i l := by
  intro f1
  induction f1 with
  | zero =>
    intro f2 i l h1 _
    rw [erase_loop_past_end pos1 pos2 offset 0 i l (by omega),
      erase_loop_past_end pos1 pos2 offset f2 i l (by omega)]
  | succ f1 ih =>
    intro f2 i l h1 h2
    cases f2 with
    | zero =>
      rw [erase_loop_past_end pos1 pos2 offset _ i l (by omega),
        erase_loop_past_end pos1 pos2 offset 0 i l (by omega)]
    | succ f2 =>
      simp only [erase_loop]
      split
      · rename_i hi
        split
        · apply ih
          · simp [vector_erase]; omega
          · simp [vector_erase]; omega
        · split
          · apply ih
            · rw [List.length_eraseIdx, if_pos hi]; omega
            · rw [List.length_eraseIdx, if_pos hi]; omega
          · apply ih <;> omega
      · rfl

end preserve_order

end jsoncons

namespace jsoncons

/-! ## Members of the object after one inserting call -/

section
variable {K V : Type}

theorem member_unique_of_nodup_keys (l : List (key_value K V))
    (h : (l.map key_value.key).Nodup) (a b : key_value K V) (ha : a ∈ l) (hb : b ∈ l)
    (hab : a.key = b.key) : a = b :=
  List.inj_on_of_nodup_map h ha hb hab

theorem mem_keys_iff (l : List (key_value K V)) (k : K) :
    k ∈ l.map key_value.key ↔ ∃ m, m ∈ l ∧ m.key = k := by
  simp [List.mem_map]

end

namespace sorted

variable {K V : Type} [LinearOrder K]

theorem keys_nodup (o : json_object K V) (h : o.strictly_ascending) :
    (o.members_.map key_value.key).Nodup :=
  List.Sorted.nodup h

theorem try_emplace_mem (o : json_object K V) (k : K) (v : V) (h : o.strictly_ascending)
    (m : key_value K V) :
    m ∈ (o.try_emplace k v).1.members_ ↔
      m ∈ o.members_ ∨ (k ∉ o.members_.map key_value.key ∧ m = ⟨k, v⟩) := by
  obtain ⟨ms⟩ := o
  rw [strictly_ascending_iff] at h
  rcases members_decompose ms k h with ⟨l1, l2, rfl, h1, h2⟩ | ⟨l1, b, l2, rfl, h1, hb, h2⟩
  · rw [try_emplace_absent l1 l2 k v h1 h2]
    have hk := absent_not_mem l1 l2 k h1 h2
    simp only [List.mem_append, List.mem_cons]
    constructor
    · rintro (h | h | h)
      · exact Or.inl (Or.inl h)
      · exact Or.inr ⟨hk, h⟩
      · exact Or.inl (Or.inr h)
    · rintro ((h | h) | ⟨_, h⟩)
      · exact Or.inl h
      · exact Or.inr (Or.inr h)
      · exact Or.inr (Or.inl h)
  · rw [try_emplace_present l1 l2 b k v h1 hb h2]
    have hk := present_mem l1 l2 b k hb
    constructor
    · exact fun h => Or.inl h
    · rintro (h | ⟨h, _⟩)
      · exact h
      · exact absurd hk h

theorem insert_or_assign_mem (o : json_object K V) (k : K) (v : V) (h : o.strictly_ascending)
    (m : key_value K V) :
    m ∈ (o.insert_or_assign k v).1.members_ ↔
      m = ⟨k, v⟩ ∨ (m ∈ o.members_ ∧ m.key ≠ k) := by
  obtain ⟨o1, pos, ins, heq, _, _, hpos, _, hother⟩ := sorted_insert_or_assign_spec o k v h
  have hasc : (o.insert_or_assign k v).1.strictly_ascending := insert_or_assign_ascending o k v h
  rw [heq] at hasc ⊢
  simp only at hasc ⊢
  have hnew : (⟨k, v⟩ : key_value K V) ∈ o1.members_ := List.getElem?_mem hpos
  by_cases hm : m.key = k
  · constructor
    · intro hmem
      exact Or.inl (member_unique_of_nodup_keys _ (keys_nodup o1 hasc) m ⟨k, v⟩ hmem hnew hm)
    · rintro (h1 | ⟨_, h2⟩)
      · rw [h1]; exact hnew
      · exact absurd hm h2
  · rw [hother m hm]
    constructor
    · exact fun hmem => Or.inr ⟨hmem, hm⟩
    · rintro (h1 | ⟨h2, _⟩)
      · exact absurd (by rw [h1]) hm
      · exact h2

end sorted

namespace preserve_order

variable {K V : Type} [LinearOrder K]

theorem index_keys_nodup (o : json_object K V) (h : o.index_consistent) :
    (o.members_.map key_value.key).Nodup := by
  unfold List.Nodup
  rw [List.pairwise_iff_getElem]
  intro i j hi hj hij heq
  simp only [List.length_map] at hi hj
  simp only [List.getElem_map] at heq
  have := key_position_unique o h i j o.members_[i] o.members_[j]
    (List.getElem?_eq_getElem hi) (List.getElem?_eq_getElem hj) heq
  omega

theorem index_try_emplace_mem (o : json_object K V) (k : K) (v : V) (h : o.index_consistent) :
    ∃ r, o.try_emplace k v = .ok r ∧ r.1.index_consistent ∧
      ∀ m : key_value K V, m ∈ r.1.members_ ↔
        m ∈ o.members_ ∨ (k ∉ o.members_.map key_value.key ∧ m = ⟨k, v⟩) := by
  obtain ⟨ms, idx⟩ := o
  rcases index_decompose_of_consistent ⟨ms, idx⟩ k h with
    ⟨l1, l2, hidx, h1, h2⟩ | ⟨l1, p, l2, b, hidx, h1, hb, hk, h2⟩
  · simp only at hidx h1 h2
    subst hidx
    refine ⟨_, index_try_emplace_absent ms l1 l2 k v (index_length ms _ h.1) h1 h2,
      insert_consistent ms l1 l2 k v h h1 h2, ?_⟩
    intro m
    have hk := index_absent_not_mem ms l1 l2 k h.1 h1 h2
    simp only [List.mem_append, List.mem_singleton]
    constructor
    · rintro (h | h)
      · exact Or.inl h
      · exact Or.inr ⟨hk, h⟩
    · rintro (h | ⟨_, h⟩)
      · exact Or.inl h
      · exact Or.inr h
  · simp only at hidx h1 h2 hb
    subst hidx
    refine ⟨_, index_try_emplace_present ms l1 l2 p b k v (index_length ms _ h.1)
      h1 hb hk h2, h, ?_⟩
    intro m
    have hmem := index_present_mem ms p b k hb hk
    constructor
    · exact fun h => Or.inl h
    · rintro (h | ⟨h, _⟩)
      · exact h
      · exact absurd hmem h

theorem index_insert_or_assign_mem (o : json_object K V) (k : K) (v : V) (h : o.index_consistent) :
    ∃ r, o.insert_or_assign k v = .ok r ∧ r.1.index_consistent ∧
      ∀ m : key_value K V, m ∈ r.1.members_ ↔ m = ⟨k, v⟩ ∨ (m ∈ o.members_ ∧ m.key ≠ k) := by
  obtain ⟨o1, pos, ins, heq, _, _, hpos, _, hother⟩ :=
    order_preserving_insert_or_assign_spec o k v h
  obtain ⟨r, hr, hc⟩ := insert_or_assign_consistent o k v h
  rw [heq] at hr
  cases hr
  refine ⟨_, heq, hc, ?_⟩
  intro m
  simp only at hc ⊢
  have hnew : (⟨k, v⟩ : key_value K V) ∈ o1.members_ := List.getElem?_mem hpos
  by_cases hm : m.key = k
  · constructor
    · intro hmem
      exact Or.inl (member_unique_of_nodup_keys _ (index_keys_nodup o1 hc) m ⟨k, v⟩ hmem hnew hm)
    · rintro (h1 | ⟨_, h2⟩)
      · rw [h1]; exact hnew
      · exact absurd hm h2
  · rw [hother m hm]
    constructor
    · exact fun hmem => Or.inr ⟨hmem, hm⟩
    · rintro (h1 | ⟨h2, _⟩)
      · exact absurd (by rw [h1]) hm
      · exact h2

end preserve_order

end jsoncons

namespace jsoncons

/-! ## Members of the object after a loop of inserting calls -/

section
variable {K V : Type} [DecidableEq K]

theorem find?_key_eq_some_iff_mem (l : List (key_value K V))
    (h : (l.map key_value.key).Nodup) (m : key_value K V) :
    l.find? (fun e => decide (e.key = m.key)) = some m ↔ m ∈ l := by
  constructor
  · exact List.mem_of_find?_eq_some
  · intro hm
    cases hf : l.find? (fun e => decide (e.key = m.key)) with
    | none =>
      have := List.find?_eq_none.1 hf m hm
      simp at this
    | some x =>
      have hx : x ∈ l := List.mem_of_find?_eq_some hf
      have hk : x.key = m.key := by simpa using List.find?_some hf
      rw [member_unique_of_nodup_keys l h x m hx hm hk]

theorem find?_key_eq_none_iff (l : List (key_value K V)) (k : K) :
    l.find? (fun e => decide (e.key = k)) = none ↔ k ∉ l.map key_value.key := by
  rw [List.find?_eq_none]
  simp [List.mem_map]

/-- Core of the `merge` loops: one `try_emplace`-like step followed by the rest. -/
theorem merge_mem_core (Mo Mo1 Mr : List (key_value K V)) (a : key_value K V)
    (s : List (key_value K V))
    (h1 : ∀ m, m ∈ Mo1 ↔ m ∈ Mo ∨ (a.key ∉ Mo.map key_value.key ∧ m = a))
    (h2 : ∀ m : key_value K V, m ∈ Mr ↔ m ∈ Mo1 ∨ (m.key ∉ Mo1.map key_value.key ∧
      s.find? (fun e => decide (e.key = m.key)) = some m))
    (m : key_value K V) :
    m ∈ Mr ↔ m ∈ Mo ∨ (m.key ∉ Mo.map key_value.key ∧
      (a :: s).find? (fun e => decide (e.key = m.key)) = some m) := by
  have hkeys : ∀ k, k ∈ Mo1.map key_value.key ↔ k ∈ Mo.map key_value.key ∨ k = a.key := by
    intro k
    rw [mem_keys_iff, mem_keys_iff]
    constructor
    · rintro ⟨x, hx, hxk⟩
      rcases (h1 x).1 hx with h | ⟨_, h⟩
      · exact Or.inl ⟨x, h, hxk⟩
      · exact Or.inr (by rw [← hxk, h])
    · rintro (⟨x, hx, hxk⟩ | hk)
      · exact ⟨x, (h1 x).2 (Or.inl hx), hxk⟩
      · by_cases ha : a.key ∈ Mo.map key_value.key
        · obtain ⟨x, hx, hxk⟩ := (mem_keys_iff Mo a.key).1 ha
          exact ⟨x, (h1 x).2 (Or.inl hx), by rw [hxk, hk]⟩
        · exact ⟨a, (h1 a).2 (Or.inr ⟨ha, rfl⟩), hk.symm⟩
  rw [h2 m, h1 m, hkeys]
  by_cases hak : a.key = m.key
  · have hfind : (a :: s).find? (fun e => decide (e.key = m.key)) = some a := by
      simp [List.find?_cons, hak]
    rw [hfind]
    constructor
    · rintro ((h | ⟨h, rfl⟩) | ⟨h, _⟩)
      · exact Or.inl h
      · exact Or.inr ⟨h, rfl⟩
      · exact absurd (Or.inr hak.symm) h
    · rintro (h | ⟨h, h3⟩)
      · exact Or.inl (Or.inl h)
      · have : a = m := Option.some.inj h3
        subst this
        exact Or.inl (Or.inr ⟨h, rfl⟩)
  · have hfind : (a :: s).find? (fun e => decide (e.key = m.key)) =
        s.find? (fun e => decide (e.key = m.key)) := by
      simp [List.find?_cons, hak]
    rw [hfind]
    constructor
    · rintro ((h | ⟨_, h⟩) | ⟨h, h3⟩)
      · exact Or.inl h
      · exact absurd (by rw [h]) hak
      · exact Or.inr ⟨fun hc => h (Or.inl hc), h3⟩
    · rintro (h | ⟨h, h3⟩)
      · exact Or.inl (Or.inl h)
      · refine Or.inr ⟨?_, h3⟩
        rintro (hc | hc)
        · exact h hc
        · exact hak hc.symm

omit [DecidableEq K] in
theorem find?_reverse_cons (p : key_value K V → Bool) (a : key_value K V)
    (s : List (key_value K V)) :
    (a :: s).reverse.find? p = (s.reverse.find? p).or (if p a then some a else none) := by
  rw [List.reverse_cons, List.find?_append]
  congr 1
  by_cases h : p a = true
  · simp [List.find?_cons, h]
  · simp [List.find?_cons, h]

/-- Core of the `merge_or_update` loops: one `insert_or_assign`-like step followed
by the rest; the last item of a key decides. -/
theorem update_mem_core (Mo Mo1 Mr : List (key_value K V)) (a : key_value K V)
    (s : List (key_value K V))
    (h1 : ∀ m, m ∈ Mo1 ↔ m = a ∨ (m ∈ Mo ∧ m.key ≠ a.key))
    (h2 : ∀ m : key_value K V, m ∈ Mr ↔
      s.reverse.find? (fun e => decide (e.key = m.key)) = some m ∨
        (m ∈ Mo1 ∧ m.key ∉ s.map key_value.key))
    (m : key_value K V) :
    m ∈ Mr ↔ (a :: s).reverse.find? (fun e => decide (e.key = m.key)) = some m ∨
      (m ∈ Mo ∧ m.key ∉ (a :: s).map key_value.key) := by
  rw [h2 m, h1 m, find?_reverse_cons]
  by_cases hs : m.key ∈ s.map key_value.key
  · have hsr : m.key ∈ s.reverse.map key_value.key := by
      rw [List.map_reverse, List.mem_reverse]; exact hs
    cases hf : s.reverse.find? (fun e => decide (e.key = m.key)) with
    | none => exact absurd hsr ((find?_key_eq_none_iff _ _).1 hf)
    | some x =>
      simp only [Option.or_some, List.map_cons, List.mem_cons]
      constructor
      · rintro (h | ⟨_, h⟩)
        · exact Or.inl h
        · exact absurd hs h
      · rintro (h | ⟨_, h⟩)
        · exact Or.inl h
        · exact absurd (Or.inr hs) h
  · have hsr : m.key ∉ s.reverse.map key_value.key := by
      rw [List.map_reverse, List.mem_reverse]; exact hs
    rw [(find?_key_eq_none_iff _ _).2 hsr]
    simp only [Option.none_or, List.map_cons, List.mem_cons]
    by_cases hak : a.key = m.key
    · have hp : decide (a.key = m.key) = true := by simpa using hak
      rw [if_pos hp]
      constructor
      · rintro (h | ⟨h | ⟨_, h⟩, _⟩)
        · cases h
        · exact Or.inl (by rw [h])
        · exact absurd hak.symm h
      · rintro (h | ⟨_, h⟩)
        · exact Or.inr ⟨Or.inl (Option.some.inj h).symm, hs⟩
        · exact absurd (Or.inl hak.symm) h
    · have hp : ¬ decide (a.key = m.key) = true := by simpa using hak
      rw [if_neg hp]
      constructor
      · rintro (h | ⟨h | ⟨h, _⟩, _⟩)
        · cases h
        · exact absurd (by rw [h]) hak
        · exact Or.inr ⟨h, fun hc => hc.elim (fun e => hak e.symm) hs⟩
      · rintro (h | ⟨h, h3⟩)
        · cases h
        · exact Or.inr ⟨Or.inr ⟨h, fun e => hak e.symm⟩, hs⟩

end

end jsoncons

namespace jsoncons

section
variable {K V : Type} [DecidableEq K]

theorem keys_union_of_mem (R T S : List (key_value K V))
    (h : ∀ m : key_value K V, m ∈ R ↔ m ∈ T ∨ (m ∈ S ∧ m.key ∉ T.map key_value.key))
    (k : K) :
    k ∈ R.map key_value.key ↔ k ∈ T.map key_value.key ∨ k ∈ S.map key_value.key := by
  rw [mem_keys_iff, mem_keys_iff, mem_keys_iff]
  constructor
  · rintro ⟨m, hm, hk⟩
    rcases (h m).1 hm with h1 | ⟨h1, _⟩
    · exact Or.inl ⟨m, h1, hk⟩
    · exact Or.inr ⟨m, h1, hk⟩
  · rintro (⟨m, hm, hk⟩ | ⟨m, hm, hk⟩)
    · exact ⟨m, (h m).2 (Or.inl hm), hk⟩
    · by_cases hT : m.key ∈ T.map key_value.key
      · obtain ⟨x, hx, hxk⟩ := (mem_keys_iff T m.key).1 hT
        exact ⟨x, (h x).2 (Or.inl hx), by rw [hxk, hk]⟩
      · exact ⟨m, (h m).2 (Or.inr ⟨hm, hT⟩), hk⟩

/-- A pure loop of steps that behave like `try_emplace`. -/
theorem foldl_merge_mem {σ : Type} (M : σ → List (key_value K V)) (Inv : σ → Prop)
    (step : σ → key_value K V → σ)
    (hstep : ∀ o a, Inv o → Inv (step o a) ∧
      ∀ m, m ∈ M (step o a) ↔ m ∈ M o ∨ (a.key ∉ (M o).map key_value.key ∧ m = a)) :
    ∀ (s : List (key_value K V)) (o : σ), Inv o →
      Inv (s.foldl step o) ∧
      ∀ m : key_value K V, m ∈ M (s.foldl step o) ↔
        m ∈ M o ∨ (m.key ∉ (M o).map key_value.key ∧
          s.find? (fun e => decide (e.key = m.key)) = some m) := by
  intro s
  induction s with
  | nil => intro o h; exact ⟨h, fun m => by simp⟩
  | cons a s ih =>
    intro o h
    obtain ⟨h1, h2⟩ := hstep o a h
    obtain ⟨h3, h4⟩ := ih (step o a) h1
    exact ⟨h3, fun m => merge_mem_core (M o) (M (step o a)) _ a s h2 h4 m⟩

/-- A pure loop of steps that behave like `insert_or_assign`. -/
theorem foldl_update_mem {σ : Type} (M : σ → List (key_value K V)) (Inv : σ → Prop)
    (step : σ → key_value K V → σ)
    (hstep : ∀ o a, Inv o → Inv (step o a) ∧
      ∀ m, m ∈ M (step o a) ↔ m = a ∨ (m ∈ M o ∧ m.key ≠ a.key)) :
    ∀ (s : List (key_value K V)) (o : σ), Inv o →
      Inv (s.foldl step o) ∧
      ∀ m : key_value K V, m ∈ M (s.foldl step o) ↔
        s.reverse.find? (fun e => decide (e.key = m.key)) = some m ∨
          (m ∈ M o ∧ m.key ∉ s.map key_value.key) := by
  intro s
  induction s with
  | nil => intro o h; exact ⟨h, fun m => by simp⟩
  | cons a s ih =>
    intro o h
    obtain ⟨h1, h2⟩ := hstep o a h
    obtain ⟨h3, h4⟩ := ih (step o a) h1
    exact ⟨h3, fun m => update_mem_core (M o) (M (step o a)) _ a s h2 h4 m⟩

end

namespace preserve_order

variable {K V : Type} [LinearOrder K]

/-- A throwing loop of steps that behave like `try_emplace`. -/
theorem for_each_merge_mem
    (body : json_object K V → key_value K V → Except error (json_object K V))
    (hstep : ∀ o a, o.index_consistent → ∃ o1, body o a = .ok o1 ∧ o1.index_consistent ∧
      ∀ m, m ∈ o1.members_ ↔
        m ∈ o.members_ ∨ (a.key ∉ o.members_.map key_value.key ∧ m = a)) :
    ∀ (s : List (key_value K V)) (o : json_object K V), o.index_consistent →
      ∃ r, for_each_member body o s = .ok r ∧ r.index_consistent ∧
      ∀ m : key_value K V, m ∈ r.members_ ↔
        m ∈ o.members_ ∨ (m.key ∉ o.members_.map key_value.key ∧
          s.find? (fun e => decide (e.key = m.key)) = some m) := by
  intro s
  induction s with
  | nil => intro o h; exact ⟨o, rfl, h, fun m => by simp⟩
  | cons a s ih =>
    intro o h
    obtain ⟨o1, hb, h1, h2⟩ := hstep o a h
    obtain ⟨r, hr, h3, h4⟩ := ih o1 h1
    refine ⟨r, ?_, h3, fun m => merge_mem_core o.members_ o1.members_ _ a s h2 h4 m⟩
    simp only [for_each_member, hb]
    exact hr

/-- A throwing loop of steps that behave like `insert_or_assign`. -/
theorem for_each_update_mem
    (body : json_object K V → key_value K V → Except error (json_object K V))
    (hstep : ∀ o a, o.index_consistent → ∃ o1, body o a = .ok o1 ∧ o1.index_consistent ∧
      ∀ m, m ∈ o1.members_ ↔ m = a ∨ (m ∈ o.members_ ∧ m.key ≠ a.key)) :
    ∀ (s : List (key_value K V)) (o : json_object K V), o.index_consistent →
      ∃ r, for_each_member body o s = .ok r ∧ r.index_consistent ∧
      ∀ m : key_value K V, m ∈ r.members_ ↔
        s.reverse.find? (fun e => decide (e.key = m.key)) = some m ∨
          (m ∈ o.members_ ∧ m.key ∉ s.map key_value.key) := by
  intro s
  induction s with
  | nil => intro o h; exact ⟨o, rfl, h, fun m => by simp⟩
  | cons a s ih =>
    intro o h
    obtain ⟨o1, hb, h1, h2⟩ := hstep o a h
    obtain ⟨r, hr, h3, h4⟩ := ih o1 h1
    refine ⟨r, ?_, h3, fun m => update_mem_core o.members_ o1.members_ _ a s h2 h4 m⟩
    simp only [for_each_member, hb]
    exact hr

theorem try_emplace_body_spec (o : json_object K V) (a : key_value K V)
    (h : o.index_consistent) :
    ∃ o1, (o.try_emplace a.key a.value).map Prod.fst = .ok o1 ∧ o1.index_consistent ∧
      ∀ m, m ∈ o1.members_ ↔
        m ∈ o.members_ ∨ (a.key ∉ o.members_.map key_value.key ∧ m = a) := by
  obtain ⟨r, hr, hc, hm⟩ := index_try_emplace_mem o a.key a.value h
  exact ⟨r.1, by simp [hr, Except.map], hc, hm⟩

theorem insert_or_assign_body_spec (o : json_object K V) (a : key_value K V)
    (h : o.index_consistent) :
    ∃ o1, (o.insert_or_assign a.key a.value).map Prod.fst = .ok o1 ∧ o1.index_consistent ∧
      ∀ m, m ∈ o1.members_ ↔ m = a ∨ (m ∈ o.members_ ∧ m.key ≠ a.key) := by
  obtain ⟨r, hr, hc, hm⟩ := index_insert_or_assign_mem o a.key a.value h
  exact ⟨r.1, by simp [hr, Except.map], hc, hm⟩

theorem merge_move_step_spec (o : json_object K V) (a : key_value K V)
    (h : o.index_consistent) :
    ∃ o1, o.merge_move_step a = .ok o1 ∧ o1.index_consistent ∧
      ∀ m, m ∈ o1.members_ ↔
        m ∈ o.members_ ∨ (a.key ∉ o.members_.map key_value.key ∧ m = a) := by
  by_cases hk : a.key ∈ o.members_.map key_value.key
  · obtain ⟨m, hm, hmk⟩ := List.mem_map.1 hk
    obtain ⟨p, hp, hpm⟩ := List.mem_iff_getElem.1 hm
    have hget : o.members_[p]? = some m := by rw [List.getElem?_eq_getElem hp, hpm]
    have hfind := find_eq_of_member o a.key h p m hget hmk
    refine ⟨o, ?_, h, fun x => ?_⟩
    · simp only [json_object.merge_move_step, hfind, bind, Except.bind]
      rw [if_neg (ne_of_lt hp)]
      rfl
    · constructor
      · exact fun hx => Or.inl hx
      · rintro (hx | ⟨hx, _⟩)
        · exact hx
        · exact absurd hk hx
  · have hfind := find_eq_end_of_absent o a.key h hk
    obtain ⟨o1, ho1, hc, hmem⟩ := try_emplace_body_spec o a h
    refine ⟨o1, ?_, hc, hmem⟩
    simp only [json_object.merge_move_step, hfind, bind, Except.bind]
    rw [if_pos trivial]
    exact ho1

end preserve_order

namespace sorted

variable {K V : Type} [LinearOrder K]

/-- The loop body of the moving `merge` is `try_emplace` with the member's key and
value. -/
theorem merge_move_step_eq (o : json_object K V) (m : key_value K V) :
    o.merge_move_step m = (o.try_emplace m.key m.value).1 := by
  simp only [json_object.merge_move_step, json_object.try_emplace]
  split
  · rename_i h
    by_cases hk : o.members_[lower_bound (key_less m.key) o.members_].key = m.key
    · rw [if_neg (by simpa using hk.symm), if_pos hk]
    · rw [if_pos (fun e => hk e.symm), if_neg hk]
  · rfl

theorem merge_move_eq_merge (o source : json_object K V) :
    o.merge_move source = o.merge source := by
  unfold json_object.merge_move json_object.merge
  congr 1
  funext acc m
  exact merge_move_step_eq acc m

end sorted

end jsoncons

namespace jsoncons

section
variable {K V : Type} [LinearOrder K]

theorem sorted_merge_spec (t s : sorted.json_object K V) (ht : t.strictly_ascending)
    (hs : s.strictly_ascending) :
    (t.merge s).strictly_ascending ∧
    (∀ m : key_value K V, m ∈ (t.merge s).members_ ↔
      m ∈ t.members_ ∨ (m ∈ s.members_ ∧ m.key ∉ t.members_.map key_value.key)) := by
  have h := foldl_merge_mem (fun o : sorted.json_object K V => o.members_)
    (fun o => o.strictly_ascending) (fun acc m => (acc.try_emplace m.key m.value).1)
    (fun o a ho => ⟨sorted.try_emplace_ascending o a.key a.value ho,
      fun m => sorted.try_emplace_mem o a.key a.value ho m⟩) s.members_ t ht
  refine ⟨h.1, fun m => ?_⟩
  have := h.2 m
  simp only [sorted.json_object.merge]
  rw [this, find?_key_eq_some_iff_mem s.members_ (sorted.keys_nodup s hs) m]
  constructor
  · rintro (h1 | ⟨h1, h2⟩)
    · exact Or.inl h1
    · exact Or.inr ⟨h2, h1⟩
  · rintro (h1 | ⟨h1, h2⟩)
    · exact Or.inl h1
    · exact Or.inr ⟨h2, h1⟩

theorem order_preserving_merge_spec
    (body : preserve_order.json_object K V → key_value K V →
      Except error (preserve_order.json_object K V))
    (hstep : ∀ o a, o.index_consistent → ∃ o1, body o a = .ok o1 ∧ o1.index_consistent ∧
      ∀ m, m ∈ o1.members_ ↔
        m ∈ o.members_ ∨ (a.key ∉ o.members_.map key_value.key ∧ m = a))
    (t s : preserve_order.json_object K V) (ht : t.index_consistent)
    (hs : s.index_consistent) :
    ∃ r, preserve_order.for_each_member body t s.members_ = .ok r ∧ r.index_consistent ∧
      (∀ m : key_value K V, m ∈ r.members_ ↔
        m ∈ t.members_ ∨ (m ∈ s.members_ ∧ m.key ∉ t.members_.map key_value.key)) ∧
      (∀ k : K, k ∈ r.members_.map key_value.key ↔
        k ∈ t.members_.map key_value.key ∨ k ∈ s.members_.map key_value.key) := by
  obtain ⟨r, hr, hc, hm⟩ := preserve_order.for_each_merge_mem body hstep s.members_ t ht
  have hmem : ∀ m : key_value K V, m ∈ r.members_ ↔
      m ∈ t.members_ ∨ (m ∈ s.members_ ∧ m.key ∉ t.members_.map key_value.key) := by
    intro m
    rw [hm m, find?_key_eq_some_iff_mem s.members_ (preserve_order.index_keys_nodup s hs) m]
    constructor
    · rintro (h1 | ⟨h1, h2⟩)
      · exact Or.inl h1
      · exact Or.inr ⟨h2, h1⟩
    · rintro (h1 | ⟨h1, h2⟩)
      · exact Or.inl h1
      · exact Or.inr ⟨h2, h1⟩
  exact ⟨r, hr, hc, hmem, keys_union_of_mem _ _ _ hmem⟩

/-- C11: `merge` for both variants and both unhinted overloads, on a target and a
source that satisfy the variant's invariant. Afterwards the invariant holds
again; the members of the target are its former members (every key already in
the target keeps its value) together with the members of the source whose key
was not in the target (with the source's value); the key set is the union of
the two key sets. The moving overload of the sorted variant gives the same
object as the copying one; no call of the order-preserving variant throws. -/
theorem merge_keeps_values_of_target (t s : sorted.json_object K V)
    (pt ps : preserve_order.json_object K V)
    (ht : t.strictly_ascending) (hs : s.strictly_ascending)
    (hpt : pt.index_consistent) (hps : ps.index_consistent) :
    ((t.merge s).strictly_ascending ∧
      (∀ m : key_value K V, m ∈ (t.merge s).members_ ↔
        m ∈ t.members_ ∨ (m ∈ s.members_ ∧ m.key ∉ t.members_.map key_value.key)) ∧
      (∀ k : K, k ∈ (t.merge s).members_.map key_value.key ↔
        k ∈ t.members_.map key_value.key ∨ k ∈ s.members_.map key_value.key)) ∧
    t.merge_move s = t.merge s ∧
    (∃ r, pt.merge ps = .ok r ∧ r.index_consistent ∧
      (∀ m : key_value K V, m ∈ r.members_ ↔
        m ∈ pt.members_ ∨ (m ∈ ps.members_ ∧ m.key ∉ pt.members_.map key_value.key)) ∧
      (∀ k : K, k ∈ r.members_.map key_value.key ↔
        k ∈ pt.members_.map key_value.key ∨ k ∈ ps.members_.map key_value.key)) ∧
    (∃ r, pt.merge_move ps = .ok r ∧ r.index_consistent ∧
      (∀ m : key_value K V, m ∈ r.members_ ↔
        m ∈ pt.members_ ∨ (m ∈ ps.members_ ∧ m.key ∉ pt.members_.map key_value.key)) ∧
      (∀ k : K, k ∈ r.members_.map key_value.key ↔
        k ∈ pt.members_.map key_value.key ∨ k ∈ ps.members_.map key_value.key)) := by
  have h1 := sorted_merge_spec t s ht hs
  exact ⟨⟨h1.1, h1.2, keys_union_of_mem _ _ _ h1.2⟩, sorted.merge_move_eq_merge t s,
    order_preserving_merge_spec _ preserve_order.try_emplace_body_spec pt ps hpt hps,
    order_preserving_merge_spec _ preserve_order.merge_move_step_spec pt ps hpt hps⟩

end

theorem merge_keeps_values_of_target_witness :
    sorted.object_a_b.strictly_ascending ∧ sorted.object_b_c.strictly_ascending ∧
    preserve_order.object_m_c_x_a_q.index_consistent ∧
    preserve_order.object_a_b_c.index_consistent ∧
    (sorted.object_a_b.merge sorted.object_b_c).members_ =
      [⟨"a".data, 1⟩, ⟨"b".data, 2⟩, ⟨"c".data, 8⟩] ∧
    sorted.object_a_b.merge_move sorted.object_b_c =
      sorted.object_a_b.merge sorted.object_b_c ∧
    (∃ r, preserve_order.object_m_c_x_a_q.merge_move preserve_order.object_a_b_c = .ok r ∧
      r.index_consistent ∧
      (∀ m : key_value (List Char) Int, m ∈ r.members_ ↔
        m ∈ preserve_order.object_m_c_x_a_q.members_ ∨
          (m ∈ preserve_order.object_a_b_c.members_ ∧
            m.key ∉ preserve_order.object_m_c_x_a_q.members_.map key_value.key)) ∧
      (∀ k : List Char, k ∈ r.members_.map key_value.key ↔
        k ∈ preserve_order.object_m_c_x_a_q.members_.map key_value.key ∨
          k ∈ preserve_order.object_a_b_c.members_.map key_value.key)) :=
  ⟨by decide, by decide, by decide, by decide, by decide,
    (merge_keeps_values_of_target sorted.object_a_b sorted.object_b_c
      preserve_order.object_m_c_x_a_q preserve_order.object_a_b_c
      (by decide) (by decide) (by decide) (by decide)).2.1,
    (merge_keeps_values_of_target sorted.object_a_b sorted.object_b_c
      preserve_order.object_m_c_x_a_q preserve_order.object_a_b_c
      (by decide) (by decide) (by decide) (by decide)).2.2.2⟩

end jsoncons

namespace jsoncons

section
variable {K V : Type} [LinearOrder K]

theorem last_occurrence_iff_mem (s : List (key_value K V))
    (h : (s.map key_value.key).Nodup) (m : key_value K V) :
    s.reverse.find? (fun e => decide (e.key = m.key)) = some m ↔ m ∈ s := by
  have hr : (s.reverse.map key_value.key).Nodup := by
    rw [List.map_reverse]; exact List.nodup_reverse.2 h
  rw [find?_key_eq_some_iff_mem s.reverse hr m, List.mem_reverse]

theorem sorted_merge_or_update_spec (t s : sorted.json_object K V)
    (ht : t.strictly_ascending) (hs : s.strictly_ascending) :
    (t.merge_or_update s).strictly_ascending ∧
    (∀ m : key_value K V, m ∈ (t.merge_or_update s).members_ ↔
      m ∈ s.members_ ∨ (m ∈ t.members_ ∧ m.key ∉ s.members_.map key_value.key)) := by
  have h := foldl_update_mem (fun o : sorted.json_object K V => o.members_)
    (fun o => o.strictly_ascending) (fun acc m => (acc.insert_or_assign m.key m.value).1)
    (fun o a ho => ⟨sorted.insert_or_assign_ascending o a.key a.value ho,
      fun m => sorted.insert_or_assign_mem o a.key a.value ho m⟩) s.members_ t ht
  refine ⟨h.1, fun m => ?_⟩
  have := h.2 m
  simp only [sorted.json_object.merge_or_update]
  rw [this, last_occurrence_iff_mem s.members_ (sorted.keys_nodup s hs) m]

theorem order_preserving_merge_or_update_spec (t s : preserve_order.json_object K V)
    (ht : t.index_consistent) (hs : s.index_consistent) :
    ∃ r, t.merge_or_update s = .ok r ∧ r.index_consistent ∧
      (∀ m : key_value K V, m ∈ r.members_ ↔
        m ∈ s.members_ ∨ (m ∈ t.members_ ∧ m.key ∉ s.members_.map key_value.key)) := by
  obtain ⟨r, hr, hc, hm⟩ := preserve_order.for_each_update_mem _
    preserve_order.insert_or_assign_body_spec s.members_ t ht
  refine ⟨r, hr, hc, fun m => ?_⟩
  rw [hm m, last_occurrence_iff_mem s.members_ (preserve_order.index_keys_nodup s hs) m]

/-- C12: the copying `merge_or_update` for both variants, on a target and a source
that satisfy the variant's invariant. Afterwards the invariant holds again; the
members of the target are the members of the source (every key of the source
maps to the source's value) together with the former members whose key is not
in the source (which keep their value); the key set is the union of the two key
sets. The order-preserving call does not throw. -/
theorem merge_or_update_takes_values_of_source (t s : sorted.json_object K V)
    (pt ps : preserve_order.json_object K V)
    (ht : t.strictly_ascending) (hs : s.strictly_ascending)
    (hpt : pt.index_consistent) (hps : ps.index_consistent) :
    ((t.merge_or_update s).strictly_ascending ∧
      (∀ m : key_value K V, m ∈ (t.merge_or_update s).members_ ↔
        m ∈ s.members_ ∨ (m ∈ t.members_ ∧ m.key ∉ s.members_.map key_value.key)) ∧
      (∀ k : K, k ∈ (t.merge_or_update s).members_.map key_value.key ↔
        k ∈ t.members_.map key_value.key ∨ k ∈ s.members_.map key_value.key)) ∧
    (∃ r, pt.merge_or_update ps = .ok r ∧ r.index_consistent ∧
      (∀ m : key_value K V, m ∈ r.members_ ↔
        m ∈ ps.members_ ∨ (m ∈ pt.members_ ∧ m.key ∉ ps.members_.map key_value.key)) ∧
      (∀ k : K, k ∈ r.members_.map key_value.key ↔
        k ∈ pt.members_.map key_value.key ∨ k ∈ ps.members_.map key_value.key)) := by
  have h1 := sorted_merge_or_update_spec t s ht hs
  obtain ⟨r, hr, hc, hm⟩ := order_preserving_merge_or_update_spec pt ps hpt hps
  refine ⟨⟨h1.1, h1.2, fun k => ?_⟩, r, hr, hc, hm, fun k => ?_⟩
  · rw [keys_union_of_mem _ _ _ h1.2 k]
    exact Or.comm
  · rw [keys_union_of_mem _ _ _ hm k]
    exact Or.comm

end

theorem merge_or_update_takes_values_of_source_witness :
    sorted.object_a_b.strictly_ascending ∧ sorted.object_b_c.strictly_ascending ∧
    preserve_order.object_m_c_x_a_q.index_consistent ∧
    preserve_order.object_a_b_c.index_consistent ∧
    (sorted.object_a_b.merge_or_update sorted.object_b_c).members_ =
      [⟨"a".data, 1⟩, ⟨"b".data, 7⟩, ⟨"c".data, 8⟩] ∧
    (sorted.object_a_b.merge_or_update sorted.object_b_c).strictly_ascending ∧
    (∃ r, preserve_order.object_m_c_x_a_q.merge_or_update preserve_order.object_a_b_c =
        .ok r ∧ r.index_consistent ∧
      (∀ m : key_value (List Char) Int, m ∈ r.members_ ↔
        m ∈ preserve_order.object_a_b_c.members_ ∨
          (m ∈ preserve_order.object_m_c_x_a_q.members_ ∧
            m.key ∉ preserve_order.object_a_b_c.members_.map key_value.key)) ∧
      (∀ k : List Char, k ∈ r.members_.map key_value.key ↔
        k ∈ preserve_order.object_m_c_x_a_q.members_.map key_value.key ∨
          k ∈ preserve_order.object_a_b_c.members_.map key_value.key)) :=
  ⟨by decide, by decide, by decide, by decide, by decide,
    (merge_or_update_takes_values_of_source sorted.object_a_b sorted.object_b_c
      preserve_order.object_m_c_x_a_q preserve_order.object_a_b_c
      (by decide) (by decide) (by decide) (by decide)).1.1,
    (merge_or_update_takes_values_of_source sorted.object_a_b sorted.object_b_c
      preserve_order.object_m_c_x_a_q preserve_order.object_a_b_c
      (by decide) (by decide) (by decide) (by decide)).2⟩

end jsoncons

namespace jsoncons

/-! ## Evaluations of the moving `merge_or_update`, `swap` and the tagged `insert` -/

/-- C13, evaluated on the code: the moving `merge_or_update` is not the bulk union
of the copying overload. With the sorted target `{"b":1}` and the sorted source
`{"a":2}` the copying overload gives `{"a":2,"b":1}`, while the moving overload,
whose loop assigns to `pos` whenever `lower_bound` does not return `end()`
without comparing the keys, gives `{"b":2}`: the key `a` is not inserted and the
value of `b` is overwritten. -/
theorem sorted_merge_or_update_move_overwrites_next_member :
    sorted.object_b.strictly_ascending ∧ sorted.object_a.strictly_ascending ∧
    (sorted.object_b.merge_or_update sorted.object_a).members_ =
      [⟨"a".data, 2⟩, ⟨"b".data, 1⟩] ∧
    (sorted.object_b.merge_or_update_move sorted.object_a).members_ = [⟨"b".data, 2⟩] ∧
    sorted.object_b.merge_or_update_move sorted.object_a ≠
      sorted.object_b.merge_or_update sorted.object_a :=
  ⟨by decide, by decide, by decide, by decide, by decide⟩

/-- C17, evaluated on the code: `swap` exchanges the members but leaves each object
its own index. With `a` built by inserting `x`, `y` and `b` built by inserting
`y`, `x` (both consistent), after `a.swap(b)` object `a` holds the members
`[y, x]` with the index `[0, 1]`, through which the keys are not ascending, and
`a.find("x")` and `a.find("y")` return `end()` although `a` holds both keys.
After `c.swap(a)` with the three-member object `c = {"a","b","c"}`, object `c`
holds two members under three index slots and `c.find("z")`, for a key that
neither object holds, runs into `members_.at(2)`, which throws. -/
theorem order_preserving_swap_keeps_own_index :
    preserve_order.object_x_then_y.index_consistent ∧
    preserve_order.object_y_then_x.index_consistent ∧
    (preserve_order.object_x_then_y.swap preserve_order.object_y_then_x).1 =
      ⟨[⟨"y".data, 2⟩, ⟨"x".data, 1⟩], [0, 1]⟩ ∧
    ¬ (preserve_order.object_x_then_y.swap
        preserve_order.object_y_then_x).1.index_consistent ∧
    ¬ (preserve_order.object_x_then_y.swap
        preserve_order.object_y_then_x).2.index_consistent ∧
    (preserve_order.object_x_then_y.swap preserve_order.object_y_then_x).1.find "x".data =
      .ok 2 ∧
    (preserve_order.object_x_then_y.swap preserve_order.object_y_then_x).1.find "y".data =
      .ok 2 ∧
    (preserve_order.object_a_b_c.swap preserve_order.object_x_then_y).1.find "z".data =
      .error error.out_of_range :=
  ⟨by decide, by decide, by decide, by decide, by decide, by decide, by decide, by decide⟩

/-- C19, evaluated on the code: the tagged `insert` does not keep a non-empty
object sorted. Inserting the strictly ascending range `[("a",2)]` into `{"z":1}`
appends it, leaving the keys `z, a`; inserting the strictly ascending range
`[("a",5),("b",6)]` into `{"a":1, "b":2}` puts every element at the position
where `find` met the first key, leaving the keys `b, a, a, b`. On the empty
object the range is appended and the result is sorted. -/
theorem sorted_tagged_insert_breaks_order :
    sorted.object_z.strictly_ascending ∧
    (sorted.object_z.insert_sorted_unique [⟨"a".data, 2⟩]).members_ =
      [⟨"z".data, 1⟩, ⟨"a".data, 2⟩] ∧
    ¬ (sorted.object_z.insert_sorted_unique [⟨"a".data, 2⟩]).strictly_ascending ∧
    (sorted.object_z.insert_sorted_unique [⟨"a".data, 2⟩]).find "a".data = 2 ∧
    sorted.object_a_b.strictly_ascending ∧
    (sorted.object_a_b.insert_sorted_unique [⟨"a".data, 5⟩, ⟨"b".data, 6⟩]).members_ =
      [⟨"b".data, 6⟩, ⟨"a".data, 5⟩, ⟨"a".data, 1⟩, ⟨"b".data, 2⟩] ∧
    ¬ (sorted.object_a_b.insert_sorted_unique
        [⟨"a".data, 5⟩, ⟨"b".data, 6⟩]).strictly_ascending ∧
    ((sorted.json_object.mk []).insert_sorted_unique
        [(⟨"a".data, 5⟩ : key_value (List Char) Int), ⟨"b".data, 6⟩]).members_ =
      [⟨"a".data, 5⟩, ⟨"b".data, 6⟩] :=
  ⟨by decide, by decide, by decide, by decide, by decide, by decide, by decide, by decide⟩

end jsoncons

namespace jsoncons

section
variable {K V : Type}

theorem assign_value_same (ms : List (key_value K V)) (q : Nat) (k : K) (v : V)
    (h : ms[q]? = some ⟨k, v⟩) : assign_value ms q v = ms := by
  apply List.ext_getElem?
  intro i
  rw [preserve_order.assign_value_getElem?]
  by_cases hiq : i = q
  · subst hiq
    simp [h]
  · cases ms[i]? <;> simp [hiq]

end

section
variable {K V : Type} [LinearOrder K]

theorem sorted_insert_or_assign_same (o : sorted.json_object K V) (k : K) (v : V)
    (h : o.strictly_ascending) (hm : (⟨k, v⟩ : key_value K V) ∈ o.members_) :
    (o.insert_or_assign k v).1 = o := by
  have hnd := sorted.keys_nodup o h
  obtain ⟨ms⟩ := o
  rw [sorted.strictly_ascending_iff] at h
  rcases sorted.members_decompose ms k h with
    ⟨l1, l2, rfl, h1, h2⟩ | ⟨l1, b, l2, rfl, h1, hb, h2⟩
  · exact absurd (List.mem_map.2 ⟨_, hm, rfl⟩) (sorted.absent_not_mem l1 l2 k h1 h2)
  · rw [sorted.insert_or_assign_present l1 l2 b k v h1 hb h2]
    have hbm : b ∈ l1 ++ b :: l2 := by simp
    have : b = ⟨k, v⟩ := member_unique_of_nodup_keys _ hnd b ⟨k, v⟩ hbm hm hb
    rw [this]

theorem order_preserving_insert_or_assign_same (p : preserve_order.json_object K V)
    (k : K) (v : V) (h : p.index_consistent) (pos : Nat)
    (hm : p.members_[pos]? = some ⟨k, v⟩) :
    p.insert_or_assign k v = .ok (p, (pos, false)) := by
  obtain ⟨ms, idx⟩ := p
  simp only at hm
  rcases preserve_order.index_decompose_of_consistent ⟨ms, idx⟩ k h with
    ⟨l1, l2, hidx, h1, h2⟩ | ⟨l1, q, l2, b, hidx, h1, hb, hk, h2⟩
  · simp only at hidx h1 h2
    subst hidx
    exact absurd (preserve_order.index_present_mem ms pos ⟨k, v⟩ k hm rfl)
      (preserve_order.index_absent_not_mem ms l1 l2 k h.1 h1 h2)
  · simp only at hidx h1 h2 hb
    subst hidx
    have hq : q = pos := preserve_order.key_position_unique ⟨ms, l1 ++ q :: l2⟩ h q pos b
      ⟨k, v⟩ hb hm hk
    subst hq
    rw [preserve_order.index_insert_or_assign_present ms l1 l2 q b k v
      (preserve_order.index_length ms _ h.1) h1 hb hk h2, assign_value_same ms q k v hm]

/-- C14: for a sorted object with strictly ascending keys and for an
order-preserving object with a consistent index, applying unhinted
`insert_or_assign(k, v)` a second time leaves the container state of the first
application unchanged: the same member sequence and, in the order-preserving
variant, the same index. -/
theorem insert_or_assign_twice_same_state (o : sorted.json_object K V)
    (p : preserve_order.json_object K V) (k : K) (v : V)
    (ho : o.strictly_ascending) (hp : p.index_consistent) :
    ((o.insert_or_assign k v).1.insert_or_assign k v).1 = (o.insert_or_assign k v).1 ∧
    (∃ p1 r1 r2, p.insert_or_assign k v = .ok (p1, r1) ∧
      p1.insert_or_assign k v = .ok (p1, r2)) := by
  constructor
  · obtain ⟨o1, pos, ins, heq, _, _, hpos, _, _⟩ := sorted_insert_or_assign_spec o k v ho
    have hasc := sorted.insert_or_assign_ascending o k v ho
    rw [heq] at hasc ⊢
    exact sorted_insert_or_assign_same o1 k v hasc (List.getElem?_mem hpos)
  · obtain ⟨p1, pos, ins, heq, _, _, hpos, _, _⟩ :=
      order_preserving_insert_or_assign_spec p k v hp
    obtain ⟨r, hr, hc⟩ := preserve_order.insert_or_assign_consistent p k v hp
    rw [heq] at hr
    cases hr
    exact ⟨p1, (pos, ins), (pos, false), heq,
      order_preserving_insert_or_assign_same p1 k v hc pos hpos⟩

end

theorem insert_or_assign_twice_same_state_witness :
    sorted.object_a_b.strictly_ascending ∧ preserve_order.object_m_c_x_a_q.index_consistent ∧
    ((sorted.object_a_b.insert_or_assign "c".data 5).1.insert_or_assign "c".data 5).1 =
      (sorted.object_a_b.insert_or_assign "c".data 5).1 ∧
    (∃ p1 r1 r2, preserve_order.object_m_c_x_a_q.insert_or_assign "c".data 5 = .ok (p1, r1) ∧
      p1.insert_or_assign "c".data 5 = .ok (p1, r2)) :=
  ⟨by decide, by decide,
    insert_or_assign_twice_same_state sorted.object_a_b preserve_order.object_m_c_x_a_q
      "c".data 5 (by decide) (by decide)⟩

end jsoncons

namespace jsoncons

namespace sorted

variable {K V : Type} [LinearOrder K]

theorem members_split (ms : List (key_value K V)) (k : K)
    (hs : ms.Pairwise (fun a b => a.key < b.key)) :
    ∃ l1 l2, ms = l1 ++ l2 ∧ (∀ a ∈ l1, a.key < k) ∧ (∀ a ∈ l2, k ≤ a.key) := by
  rcases members_decompose ms k hs with ⟨l1, l2, rfl, h1, h2⟩ | ⟨l1, b, l2, rfl, h1, hb, h2⟩
  · exact ⟨l1, l2, rfl, h1, fun a ha => le_of_lt (h2 a ha)⟩
  · refine ⟨l1, b :: l2, rfl, h1, ?_⟩
    intro a ha
    rcases List.mem_cons.1 ha with rfl | hat
    · exact le_of_eq hb.symm
    · exact le_of_lt (h2 a hat)

/-- The search of the hinted methods returns what the search from `begin()`
returns, whatever the hint. -/
theorem hinted_lower_bound_eq (o : json_object K V) (hint : Nat) (k : K)
    (h : o.strictly_ascending) :
    o.hinted_lower_bound hint k = lower_bound (key_less k) o.members_ := by
  obtain ⟨ms⟩ := o
  rw [strictly_ascending_iff] at h
  unfold json_object.hinted_lower_bound
  simp only
  split
  · rename_i hlt
    split
    · rename_i hle
      obtain ⟨l1, l2, hsplit, h1, h2⟩ := members_split ms k h
      subst hsplit
      rw [lower_bound_members l1 l2 k h1 h2]
      unfold lower_bound_from
      have hhint : hint ≤ l1.length := by
        by_contra hgt
        have hgt2 : l1.length < hint := by omega
        have hl : l1.length < (l1 ++ l2).length := by omega
        have hlt2 : (l1 ++ l2)[l1.length].key < (l1 ++ l2)[hint].key :=
          (List.pairwise_iff_getElem.1 h) l1.length hint hl hlt hgt2
        have hmem : (l1 ++ l2)[l1.length] ∈ l2 := by
          rw [List.getElem_append_right (le_refl _)]
          exact List.getElem_mem _
        have := h2 _ hmem
        exact absurd (lt_of_lt_of_le hlt2 hle) (not_lt.2 this)
      apply lower_bound_loop_split (key_less k) l1 l2
        (fun a ha => by simpa [key_less] using h1 a ha)
        (fun a ha => by simpa [key_less] using h2 a ha)
      · exact le_refl _
      · exact hhint
      · simp only [List.length_append] at hlt ⊢; omega
      · simp only [List.length_append] at hlt ⊢; omega
    · rfl
  · rfl

theorem insert_or_assign_hint_eq (o : json_object K V) (hint : Nat) (k : K) (v : V)
    (h : o.strictly_ascending) :
    o.insert_or_assign_hint hint k v =
      ((o.insert_or_assign k v).1, (o.insert_or_assign k v).2.1) := by
  simp only [json_object.insert_or_assign_hint, json_object.insert_or_assign,
    hinted_lower_bound_eq o hint k h]
  split
  · split <;> rfl
  · rfl

theorem try_emplace_hint_eq (o : json_object K V) (hint : Nat) (k : K) (v : V)
    (h : o.strictly_ascending) :
    o.try_emplace_hint hint k v = ((o.try_emplace k v).1, (o.try_emplace k v).2.1) := by
  simp only [json_object.try_emplace_hint, json_object.try_emplace,
    hinted_lower_bound_eq o hint k h]
  split
  · split <;> rfl
  · rfl

theorem try_emplace_position (o : json_object K V) (k : K) (v : V)
    (h : o.strictly_ascending) :
    ∃ m, (o.try_emplace k v).1.members_[(o.try_emplace k v).2.1]? = some m ∧ m.key = k := by
  obtain ⟨ms⟩ := o
  rw [strictly_ascending_iff] at h
  rcases members_decompose ms k h with ⟨l1, l2, rfl, h1, h2⟩ | ⟨l1, b, l2, rfl, h1, hb, h2⟩
  · rw [try_emplace_absent l1 l2 k v h1 h2]
    refine ⟨⟨k, v⟩, ?_, rfl⟩
    show (l1 ++ (⟨k, v⟩ : key_value K V) :: l2)[l1.length]? = some ⟨k, v⟩
    rw [List.getElem?_append_right (le_refl _)]; simp
  · rw [try_emplace_present l1 l2 b k v h1 hb h2]
    refine ⟨b, ?_, hb⟩
    show (l1 ++ b :: l2)[l1.length]? = some b
    rw [List.getElem?_append_right (le_refl _)]; simp

/-- C18: in a sorted object with strictly ascending keys a position hint never
changes the result. For every hint position (correct or not), key `k` and value
`v`, the hinted `insert_or_assign` and the hinted `try_emplace` leave the same
member sequence and return the same position as the unhinted call; the result
is strictly ascending, and the member at the returned position has key `k`. -/
theorem sorted_hint_never_changes_result (o : json_object K V) (hint : Nat) (k : K) (v : V)
    (h : o.strictly_ascending) :
    (o.insert_or_assign_hint hint k v =
        ((o.insert_or_assign k v).1, (o.insert_or_assign k v).2.1) ∧
      (o.insert_or_assign_hint hint k v).1.strictly_ascending ∧
      ∃ m, (o.insert_or_assign_hint hint k v).1.members_[
        (o.insert_or_assign_hint hint k v).2]? = some m ∧ m.key = k) ∧
    (o.try_emplace_hint hint k v = ((o.try_emplace k v).1, (o.try_emplace k v).2.1) ∧
      (o.try_emplace_hint hint k v).1.strictly_ascending ∧
      ∃ m, (o.try_emplace_hint hint k v).1.members_[
        (o.try_emplace_hint hint k v).2]? = some m ∧ m.key = k) := by
  rw [insert_or_assign_hint_eq o hint k v h, try_emplace_hint_eq o hint k v h]
  refine ⟨⟨rfl, insert_or_assign_ascending o k v h, ?_⟩,
    ⟨rfl, try_emplace_ascending o k v h, try_emplace_position o k v h⟩⟩
  obtain ⟨o1, pos, ins, heq, _, _, hpos, _, _⟩ := sorted_insert_or_assign_spec o k v h
  rw [heq]
  exact ⟨⟨k, v⟩, hpos, rfl⟩

theorem sorted_hint_never_changes_result_witness :
    object_a_b.strictly_ascending ∧
    (object_a_b.insert_or_assign_hint 2 "a".data 9).1.members_ =
      [⟨"a".data, 9⟩, ⟨"b".data, 2⟩] ∧
    object_a_b.try_emplace_hint 1 "0".data 9 =
      ((object_a_b.try_emplace "0".data 9).1, (object_a_b.try_emplace "0".data 9).2.1) :=
  ⟨by decide, by decide,
    (sorted_hint_never_changes_result object_a_b 1 "0".data 9 (by decide)).2.1⟩

end sorted

end jsoncons

namespace jsoncons

section
variable {K V : Type} [LinearOrder K]

theorem sorted_from_range_find? (input : List (key_value K V)) (k : K) :
    (sorted.json_object.from_range input).members_.find? (fun m => decide (m.key = k)) =
      input.find? (fun m => decide (m.key = k)) := by
  simp only [sorted.json_object.from_range]
  rw [unique_find? key_value.key k, stable_sort_find? key_value.key k]

theorem sorted_from_range_ascending (input : List (key_value K V)) :
    (sorted.json_object.from_range input).strictly_ascending := by
  rw [sorted.strictly_ascending_iff]
  exact unique_sorted key_value.key _ (stable_sort_sorted key_value.key input)

theorem delete_later_occurrences_find? (k : K) :
    ∀ (l : List (key_value K V)) (seen : List K),
      (preserve_order.delete_later_occurrences seen l).find? (fun m => decide (m.key = k)) =
        if k ∈ seen then none else l.find? (fun m => decide (m.key = k)) := by
  intro l
  induction l with
  | nil => intro seen; simp [preserve_order.delete_later_occurrences]
  | cons a t ih =>
    intro seen
    by_cases ha : a.key ∈ seen
    · rw [preserve_order.delete_later_occurrences_cons_seen _ _ _ ha, ih seen]
      by_cases hk : k ∈ seen
      · rw [if_pos hk, if_pos hk]
      · rw [if_neg hk, if_neg hk]
        have hne : ¬ a.key = k := fun e => hk (e ▸ ha)
        rw [List.find?_cons_of_neg _ (by simpa using hne)]
    · rw [preserve_order.delete_later_occurrences_cons_new _ _ _ ha]
      by_cases hak : a.key = k
      · have hk : k ∉ seen := fun hc => ha (hak ▸ hc)
        rw [if_neg hk, List.find?_cons_of_pos _ (by simpa using hak),
          List.find?_cons_of_pos _ (by simpa using hak)]
      · rw [List.find?_cons_of_neg _ (by simpa using hak), ih (a.key :: seen),
          List.find?_cons_of_neg _ (by simpa using hak)]
        by_cases hk : k ∈ seen
        · rw [if_pos hk, if_pos (List.mem_cons_of_mem _ hk)]
        · rw [if_neg hk, if_neg]
          intro hc
          rcases List.mem_cons.1 hc with h1 | h1
          · exact hak h1.symm
          · exact hk h1

theorem order_preserving_from_range_find? (input : List (key_value K V)) (k : K) :
    (preserve_order.json_object.from_range input).members_.find?
        (fun m => decide (m.key = k)) =
      input.find? (fun m => decide (m.key = k)) := by
  rw [preserve_order.from_range_members, delete_later_occurrences_find? k input []]
  simp

theorem order_preserving_from_range_keys_nodup (input : List (key_value K V)) :
    ((preserve_order.json_object.from_range input).members_.map key_value.key).Nodup := by
  rw [preserve_order.from_range_members]
  exact (preserve_order.delete_later_occurrences_keys input []).1

/-- C15: for every finite list of key/value pairs the sorted object and the
order-preserving object built by their range constructors hold the same
key-to-value associations: the two member sequences are permutations of each
other (the same multiset of members, possibly in a different order), and for
every key the member found under that key is the same in both. -/
theorem range_constructors_build_equal_objects (input : List (key_value K V)) (k : K) :
    (sorted.json_object.from_range input).members_.Perm
      (preserve_order.json_object.from_range input).members_ ∧
    (sorted.json_object.from_range input).members_.find? (fun m => decide (m.key = k)) =
      (preserve_order.json_object.from_range input).members_.find?
        (fun m => decide (m.key = k)) ∧
    (sorted.json_object.from_range pairs_a_b_a).members_ =
      (preserve_order.json_object.from_range pairs_a_b_a).members_ := by
  have hs := sorted.keys_nodup _ (sorted_from_range_ascending input)
  have hp := order_preserving_from_range_keys_nodup input
  refine ⟨?_, ?_, by decide⟩
  · rw [List.perm_ext_iff_of_nodup (List.Nodup.of_map _ hs) (List.Nodup.of_map _ hp)]
    intro m
    rw [← find?_key_eq_some_iff_mem _ hs m, ← find?_key_eq_some_iff_mem _ hp m,
      sorted_from_range_find?, order_preserving_from_range_find?]
  · rw [sorted_from_range_find?, order_preserving_from_range_find?]

end

end jsoncons

namespace jsoncons

section
variable {K V : Type} [DecidableEq K] [DecidableEq V]

theorem key_value_operator_eq_iff (a b : key_value K V) :
    key_value.operator_eq a b = true ↔ a = b := by
  obtain ⟨ak, av⟩ := a
  obtain ⟨bk, bv⟩ := b
  simp [key_value.operator_eq]

theorem vector_equal_iff :
    ∀ l1 l2 : List (key_value K V),
      vector_equal key_value.operator_eq l1 l2 = true ↔ l1 = l2 := by
  intro l1
  induction l1 with
  | nil =>
    intro l2
    cases l2 <;> simp [vector_equal]
  | cons a t ih =>
    intro l2
    cases l2 with
    | nil => simp [vector_equal]
    | cons b u =>
      simp only [vector_equal, Bool.and_eq_true, key_value_operator_eq_iff, ih u,
        List.cons.injEq]

end

namespace preserve_order

/-- C16 fails as stated: the objects built by inserting `x = 1, y = 2` and by
inserting `y = 2, x = 1` both have a consistent index and hold the same set of
key/value pairs, yet `operator==` returns false for them. -/
theorem order_preserving_equality_depends_on_insertion_order :
    object_x_then_y.index_consistent ∧ object_y_then_x.index_consistent ∧
    (∀ m : key_value (List Char) Int,
      m ∈ object_x_then_y.members_ ↔ m ∈ object_y_then_x.members_) ∧
    object_x_then_y.operator_eq object_y_then_x = false := by
  refine ⟨by decide, by decide, ?_, by decide⟩
  intro m
  have hperm : object_x_then_y.members_.Perm object_y_then_x.members_ := by decide
  exact hperm.mem_iff

variable {K V : Type} [LinearOrder K] [DecidableEq V]

/-- C16 as amended: `a == b` holds for two order-preserving objects exactly when
their member sequences are equal, that is, when they hold the same key/value
pairs in the same insertion order. -/
theorem order_preserving_equality_is_sequence_equality (a b : json_object K V) :
    a.operator_eq b = true ↔ a.members_ = b.members_ := by
  unfold json_object.operator_eq
  exact vector_equal_iff a.members_ b.members_

end preserve_order

end jsoncons

namespace jsoncons

section
variable {K V : Type} [LinearOrder K]

theorem keys_of_last_occurrences (R s : List (key_value K V))
    (h : ∀ m : key_value K V, m ∈ R ↔
      s.reverse.find? (fun e => decide (e.key = m.key)) = some m) (k : K) :
    k ∈ R.map key_value.key ↔ k ∈ s.map key_value.key := by
  rw [mem_keys_iff, mem_keys_iff]
  constructor
  · rintro ⟨m, hm, hk⟩
    have := List.mem_of_find?_eq_some ((h m).1 hm)
    exact ⟨m, List.mem_reverse.1 this, hk⟩
  · rintro ⟨m, hm, hk⟩
    cases hf : s.reverse.find? (fun e => decide (e.key = k)) with
    | none =>
      have := List.find?_eq_none.1 hf m (List.mem_reverse.2 hm)
      simp [hk] at this
    | some x =>
      have hxk : x.key = k := by simpa using List.find?_some hf
      refine ⟨x, (h x).2 ?_, hxk⟩
      rw [hxk]
      exact hf

theorem sorted_from_initializer_list_spec (init : List (key_value K V)) :
    (sorted.json_object.from_initializer_list init).strictly_ascending ∧
    (∀ m : key_value K V, m ∈ (sorted.json_object.from_initializer_list init).members_ ↔
      init.reverse.find? (fun e => decide (e.key = m.key)) = some m) := by
  have h := foldl_update_mem (fun o : sorted.json_object K V => o.members_)
    (fun o => o.strictly_ascending) (fun acc m => (acc.insert_or_assign m.key m.value).1)
    (fun o a ho => ⟨sorted.insert_or_assign_ascending o a.key a.value ho,
      fun m => sorted.insert_or_assign_mem o a.key a.value ho m⟩) init ⟨[]⟩
    (by simp [sorted.json_object.strictly_ascending])
  refine ⟨h.1, fun m => ?_⟩
  have := h.2 m
  simp only [sorted.json_object.from_initializer_list]
  rw [this]
  simp

theorem order_preserving_from_initializer_list_spec (init : List (key_value K V)) :
    ∃ r, preserve_order.json_object.from_initializer_list init = .ok r ∧
      r.index_consistent ∧
      (∀ m : key_value K V, m ∈ r.members_ ↔
        init.reverse.find? (fun e => decide (e.key = m.key)) = some m) := by
  obtain ⟨r, hr, hc, hm⟩ := preserve_order.for_each_update_mem _
    preserve_order.insert_or_assign_body_spec init ⟨[], []⟩
    (by constructor <;> simp)
  refine ⟨r, hr, hc, fun m => ?_⟩
  rw [hm m]
  simp

theorem sorted_from_range_keys (input : List (key_value K V)) (k : K) :
    k ∈ (sorted.json_object.from_range input).members_.map key_value.key ↔
      k ∈ input.map key_value.key := by
  rw [mem_map_iff_find?_isSome, mem_map_iff_find?_isSome, sorted_from_range_find?]

theorem order_preserving_from_range_keys (input : List (key_value K V)) (k : K) :
    k ∈ (preserve_order.json_object.from_range input).members_.map key_value.key ↔
      k ∈ input.map key_value.key := by
  rw [mem_map_iff_find?_isSome, mem_map_iff_find?_isSome, order_preserving_from_range_find?]

/-- C20 as amended: the initializer-list constructor applies `insert_or_assign` to
every pair, so for both variants it keeps, for every key, the pair of its LAST
occurrence; the variant's invariant holds, no call throws, and the key set is
the key set of the range constructor over the same pairs. For
`{("a",1),("b",2),("a",3)}` it gives `{"a":3,"b":2}`. -/
theorem initializer_list_constructor_keeps_last_occurrence (init : List (key_value K V)) :
    ((sorted.json_object.from_initializer_list init).strictly_ascending ∧
      (∀ m : key_value K V, m ∈ (sorted.json_object.from_initializer_list init).members_ ↔
        init.reverse.find? (fun e => decide (e.key = m.key)) = some m) ∧
      (∀ k : K, k ∈ (sorted.json_object.from_initializer_list init).members_.map
          key_value.key ↔
        k ∈ (sorted.json_object.from_range init).members_.map key_value.key)) ∧
    (∃ r, preserve_order.json_object.from_initializer_list init = .ok r ∧
      r.index_consistent ∧
      (∀ m : key_value K V, m ∈ r.members_ ↔
        init.reverse.find? (fun e => decide (e.key = m.key)) = some m) ∧
      (∀ k : K, k ∈ r.members_.map key_value.key ↔
        k ∈ (preserve_order.json_object.from_range init).members_.map key_value.key)) ∧
    (sorted.json_object.from_initializer_list pairs_a_b_a).members_ =
      [⟨"a".data, 3⟩, ⟨"b".data, 2⟩] ∧
    preserve_order.json_object.from_initializer_list pairs_a_b_a =
      .ok ⟨[⟨"a".data, 3⟩, ⟨"b".data, 2⟩], [0, 1]⟩ := by
  have h1 := sorted_from_initializer_list_spec init
  obtain ⟨r, hr, hc, hm⟩ := order_preserving_from_initializer_list_spec init
  refine ⟨⟨h1.1, h1.2, fun k => ?_⟩, ⟨r, hr, hc, hm, fun k => ?_⟩, by decide, by decide⟩
  · rw [keys_of_last_occurrences _ init h1.2 k, sorted_from_range_keys]
  · rw [keys_of_last_occurrences _ init hm k, order_preserving_from_range_keys]

end

/-- C20 fails as stated: from the pairs `[("a",1),("b",2),("a",3)]` the
initializer-list constructor builds `{"a":3,"b":2}` in both variants, while the
range constructor builds `{"a":1,"b":2}`; the two do not hold the same
key-to-value associations. -/
theorem initializer_list_constructor_differs_from_range_constructor :
    (sorted.json_object.from_initializer_list pairs_a_b_a).members_ =
      [⟨"a".data, 3⟩, ⟨"b".data, 2⟩] ∧
    (sorted.json_object.from_range pairs_a_b_a).members_ = [⟨"a".data, 1⟩, ⟨"b".data, 2⟩] ∧
    ¬ (sorted.json_object.from_initializer_list pairs_a_b_a).members_.Perm
        (sorted.json_object.from_range pairs_a_b_a).members_ ∧
    preserve_order.json_object.from_initializer_list pairs_a_b_a =
      .ok ⟨[⟨"a".data, 3⟩, ⟨"b".data, 2⟩], [0, 1]⟩ ∧
    (preserve_order.json_object.from_range pairs_a_b_a).members_ =
      [⟨"a".data, 1⟩, ⟨"b".data, 2⟩] :=
  ⟨by decide, by decide, by decide, by decide, by decide⟩

end jsoncons

/-! ## Member comparison and iterators -/

namespace jsoncons

section member_comparison

variable {K V : Type} [LinearOrder K] [DecidableEq V] [LT V]
  [DecidableRel (fun a b : V => a < b)]

/-- C23: the operator `<` of `key_value` is the lexicographic order on (key,
value): `a < b` iff `a.key < b.key`, or the keys are equal and
`a.value < b.value`. The derived operators satisfy `a <= b` iff not `b < a`,
`a > b` iff `b < a`, `a >= b` iff not `a < b`; `a == b` iff keys and values are
both equal, and `a != b` iff not `a == b`. -/
theorem key_value_ordering_is_lexicographic (a b : key_value K V) :
    (key_value.operator_lt a b = true ↔
      (a.key < b.key ∨ (a.key = b.key ∧ a.value < b.value))) ∧
    (key_value.operator_le a b = true ↔ ¬ key_value.operator_lt b a = true) ∧
    (key_value.operator_gt a b = true ↔ key_value.operator_lt b a = true) ∧
    (key_value.operator_ge a b = true ↔ ¬ key_value.operator_lt a b = true) ∧
    (key_value.operator_eq a b = true ↔ (a.key = b.key ∧ a.value = b.value)) ∧
    (key_value.operator_ne a b = true ↔ ¬ key_value.operator_eq a b = true) := by
  refine ⟨?_, ?_, ?_, ?_, ?_, ?_⟩
  · unfold key_value.operator_lt
    by_cases h1 : a.key < b.key
    · simp [h1]
    · by_cases h2 : a.key = b.key ∧ a.value < b.value
      · simp [h1, h2]
      · rw [if_neg h1, if_neg h2]
        simp only [Bool.false_eq_true, false_iff, not_or]
        exact ⟨h1, h2⟩
  · simp [key_value.operator_le]
  · simp [key_value.operator_gt, key_value.operator_le]
  · simp [key_value.operator_ge]
  · simp [key_value.operator_eq]
  · simp [key_value.operator_ne]

end member_comparison

/-- C29: `sequence_iterator` and `const_sequence_iterator` behave as integer
positions. With `b` the `begin()` iterator of the container, the position of `p`
is `p - b`. For all offsets `n`, `m`: `(p + n) - p = n`, `(p + n) + m = p + (n + m)`,
`p - n = p + (-n)`, `n + p = p + n`, `p[n] = *(p + n)`, `+=` and `-=` agree with
`+` and `-`, the prefix and postfix `++` and `--` move by exactly one (the postfix
forms return the old iterator), the six comparisons hold iff the same relation
holds between the positions, and the conversion of a mutable iterator to a const
iterator keeps the position. -/
theorem sequence_iterators_are_integer_positions {α : Type} (xs : List α)
    (b p q : sequence_iterator) (cb cp cq : const_sequence_iterator) (n m : Int) :
    ((p.plus n).difference p = n ∧
     (p.plus n).plus m = p.plus (n + m) ∧
     p.minus n = p.plus (-n) ∧
     sequence_iterator.offset_plus n p = p.plus n ∧
     sequence_iterator.subscript xs p n = sequence_iterator.dereference xs (p.plus n) ∧
     p.add_assign n = p.plus n ∧ p.sub_assign n = p.minus n ∧
     (p.plus n).difference b = p.difference b + n ∧
     p.increment = p.plus 1 ∧ p.decrement = p.minus 1 ∧
     p.post_increment = (p.plus 1, p) ∧ p.post_decrement = (p.minus 1, p) ∧
     (p.operator_lt q = true ↔ p.difference b < q.difference b) ∧
     (p.operator_gt q = true ↔ p.difference b > q.difference b) ∧
     (p.operator_le q = true ↔ p.difference b ≤ q.difference b) ∧
     (p.operator_ge q = true ↔ p.difference b ≥ q.difference b) ∧
     (p.operator_eq q = true ↔ p.difference b = q.difference b) ∧
     (p.operator_ne q = true ↔ p.difference b ≠ q.difference b)) ∧
    ((cp.plus n).difference cp = n ∧
     (cp.plus n).plus m = cp.plus (n + m) ∧
     cp.minus n = cp.plus (-n) ∧
     const_sequence_iterator.offset_plus n cp = cp.plus n ∧
     const_sequence_iterator.subscript xs cp n =
       const_sequence_iterator.dereference xs (cp.plus n) ∧
     cp.add_assign n = cp.plus n ∧ cp.sub_assign n = cp.minus n ∧
     (cp.plus n).difference cb = cp.difference cb + n ∧
     cp.increment = cp.plus 1 ∧ cp.decrement = cp.minus 1 ∧
     cp.post_increment = (cp.plus 1, cp) ∧ cp.post_decrement = (cp.minus 1, cp) ∧
     (cp.operator_lt cq = true ↔ cp.difference cb < cq.difference cb) ∧
     (cp.operator_gt cq = true ↔ cp.difference cb > cq.difference cb) ∧
     (cp.operator_le cq = true ↔ cp.difference cb ≤ cq.difference cb) ∧
     (cp.operator_ge cq = true ↔ cp.difference cb ≥ cq.difference cb) ∧
     (cp.operator_eq cq = true ↔ cp.difference cb = cq.difference cb) ∧
     (cp.operator_ne cq = true ↔ cp.difference cb ≠ cq.difference cb)) ∧
    ((const_sequence_iterator.of_sequence_iterator p).difference
        (const_sequence_iterator.of_sequence_iterator b) = p.difference b ∧
     const_sequence_iterator.dereference xs (const_sequence_iterator.of_sequence_iterator p) =
       sequence_iterator.dereference xs p) := by
  refine ⟨⟨?_, ?_, ?_, ?_, ?_, ?_, ?_, ?_, ?_, ?_, ?_, ?_, ?_, ?_, ?_, ?_, ?_, ?_⟩,
    ⟨?_, ?_, ?_, ?_, ?_, ?_, ?_, ?_, ?_, ?_, ?_, ?_, ?_, ?_, ?_, ?_, ?_, ?_⟩, ?_, ?_⟩
  all_goals
    simp only [sequence_iterator.plus, sequence_iterator.minus, sequence_iterator.add_assign,
      sequence_iterator.sub_assign, sequence_iterator.difference,
      sequence_iterator.offset_plus, sequence_iterator.subscript,
      sequence_iterator.increment, sequence_iterator.decrement,
      sequence_iterator.post_increment, sequence_iterator.post_decrement,
      sequence_iterator.operator_lt, sequence_iterator.operator_gt,
      sequence_iterator.operator_le, sequence_iterator.operator_ge,
      sequence_iterator.operator_eq, sequence_iterator.operator_ne,
      sequence_iterator.dereference,
      const_sequence_iterator.plus, const_sequence_iterator.minus,
      const_sequence_iterator.add_assign,
      const_sequence_iterator.sub_assign, const_sequence_iterator.difference,
      const_sequence_iterator.offset_plus, const_sequence_iterator.subscript,
      const_sequence_iterator.increment, const_sequence_iterator.decrement,
      const_sequence_iterator.post_increment, const_sequence_iterator.post_decrement,
      const_sequence_iterator.operator_lt, const_sequence_iterator.operator_gt,
      const_sequence_iterator.operator_le, const_sequence_iterator.operator_ge,
      const_sequence_iterator.operator_eq, const_sequence_iterator.operator_ne,
      const_sequence_iterator.dereference, const_sequence_iterator.of_sequence_iterator,
      sequence_iterator.mk.injEq, const_sequence_iterator.mk.injEq, Prod.mk.injEq,
      decide_eq_true_eq, Bool.not_eq_true', decide_eq_false_iff_not, and_true, true_and]
  all_goals omega

end jsoncons

/-! ## Arrays -/

namespace jsoncons

section arrays

variable {Json : Type}

theorem vector_emplace_length {α : Type} (v : List α) (i : Nat) (x : α) (h : i ≤ v.length) :
    (vector_emplace v i x).length = v.length + 1 := by
  simp only [vector_emplace, List.length_append, List.length_take, List.length_cons,
    List.length_drop]
  omega

theorem vector_emplace_getElem? {α : Type} (v : List α) (i : Nat) (x : α) (h : i ≤ v.length) :
    (vector_emplace v i x)[i]? = some x := by
  have hl : (v.take i).length = i := by simp [List.length_take, h]
  simp only [vector_emplace]
  rw [List.getElem?_append_right (by omega)]
  simp [hl]

/-- C24: for every array with elements `xs` and every position `i ≤ size`,
`insert(begin + i, v)` yields `xs[0..i) ++ [v] ++ xs[i..)`, the size grows by one,
the returned iterator is at position `i`, where the inserted element is;
`push_back(v)` yields `xs ++ [v]`. Both texts selected by the preprocessor symbol
behave so. Pushing Toronto and Vancouver and inserting Montreal at `begin` gives
Montreal, Toronto, Vancouver, of size 3. -/
theorem array_insert_places_value_at_position (no_erase_taking_const_iterator : Bool)
    (a : json_array Json) (i : Nat) (v : Json) (h : i ≤ a.size) :
    (a.insert no_erase_taking_const_iterator i v).1.elements_ =
        a.elements_.take i ++ [v] ++ a.elements_.drop i ∧
    (a.insert no_erase_taking_const_iterator i v).1.size = a.size + 1 ∧
    (a.insert no_erase_taking_const_iterator i v).2 = i ∧
    (a.insert no_erase_taking_const_iterator i v).1.elements_[
        (a.insert no_erase_taking_const_iterator i v).2]? = some v ∧
    (a.push_back v).elements_ = a.elements_ ++ [v] ∧
    ((((json_array.mk ([] : List String)).push_back "Toronto").push_back
        "Vancouver").insert no_erase_taking_const_iterator 0 "Montreal").1.elements_
      = ["Montreal", "Toronto", "Vancouver"] ∧
    ((((json_array.mk ([] : List String)).push_back "Toronto").push_back
        "Vancouver").insert no_erase_taking_const_iterator 0 "Montreal").1.size = 3 := by
  have hins : a.insert no_erase_taking_const_iterator i v =
      (⟨vector_emplace a.elements_ i v⟩, i) := by
    cases no_erase_taking_const_iterator <;>
      simp [json_array.insert, json_array.to_container_iterator]
  rw [hins]
  refine ⟨?_, ?_, rfl, ?_, rfl, ?_, ?_⟩
  · simp [vector_emplace]
  · exact vector_emplace_length _ _ _ h
  · exact vector_emplace_getElem? _ _ _ h
  · cases no_erase_taking_const_iterator <;> rfl
  · cases no_erase_taking_const_iterator <;> rfl

theorem array_insert_places_value_at_position_witness :
    (1 : Nat) ≤ (json_array.mk [10, 20, 30]).size ∧
    ((json_array.mk [10, 20, 30]).insert false 1 15).1.elements_ = [10, 15, 20, 30] ∧
    ((json_array.mk [10, 20, 30]).insert false 1 15).2 = 1 :=
  ⟨by decide,
   (array_insert_places_value_at_position false (json_array.mk [10, 20, 30]) 1 15
      (by decide)).1,
   (array_insert_places_value_at_position false (json_array.mk [10, 20, 30]) 1 15
      (by decide)).2.2.1⟩

/-- C25: for every array with elements `xs` and positions `i ≤ j ≤ size`,
`erase(begin + i, begin + j)` yields `xs[0..i) ++ xs[j..)`, so the size decreases
by `j - i` and the other elements keep their order; `erase(begin + i)` for
`i < size` equals `erase(begin + i, begin + i + 1)`. Both texts selected by the
preprocessor symbol behave so. Erasing `[begin + 1, end)` of Montreal, Toronto,
Vancouver leaves Montreal. -/
theorem array_erase_removes_the_range (no_erase_taking_const_iterator : Bool)
    (a : json_array Json) (i j : Nat) (hij : i ≤ j) (hj : j ≤ a.size) :
    (a.erase_range no_erase_taking_const_iterator i j).elements_ =
        a.elements_.take i ++ a.elements_.drop j ∧
    (a.erase_range no_erase_taking_const_iterator i j).size = a.size - (j - i) ∧
    (i < a.size → a.erase no_erase_taking_const_iterator i =
        a.erase_range no_erase_taking_const_iterator i (i + 1)) ∧
    ((json_array.mk ["Montreal", "Toronto", "Vancouver"]).erase_range
        no_erase_taking_const_iterator 1 3).elements_ = ["Montreal"] := by
  have herase : a.erase_range no_erase_taking_const_iterator i j =
      ⟨a.elements_.take i ++ a.elements_.drop j⟩ := by
    cases no_erase_taking_const_iterator <;>
      simp [json_array.erase_range, json_array.to_container_iterator, vector_erase]
  rw [herase]
  refine ⟨rfl, ?_, ?_, ?_⟩
  · simp only [json_array.size, List.length_append, List.length_take, List.length_drop] at hj ⊢
    omega
  · intro _
    cases no_erase_taking_const_iterator <;>
      simp [json_array.erase, json_array.erase_range, json_array.to_container_iterator,
        vector_erase, List.eraseIdx_eq_take_drop_succ]
  · cases no_erase_taking_const_iterator <;> rfl

theorem array_erase_removes_the_range_witness :
    (1 : Nat) ≤ 3 ∧ (3 : Nat) ≤ (json_array.mk [10, 20, 30, 40]).size ∧
    ((json_array.mk [10, 20, 30, 40]).erase_range false 1 3).elements_ = [10, 40] ∧
    (json_array.mk [10, 20, 30, 40]).erase false 1 =
      (json_array.mk [10, 20, 30, 40]).erase_range false 1 2 :=
  ⟨by decide, by decide,
   (array_erase_removes_the_range false (json_array.mk [10, 20, 30, 40]) 1 3
      (by decide) (by decide)).1,
   (array_erase_removes_the_range false (json_array.mk [10, 20, 30, 40]) 1 3
      (by decide) (by decide)).2.2.1 (by decide)⟩

/-- C26: for every array with elements `xs`, after `resize(n, value)` the size is
`n`, the elements at the positions below `min n (old size)` are unchanged, and
every position from the old size up to `n - 1` holds `value`. Resizing an empty
array to `(10, 10.0)` gives size 10 with element 0 equal to `10.0`. -/
theorem array_resize_fills_new_slots_with_value (a : json_array Json) (n : Nat)
    (val : Json) :
    (a.resize n val).size = n ∧
    (∀ k, k < min n a.size → (a.resize n val).elements_[k]? = a.elements_[k]?) ∧
    (∀ k, a.size ≤ k → k < n → (a.resize n val).elements_[k]? = some val) ∧
    ((json_array.mk ([] : List scalar)).resize 10 (scalar.double_value 10 0)).size = 10 ∧
    ((json_array.mk ([] : List scalar)).resize 10 (scalar.double_value 10 0)).elements_[0]?
      = some (scalar.double_value 10 0) := by
  refine ⟨?_, ?_, ?_, rfl, rfl⟩
  · simp only [json_array.resize, json_array.size, vector_resize, List.length_append,
      List.length_take, List.length_replicate]
    omega
  · intro k hk
    simp only [json_array.size] at hk
    simp only [json_array.resize, vector_resize]
    rw [List.getElem?_append_left (by simp only [List.length_take]; omega)]
    rw [List.getElem?_take_of_lt (by omega)]
  · intro k hk1 hk2
    simp only [json_array.size] at hk1
    simp only [json_array.resize, vector_resize]
    have hl : (a.elements_.take n).length = a.elements_.length := by
      simp only [List.length_take]; omega
    rw [List.getElem?_append_right (by omega), hl, List.getElem?_replicate]
    rw [if_pos (by omega)]

/-- C27: with the preprocessor symbol `JSONCONS_NO_ERASE_TAKING_CONST_ITERATOR`
undefined, `insert(begin + i, first, last)` yields `xs[0..i) ++ ys ++ xs[i..)` and
returns position `i`, also for an empty `ys`. With the symbol defined the element
sequence is the same, but the returned position is `i` only for an empty `ys` and
`i + 1` otherwise: inserting the one element `9` at position 1 of `[1, 2]` gives
`[1, 9, 2]` and returns position 2, where the old element `2` is, not the
inserted `9`. -/
theorem array_range_insert_returns_next_position_on_old_toolchains
    (a : json_array Json) (i : Nat) (ys : List Json) :
    (a.insert_range false i ys =
        (⟨a.elements_.take i ++ ys ++ a.elements_.drop i⟩, i)) ∧
    ((a.insert_range true i ys).1.elements_ =
        a.elements_.take i ++ ys ++ a.elements_.drop i) ∧
    ((a.insert_range true i ys).2 = if ys.length = 0 then i else i + 1) ∧
    ((json_array.mk [1, 2]).insert_range true 1 [9] = (⟨[1, 9, 2]⟩, 2)) ∧
    ((json_array.mk [1, 2]).insert_range false 1 [9] = (⟨[1, 9, 2]⟩, 1)) ∧
    (((json_array.mk [1, 2]).insert_range true 1 [9]).1.elements_[
        ((json_array.mk [1, 2]).insert_range true 1 [9]).2]? = some 2) := by
  refine ⟨?_, ?_, ?_, rfl, rfl, rfl⟩
  · simp [json_array.insert_range, json_array.to_container_iterator, vector_insert_range]
  · simp [json_array.insert_range, json_array.to_container_iterator, vector_insert_range]
  · simp [json_array.insert_range, json_array.to_container_iterator]

/-- C28: for every array, position `i` and value `v`, `emplace(begin + i, v)`
produces the same element sequence and returned position as
`insert(begin + i, v)`, and `emplace_back(v)` produces the same sequence as
`push_back(v)` and returns the new last element, which is `v`. Emplacing Toronto
and Vancouver at the back and Montreal at `begin` gives Montreal, Toronto,
Vancouver. -/
theorem array_emplace_agrees_with_insert (no_erase_taking_const_iterator : Bool)
    (a : json_array Json) (i : Nat) (v : Json) :
    a.emplace no_erase_taking_const_iterator i v =
        a.insert no_erase_taking_const_iterator i v ∧
    (a.emplace_back v).1 = a.push_back v ∧
    (a.emplace_back v).2 = (a.push_back v).elements_.getLast? ∧
    (a.emplace_back v).2 = some v ∧
    (a.emplace_back v).1.elements_[a.size]? = some v ∧
    (a.emplace_back v).1.size = a.size + 1 ∧
    ((((json_array.mk ([] : List String)).emplace_back "Toronto").1.emplace_back
        "Vancouver").1.emplace no_erase_taking_const_iterator 0 "Montreal").1.elements_
      = ["Montreal", "Toronto", "Vancouver"] := by
  refine ⟨rfl, rfl, rfl, ?_, ?_, ?_, ?_⟩
  · simp [json_array.emplace_back]
  · simp [json_array.emplace_back, json_array.size]
  · simp [json_array.emplace_back, json_array.size]
  · cases no_erase_taking_const_iterator <;> rfl

end arrays

end jsoncons

/-! ## Positional access -/

namespace jsoncons

theorem countP_eq_length_of_forall {α : Type} (p : α → Bool) (l : List α)
    (h : ∀ x ∈ l, p x = true) : l.countP p = l.length := by
  induction l with
  | nil => rfl
  | cons x t ih =>
    rw [List.countP_cons_of_pos _ _ (h x (List.mem_cons_self _ _)), List.length_cons,
      ih (fun y hy => h y (List.mem_cons_of_mem _ hy))]

theorem countP_eq_zero_of_forall {α : Type} (p : α → Bool) (l : List α)
    (h : ∀ x ∈ l, ¬ p x = true) : l.countP p = 0 := by
  induction l with
  | nil => rfl
  | cons x t ih =>
    rw [List.countP_cons_of_neg _ _ (h x (List.mem_cons_self _ _)),
      ih (fun y hy => h y (List.mem_cons_of_mem _ hy))]

section positional_access

variable {K V : Type} [LinearOrder K]

theorem sorted_rank_of_position (ms : List (key_value K V))
    (hs : (ms.map (fun m => m.key)).Sorted (· < ·)) (i : Nat) (h : i < ms.length) :
    ms.countP (fun m => decide (m.key < (ms.get ⟨i, h⟩).key)) = i := by
  have hsplit : ms = ms.take i ++ ms.get ⟨i, h⟩ :: ms.drop (i + 1) := by
    rw [List.get_eq_getElem, List.getElem_cons_drop, List.take_append_drop]
  generalize ms.get ⟨i, h⟩ = x at hsplit
  have hlen : (ms.take i).length = i := by
    rw [List.length_take]; omega
  generalize ms.take i = l1 at hsplit hlen
  generalize ms.drop (i + 1) = l2 at hsplit
  subst hsplit
  rw [List.map_append, List.map_cons] at hs
  have hs1 := List.pairwise_append.mp hs
  have hbelow : ∀ m ∈ l1, m.key < x.key := fun m hm =>
    hs1.2.2 m.key (List.mem_map_of_mem _ hm) x.key (List.mem_cons_self _ _)
  have habove : ∀ m ∈ l2, x.key < m.key := fun m hm =>
    (List.pairwise_cons.mp hs1.2.1).1 m.key (List.mem_map_of_mem _ hm)
  rw [List.countP_append, List.countP_cons_of_neg _ _ (by simp),
    countP_eq_length_of_forall _ _ (fun m hm => by simpa using hbelow m hm),
    countP_eq_zero_of_forall _ _ (fun m hm => by
      simpa using le_of_lt (habove m hm)), hlen]
  rfl

/-- C21: for both object variants and every index `i`, `at(i)` raises the
out-of-range error iff `i ≥ size`, and otherwise returns the value of the member
stored at position `i` of the member sequence (the sequence that `begin..end`
iterates); the method leaves the container as it is, its result being a value
only. For a sorted object satisfying its invariant the member at position `i` is
the one in key order: exactly `i` members have a smaller key. -/
theorem at_raises_out_of_range_iff_index_beyond_size (s : sorted.json_object K V)
    (p : preserve_order.json_object K V) (i : Nat) :
    (s.at i = .error error.out_of_range ↔ i ≥ s.size) ∧
    (s.at i = match s.members_[i]? with
      | some m => .ok m.value
      | none => .error error.out_of_range) ∧
    (p.at i = .error error.out_of_range ↔ i ≥ p.size) ∧
    (p.at i = match p.members_[i]? with
      | some m => .ok m.value
      | none => .error error.out_of_range) ∧
    (s.strictly_ascending → ∀ h : i < s.members_.length,
      s.members_.countP (fun m => decide (m.key < (s.members_.get ⟨i, h⟩).key)) = i) := by
  refine ⟨?_, ?_, ?_, ?_, ?_⟩
  · unfold sorted.json_object.at sorted.json_object.size
    by_cases h : i ≥ s.members_.length
    · simp [h]
    · simp [h]
  · unfold sorted.json_object.at
    by_cases h : i ≥ s.members_.length
    · rw [dif_pos h, List.getElem?_eq_none h]
    · rw [dif_neg h, List.getElem?_eq_getElem (Nat.lt_of_not_ge h)]
      rfl
  · unfold preserve_order.json_object.at preserve_order.json_object.size
    by_cases h : i ≥ p.members_.length
    · simp [h]
    · simp [h]
  · unfold preserve_order.json_object.at
    by_cases h : i ≥ p.members_.length
    · rw [dif_pos h, List.getElem?_eq_none h]
    · rw [dif_neg h, List.getElem?_eq_getElem (Nat.lt_of_not_ge h)]
      rfl
  · intro hs h
    exact sorted_rank_of_position s.members_ hs i h

theorem at_raises_out_of_range_iff_index_beyond_size_witness :
    sorted.object_a_b.strictly_ascending ∧
    sorted.object_a_b.at 1 = .ok 2 ∧
    sorted.object_a_b.at 2 = .error error.out_of_range ∧
    preserve_order.object_x_then_y.at 0 = .ok 1 ∧
    (sorted.object_a_b.members_.countP
      (fun m => decide (m.key < (sorted.object_a_b.members_.get ⟨1, by decide⟩).key)) = 1) :=
  ⟨by decide, by decide, by decide, by decide,
   (at_raises_out_of_range_iff_index_beyond_size sorted.object_a_b
      preserve_order.object_x_then_y 1).2.2.2.2 (by decide) (by decide)⟩

end positional_access

end jsoncons

/-! ## The index entry of a member spliced in at any position -/

namespace jsoncons

namespace preserve_order

theorem shift_loop_eq_map (pos : Nat) (l : List Nat) :
    ∀ count, l.countP (fun x => decide (x ≥ pos)) ≤ count →
      shift_loop pos count l = l.map (fun x => if x ≥ pos then x + 1 else x) := by
  induction l with
  | nil => intro count _; rfl
  | cons x rest ih =>
    intro count hc
    by_cases hx : x ≥ pos
    · rw [List.countP_cons_of_pos _ _ (by simpa using hx)] at hc
      have hpos : count > 0 := by omega
      simp only [shift_loop, hpos, hx, if_true, List.map_cons]
      rw [ih (count - 1) (by omega)]
    · rw [List.countP_cons_of_neg _ _ (by simpa using hx)] at hc
      by_cases hpos : count > 0
      · simp only [shift_loop, hpos, hx, if_true, if_false, List.map_cons]
        rw [ih count hc]
      · have h0 : count = 0 := by omega
        subst h0
        have hall : ∀ y ∈ rest, ¬ y ≥ pos := by
          intro y hy hge
          have : 0 < rest.countP (fun x => decide (x ≥ pos)) :=
            List.countP_pos_iff.2 ⟨y, hy, by simpa using hge⟩
          omega
        simp only [shift_loop, hpos, hx, if_false, List.map_cons]
        congr 1
        symm
        conv_rhs => rw [← List.map_id rest]
        apply List.map_congr_left
        intro y hy
        simp [hall y hy]

theorem countP_ge_range (pos n : Nat) :
    (List.range n).countP (fun x => decide (x ≥ pos)) = n - pos := by
  induction n with
  | zero => simp
  | succ n ih =>
    rw [List.range_succ, List.countP_append, ih]
    by_cases h : n ≥ pos
    · rw [List.countP_cons_of_pos _ _ (by simpa using h)]
      simp only [List.countP_nil]
      omega
    · rw [List.countP_cons_of_neg _ _ (by simpa using h)]
      simp only [List.countP_nil]
      omega

theorem shift_loop_of_perm (pos n : Nat) (idx : List Nat) (h : idx.Perm (List.range n)) :
    shift_loop pos (idx.length - pos) idx =
      idx.map (fun x => if x ≥ pos then x + 1 else x) := by
  apply shift_loop_eq_map
  rw [h.countP_eq, countP_ge_range, h.length_eq, List.length_range]

variable {K V : Type} [LinearOrder K]

theorem insert_index_entry_absent_at (ms : List (key_value K V)) (l1 l2 : List Nat) (k : K)
    (pos : Nat) (hperm : (l1 ++ l2).Perm (List.range ms.length)) (hpos : pos ≤ ms.length)
    (h1 : ∀ i ∈ l1, ∃ m, ms[i]? = some m ∧ m.key < k)
    (h2 : ∀ i ∈ l2, ∃ m, ms[i]? = some m ∧ k < m.key) :
    (json_object.mk ms (l1 ++ l2)).insert_index_entry k pos =
      .ok (⟨ms, l1.map (fun x => if x ≥ pos then x + 1 else x) ++
          pos :: l2.map (fun x => if x ≥ pos then x + 1 else x)⟩, (pos, true)) := by
  have hlb := lower_bound_index ms l1 l2 k h1
    (fun i hi => (h2 i hi).imp fun m hm => ⟨hm.1, le_of_lt hm.2⟩)
  have hle : pos ≤ (l1 ++ l2).length := by
    rw [hperm.length_eq, List.length_range]; exact hpos
  have hshift := shift_loop_of_perm pos ms.length (l1 ++ l2) hperm
  simp only [json_object.insert_index_entry, hlb, hle, hshift, bind, Except.bind, pure,
    Except.pure, not_true_eq_false, if_false]
  split
  · rename_i h
    have hmem : (l1 ++ l2)[l1.length] ∈ l2 := by
      rw [List.getElem_append_right (le_refl _)]
      exact List.getElem_mem _
    obtain ⟨m, hm, hlt⟩ := h2 _ hmem
    rw [vector_at_ok ms _ m hm]
    simp only [ne_eq, ne_of_gt hlt, not_false_eq_true, if_true, List.map_append]
    have hl : l1.length = (l1.map (fun x => if x ≥ pos then x + 1 else x)).length := by simp
    rw [hl, vector_emplace_append]
  · rename_i h
    have hl2 : l2 = [] := by
      cases l2 with
      | nil => rfl
      | cons c t => simp at h
    subst hl2
    simp

theorem insert_index_entry_present_at (ms : List (key_value K V)) (l1 l2 : List Nat) (p : Nat)
    (b : key_value K V) (k : K) (pos : Nat)
    (hperm : (l1 ++ p :: l2).Perm (List.range ms.length)) (hpos : pos ≤ ms.length)
    (h1 : ∀ i ∈ l1, ∃ m, ms[i]? = some m ∧ m.key < k)
    (hb : ms[p]? = some b) (hk : b.key = k)
    (h2 : ∀ i ∈ l2, ∃ m, ms[i]? = some m ∧ k < m.key) :
    (json_object.mk ms (l1 ++ p :: l2)).insert_index_entry k pos =
      .ok (⟨ms, l1 ++ p :: l2⟩, (p, false)) := by
  have hlb := lower_bound_index ms l1 (p :: l2) k h1 (fun i hi => by
    rcases List.mem_cons.1 hi with rfl | hit
    · exact ⟨b, hb, le_of_eq hk.symm⟩
    · exact (h2 i hit).imp fun m hm => ⟨hm.1, le_of_lt hm.2⟩)
  have hle : pos ≤ (l1 ++ p :: l2).length := by
    rw [hperm.length_eq, List.length_range]; exact hpos
  simp only [json_object.insert_index_entry, hlb, hle, bind, Except.bind, pure,
    Except.pure, not_true_eq_false, if_false]
  have hlt : l1.length < (l1 ++ p :: l2).length := by simp
  rw [dif_pos hlt]
  have hget : (l1 ++ p :: l2)[l1.length] = p := by
    rw [List.getElem_append_right (le_refl _)]
    simp
  rw [hget, vector_at_ok ms _ b hb]
  simp [hk]

omit [LinearOrder K] in
theorem vector_emplace_getElem?_shift (ms : List (key_value K V)) (pos : Nat)
    (a : key_value K V) (hpos : pos ≤ ms.length) (x : Nat) :
    (vector_emplace ms pos a)[if x ≥ pos then x + 1 else x]? = ms[x]? := by
  have hl : (ms.take pos).length = pos := by
    rw [List.length_take]; omega
  unfold vector_emplace
  by_cases hx : x ≥ pos
  · rw [if_pos hx, List.getElem?_append_right (by omega), hl]
    have hsub : x + 1 - pos = (x - pos) + 1 := by omega
    rw [hsub, List.getElem?_cons_succ, List.getElem?_drop]
    congr 1
    omega
  · rw [if_neg hx, List.getElem?_append_left (by omega),
      List.getElem?_take_of_lt (by omega)]

theorem index_less_shift (ms : List (key_value K V)) (pos : Nat) (a : key_value K V)
    (hpos : pos ≤ ms.length) (i j : Nat) :
    index_less (vector_emplace ms pos a) (if i ≥ pos then i + 1 else i)
      (if j ≥ pos then j + 1 else j) = index_less ms i j := by
  unfold index_less
  rw [vector_emplace_getElem?_shift ms pos a hpos i,
    vector_emplace_getElem?_shift ms pos a hpos j]

theorem shifted_index_perm (n pos : Nat) (idx : List Nat) (l1 l2 : List Nat)
    (hidx : idx = l1 ++ l2) (hperm : idx.Perm (List.range n)) (hpos : pos ≤ n) :
    (l1.map (fun x => if x ≥ pos then x + 1 else x) ++
      pos :: l2.map (fun x => if x ≥ pos then x + 1 else x)).Perm (List.range (n + 1)) := by
  have hinj : Function.Injective (fun x : Nat => if x ≥ pos then x + 1 else x) := by
    intro x y hxy
    simp only at hxy
    split at hxy <;> split at hxy <;> omega
  have hnd : idx.Nodup := hperm.nodup_iff.2 (List.nodup_range _)
  have hmem : ∀ i, i ∈ idx ↔ i < n := fun i => by rw [hperm.mem_iff, List.mem_range]
  have hperm2 : (l1.map (fun x => if x ≥ pos then x + 1 else x) ++
      pos :: l2.map (fun x => if x ≥ pos then x + 1 else x)).Perm
      (pos :: idx.map (fun x => if x ≥ pos then x + 1 else x)) := by
    rw [hidx, List.map_append]
    exact List.perm_middle
  refine hperm2.trans ?_
  rw [List.perm_ext_iff_of_nodup _ (List.nodup_range _)]
  · intro y
    rw [List.mem_cons, List.mem_map, List.mem_range]
    constructor
    · rintro (rfl | ⟨x, hx, rfl⟩)
      · omega
      · have := (hmem x).1 hx
        split <;> omega
    · intro hy
      by_cases hyp : y = pos
      · exact Or.inl hyp
      · right
        by_cases hlt : y < pos
        · exact ⟨y, (hmem y).2 (by omega), by rw [if_neg (by omega)]⟩
        · exact ⟨y - 1, (hmem (y - 1)).2 (by omega), by rw [if_pos (by omega)]; omega⟩
  · rw [List.nodup_cons]
    refine ⟨?_, hnd.map hinj⟩
    rw [List.mem_map]
    rintro ⟨x, _, hx⟩
    split at hx <;> omega

theorem splice_consistent (ms : List (key_value K V)) (l1 l2 : List Nat) (k : K) (v : V)
    (pos : Nat) (hpos : pos ≤ ms.length)
    (h : (json_object.mk ms (l1 ++ l2)).index_consistent)
    (h1 : ∀ i ∈ l1, ∃ m, ms[i]? = some m ∧ m.key < k)
    (h2 : ∀ i ∈ l2, ∃ m, ms[i]? = some m ∧ k < m.key) :
    (json_object.mk (vector_emplace ms pos ⟨k, v⟩)
      (l1.map (fun x => if x ≥ pos then x + 1 else x) ++
        pos :: l2.map (fun x => if x ≥ pos then x + 1 else x))).index_consistent := by
  obtain ⟨hperm, hpair⟩ := h
  simp only at hperm hpair
  have hnew : (vector_emplace ms pos (⟨k, v⟩ : key_value K V))[pos]? = some ⟨k, v⟩ :=
    vector_emplace_getElem? ms pos _ hpos
  have hold : ∀ (i : Nat) (m : key_value K V), ms[i]? = some m →
      (vector_emplace ms pos (⟨k, v⟩ : key_value K V))[if i ≥ pos then i + 1 else i]?
        = some m := by
    intro i m hm
    rw [vector_emplace_getElem?_shift ms pos _ hpos i]; exact hm
  constructor
  · simp only
    rw [vector_emplace_length ms pos _ hpos]
    exact shifted_index_perm ms.length pos (l1 ++ l2) l1 l2 rfl hperm hpos
  · simp only
    rw [List.pairwise_append] at hpair ⊢
    refine ⟨?_, ?_, ?_⟩
    · rw [List.pairwise_map]
      exact hpair.1.imp (fun hij => by rw [index_less_shift ms pos _ hpos]; exact hij)
    · rw [List.pairwise_cons]
      refine ⟨?_, ?_⟩
      · intro j hj
        obtain ⟨x, hx, rfl⟩ := List.mem_map.1 hj
        obtain ⟨m, hm, hlt⟩ := h2 x hx
        exact (index_less_iff _ _ _).2 ⟨_, m, hnew, hold x m hm, hlt⟩
      · rw [List.pairwise_map]
        exact hpair.2.1.imp (fun hij => by rw [index_less_shift ms pos _ hpos]; exact hij)
    · intro i hi j hj
      obtain ⟨x, hx, rfl⟩ := List.mem_map.1 hi
      rcases List.mem_cons.1 hj with rfl | hjt
      · obtain ⟨m, hm, hlt⟩ := h1 x hx
        exact (index_less_iff _ _ _).2 ⟨m, _, hold x m hm, hnew, hlt⟩
      · obtain ⟨y, hy, rfl⟩ := List.mem_map.1 hjt
        rw [index_less_shift ms pos _ hpos]
        exact hpair.2.2 x hx y hy

end preserve_order

end jsoncons

namespace jsoncons

namespace preserve_order

variable {K V : Type} [LinearOrder K]

/-- C30: for every order-preserving object satisfying the index invariant and
every `pos ≤ size`, `insert_index_entry(key, pos)` does not fail. If `key` is
present, the object is unchanged and the result is (position of the member with
this key, false). If `key` is absent, the index splits into the slots `l1` of the
members with a smaller key and the slots `l2` of the members with a greater key;
in the new index every slot `≥ pos` is increased by one, every slot `< pos` is
unchanged, the new slot `pos` stands between the two parts, and the result is
(`pos`, true); with a member of this key spliced into the member array at `pos`
the index invariant holds again. -/
theorem insert_index_entry_prepares_index_for_splice (o : json_object K V) (key : K)
    (value : V) (pos : Nat) (h : o.index_consistent) (hpos : pos ≤ o.size) :
    (key ∈ o.members_.map key_value.key →
      ∃ p m, o.members_[p]? = some m ∧ m.key = key ∧
        o.insert_index_entry key pos = .ok (o, (p, false))) ∧
    (key ∉ o.members_.map key_value.key →
      ∃ l1 l2, o.index_ = l1 ++ l2 ∧
        (∀ i ∈ l1, ∃ m, o.members_[i]? = some m ∧ m.key < key) ∧
        (∀ i ∈ l2, ∃ m, o.members_[i]? = some m ∧ key < m.key) ∧
        o.insert_index_entry key pos =
          .ok (⟨o.members_, l1.map (fun x => if x ≥ pos then x + 1 else x) ++
            pos :: l2.map (fun x => if x ≥ pos then x + 1 else x)⟩, (pos, true)) ∧
        (json_object.mk (vector_emplace o.members_ pos ⟨key, value⟩)
          (l1.map (fun x => if x ≥ pos then x + 1 else x) ++
            pos :: l2.map (fun x => if x ≥ pos then x + 1 else x))).index_consistent) := by
  obtain ⟨ms, idx⟩ := o
  simp only [json_object.size] at hpos
  rcases index_decompose_of_consistent ⟨ms, idx⟩ key h with
    ⟨l1, l2, hidx, h1, h2⟩ | ⟨l1, p, l2, b, hidx, h1, hb, hk, h2⟩
  · simp only at hidx h1 h2
    subst hidx
    refine ⟨fun hmem => absurd hmem (index_absent_not_mem ms l1 l2 key h.1 h1 h2), fun _ => ?_⟩
    exact ⟨l1, l2, rfl, h1, h2, insert_index_entry_absent_at ms l1 l2 key pos h.1 hpos h1 h2,
      splice_consistent ms l1 l2 key value pos hpos h h1 h2⟩
  · simp only at hidx h1 h2 hb
    subst hidx
    refine ⟨fun _ => ⟨p, b, hb, hk,
      insert_index_entry_present_at ms l1 l2 p b key pos h.1 hpos h1 hb hk h2⟩, fun hmem => ?_⟩
    exact absurd (index_present_mem ms p b key hb hk) hmem

theorem insert_index_entry_prepares_index_for_splice_witness :
    object_m_c_x_a_q.index_consistent ∧ 2 ≤ object_m_c_x_a_q.size ∧
    "d".data ∉ object_m_c_x_a_q.members_.map key_value.key ∧
    object_m_c_x_a_q.insert_index_entry "d".data 2 =
      .ok (⟨object_m_c_x_a_q.members_, [4, 1, 2, 0, 5, 3]⟩, (2, true)) ∧
    ∃ l1 l2, object_m_c_x_a_q.index_ = l1 ++ l2 ∧
      (json_object.mk (vector_emplace object_m_c_x_a_q.members_ 2 ⟨"d".data, 7⟩)
        (l1.map (fun x => if x ≥ 2 then x + 1 else x) ++
          2 :: l2.map (fun x => if x ≥ 2 then x + 1 else x))).index_consistent :=
  ⟨by decide, by decide, by decide, by decide,
   match (insert_index_entry_prepares_index_for_splice object_m_c_x_a_q "d".data 7 2
      (by decide) (by decide)).2 (by decide) with
   | ⟨l1, l2, h3, _, _, _, h7⟩ => ⟨l1, l2, h3, h7⟩⟩

end preserve_order

end jsoncons

/-! ## Insertion order -/

namespace jsoncons

namespace preserve_order

section
variable {K V : Type}

theorem assign_value_keys (ms : List (key_value K V)) (p : Nat) (v : V) :
    (assign_value ms p v).map key_value.key = ms.map key_value.key := by
  apply List.ext_getElem?
  intro i
  rw [List.getElem?_map, List.getElem?_map, assign_value_getElem?]
  cases ms[i]? with
  | none => rfl
  | some m =>
    simp only [Option.map_some']
    split <;> rfl

end

variable {K V : Type} [LinearOrder K]

/-- One inserting call on a consistent object: no failure, the invariant is kept,
and the key sequence gets the key of the call at its end when it is new and is
unchanged otherwise. -/
theorem after_inserting_call_keys (o : json_object K V) (c : call K V)
    (h : o.index_consistent) (hc : c.inserts = true) :
    ∃ o1, o.after_call c = .ok o1 ∧ o1.index_consistent ∧
      o1.members_.map key_value.key =
        if c.name ∈ o.members_.map key_value.key then o.members_.map key_value.key
        else o.members_.map key_value.key ++ [c.name] := by
  obtain ⟨ms, idx⟩ := o
  cases c with
  | erase name => simp [call.inserts] at hc
  | insert_or_assign name value =>
    simp only [call.name]
    rcases index_decompose_of_consistent ⟨ms, idx⟩ name h with
      ⟨l1, l2, hidx, h1, h2⟩ | ⟨l1, p, l2, b, hidx, h1, hb, hk, h2⟩
    · simp only at hidx h1 h2
      subst hidx
      have hlen := index_length ms _ h.1
      refine ⟨_, by rw [json_object.after_call,
        index_insert_or_assign_absent ms l1 l2 name value hlen h1 h2]; rfl,
        insert_consistent ms l1 l2 name value h h1 h2, ?_⟩
      rw [if_neg (index_absent_not_mem ms l1 l2 name h.1 h1 h2)]
      simp
    · simp only at hidx h1 h2 hb
      subst hidx
      have hlen := index_length ms _ h.1
      refine ⟨_, by rw [json_object.after_call,
        index_insert_or_assign_present ms l1 l2 p b name value hlen h1 hb hk h2]; rfl,
        assign_consistent ms _ p value h, ?_⟩
      rw [if_pos (index_present_mem ms p b name hb hk)]
      exact assign_value_keys ms p value
  | try_emplace name value =>
    simp only [call.name]
    rcases index_decompose_of_consistent ⟨ms, idx⟩ name h with
      ⟨l1, l2, hidx, h1, h2⟩ | ⟨l1, p, l2, b, hidx, h1, hb, hk, h2⟩
    · simp only at hidx h1 h2
      subst hidx
      have hlen := index_length ms _ h.1
      refine ⟨_, by rw [json_object.after_call,
        index_try_emplace_absent ms l1 l2 name value hlen h1 h2]; rfl,
        insert_consistent ms l1 l2 name value h h1 h2, ?_⟩
      rw [if_neg (index_absent_not_mem ms l1 l2 name h.1 h1 h2)]
      simp
    · simp only at hidx h1 h2 hb
      subst hidx
      have hlen := index_length ms _ h.1
      refine ⟨_, by rw [json_object.after_call,
        index_try_emplace_present ms l1 l2 p b name value hlen h1 hb hk h2]; rfl,
        h, ?_⟩
      rw [if_pos (index_present_mem ms p b name hb hk)]

theorem after_inserting_calls_keys (calls : List (call K V)) :
    ∀ o : json_object K V, o.index_consistent → (∀ c ∈ calls, c.inserts = true) →
      ∃ o1, o.after_calls_from calls = .ok o1 ∧ o1.index_consistent ∧
        o1.members_.map key_value.key =
          first_insertion_order (o.members_.map key_value.key) (calls.map call.name) := by
  induction calls with
  | nil => intro o h _; exact ⟨o, rfl, h, rfl⟩
  | cons c rest ih =>
    intro o h hall
    obtain ⟨o1, ho1, hc1, hk1⟩ :=
      after_inserting_call_keys o c h (hall c (List.mem_cons_self _ _))
    obtain ⟨o2, ho2, hc2, hk2⟩ := ih o1 hc1 (fun d hd => hall d (List.mem_cons_of_mem _ hd))
    refine ⟨o2, by simp [json_object.after_calls_from, ho1, ho2], hc2, ?_⟩
    rw [hk2, hk1, List.map_cons, first_insertion_order]
    split <;> rfl

end preserve_order

end jsoncons

namespace jsoncons

namespace preserve_order

variable {K V : Type} [LinearOrder K]

/-- C22: the order-preserving object remembers the insertion order. On an object
satisfying the index invariant, unhinted `insert_or_assign` and `try_emplace` of
an absent key give the member sequence `members_ ++ [(key, value)]`: the new
member is at the last position `size` and every existing member keeps its
position. With a present key no member changes position: `try_emplace` leaves
the object as it is and `insert_or_assign` only replaces the value of the member
with this key. Hence, after any sequence of such calls from the empty object,
the keys of `begin..end` are the keys of the calls in the order of their first
insertion. -/
theorem order_preserving_object_lists_keys_in_insertion_order (o : json_object K V) (k : K)
    (v : V) (calls : List (call K V)) (h : o.index_consistent)
    (hcalls : ∀ c ∈ calls, c.inserts = true) :
    (k ∉ o.members_.map key_value.key →
      (∃ idx, o.insert_or_assign k v =
        .ok (⟨o.members_ ++ [⟨k, v⟩], idx⟩, (o.size, true))) ∧
      (∃ idx, o.try_emplace k v =
        .ok (⟨o.members_ ++ [⟨k, v⟩], idx⟩, (o.size, true)))) ∧
    (k ∈ o.members_.map key_value.key →
      (∃ p, o.insert_or_assign k v =
          .ok (⟨assign_value o.members_ p v, o.index_⟩, (p, false)) ∧
        (assign_value o.members_ p v).map key_value.key = o.members_.map key_value.key ∧
        (assign_value o.members_ p v).length = o.members_.length) ∧
      (∃ p, o.try_emplace k v = .ok (o, (p, false)))) ∧
    (∃ o1, json_object.after_calls calls = .ok o1 ∧
      o1.members_.map key_value.key = first_insertion_order [] (calls.map call.name)) := by
  refine ⟨?_, ?_, ?_⟩
  · intro habs
    obtain ⟨ms, idx⟩ := o
    rcases index_decompose_of_consistent ⟨ms, idx⟩ k h with
      ⟨l1, l2, hidx, h1, h2⟩ | ⟨l1, p, l2, b, hidx, h1, hb, hk, h2⟩
    · simp only at hidx h1 h2
      subst hidx
      have hlen := index_length ms _ h.1
      exact ⟨⟨_, index_insert_or_assign_absent ms l1 l2 k v hlen h1 h2⟩,
        ⟨_, index_try_emplace_absent ms l1 l2 k v hlen h1 h2⟩⟩
    · exact absurd (index_present_mem ms p b k hb hk) habs
  · intro hpres
    obtain ⟨ms, idx⟩ := o
    rcases index_decompose_of_consistent ⟨ms, idx⟩ k h with
      ⟨l1, l2, hidx, h1, h2⟩ | ⟨l1, p, l2, b, hidx, h1, hb, hk, h2⟩
    · simp only at hidx h1 h2
      subst hidx
      exact absurd hpres (index_absent_not_mem ms l1 l2 k h.1 h1 h2)
    · simp only at hidx h1 h2 hb
      subst hidx
      have hlen := index_length ms _ h.1
      exact ⟨⟨p, index_insert_or_assign_present ms l1 l2 p b k v hlen h1 hb hk h2,
        assign_value_keys ms p v, assign_value_length ms p v⟩,
        ⟨p, index_try_emplace_present ms l1 l2 p b k v hlen h1 hb hk h2⟩⟩
  · obtain ⟨o1, ho1, _, hk1⟩ := after_inserting_calls_keys calls
      (json_object.mk ([] : List (key_value K V)) []) (by
        constructor
        · simp
        · simp) hcalls
    exact ⟨o1, ho1, hk1⟩

theorem order_preserving_object_lists_keys_in_insertion_order_witness :
    object_x_then_y.index_consistent ∧
    (∀ c ∈ [call.insert_or_assign "b".data (1 : Int), call.try_emplace "a".data 2,
        call.insert_or_assign "b".data 3, call.insert_or_assign "c".data 4,
        call.try_emplace "a".data 5], c.inserts = true) ∧
    first_insertion_order [] ([call.insert_or_assign "b".data (1 : Int),
        call.try_emplace "a".data 2, call.insert_or_assign "b".data 3,
        call.insert_or_assign "c".data 4, call.try_emplace "a".data 5].map call.name)
      = ["b".data, "a".data, "c".data] ∧
    (∃ o1, json_object.after_calls [call.insert_or_assign "b".data (1 : Int),
        call.try_emplace "a".data 2, call.insert_or_assign "b".data 3,
        call.insert_or_assign "c".data 4, call.try_emplace "a".data 5] = .ok o1 ∧
      o1.members_.map key_value.key =
        first_insertion_order [] ([call.insert_or_assign "b".data (1 : Int),
          call.try_emplace "a".data 2, call.insert_or_assign "b".data 3,
          call.insert_or_assign "c".data 4, call.try_emplace "a".data 5].map call.name)) :=
  ⟨by decide, by decide, by decide,
   (order_preserving_object_lists_keys_in_insertion_order object_x_then_y "a".data 0
      [call.insert_or_assign "b".data (1 : Int), call.try_emplace "a".data 2,
        call.insert_or_assign "b".data 3, call.insert_or_assign "c".data 4,
        call.try_emplace "a".data 5] (by decide) (by decide)).2.2⟩

end preserve_order

end jsoncons

/-! ## Storage kinds -/

namespace jsoncons

/-- C39: `is_trivial_storage` classifies the thirteen storage kinds exactly: it
returns false for `byte_str`, `object`, `array` and `long_str` and true for the
other nine kinds; its mask is `15 & 12 & 14 & 13 = 12`. -/
theorem is_trivial_storage_classifies_kinds (k : json_storage_kind) :
    (is_trivial_storage k = false ↔
      k ∈ [json_storage_kind.byte_str, json_storage_kind.object, json_storage_kind.array,
        json_storage_kind.long_str]) ∧
    (is_trivial_storage k = true ↔
      k ∈ [json_storage_kind.null, json_storage_kind.boolean, json_storage_kind.int64,
        json_storage_kind.uint64, json_storage_kind.empty_object, json_storage_kind.float64,
        json_storage_kind.half_float, json_storage_kind.short_str,
        json_storage_kind.const_json_pointer]) ∧
    (json_storage_kind.long_str.to_uint8 &&& json_storage_kind.byte_str.to_uint8
      &&& json_storage_kind.array.to_uint8 &&& json_storage_kind.object.to_uint8) = 12 := by
  cases k <;> decide

/-- C40: `is_string_storage` classifies the thirteen storage kinds exactly: it
returns true for `short_str` and `long_str` and false for every other kind, in
particular for `byte_str`, `array` and `object`; its mask is `7 & 15 = 7`. -/
theorem is_string_storage_classifies_kinds (k : json_storage_kind) :
    (is_string_storage k = true ↔
      k ∈ [json_storage_kind.short_str, json_storage_kind.long_str]) ∧
    (is_string_storage k = false ↔
      k ∈ [json_storage_kind.null, json_storage_kind.boolean, json_storage_kind.int64,
        json_storage_kind.uint64, json_storage_kind.empty_object, json_storage_kind.float64,
        json_storage_kind.half_float, json_storage_kind.const_json_pointer,
        json_storage_kind.byte_str, json_storage_kind.object, json_storage_kind.array]) ∧
    is_string_storage json_storage_kind.byte_str = false ∧
    is_string_storage json_storage_kind.array = false ∧
    is_string_storage json_storage_kind.object = false ∧
    (json_storage_kind.short_str.to_uint8 &&& json_storage_kind.long_str.to_uint8) = 7 := by
  cases k <;> decide

end jsoncons

/-! ## JSONPath selectors -/

namespace jsoncons

namespace jsonpath_new

theorem to_int64_of_range (x : Int) (h1 : -2 ^ 63 ≤ x) (h2 : x < 2 ^ 63) : to_int64 x = x := by
  unfold to_int64
  omega

theorem to_size_t_of_range (x : Int) (h1 : 0 ≤ x) (h2 : x < 2 ^ 64) :
    to_size_t x = x.toNat := by
  unfold to_size_t
  rw [Int.emod_eq_of_lt h1 h2]

theorem to_int64_sum_cases (x : Int) (h1 : -2 ^ 63 ≤ x) (h2 : x < 2 ^ 64) :
    (x < 2 ^ 63 ∧ to_int64 x = x) ∨ (2 ^ 63 ≤ x ∧ to_int64 x = x - 2 ^ 64) := by
  unfold to_int64
  omega

/-- C35: `index_selector` with the index `i`, applied to an array of length `n`,
adds exactly one node, the element `i`, when `0 ≤ i < n`; exactly one node, the
element `n + i`, when `-n ≤ i < 0`; and no node otherwise. Applied to a value
that is not an array it adds no node. In every case the call `at(index)` is
within bounds: `select` never fails. The index is any 64-bit signed number and
the array has fewer than `2 ^ 63` elements. -/
theorem index_selector_selects_element_or_nothing {Json : Type} (i : Int)
    (elements nodes : List Json) (hlow : -2 ^ 63 ≤ i) (hhigh : i < 2 ^ 63)
    (hn : elements.length < 2 ^ 63) :
    (0 ≤ i ∧ i < elements.length →
      ∃ x, elements[i.toNat]? = some x ∧
        (index_selector.mk i).select (.array_value elements) nodes = .ok (nodes ++ [x])) ∧
    (-(elements.length : Int) ≤ i ∧ i < 0 →
      ∃ x, elements[((elements.length : Int) + i).toNat]? = some x ∧
        (index_selector.mk i).select (.array_value elements) nodes = .ok (nodes ++ [x])) ∧
    (i < -(elements.length : Int) ∨ (elements.length : Int) ≤ i →
      (index_selector.mk i).select (.array_value elements) nodes = .ok nodes) ∧
    (index_selector.mk i).select (json_reference.other_value : json_reference Json) nodes =
      .ok nodes := by
  have hlen : to_int64 (elements.length : Int) = elements.length :=
    to_int64_of_range _ (by omega) (by omega)
  refine ⟨?_, ?_, ?_, rfl⟩
  · rintro ⟨h0, h1⟩
    have hlt : i.toNat < elements.length := by omega
    refine ⟨elements[i.toNat], List.getElem?_eq_getElem hlt, ?_⟩
    simp only [index_selector.select, json_reference.is_array, json_reference.size, hlen,
      if_true, json_reference.at]
    rw [if_pos ⟨h0, h1⟩, to_size_t_of_range i h0 (by omega),
      preserve_order.vector_at_ok elements i.toNat _ (List.getElem?_eq_getElem hlt)]
    rfl
  · rintro ⟨h0, h1⟩
    have hlt : ((elements.length : Int) + i).toNat < elements.length := by omega
    have hsum : to_int64 ((elements.length : Int) + i) = (elements.length : Int) + i :=
      to_int64_of_range _ (by omega) (by omega)
    refine ⟨elements[((elements.length : Int) + i).toNat], List.getElem?_eq_getElem hlt, ?_⟩
    simp only [index_selector.select, json_reference.is_array, json_reference.size, hlen,
      if_true, json_reference.at, hsum]
    rw [if_neg (by omega), if_pos (by omega), to_size_t_of_range _ (by omega) (by omega),
      preserve_order.vector_at_ok elements _ _ (List.getElem?_eq_getElem hlt)]
    rfl
  · intro h
    simp only [index_selector.select, json_reference.is_array, json_reference.size, hlen,
      if_true]
    rcases to_int64_sum_cases ((elements.length : Int) + i) (by omega) (by omega) with
      ⟨_, hs⟩ | ⟨_, hs⟩
    · rw [hs, if_neg (by omega), if_neg (by omega)]
    · rw [hs, if_neg (by omega), if_neg (by omega)]

theorem index_selector_selects_element_or_nothing_witness :
    (-2 ^ 63 : Int) ≤ -1 ∧ (-1 : Int) < 2 ^ 63 ∧ [10, 20, 30].length < 2 ^ 63 ∧
    (index_selector.mk (-1)).select (.array_value [10, 20, 30]) [] = .ok [30] ∧
    (index_selector.mk 1).select (.array_value [10, 20, 30]) [] = .ok [20] ∧
    (index_selector.mk 3).select (.array_value [10, 20, 30]) [] = .ok [] ∧
    (index_selector.mk (-4)).select (.array_value [10, 20, 30]) [] = .ok [] ∧
    (∃ x, [10, 20, 30][((([10, 20, 30] : List Nat).length : Int) + -1).toNat]? = some x ∧
      (index_selector.mk (-1)).select (.array_value [10, 20, 30]) [] = .ok ([] ++ [x])) :=
  ⟨by decide, by decide, by decide, by decide, by decide, by decide, by decide,
   (index_selector_selects_element_or_nothing (-1) [10, 20, 30] []
      (by decide) (by decide) (by decide)).2.1 ⟨by decide, by decide⟩⟩

end jsonpath_new

end jsoncons

namespace jsoncons

namespace jsonpath_new

theorem python_range_up_nil (a b step : Int) (hs : 0 < step) (h : b ≤ a) :
    python_range a b step = [] := by
  simp [python_range, hs, not_lt.2 h]

theorem python_range_down_nil (a b step : Int) (hs : step < 0) (h : a ≤ b) :
    python_range a b step = [] := by
  simp [python_range, not_lt.2 (le_of_lt hs), not_lt.2 h]

theorem range_map_succ (len : Nat) (a step : Int) :
    (List.range (len + 1)).map (fun (k : Nat) => a + (k : Int) * step) =
      a :: (List.range len).map (fun (k : Nat) => a + step + (k : Int) * step) := by
  rw [List.range_succ_eq_map, List.map_cons, List.map_map]
  simp only [Nat.cast_zero, zero_mul, add_zero, List.cons.injEq, true_and]
  apply List.map_congr_left
  intro k _
  simp only [Function.comp, Nat.cast_succ]
  ring

theorem python_range_up_cons (a b step : Int) (hs : 0 < step) (h : a < b) :
    python_range a b step = a :: python_range (a + step) b step := by
  unfold python_range
  simp only [gt_iff_lt, hs, if_true, h]
  by_cases h2 : a + step < b
  · rw [if_pos h2]
    have hdiv : (b - a - 1) / step = (b - (a + step) - 1) / step + 1 := by
      have : b - a - 1 = (b - (a + step) - 1) + 1 * step := by ring
      rw [this, Int.add_mul_ediv_right _ _ (ne_of_gt hs)]
    have hnn : 0 ≤ (b - (a + step) - 1) / step := Int.ediv_nonneg (by omega) (le_of_lt hs)
    have hlen : ((b - a - 1) / step + 1).toNat = ((b - (a + step) - 1) / step + 1).toNat + 1 := by
      rw [hdiv]; omega
    rw [hlen, range_map_succ]
  · rw [if_neg h2]
    have hdiv : (b - a - 1) / step = 0 := Int.ediv_eq_zero_of_lt (by omega) (by omega)
    rw [hdiv]
    simp [List.range_succ]

theorem python_range_down_cons (a b step : Int) (hs : step < 0) (h : b < a) :
    python_range a b step = a :: python_range (a + step) b step := by
  unfold python_range
  simp only [gt_iff_lt, not_lt.2 (le_of_lt hs), if_false, h, if_true]
  have hpos : 0 < -step := by omega
  by_cases h2 : b < a + step
  · rw [if_pos h2]
    have hdiv : (a - b - 1) / (-step) = (a + step - b - 1) / (-step) + 1 := by
      have : a - b - 1 = (a + step - b - 1) + 1 * (-step) := by ring
      rw [this, Int.add_mul_ediv_right _ _ (ne_of_gt hpos)]
    have hnn : 0 ≤ (a + step - b - 1) / (-step) := Int.ediv_nonneg (by omega) (le_of_lt hpos)
    have hlen : ((a - b - 1) / (-step) + 1).toNat =
        ((a + step - b - 1) / (-step) + 1).toNat + 1 := by
      rw [hdiv]; omega
    rw [hlen, range_map_succ]
  · rw [if_neg h2]
    have hdiv : (a - b - 1) / (-step) = 0 := Int.ediv_eq_zero_of_lt (by omega) (by omega)
    rw [hdiv]
    simp [List.range_succ]

theorem slice_loop_up_eq (n : Nat) (e step : Int) (hs : 0 < step) (he : e ≤ n)
    (hn : (n : Int) < 2 ^ 63) :
    ∀ (fuel : Nat) (i : Int), 0 ≤ i → (e - i).toNat < fuel →
      (∀ j ∈ python_range i e step, j + step < 2 ^ 63) →
      ∃ nodes, slice_loop_up e step fuel i = some nodes ∧
        nodes.map Int.ofNat = python_range i e step ∧ ∀ j ∈ nodes, j < n := by
  intro fuel
  induction fuel with
  | zero => intro i _ hf _; omega
  | succ fuel ih =>
    intro i hi hf hno
    by_cases hlt : i < e
    · rw [python_range_up_cons i e step hs hlt] at hno ⊢
      have hsum : i + step < 2 ^ 63 := hno i (List.mem_cons_self _ _)
      have hwrap : to_int64 (i + step) = i + step := to_int64_of_range _ (by omega) hsum
      obtain ⟨nodes, hnodes, hmap, hbound⟩ := ih (i + step) (by omega) (by omega)
        (fun j hj => hno j (List.mem_cons_of_mem _ hj))
      refine ⟨to_size_t i :: nodes, ?_, ?_, ?_⟩
      · rw [slice_loop_up, if_pos hlt, hwrap, hnodes]
        rfl
      · rw [List.map_cons, hmap, to_size_t_of_range i hi (by omega)]
        congr 1
        exact Int.toNat_of_nonneg hi
      · intro j hj
        rcases List.mem_cons.1 hj with rfl | hj2
        · rw [to_size_t_of_range i hi (by omega)]; omega
        · exact hbound j hj2
    · refine ⟨[], ?_, ?_, ?_⟩
      · rw [slice_loop_up, if_neg hlt]
      · rw [python_range_up_nil i e step hs (by omega)]
        rfl
      · intro j hj; simp at hj

theorem slice_loop_down_eq (n : Nat) (e step : Int) (hs : step < 0) (hstep : -2 ^ 63 ≤ step)
    (hn : (n : Int) < 2 ^ 63) (he : -1 ≤ e) :
    ∀ (fuel : Nat) (i : Int), i < n → (i - e).toNat < fuel →
      ∃ nodes, slice_loop_down n e step fuel i = some nodes ∧
        nodes.map Int.ofNat = python_range i e step ∧ ∀ j ∈ nodes, j < n := by
  intro fuel
  induction fuel with
  | zero => intro i _ hf; omega
  | succ fuel ih =>
    intro i hi hf
    by_cases hlt : i > e
    · have h0 : 0 ≤ i := by omega
      have hj : to_size_t i = i.toNat := to_size_t_of_range i h0 (by omega)
      have hjn : i.toNat < n := by omega
      have hwrap : to_int64 (i + step) = i + step :=
        to_int64_of_range _ (by omega) (by omega)
      obtain ⟨nodes, hnodes, hmap, hbound⟩ := ih (i + step) (by omega) (by omega)
      refine ⟨i.toNat :: nodes, ?_, ?_, ?_⟩
      · rw [slice_loop_down, if_pos hlt]
        simp only [hj, hjn, if_true, hwrap, hnodes]
        rfl
      · rw [python_range_down_cons i e step hs hlt, List.map_cons, hmap]
        congr 1
        exact Int.toNat_of_nonneg h0
      · intro j hjm
        rcases List.mem_cons.1 hjm with rfl | hj2
        · exact hjn
        · exact hbound j hj2
    · refine ⟨[], ?_, ?_, ?_⟩
      · rw [slice_loop_down, if_neg hlt]
      · rw [python_range_down_nil i e step hs (by omega)]
        rfl
      · intro j hj; simp at hj

end jsonpath_new

end jsoncons

namespace jsoncons

namespace jsonpath_new

theorem get_start_value (start stop : Option Int) (step : Int) (n : Nat)
    (hn : (n : Int) < 2 ^ 63) (hstart : ∀ x ∈ start, -2 ^ 63 ≤ x ∧ x < 2 ^ 63) :
    (slice.mk start stop step).get_start n =
      match start with
      | some x => if x ≥ 0 then (if x ≤ n then x else n) else n + x
      | none => if step ≥ 0 then 0 else n := by
  have hlen : to_int64 (n : Int) = n := to_int64_of_range _ (by omega) hn
  cases start with
  | none => simp only [slice.get_start, hlen]
  | some x =>
    obtain ⟨h1, h2⟩ := hstart x rfl
    simp only [slice.get_start, hlen]
    by_cases hx : x ≥ 0
    · simp only [hx, if_true]
    · have hwrap : to_int64 ((n : Int) + x) = n + x := to_int64_of_range _ (by omega) (by omega)
      simp only [hx, if_false, hwrap]
      rw [if_pos (by omega)]

theorem get_stop_value (start stop : Option Int) (step : Int) (n : Nat)
    (hn : (n : Int) < 2 ^ 63) (hstop : ∀ x ∈ stop, -2 ^ 63 ≤ x ∧ x < 2 ^ 63) :
    (slice.mk start stop step).get_stop n =
      match stop with
      | some x => if x ≥ 0 then (if x ≤ n then x else n) else n + x
      | none => if step ≥ 0 then n else -1 := by
  have hlen : to_int64 (n : Int) = n := to_int64_of_range _ (by omega) hn
  cases stop with
  | none => simp only [slice.get_stop, hlen]
  | some x =>
    obtain ⟨h1, h2⟩ := hstop x rfl
    simp only [slice.get_stop, hlen]
    by_cases hx : x ≥ 0
    · simp only [hx, if_true]
    · have hwrap : to_int64 ((n : Int) + x) = n + x := to_int64_of_range _ (by omega) (by omega)
      simp only [hx, if_false, hwrap]
      rw [if_pos (by omega)]

theorem python_start_up (start stop : Option Int) (step : Int) (n : Nat) (hs : 0 < step) :
    (python_slice_indices start stop step n).1 =
      match start with
      | some x => if x ≥ 0 then (if x ≤ n then x else n) else (if n + x < 0 then 0 else n + x)
      | none => 0 := by
  have hns : ¬ step < 0 := by omega
  cases start with
  | none => simp only [python_slice_indices, hns, if_false]
  | some x =>
    simp only [python_slice_indices, hns, if_false]
    split_ifs <;> omega

theorem python_stop_up (start stop : Option Int) (step : Int) (n : Nat) (hs : 0 < step) :
    (python_slice_indices start stop step n).2.1 =
      match stop with
      | some x => if x ≥ 0 then (if x ≤ n then x else n) else (if n + x < 0 then 0 else n + x)
      | none => n := by
  have hns : ¬ step < 0 := by omega
  cases stop with
  | none => simp only [python_slice_indices, hns, if_false]
  | some x =>
    simp only [python_slice_indices, hns, if_false]
    split_ifs <;> omega

theorem python_start_down (start stop : Option Int) (step : Int) (n : Nat) (hs : step < 0) :
    (python_slice_indices start stop step n).1 =
      match start with
      | some x => if x ≥ 0 then (if x ≤ n - 1 then x else n - 1)
          else (if n + x < -1 then -1 else n + x)
      | none => n - 1 := by
  cases start with
  | none => simp only [python_slice_indices, hs, if_true]
  | some x =>
    simp only [python_slice_indices, hs, if_true]
    split_ifs <;> omega

theorem python_stop_down (start stop : Option Int) (step : Int) (n : Nat) (hs : step < 0) :
    (python_slice_indices start stop step n).2.1 =
      match stop with
      | some x => if x ≥ 0 then (if x ≤ n - 1 then x else n - 1)
          else (if n + x < -1 then -1 else n + x)
      | none => -1 := by
  cases stop with
  | none => simp only [python_slice_indices, hs, if_true]
  | some x =>
    simp only [python_slice_indices, hs, if_true]
    split_ifs <;> omega

end jsonpath_new

end jsoncons

namespace jsoncons

namespace jsonpath_new

theorem slice_up_core (n : Nat) (s e a b step : Int) (hs : 0 < step) (h0 : 0 ≤ s)
    (he : e ≤ n) (hn : (n : Int) < 2 ^ 63) (ha : s = a) (hb : e = b ∨ (e ≤ a ∧ b ≤ a))
    (hno : ∀ j ∈ python_range a b step, j + step < 2 ^ 63) :
    ∃ nodes, slice_loop_up e step (2 ^ 64 + 1) s = some nodes ∧
      nodes.map Int.ofNat = python_range a b step ∧ ∀ j ∈ nodes, j < n := by
  have heq : python_range s e step = python_range a b step := by
    subst ha
    rcases hb with rfl | ⟨h1, h2⟩
    · rfl
    · rw [python_range_up_nil _ _ step hs h1, python_range_up_nil _ _ step hs h2]
  rw [← heq] at hno ⊢
  exact slice_loop_up_eq n e step hs he hn (2 ^ 64 + 1) s h0 (by omega) hno

theorem slice_down_core (n : Nat) (s e a b step : Int) (hs : step < 0)
    (hstep : -2 ^ 63 ≤ step) (h0 : s < n) (he : -1 ≤ e) (hn : (n : Int) < 2 ^ 63)
    (hab : (s = a ∧ e = b) ∨ (s ≤ e ∧ a ≤ b)) :
    ∃ nodes, slice_loop_down n e step (2 ^ 64 + 1) s = some nodes ∧
      nodes.map Int.ofNat = python_range a b step ∧ ∀ j ∈ nodes, j < n := by
  have heq : python_range s e step = python_range a b step := by
    rcases hab with ⟨rfl, rfl⟩ | ⟨h1, h2⟩
    · rfl
    · rw [python_range_down_nil _ _ step hs h1, python_range_down_nil _ _ step hs h2]
  rw [← heq]
  exact slice_loop_down_eq n e step hs hstep hn he (2 ^ 64 + 1) s h0 (by omega)

theorem slice_select_up {Json : Type} (start stop : Option Int) (step : Int)
    (elements : List Json) (hn : (elements.length : Int) < 2 ^ 63) (hs : 0 < step)
    (hstart : ∀ x ∈ start, -2 ^ 63 ≤ x ∧ x < 2 ^ 63)
    (hstop : ∀ x ∈ stop, -2 ^ 63 ≤ x ∧ x < 2 ^ 63)
    (hno : ∀ j ∈ python_range (python_slice_indices start stop step elements.length).1
      (python_slice_indices start stop step elements.length).2.1 step, j + step < 2 ^ 63) :
    ∃ nodes, (slice_selector.mk ⟨start, stop, step⟩).select (.array_value elements) =
        some nodes ∧
      nodes.map Int.ofNat =
        python_range (python_slice_indices start stop step elements.length).1
          (python_slice_indices start stop step elements.length).2.1 step ∧
      ∀ j ∈ nodes, j < elements.length := by
  have hlen : to_int64 (elements.length : Int) = elements.length :=
    to_int64_of_range _ (by omega) hn
  simp only [slice_selector.select, json_reference.is_array, json_reference.size, hlen,
    if_true, slice.step, gt_iff_lt, hs]
  rw [get_start_value start stop step _ hn hstart, get_stop_value start stop step _ hn hstop]
  rw [python_start_up start stop step _ hs, python_stop_up start stop step _ hs] at hno ⊢
  cases start <;> cases stop <;> simp only at hno ⊢
  all_goals
    split_ifs at hno ⊢
    all_goals
      exact slice_up_core elements.length _ _ _ _ step hs (by omega) (by omega) hn (by omega)
        (by omega) hno

theorem slice_select_down {Json : Type} (start stop : Option Int) (step : Int)
    (elements : List Json) (hn : (elements.length : Int) < 2 ^ 63) (hs : step < 0)
    (hstep : -2 ^ 63 ≤ step)
    (hstart : ∀ x ∈ start, -2 ^ 63 ≤ x ∧ x < 2 ^ 63)
    (hstop : ∀ x ∈ stop, -2 ^ 63 ≤ x ∧ x < 2 ^ 63) :
    ∃ nodes, (slice_selector.mk ⟨start, stop, step⟩).select (.array_value elements) =
        some nodes ∧
      nodes.map Int.ofNat =
        python_range (python_slice_indices start stop step elements.length).1
          (python_slice_indices start stop step elements.length).2.1 step ∧
      ∀ j ∈ nodes, j < elements.length := by
  have hlen : to_int64 (elements.length : Int) = elements.length :=
    to_int64_of_range _ (by omega) hn
  have hm1 : to_int64 ((elements.length : Int) - 1) = elements.length - 1 :=
    to_int64_of_range _ (by omega) (by omega)
  have hns : ¬ 0 < step := by omega
  simp only [slice_selector.select, json_reference.is_array, json_reference.size, hlen,
    if_true, slice.step, gt_iff_lt, hs, hns, if_false, hm1]
  rw [get_start_value start stop step _ hn hstart, get_stop_value start stop step _ hn hstop,
    python_start_down start stop step _ hs, python_stop_down start stop step _ hs]
  cases start <;> cases stop <;> simp only
  all_goals
    split_ifs
    all_goals
      exact slice_down_core elements.length _ _ _ _ step hs hstep (by omega) (by omega) hn
        (by omega)

end jsonpath_new

end jsoncons

namespace jsoncons

namespace jsonpath_new

/-- C34: slice selection has the semantics of a Python slice, 64-bit overflow
aside. For an array of length `n` (below `2 ^ 63`) and a slice with optional
start, optional stop and a step other than 0, all 64-bit signed numbers, such
that with a positive step no sum `i + step` of the loop leaves the 64 bits (for
every position `i` of the Python range, `i + step < 2 ^ 63`; with a negative
step no sum can), `slice_selector` without sub-selectors ends and selects, in
this order, the elements at the positions of Python's
`range(*slice(start, stop, step).indices(n))`, and every selected position is
below `n`. With the step 0 nothing is selected, and nothing is selected from a
value that is not an array. Where a sum does leave the 64 bits, as for the slice
`[1 :: 2 ^ 63 - 1]` on five elements, the wrapped loop goes on and hands the
out-of-range positions `2 ^ 63` and `2 ^ 64 - 1` to `val[j]`. -/
theorem slice_selector_has_python_slice_semantics {Json : Type} (start stop : Option Int)
    (step : Int) (elements : List Json) (hn : elements.length < 2 ^ 63)
    (hstart : ∀ x ∈ start, -2 ^ 63 ≤ x ∧ x < 2 ^ 63)
    (hstop : ∀ x ∈ stop, -2 ^ 63 ≤ x ∧ x < 2 ^ 63)
    (hstep : -2 ^ 63 ≤ step ∧ step < 2 ^ 63)
    (hno : 0 < step →
      ∀ j ∈ python_range (python_slice_indices start stop step elements.length).1
        (python_slice_indices start stop step elements.length).2.1
        (python_slice_indices start stop step elements.length).2.2, j + step < 2 ^ 63) :
    (step ≠ 0 →
      ∃ nodes, (slice_selector.mk ⟨start, stop, step⟩).select (.array_value elements) =
          some nodes ∧
        nodes.map Int.ofNat =
          python_range (python_slice_indices start stop step elements.length).1
            (python_slice_indices start stop step elements.length).2.1
            (python_slice_indices start stop step elements.length).2.2 ∧
        ∀ j ∈ nodes, j < elements.length) ∧
    (step = 0 →
      (slice_selector.mk ⟨start, stop, step⟩).select (.array_value elements) = some []) ∧
    (slice_selector.mk ⟨start, stop, step⟩).select
      (json_reference.other_value : json_reference Json) = some [] ∧
    (slice_selector.mk ⟨some 1, none, 2 ^ 63 - 1⟩).select
      (.array_value [10, 20, 30, 40, 50]) = some [1, 2 ^ 63, 2 ^ 64 - 1] := by
  have hn2 : (elements.length : Int) < 2 ^ 63 := by omega
  refine ⟨?_, ?_, rfl, by decide⟩
  · intro hne
    rcases lt_or_gt_of_ne hne with hs | hs
    · exact slice_select_down start stop step elements hn2 hs hstep.1 hstart hstop
    · exact slice_select_up start stop step elements hn2 hs hstart hstop (hno hs)
  · intro h0
    subst h0
    simp [slice_selector.select, slice.step, json_reference.is_array]

theorem slice_selector_has_python_slice_semantics_witness :
    [10, 20, 30, 40, 50].length < 2 ^ 63 ∧
    (∀ x ∈ (some 1 : Option Int), -2 ^ 63 ≤ x ∧ x < 2 ^ 63) ∧
    (∀ x ∈ (none : Option Int), -2 ^ 63 ≤ x ∧ x < 2 ^ 63) ∧
    ((-2 ^ 63 : Int) ≤ 2 ∧ (2 : Int) < 2 ^ 63) ∧
    (0 < (2 : Int) →
      ∀ j ∈ python_range (python_slice_indices (some 1) none 2 [10, 20, 30, 40, 50].length).1
        (python_slice_indices (some 1) none 2 [10, 20, 30, 40, 50].length).2.1
        (python_slice_indices (some 1) none 2 [10, 20, 30, 40, 50].length).2.2,
        j + 2 < 2 ^ 63) ∧
    (slice_selector.mk ⟨some 1, none, 2⟩).select (.array_value [10, 20, 30, 40, 50])
      = some [1, 3] ∧
    (slice_selector.mk ⟨none, none, -1⟩).select (.array_value [10, 20, 30, 40, 50])
      = some [4, 3, 2, 1, 0] ∧
    (slice_selector.mk ⟨some (-2), none, 1⟩).select (.array_value [10, 20, 30, 40, 50])
      = some [3, 4] ∧
    (slice_selector.mk ⟨some 10, some 0, -2⟩).select (.array_value [10, 20, 30, 40, 50])
      = some [4, 2] ∧
    (slice_selector.mk ⟨some (-9), some (-1), 3⟩).select (.array_value [10, 20, 30, 40, 50])
      = some [0, 3] ∧
    python_slice_indices (some 1) none 2 5 = (1, 5, 2) ∧
    python_range 1 5 2 = [1, 3] ∧
    python_slice_indices (some 10) (some 0) (-2) 5 = (4, 0, -2) ∧
    python_range 4 0 (-2) = [4, 2] ∧
    (∃ nodes, (slice_selector.mk ⟨some 1, none, 2⟩).select
          (.array_value [10, 20, 30, 40, 50]) = some nodes ∧
        nodes.map Int.ofNat =
          python_range (python_slice_indices (some 1) none 2 [10, 20, 30, 40, 50].length).1
            (python_slice_indices (some 1) none 2 [10, 20, 30, 40, 50].length).2.1
            (python_slice_indices (some 1) none 2 [10, 20, 30, 40, 50].length).2.2 ∧
        ∀ j ∈ nodes, j < [10, 20, 30, 40, 50].length) :=
  ⟨by decide, by decide, by decide, by decide, by decide, by decide, by decide, by decide,
   by decide, by decide, by decide, by decide, by decide, by decide,
   (slice_selector_has_python_slice_semantics (some 1) none 2 [10, 20, 30, 40, 50]
      (by decide) (by decide) (by decide) (by decide) (by decide)).1 (by decide)⟩

end jsonpath_new

end jsoncons

/-! ## The filter view of a cursor -/

namespace jsoncons

section filter_view

variable {Event Context : Type}

theorem takeWhile_stop {α : Type} (q : α → Bool) :
    ∀ l : List α, l[(l.takeWhile q).length]? = none ∨
      ∃ e, l[(l.takeWhile q).length]? = some e ∧ q e = false := by
  intro l
  induction l with
  | nil => left; rfl
  | cons x t ih =>
    by_cases hx : q x = true
    · rw [List.takeWhile_cons_of_pos hx, List.length_cons, List.getElem?_cons_succ]
      exact ih
    · rw [List.takeWhile_cons_of_neg hx]
      right
      exact ⟨x, by simp, by simpa using hx⟩

theorem takeWhile_skipped {α : Type} (q : α → Bool) :
    ∀ (l : List α) (j : Nat), j < (l.takeWhile q).length →
      ∃ e, l[j]? = some e ∧ q e = true := by
  intro l
  induction l with
  | nil => intro j hj; simp at hj
  | cons x t ih =>
    intro j hj
    by_cases hx : q x = true
    · rw [List.takeWhile_cons_of_pos hx, List.length_cons] at hj
      cases j with
      | zero => exact ⟨x, by simp, hx⟩
      | succ j =>
        rw [List.getElem?_cons_succ]
        exact ih j (by omega)
    · rw [List.takeWhile_cons_of_neg hx] at hj
      simp at hj

theorem filter_drop_takeWhile {α : Type} (p : α → Bool) :
    ∀ l : List α, (l.drop (l.takeWhile (fun e => !p e)).length).filter p = l.filter p := by
  intro l
  induction l with
  | nil => rfl
  | cons x t ih =>
    by_cases hx : p x = true
    · rw [List.takeWhile_cons_of_neg (by simp [hx])]
      rfl
    · rw [List.takeWhile_cons_of_pos (by simpa using hx), List.length_cons, List.drop_succ_cons,
        List.filter_cons_of_neg hx]
      exact ih

theorem skip_loop_eq (pred : Event → Context → Bool) :
    ∀ (fuel : Nat) (c : staj_cursor Event Context), c.events.length - c.position ≤ fuel →
      basic_staj_filter_view.skip_loop pred fuel c =
        ⟨c.events, c.position +
          ((c.events.drop c.position).takeWhile (fun e => !pred e.1 e.2)).length⟩ := by
  intro fuel
  induction fuel with
  | zero =>
    intro c hf
    have hdrop : c.events.drop c.position = [] := List.drop_eq_nil_of_le (by omega)
    rw [hdrop]
    rfl
  | succ fuel ih =>
    intro c hf
    by_cases hd : c.position ≥ c.events.length
    · have hdrop : c.events.drop c.position = [] := List.drop_eq_nil_of_le hd
      rw [hdrop]
      simp [basic_staj_filter_view.skip_loop, staj_cursor.done, hd]
    · have hlt : c.position < c.events.length := by omega
      have hcur : c.current = some c.events[c.position] := List.getElem?_eq_getElem hlt
      have hdrop : c.events.drop c.position =
          c.events[c.position] :: c.events.drop (c.position + 1) :=
        (List.getElem_cons_drop _ _ hlt).symm
      rw [hdrop]
      by_cases hp : pred c.events[c.position].1 c.events[c.position].2 = true
      · rw [List.takeWhile_cons_of_neg (by simp [hp])]
        simp [basic_staj_filter_view.skip_loop, staj_cursor.done, hd, hcur, hp]
      · rw [List.takeWhile_cons_of_pos (by simpa using hp)]
        have hstep : basic_staj_filter_view.skip_loop pred (fuel + 1) c =
            basic_staj_filter_view.skip_loop pred fuel c.next := by
          simp [basic_staj_filter_view.skip_loop, staj_cursor.done, hd, hcur, hp]
        rw [hstep, ih c.next (by simp only [staj_cursor.next]; omega)]
        simp only [staj_cursor.next, List.length_cons]
        congr 1
        omega

/-- What the loop of the constructor and of `next()` reaches from the cursor
`c`: the events are the same, the cursor has moved forward over events that all
fail the predicate, and it is done or at an event that satisfies it. -/
theorem skip_loop_settles (pred : Event → Context → Bool) (c : staj_cursor Event Context) :
    (basic_staj_filter_view.skip_loop pred (c.events.length - c.position) c).events = c.events ∧
    c.position ≤
      (basic_staj_filter_view.skip_loop pred (c.events.length - c.position) c).position ∧
    ((basic_staj_filter_view.skip_loop pred (c.events.length - c.position) c).done = true ∨
      ∃ e x, (basic_staj_filter_view.skip_loop pred
          (c.events.length - c.position) c).current = some (e, x) ∧ pred e x = true) ∧
    (∀ k, c.position ≤ k →
      k < (basic_staj_filter_view.skip_loop pred (c.events.length - c.position) c).position →
      ∃ e x, c.events[k]? = some (e, x) ∧ pred e x = false) := by
  rw [skip_loop_eq pred _ c (le_refl _)]
  refine ⟨rfl, Nat.le_add_right _ _, ?_, ?_⟩
  · rcases takeWhile_stop (fun e : Event × Context => !pred e.1 e.2)
      (c.events.drop c.position) with h | ⟨e, he, hq⟩
    · left
      rw [List.getElem?_drop] at h
      simp only [staj_cursor.done, decide_eq_true_eq]
      exact List.getElem?_eq_none_iff.1 h
    · right
      rw [List.getElem?_drop] at he
      exact ⟨e.1, e.2, he, by simpa using hq⟩
  · intro k hk1 hk2
    simp only at hk2
    obtain ⟨e, he, hq⟩ := takeWhile_skipped (fun e : Event × Context => !pred e.1 e.2)
      (c.events.drop c.position) (k - c.position) (by omega)
    rw [List.getElem?_drop] at he
    have hk : c.position + (k - c.position) = k := by omega
    rw [hk] at he
    exact ⟨e.1, e.2, he, by simpa using hq⟩

theorem read_all_eq (pred : Event → Context → Bool) :
    ∀ (fuel : Nat) (c : staj_cursor Event Context),
      (c.done = true ∨ ∃ e x, c.current = some (e, x) ∧ pred e x = true) →
      c.events.length - c.position ≤ fuel →
      basic_staj_filter_view.read_all fuel ⟨c, pred⟩ =
        (c.events.drop c.position).filter (fun e => pred e.1 e.2) := by
  intro fuel
  induction fuel with
  | zero =>
    intro c _ hf
    rw [List.drop_eq_nil_of_le (by omega)]
    rfl
  | succ fuel ih =>
    intro c hset hf
    by_cases hd : c.position ≥ c.events.length
    · rw [List.drop_eq_nil_of_le hd]
      simp [basic_staj_filter_view.read_all, basic_staj_filter_view.done, staj_cursor.done, hd]
    · have hlt : c.position < c.events.length := by omega
      have hcur : c.current = some c.events[c.position] := List.getElem?_eq_getElem hlt
      have hp : pred c.events[c.position].1 c.events[c.position].2 = true := by
        rcases hset with h | ⟨e, x, he, hpe⟩
        · simp [staj_cursor.done, hd] at h
        · rw [hcur] at he
          injection he with he
          rw [he]
          exact hpe
      have hdrop : c.events.drop c.position =
          c.events[c.position] :: c.events.drop (c.position + 1) :=
        (List.getElem_cons_drop _ _ hlt).symm
      have hnext : (basic_staj_filter_view.mk c pred).next =
          ⟨basic_staj_filter_view.skip_loop pred (c.next.events.length - c.next.position)
            c.next, pred⟩ := rfl
      obtain ⟨h1, h2, h3, _⟩ := skip_loop_settles pred c.next
      have hrec := ih _ h3 (by
        rw [h1]
        simp only [staj_cursor.next] at h2 ⊢
        omega)
      have hfil : ∀ t : List (Event × Context),
          (c.events[c.position] :: t).filter (fun e => pred e.1 e.2) =
            c.events[c.position] :: t.filter (fun e => pred e.1 e.2) := by
        intro t
        simp [List.filter_cons, hp]
      rw [hdrop, hfil]
      simp only [basic_staj_filter_view.read_all, basic_staj_filter_view.done, staj_cursor.done,
        hd, decide_False, Bool.not_false, if_true, basic_staj_filter_view.current, hcur]
      rw [hnext, hrec, skip_loop_eq pred _ c.next (le_refl _)]
      simp only [staj_cursor.next]
      rw [← List.drop_drop, filter_drop_takeWhile]

end filter_view

end jsoncons

namespace jsoncons

section filter_view_claim

variable {Event Context : Type}

/-- C38: the invariant of `basic_staj_filter_view` over a cursor that is a finite
event sequence with a position. Right after the construction of the view, and
after a call of `next()` on any view `v`, the cursor has the same events, it is
done or at an event that satisfies the predicate, and the events it has passed
in that call (from the old position for the constructor, from the event after the
old position for `next()`) all fail the predicate. So a caller that steps the
view to its end reads exactly the events from the first position on that satisfy
the predicate, in their order; no loop runs out of its bound of rounds. With the
predicate "is even" the events 1, 2, 3, 4, 5, 6 are read as 2, 4, 6. -/
theorem filter_view_stops_only_at_accepted_events (cursor : staj_cursor Event Context)
    (pred : Event → Context → Bool) (v : basic_staj_filter_view Event Context) :
    ((basic_staj_filter_view.make cursor pred).cursor_.events = cursor.events ∧
      cursor.position ≤ (basic_staj_filter_view.make cursor pred).cursor_.position ∧
      ((basic_staj_filter_view.make cursor pred).done = true ∨
        ∃ e x, (basic_staj_filter_view.make cursor pred).current = some (e, x) ∧
          pred e x = true) ∧
      (∀ k, cursor.position ≤ k →
        k < (basic_staj_filter_view.make cursor pred).cursor_.position →
        ∃ e x, cursor.events[k]? = some (e, x) ∧ pred e x = false)) ∧
    (v.next.cursor_.events = v.cursor_.events ∧ v.next.pred_ = v.pred_ ∧
      v.cursor_.position + 1 ≤ v.next.cursor_.position ∧
      (v.next.done = true ∨
        ∃ e x, v.next.current = some (e, x) ∧ v.pred_ e x = true) ∧
      (∀ k, v.cursor_.position + 1 ≤ k → k < v.next.cursor_.position →
        ∃ e x, v.cursor_.events[k]? = some (e, x) ∧ v.pred_ e x = false)) ∧
    (basic_staj_filter_view.read_all (cursor.events.length - cursor.position)
        (basic_staj_filter_view.make cursor pred) =
      (cursor.events.drop cursor.position).filter (fun e => pred e.1 e.2)) ∧
    (basic_staj_filter_view.read_all 6
        (basic_staj_filter_view.make
          (staj_cursor.mk [(1, ()), (2, ()), (3, ()), (4, ()), (5, ()), (6, ())] 0)
          (fun (e : Nat) _ => e % 2 == 0)) = [(2, ()), (4, ()), (6, ())]) := by
  refine ⟨skip_loop_settles pred cursor, ?_, ?_, by decide⟩
  · obtain ⟨h1, h2, h3, h4⟩ := skip_loop_settles v.pred_ v.cursor_.next
    exact ⟨h1, rfl, h2, h3, h4⟩
  · obtain ⟨h1, h2, h3, _⟩ := skip_loop_settles pred cursor
    have hmake : basic_staj_filter_view.make cursor pred =
        ⟨basic_staj_filter_view.skip_loop pred (cursor.events.length - cursor.position)
          cursor, pred⟩ := rfl
    rw [hmake, read_all_eq pred _ _ h3 (by rw [h1]; omega),
      skip_loop_eq pred _ cursor (le_refl _)]
    simp only
    rw [← List.drop_drop, filter_drop_takeWhile]

end filter_view_claim

end jsoncons

/-! ## Index entries of an erased range -/

namespace jsoncons

namespace preserve_order

/-- C31, evaluated on the code: `erase_index_entries(pos1, pos2)` does not
produce the index the claim describes when the range holds more than one
position. On the index `[0, 1, 2]` with the range `[0, 2)` the claim asks for
`[0]`; the code returns `[1]`, which is no permutation of `[0, 1)`. On
`[0, 1, 2, 3]` with the range `[1, 3)` the claim asks for `[0, 1]`; the two loops
leave `[0, 2, 1]` and the final `JSONCONS_ASSERT(index_.size() == n)` fails. For
a range of one position, as in `[2, 0, 1]` with `[1, 2)`, the code returns the
index of the claim. -/
theorem erase_index_entries_misses_slot_behind_erased_slot :
    erase_index_entries [0, 1, 2] 0 2 = .ok [1] ∧
    erase_index_entries_expected [0, 1, 2] 0 2 = [0] ∧
    ¬ ([1] : List Nat).Perm (List.range (3 - (2 - 0))) ∧
    erase_index_entries_loops [0, 1, 2, 3] 1 3 = [0, 2, 1] ∧
    erase_index_entries [0, 1, 2, 3] 1 3 = .error error.assertion_failed ∧
    erase_index_entries_expected [0, 1, 2, 3] 1 3 = [0, 1] ∧
    erase_index_entries [2, 0, 1] 1 2 = .ok (erase_index_entries_expected [2, 0, 1] 1 2) := by
  refine ⟨by decide, by decide, by decide, by decide, by decide, by decide, by decide⟩

end preserve_order

end jsoncons

/-! ## The parser of normalized paths -/

namespace jsoncons

namespace jsonpath

/-- C37, evaluated on the code: an escape sequence inside a double-quoted name is
decoded, but the state `quoted_string_escape_char` then continues in the state
`single_quoted_string` whatever the quote style was. The text `$["a\"b"]` does
not parse to the name `a"b`: behind the escape the closing double quote and the
bracket are read as characters of the name, and the parse ends with
`unexpected_eof` and an empty path. The text `$['a\'b']` parses to the one name
`a'b`, and so does a double-quoted name without escape, `$["ab"]`, to `ab`; the
text `$["a\"b']`, closed by a single quote, parses to `a"b`. -/
theorem double_quoted_name_with_escape_ends_as_single_quoted
    (to_integer : List Char → Option Nat) :
    parse to_integer ['$', '[', '\"', 'a', '\\', '\"', 'b', '\"', ']'] =
      some ([], some jsonpath_errc.unexpected_eof) ∧
    parse to_integer ['$', '[', '\'', 'a', '\\', '\'', 'b', '\'', ']'] =
      some ([basic_path_element.of_name ['a', '\'', 'b']], none) ∧
    parse to_integer ['$', '[', '\"', 'a', 'b', '\"', ']'] =
      some ([basic_path_element.of_name ['a', 'b']], none) ∧
    parse to_integer ['$', '[', '\"', 'a', '\\', '\"', 'b', '\'', ']'] =
      some ([basic_path_element.of_name ['a', '\"', 'b']], none) := by
  refine ⟨?_, ?_, ?_, ?_⟩ <;> rfl

end jsonpath

end jsoncons

/-! ## Hinted insertion into the order-preserving object -/

namespace jsoncons

namespace preserve_order

variable {K V : Type} [LinearOrder K]

theorem hinted_absent (ms : List (key_value K V)) (l1 l2 : List Nat) (k : K) (v : V)
    (p : Nat) (hp : p ≤ ms.length)
    (h : (json_object.mk ms (l1 ++ l2)).index_consistent)
    (h1 : ∀ i ∈ l1, ∃ m, ms[i]? = some m ∧ m.key < k)
    (h2 : ∀ i ∈ l2, ∃ m, ms[i]? = some m ∧ k < m.key) :
    ∃ idx, (json_object.mk ms (l1 ++ l2)).try_emplace_hint p k v =
        .ok (⟨vector_emplace ms p ⟨k, v⟩, idx⟩, p) ∧
      (json_object.mk ms (l1 ++ l2)).insert_or_assign_hint p k v =
        .ok (⟨vector_emplace ms p ⟨k, v⟩, idx⟩, p) ∧
      (json_object.mk (vector_emplace ms p ⟨k, v⟩) idx).index_consistent := by
  have hlen := index_length ms _ h.1
  by_cases hend : p = ms.length
  · subst hend
    have hemp : vector_emplace ms ms.length (⟨k, v⟩ : key_value K V) = ms ++ [⟨k, v⟩] := by
      simp [vector_emplace]
    refine ⟨l1 ++ ms.length :: l2, ?_, ?_, ?_⟩
    · simp only [json_object.try_emplace_hint, if_true,
        index_try_emplace_absent ms l1 l2 k v hlen h1 h2, hemp]
      rfl
    · simp only [json_object.insert_or_assign_hint, if_true,
        index_insert_or_assign_absent ms l1 l2 k v hlen h1 h2, hemp]
      rfl
    · rw [hemp]
      exact insert_consistent ms l1 l2 k v h h1 h2
  · refine ⟨_, ?_, ?_, splice_consistent ms l1 l2 k v p hp h h1 h2⟩
    · simp only [json_object.try_emplace_hint, hend, if_false,
        insert_index_entry_absent_at ms l1 l2 k p h.1 hp h1 h2]
      rfl
    · simp only [json_object.insert_or_assign_hint, hend, if_false,
        insert_index_entry_absent_at ms l1 l2 k p h.1 hp h1 h2]
      rfl

theorem hinted_present (ms : List (key_value K V)) (l1 l2 : List Nat) (q : Nat)
    (b : key_value K V) (k : K) (v : V) (p : Nat) (hp : p ≤ ms.length)
    (h : (json_object.mk ms (l1 ++ q :: l2)).index_consistent)
    (h1 : ∀ i ∈ l1, ∃ m, ms[i]? = some m ∧ m.key < k)
    (hb : ms[q]? = some b) (hk : b.key = k)
    (h2 : ∀ i ∈ l2, ∃ m, ms[i]? = some m ∧ k < m.key) :
    (json_object.mk ms (l1 ++ q :: l2)).try_emplace_hint p k v =
        .ok (⟨ms, l1 ++ q :: l2⟩, q) ∧
    (json_object.mk ms (l1 ++ q :: l2)).insert_or_assign_hint p k v =
        .ok (⟨assign_value ms q v, l1 ++ q :: l2⟩, q) := by
  have hlen := index_length ms _ h.1
  by_cases hend : p = ms.length
  · subst hend
    constructor
    · simp only [json_object.try_emplace_hint, if_true,
        index_try_emplace_present ms l1 l2 q b k v hlen h1 hb hk h2]
      rfl
    · simp only [json_object.insert_or_assign_hint, if_true,
        index_insert_or_assign_present ms l1 l2 q b k v hlen h1 hb hk h2]
      rfl
  · constructor
    · simp only [json_object.try_emplace_hint, hend, if_false,
        insert_index_entry_present_at ms l1 l2 q b k p h.1 hp h1 hb hk h2]
      rfl
    · simp only [json_object.insert_or_assign_hint, hend, if_false,
        insert_index_entry_present_at ms l1 l2 q b k p h.1 hp h1 hb hk h2]
      rfl

/-- C32: hinted insertion into an order-preserving object that satisfies the
index invariant, for every hint position `p` in `[begin, end]`. With an absent
key, `try_emplace(hint, k, v)` and `insert_or_assign(hint, k, v)` do not fail and
give the same object: the member sequence is the old one with `(k, v)` spliced
in at position `p` (the end when the hint is `end`), so all other members keep
their relative order; the returned iterator is at position `p`, where the new
member is; and the index is again a permutation of `[0, size)` that yields
ascending keys. With a present key nothing is inserted, the returned position is
the one of the member with this key, `try_emplace` leaves the object as it is and
`insert_or_assign` only replaces the value of that member. -/
theorem hinted_insertion_splices_member_at_hint (o : json_object K V) (p : Nat) (k : K)
    (v : V) (h : o.index_consistent) (hp : p ≤ o.size) :
    (k ∉ o.members_.map key_value.key →
      ∃ idx, o.try_emplace_hint p k v =
          .ok (⟨o.members_.take p ++ ⟨k, v⟩ :: o.members_.drop p, idx⟩, p) ∧
        o.insert_or_assign_hint p k v =
          .ok (⟨o.members_.take p ++ ⟨k, v⟩ :: o.members_.drop p, idx⟩, p) ∧
        (o.members_.take p ++ (⟨k, v⟩ : key_value K V) :: o.members_.drop p)[p]? =
          some ⟨k, v⟩ ∧
        (json_object.mk (o.members_.take p ++ ⟨k, v⟩ :: o.members_.drop p)
          idx).index_consistent) ∧
    (k ∈ o.members_.map key_value.key →
      ∃ q m, o.members_[q]? = some m ∧ m.key = k ∧
        o.try_emplace_hint p k v = .ok (o, q) ∧
        o.insert_or_assign_hint p k v = .ok (⟨assign_value o.members_ q v, o.index_⟩, q) ∧
        (assign_value o.members_ q v).map key_value.key = o.members_.map key_value.key ∧
        (∀ i, i ≠ q → (assign_value o.members_ q v)[i]? = o.members_[i]?) ∧
        (assign_value o.members_ q v)[q]? = some ⟨k, v⟩) := by
  obtain ⟨ms, idx⟩ := o
  simp only [json_object.size] at hp
  rcases index_decompose_of_consistent ⟨ms, idx⟩ k h with
    ⟨l1, l2, hidx, h1, h2⟩ | ⟨l1, q, l2, b, hidx, h1, hb, hk, h2⟩
  · simp only at hidx h1 h2
    subst hidx
    refine ⟨fun _ => ?_, fun hmem => absurd hmem (index_absent_not_mem ms l1 l2 k h.1 h1 h2)⟩
    obtain ⟨idx1, ht, hi, hc⟩ := hinted_absent ms l1 l2 k v p hp h h1 h2
    exact ⟨idx1, ht, hi, vector_emplace_getElem? ms p _ hp, hc⟩
  · simp only at hidx h1 h2 hb
    subst hidx
    refine ⟨fun habs => absurd (index_present_mem ms q b k hb hk) habs, fun _ => ?_⟩
    obtain ⟨ht, hi⟩ := hinted_present ms l1 l2 q b k v p hp h h1 hb hk h2
    refine ⟨q, b, hb, hk, ht, hi, assign_value_keys ms q v, ?_, ?_⟩
    · intro i hiq
      rw [assign_value_getElem?]
      cases ms[i]? with
      | none => rfl
      | some m => simp [hiq]
    · rw [assign_value_getElem?, hb]
      simp [hk]

theorem hinted_insertion_splices_member_at_hint_witness :
    object_m_c_x_a_q.index_consistent ∧ 2 ≤ object_m_c_x_a_q.size ∧
    "d".data ∉ object_m_c_x_a_q.members_.map key_value.key ∧
    object_m_c_x_a_q.try_emplace_hint 2 "d".data 7 =
      .ok (⟨[⟨"m".data, 1⟩, ⟨"c".data, 2⟩, ⟨"d".data, 7⟩, ⟨"x".data, 3⟩, ⟨"a".data, 4⟩,
        ⟨"q".data, 5⟩], [4, 1, 2, 0, 5, 3]⟩, 2) ∧
    object_m_c_x_a_q.insert_or_assign_hint 1 "x".data 9 =
      .ok (⟨[⟨"m".data, 1⟩, ⟨"c".data, 2⟩, ⟨"x".data, 9⟩, ⟨"a".data, 4⟩, ⟨"q".data, 5⟩],
        [3, 1, 0, 4, 2]⟩, 2) ∧
    (∃ idx, object_m_c_x_a_q.try_emplace_hint 2 "d".data 7 =
        .ok (⟨object_m_c_x_a_q.members_.take 2 ++ ⟨"d".data, 7⟩ ::
          object_m_c_x_a_q.members_.drop 2, idx⟩, 2) ∧
      (json_object.mk (object_m_c_x_a_q.members_.take 2 ++ ⟨"d".data, 7⟩ ::
        object_m_c_x_a_q.members_.drop 2) idx).index_consistent) :=
  ⟨by decide, by decide, by decide, by decide, by decide,
   match (hinted_insertion_splices_member_at_hint object_m_c_x_a_q 2 "d".data 7
      (by decide) (by decide)).1 (by decide) with
   | ⟨idx, h1, _, _, h4⟩ => ⟨idx, h1, h4⟩⟩

end preserve_order

end jsoncons

/-! ## Bulk insertion -/

namespace jsoncons

section bulk_insertion

variable {K V : Type} [LinearOrder K]

theorem delete_later_occurrences_append (l1 : List (key_value K V)) :
    ∀ (seen : List K) (l2 : List (key_value K V)),
      (l1.map key_value.key).Nodup → (∀ k ∈ l1.map key_value.key, k ∉ seen) →
      preserve_order.delete_later_occurrences seen (l1 ++ l2) =
        l1 ++ preserve_order.delete_later_occurrences ((l1.map key_value.key).reverse ++ seen) l2 := by
  induction l1 with
  | nil => intro seen l2 _ _; rfl
  | cons m t ih =>
    intro seen l2 hnd hdis
    rw [List.map_cons, List.nodup_cons] at hnd
    have hm : m.key ∉ seen := hdis m.key (by simp)
    rw [List.cons_append, preserve_order.delete_later_occurrences_cons_new seen m _ hm,
      ih (m.key :: seen) l2 hnd.2 (by
        intro k hk hmem
        rcases List.mem_cons.1 hmem with rfl | hs
        · exact hnd.1 hk
        · exact hdis k (by simp only [List.map_cons]; exact List.mem_cons_of_mem _ hk) hs)]
    simp

theorem mem_of_find?_key {k : K} {m : key_value K V} {l : List (key_value K V)}
    (h : l.find? (fun e => decide (e.key = k)) = some m) : m ∈ l ∧ m.key = k :=
  ⟨List.mem_of_find?_eq_some h, by simpa using List.find?_some h⟩

/-- C33: bulk `insert(first, last, convert)` into an existing object that
satisfies its invariant, for every input list. Afterwards the invariant holds
again; a key is present iff it was present or occurs in the input; the member
found for a key is the old member when the key was present (so every old member
is still a member), and otherwise the first member of the input with this key.
In the order-preserving variant the member sequence is the old one followed by
the input members whose key is new, each key at its first occurrence, in the
order of the input. -/
theorem bulk_insert_keeps_existing_members {α : Type} (s : sorted.json_object K V)
    (p : preserve_order.json_object K V) (input : List α) (convert : α → key_value K V)
    (hs : s.strictly_ascending) (hp : p.index_consistent) :
    ((s.insert_range input convert).strictly_ascending ∧
      (∀ k, k ∈ (s.insert_range input convert).members_.map key_value.key ↔
        k ∈ s.members_.map key_value.key ∨ k ∈ (input.map convert).map key_value.key) ∧
      (∀ k, (s.insert_range input convert).members_.find? (fun m => decide (m.key = k)) =
        (s.members_.find? (fun m => decide (m.key = k))).or
          ((input.map convert).find? (fun m => decide (m.key = k)))) ∧
      (∀ m ∈ s.members_, m ∈ (s.insert_range input convert).members_)) ∧
    ((p.insert_range input convert).index_consistent ∧
      (∀ k, k ∈ (p.insert_range input convert).members_.map key_value.key ↔
        k ∈ p.members_.map key_value.key ∨ k ∈ (input.map convert).map key_value.key) ∧
      (∀ k, (p.insert_range input convert).members_.find? (fun m => decide (m.key = k)) =
        (p.members_.find? (fun m => decide (m.key = k))).or
          ((input.map convert).find? (fun m => decide (m.key = k)))) ∧
      (∀ m ∈ p.members_, m ∈ (p.insert_range input convert).members_) ∧
      (p.insert_range input convert).members_ =
        p.members_ ++ preserve_order.delete_later_occurrences
          (p.members_.map key_value.key).reverse (input.map convert)) := by
  have hsr : s.insert_range input convert =
      sorted.json_object.from_range (s.members_ ++ input.map convert) := rfl
  have hpr : p.insert_range input convert =
      preserve_order.json_object.from_range (p.members_ ++ input.map convert) := rfl
  have hsfind : ∀ k, (s.insert_range input convert).members_.find?
      (fun m => decide (m.key = k)) =
        (s.members_.find? (fun m => decide (m.key = k))).or
          ((input.map convert).find? (fun m => decide (m.key = k))) := by
    intro k
    rw [hsr, sorted_from_range_find?, List.find?_append]
  have hpfind : ∀ k, (p.insert_range input convert).members_.find?
      (fun m => decide (m.key = k)) =
        (p.members_.find? (fun m => decide (m.key = k))).or
          ((input.map convert).find? (fun m => decide (m.key = k))) := by
    intro k
    rw [hpr, order_preserving_from_range_find?, List.find?_append]
  have hpnd := preserve_order.index_keys_nodup p hp
  have hpmem : (p.insert_range input convert).members_ =
      p.members_ ++ preserve_order.delete_later_occurrences
        (p.members_.map key_value.key).reverse (input.map convert) := by
    rw [hpr, preserve_order.from_range_members,
      delete_later_occurrences_append p.members_ [] _ hpnd (by simp)]
    simp
  refine ⟨⟨?_, ?_, hsfind, ?_⟩, ⟨?_, ?_, hpfind, ?_, hpmem⟩⟩
  · rw [hsr]; exact sorted_from_range_ascending _
  · intro k
    rw [hsr, sorted_from_range_keys, List.map_append, List.mem_append]
  · intro m hm
    have h1 : s.members_.find? (fun e => decide (e.key = m.key)) = some m :=
      (find?_key_eq_some_iff_mem s.members_ (sorted.keys_nodup s hs) m).2 hm
    have h2 := hsfind m.key
    rw [h1] at h2
    exact (mem_of_find?_key (h2.trans rfl)).1
  · rw [hpr]
    exact preserve_order.build_index_consistent _
      (order_preserving_from_range_keys_nodup _)
  · intro k
    rw [hpr, order_preserving_from_range_keys, List.map_append, List.mem_append]
  · intro m hm
    rw [hpmem]
    exact List.mem_append_left _ hm

end bulk_insertion

end jsoncons

namespace jsoncons

theorem bulk_insert_keeps_existing_members_witness :
    sorted.object_b_c.strictly_ascending ∧ preserve_order.object_x_then_y.index_consistent ∧
    (sorted.object_b_c.insert_range
        [(⟨"a".data, 1⟩ : key_value (List Char) Int), ⟨"b".data, 9⟩, ⟨"a".data, 5⟩] id).members_ =
      [⟨"a".data, 1⟩, ⟨"b".data, 7⟩, ⟨"c".data, 8⟩] ∧
    preserve_order.object_x_then_y.insert_range
        [(⟨"z".data, 3⟩ : key_value (List Char) Int), ⟨"x".data, 9⟩, ⟨"z".data, 4⟩,
          ⟨"a".data, 0⟩] id =
      ⟨[⟨"x".data, 1⟩, ⟨"y".data, 2⟩, ⟨"z".data, 3⟩, ⟨"a".data, 0⟩], [3, 0, 1, 2]⟩ ∧
    (sorted.object_b_c.insert_range
        [(⟨"a".data, 1⟩ : key_value (List Char) Int), ⟨"b".data, 9⟩, ⟨"a".data, 5⟩]
        id).strictly_ascending ∧
    (preserve_order.object_x_then_y.insert_range
        [(⟨"a".data, 1⟩ : key_value (List Char) Int), ⟨"b".data, 9⟩, ⟨"a".data, 5⟩]
        id).index_consistent :=
  ⟨by decide, by decide, by decide, by decide,
   (bulk_insert_keeps_existing_members sorted.object_b_c preserve_order.object_x_then_y
      [(⟨"a".data, 1⟩ : key_value (List Char) Int), ⟨"b".data, 9⟩, ⟨"a".data, 5⟩] id
      (by decide) (by decide)).1.1,
   (bulk_insert_keeps_existing_members sorted.object_b_c preserve_order.object_x_then_y
      [(⟨"a".data, 1⟩ : key_value (List Char) Int), ⟨"b".data, 9⟩, ⟨"a".data, 5⟩] id
      (by decide) (by decide)).2.1⟩

end jsoncons

/-! ## The parser of normalized paths: the loop -/

namespace jsoncons

namespace jsonpath

theorem parse_loop_nil (to_integer : List Char → Option Nat) (fuel : Nat) (s : parse_locals)
    (h : s.p_ = []) : parse_loop to_integer fuel s = some (parse_end to_integer s) := by
  cases fuel <;> simp [parse_loop, h]

theorem parse_loop_step (to_integer : List Char → Option Nat) (fuel : Nat)
    (s s1 : parse_locals) (c : Char) (rest : List Char) (h : s.p_ = c :: rest)
    (hstep : parse_step to_integer s c rest = .inl s1) :
    parse_loop to_integer (fuel + 1) s = parse_loop to_integer fuel s1 := by
  rw [parse_loop]
  simp only [h, hstep]

theorem parse_loop_return (to_integer : List Char → Option Nat) (fuel : Nat)
    (s : parse_locals) (c : Char) (rest : List Char)
    (result : List basic_path_element × Option jsonpath_errc) (h : s.p_ = c :: rest)
    (hstep : parse_step to_integer s c rest = .inr result) :
    parse_loop to_integer (fuel + 1) s = some result := by
  rw [parse_loop]
  simp only [h, hstep]

theorem parse_loop_succ (to_integer : List Char → Option Nat) :
    ∀ (fuel : Nat) (s : parse_locals) (r : List basic_path_element × Option jsonpath_errc),
      parse_loop to_integer fuel s = some r → parse_loop to_integer (fuel + 1) s = some r := by
  intro fuel
  induction fuel with
  | zero =>
    intro s r h
    cases hp : s.p_ with
    | nil => rw [parse_loop_nil _ _ _ hp] at h ⊢; exact h
    | cons c rest =>
      rw [parse_loop] at h
      simp [hp] at h
  | succ fuel ih =>
    intro s r h
    cases hp : s.p_ with
    | nil => rw [parse_loop_nil _ _ _ hp] at h ⊢; exact h
    | cons c rest =>
      cases hstep : parse_step to_integer s c rest with
      | inl s1 =>
        rw [parse_loop_step _ _ _ _ _ _ hp hstep] at h ⊢
        exact ih s1 r h
      | inr result =>
        rw [parse_loop_return _ _ _ _ _ _ hp hstep] at h ⊢
        exact h

theorem parse_loop_add (to_integer : List Char → Option Nat) (fuel : Nat) (s : parse_locals)
    (r : List basic_path_element × Option jsonpath_errc)
    (h : parse_loop to_integer fuel s = some r) :
    ∀ k, parse_loop to_integer (fuel + k) s = some r := by
  intro k
  induction k with
  | zero => exact h
  | succ k ih => exact parse_loop_succ _ _ _ _ ih

theorem parse_loop_unique (to_integer : List Char → Option Nat) (f1 f2 : Nat)
    (s : parse_locals) (r1 r2 : List basic_path_element × Option jsonpath_errc)
    (h1 : parse_loop to_integer f1 s = some r1) (h2 : parse_loop to_integer f2 s = some r2) :
    r1 = r2 := by
  have e1 := parse_loop_add _ _ _ _ h1 f2
  have e2 := parse_loop_add _ _ _ _ h2 f1
  rw [Nat.add_comm] at e2
  rw [e1] at e2
  exact Option.some.inj e2

theorem advance_past_space_character_length_le (l : List Char) :
    (advance_past_space_character l).length ≤ l.length := by
  cases l with
  | nil => simp [advance_past_space_character]
  | cons c rest =>
    simp only [advance_past_space_character]
    split_ifs
    · simp
    · cases rest with
      | nil => simp
      | cons d rest2 =>
        simp only
        split_ifs <;> simp only [List.length_cons] <;> omega
    · simp
    · simp

theorem advance_past_space_character_length_lt (c : Char) (rest : List Char)
    (h : is_space_character c = true) :
    (advance_past_space_character (c :: rest)).length ≤ rest.length := by
  simp only [is_space_character, Bool.or_eq_true, decide_eq_true_eq] at h
  simp only [advance_past_space_character]
  split_ifs with h1 h2 h3
  · simp
  · cases rest with
    | nil => simp
    | cons d rest2 =>
      simp only
      split_ifs <;> simp
  · simp
  · exfalso
    rcases h with ((h | h) | h) | h
    · exact h1 (Or.inl h)
    · exact h1 (Or.inr h)
    · exact h2 h
    · exact h3 h

end jsonpath

end jsoncons

namespace jsoncons

namespace jsonpath

theorem rounds_without_reading_state_after_element (k : selector_separator_kind) :
    rounds_without_reading (state_after_element k) = 0 := by
  cases k <;> rfl

set_option maxHeartbeats 2000000 in
theorem parse_step_measure (to_integer : List Char → Option Nat) (s s1 : parse_locals)
    (c : Char) (rest : List Char) (hp : s.p_ = c :: rest)
    (hstep : parse_step to_integer s c rest = .inl s1) :
    3 * s1.p_.length + rounds_without_reading s1.state <
      3 * s.p_.length + rounds_without_reading s.state := by
  have hle := advance_past_space_character_length_le (c :: rest)
  have hlt := advance_past_space_character_length_lt c rest
  have hafter := rounds_without_reading_state_after_element s.separator_kind
  obtain ⟨state, separator_kind, buffer, elements, p⟩ := s
  simp only at hp hafter
  subst hp
  simp only [List.length_cons] at hle ⊢
  cases state <;> simp only [parse_step] at hstep
  case digit =>
    split_ifs at hstep
    · rw [← Sum.inl.inj hstep]
      simp only [rounds_without_reading]
      omega
    · split at hstep
      · exact absurd hstep (by simp)
      · rw [← Sum.inl.inj hstep]
        simp only [hafter]
        simp only [rounds_without_reading, List.length_cons]
        omega
  all_goals
    split_ifs at hstep
    all_goals
      rw [← Sum.inl.inj hstep]
      try simp only [hafter]
      simp only [rounds_without_reading, List.length_cons]
      first
        | omega
        | (specialize hlt (by assumption); omega)

/-- The loop of `parse` ends within three rounds for every character that is
still to be read, and the rounds a state can pass without reading. -/
theorem parse_loop_total (to_integer : List Char → Option Nat) :
    ∀ (fuel : Nat) (s : parse_locals),
      3 * s.p_.length + rounds_without_reading s.state ≤ fuel →
      ∃ r, parse_loop to_integer fuel s = some r := by
  intro fuel
  induction fuel with
  | zero =>
    intro s h
    have hp : s.p_ = [] := List.length_eq_zero.1 (by omega)
    exact ⟨_, parse_loop_nil _ _ _ hp⟩
  | succ fuel ih =>
    intro s h
    cases hp : s.p_ with
    | nil => exact ⟨_, parse_loop_nil _ _ _ hp⟩
    | cons c rest =>
      cases hstep : parse_step to_integer s c rest with
      | inl s1 =>
        have hm := parse_step_measure to_integer s s1 c rest hp hstep
        obtain ⟨r, hr⟩ := ih s1 (by omega)
        exact ⟨r, by rw [parse_loop_step _ _ _ _ _ _ hp hstep]; exact hr⟩
      | inr result => exact ⟨result, parse_loop_return _ _ _ _ _ _ hp hstep⟩

/-- The method `parse` returns for every text, and what any number of rounds of
its loop returns is what `parse` returns. -/
theorem parse_eq_of_loop (to_integer : List Char → Option Nat) (path : List Char)
    (fuel : Nat) (r : List basic_path_element × Option jsonpath_errc)
    (h : parse_loop to_integer fuel ⟨.start, .bracket, [], [], path⟩ = some r) :
    parse to_integer path = some r := by
  obtain ⟨r1, hr1⟩ := parse_loop_total to_integer (3 * path.length)
    ⟨.start, .bracket, [], [], path⟩ (by simp [rounds_without_reading])
  rw [parse, hr1, parse_loop_unique _ _ _ _ _ _ hr1 h]

end jsonpath

end jsoncons

/-! ## The parser of normalized paths: the round trip -/

namespace jsoncons

namespace jsonpath

theorem digitChar_isDigit : ∀ k, k < 10 → (Nat.digitChar k).isDigit = true := by
  decide

theorem toDigitsCore_isDigit :
    ∀ (fuel n : Nat) (ds : List Char), (∀ c ∈ ds, c.isDigit = true) →
      ∀ c ∈ Nat.toDigitsCore 10 fuel n ds, c.isDigit = true := by
  intro fuel
  induction fuel with
  | zero => intro n ds h c hc; exact h c hc
  | succ fuel ih =>
    intro n ds h c hc
    have hd : ∀ x ∈ Nat.digitChar (n % 10) :: ds, x.isDigit = true := by
      intro x hx
      rcases List.mem_cons.1 hx with rfl | hx2
      · exact digitChar_isDigit _ (Nat.mod_lt _ (by decide))
      · exact h x hx2
    simp only [Nat.toDigitsCore] at hc
    split_ifs at hc
    · exact hd c hc
    · exact ih _ _ hd c hc

theorem toDigitsCore_ne_nil :
    ∀ (fuel n : Nat) (ds : List Char), ds ≠ [] → Nat.toDigitsCore 10 fuel n ds ≠ [] := by
  intro fuel
  induction fuel with
  | zero => intro n ds h; exact h
  | succ fuel ih =>
    intro n ds _
    simp only [Nat.toDigitsCore]
    split_ifs
    · simp
    · exact ih _ _ (by simp)

theorem toDigits_isDigit (n : Nat) : ∀ c ∈ Nat.toDigits 10 n, c.isDigit = true :=
  toDigitsCore_isDigit (n + 1) n [] (by simp)

theorem toDigits_ne_nil (n : Nat) : Nat.toDigits 10 n ≠ [] := by
  simp only [Nat.toDigits, Nat.toDigitsCore]
  split_ifs
  · simp
  · exact toDigitsCore_ne_nil _ _ _ (by simp)

theorem isDigit_not_special (c : Char) (h : c.isDigit = true) :
    is_space_character c = false ∧ c ≠ '\'' ∧ c ≠ '\"' := by
  refine ⟨?_, ?_, ?_⟩
  · cases hs : is_space_character c with
    | false => rfl
    | true =>
      exfalso
      simp only [is_space_character, Bool.or_eq_true, decide_eq_true_eq] at hs
      rcases hs with ((rfl | rfl) | rfl) | rfl <;> revert h <;> decide
  · rintro rfl; revert h; decide
  · rintro rfl; revert h; decide

/-- Reading the characters of a single-quoted name that holds neither a quote nor
a backslash puts them into the buffer, one round each. -/
theorem read_name_characters (to_integer : List Char → Option Nat)
    (k : selector_separator_kind) (es : List basic_path_element) (tail : List Char) :
    ∀ (name buffer : List Char) (fuel : Nat), '\'' ∉ name → '\\' ∉ name →
      parse_loop to_integer (fuel + name.length)
          ⟨.single_quoted_string, k, buffer, es, name ++ tail⟩ =
        parse_loop to_integer fuel ⟨.single_quoted_string, k, buffer ++ name, es, tail⟩ := by
  intro name
  induction name with
  | nil => intro buffer fuel _ _; simp
  | cons c t ih =>
    intro buffer fuel h1 h2
    have hc1 : c ≠ '\'' := fun h => h1 (by simp [h])
    have hc2 : c ≠ '\\' := fun h => h2 (by simp [h])
    have ht1 : '\'' ∉ t := fun h => h1 (List.mem_cons_of_mem _ h)
    have ht2 : '\\' ∉ t := fun h => h2 (List.mem_cons_of_mem _ h)
    rw [List.length_cons, ← Nat.add_assoc,
      parse_loop_step to_integer _ ⟨.single_quoted_string, k, buffer, es, c :: t ++ tail⟩
        ⟨.single_quoted_string, k, buffer ++ [c], es, t ++ tail⟩ c (t ++ tail) rfl
        (by simp [parse_step, hc1, hc2]),
      ih (buffer ++ [c]) fuel ht1 ht2, List.append_assoc]
    rfl

/-- Reading decimal digits in the state `digit` puts them into the buffer, one
round each. -/
theorem read_digits (to_integer : List Char → Option Nat)
    (k : selector_separator_kind) (es : List basic_path_element) (tail : List Char) :
    ∀ (ds buffer : List Char) (fuel : Nat), (∀ c ∈ ds, c.isDigit = true) →
      parse_loop to_integer (fuel + ds.length) ⟨.digit, k, buffer, es, ds ++ tail⟩ =
        parse_loop to_integer fuel ⟨.digit, k, buffer ++ ds, es, tail⟩ := by
  intro ds
  induction ds with
  | nil => intro buffer fuel _; simp
  | cons c t ih =>
    intro buffer fuel h
    have hc : c.isDigit = true := h c (List.mem_cons_self _ _)
    rw [List.length_cons, ← Nat.add_assoc,
      parse_loop_step to_integer _ ⟨.digit, k, buffer, es, c :: t ++ tail⟩
        ⟨.digit, k, buffer ++ [c], es, t ++ tail⟩ c (t ++ tail) rfl
        (by simp [parse_step, hc]),
      ih (buffer ++ [c]) fuel (fun x hx => h x (List.mem_cons_of_mem _ hx)), List.append_assoc]
    rfl

/-- The text `['name']` read from the state `relative_location` adds the element
with this name. -/
theorem read_name_element (to_integer : List Char → Option Nat)
    (k : selector_separator_kind) (es : List basic_path_element) (name tail : List Char)
    (fuel : Nat) (h1 : '\'' ∉ name) (h2 : '\\' ∉ name) :
    parse_loop to_integer (fuel + 1 + 1 + name.length + 1 + 1)
        ⟨.relative_location, k, [], es, ['[', '\''] ++ name ++ ['\'', ']'] ++ tail⟩ =
      parse_loop to_integer fuel
        ⟨.relative_location, .bracket, [], es ++ [basic_path_element.of_name name], tail⟩ := by
  rw [parse_loop_step to_integer _ _
      ⟨.selector, .bracket, [], es, '\'' :: name ++ '\'' :: ']' :: tail⟩ '['
      ('\'' :: name ++ '\'' :: ']' :: tail) (by simp) (by simp [parse_step, is_space_character]),
    parse_loop_step to_integer _ _
      ⟨.single_quoted_string, .bracket, [], es, name ++ '\'' :: ']' :: tail⟩ '\''
      (name ++ '\'' :: ']' :: tail) rfl (by simp [parse_step, is_space_character]),
    read_name_characters to_integer .bracket es ('\'' :: ']' :: tail) name [] _ h1 h2,
    parse_loop_step to_integer _ _
      ⟨.expect_rbracket, .bracket, [], es ++ [basic_path_element.of_name name], ']' :: tail⟩
      '\'' (']' :: tail) rfl (by simp [parse_step, state_after_element]),
    parse_loop_step to_integer _ _
      ⟨.relative_location, .bracket, [], es ++ [basic_path_element.of_name name], tail⟩
      ']' tail rfl (by simp [parse_step, is_space_character])]

/-- The text `[digits]` read from the state `relative_location` adds the element
with the index that `to_integer` reads from the digits. -/
theorem read_index_element (to_integer : List Char → Option Nat)
    (k : selector_separator_kind) (es : List basic_path_element) (ds tail : List Char)
    (n fuel : Nat) (hds : ∀ c ∈ ds, c.isDigit = true) (hne : ds ≠ [])
    (hn : to_integer ds = some n) :
    parse_loop to_integer (fuel + 1 + 1 + ds.length + 1 + 1)
        ⟨.relative_location, k, [], es, ['['] ++ ds ++ [']'] ++ tail⟩ =
      parse_loop to_integer fuel
        ⟨.relative_location, .bracket, [], es ++ [basic_path_element.of_index n], tail⟩ := by
  obtain ⟨d, t, rfl⟩ := List.exists_cons_of_ne_nil hne
  have hd : d.isDigit = true := hds d (List.mem_cons_self _ _)
  obtain ⟨hd1, hd2, hd3⟩ := isDigit_not_special d hd
  rw [parse_loop_step to_integer _ _
      ⟨.selector, .bracket, [], es, (d :: t) ++ ']' :: tail⟩ '['
      ((d :: t) ++ ']' :: tail) (by simp) (by simp [parse_step, is_space_character]),
    parse_loop_step to_integer _ _
      ⟨.digit, .bracket, [], es, (d :: t) ++ ']' :: tail⟩ d
      (t ++ ']' :: tail) rfl (by simp [parse_step, hd1, hd2, hd3, hd]),
    read_digits to_integer .bracket es (']' :: tail) (d :: t) [] _ hds,
    parse_loop_step to_integer _ _
      ⟨.expect_rbracket, .bracket, [], es ++ [basic_path_element.of_index n], ']' :: tail⟩
      ']' tail rfl (by
        have h9 : (']' : Char).isDigit = false := by decide
        simp [parse_step, h9, hn, state_after_element]),
    parse_loop_step to_integer _ _
      ⟨.relative_location, .bracket, [], es ++ [basic_path_element.of_index n], tail⟩
      ']' tail rfl (by simp [parse_step, is_space_character])]

end jsonpath

end jsoncons

namespace jsoncons

namespace jsonpath

/-- The texts of the elements of a normalized path, read from the state
`relative_location`, add exactly these elements, and the parse ends without an
error code. -/
theorem read_normalized_elements (to_integer : List Char → Option Nat) :
    ∀ (elements es : List basic_path_element) (k : selector_separator_kind),
      (∀ e ∈ elements, (e.has_name_ = true →
          e.index_ = 0 ∧ '\'' ∉ e.name_ ∧ '\\' ∉ e.name_) ∧
        (e.has_name_ = false →
          e.name_ = [] ∧ to_integer (Nat.toDigits 10 e.index_) = some e.index_)) →
      ∃ fuel, parse_loop to_integer fuel
          ⟨.relative_location, k, [], es, normalized_elements elements⟩ =
        some (es ++ elements, none) := by
  intro elements
  induction elements with
  | nil =>
    intro es k _
    exact ⟨0, by rw [parse_loop_nil _ _ _ rfl]; simp [parse_end]⟩
  | cons e rest ih =>
    intro es k h
    obtain ⟨hname, hindex⟩ := h e (List.mem_cons_self _ _)
    have hrest := fun x hx => h x (List.mem_cons_of_mem _ hx)
    obtain ⟨has_name, name, index⟩ := e
    cases has_name with
    | true =>
      obtain ⟨h0, h1, h2⟩ := hname rfl
      simp only at h0 h1 h2
      subst h0
      obtain ⟨fuel, hfuel⟩ := ih (es ++ [basic_path_element.of_name name]) .bracket hrest
      refine ⟨fuel + 1 + 1 + name.length + 1 + 1, ?_⟩
      simp only [normalized_elements, if_true]
      rw [read_name_element to_integer k es name _ fuel h1 h2, hfuel]
      simp [basic_path_element.of_name]
    | false =>
      obtain ⟨h0, h1⟩ := hindex rfl
      simp only at h0 h1
      subst h0
      obtain ⟨fuel, hfuel⟩ := ih (es ++ [basic_path_element.of_index index]) .bracket hrest
      refine ⟨fuel + 1 + 1 + (Nat.toDigits 10 index).length + 1 + 1, ?_⟩
      simp only [normalized_elements, Bool.false_eq_true, if_false]
      rw [read_index_element to_integer k es (Nat.toDigits 10 index) _ index fuel
        (toDigits_isDigit index) (toDigits_ne_nil index) h1, hfuel]
      simp [basic_path_element.of_index]

theorem advance_over_space (s c : Char) (t rest : List Char)
    (hs : is_space_character s = true) (ht : ∀ x ∈ t, is_space_character x = true)
    (hc : is_space_character c = false) :
    ∃ t1, advance_past_space_character (s :: (t ++ c :: rest)) = t1 ++ c :: rest ∧
      (∀ x ∈ t1, is_space_character x = true) ∧ t1.length ≤ t.length := by
  have hcn : c ≠ '\n' := by
    rintro rfl
    revert hc
    decide
  simp only [advance_past_space_character]
  split_ifs with h1 h2 h3
  · exact ⟨t, rfl, ht, le_refl _⟩
  · cases t with
    | nil =>
      simp only [List.nil_append, hcn, if_false]
      exact ⟨[], rfl, by simp, le_refl _⟩
    | cons d t2 =>
      simp only [List.cons_append]
      split_ifs
      · exact ⟨t2, rfl, fun x hx => ht x (List.mem_cons_of_mem _ hx), by simp⟩
      · exact ⟨d :: t2, rfl, ht, le_refl _⟩
  · exact ⟨t, rfl, ht, le_refl _⟩
  · exfalso
    simp only [is_space_character, Bool.or_eq_true, decide_eq_true_eq] at hs
    rcases hs with ((h | h) | h) | h
    · exact h1 (Or.inl h)
    · exact h1 (Or.inr h)
    · exact h2 h
    · exact h3 h

/-- A text whose first character behind leading space is neither `$` nor `@`
makes the loop return `expected_root_or_current_node`. -/
theorem read_wrong_first_character (to_integer : List Char → Option Nat) (c : Char)
    (rest : List Char) (hc : is_space_character c = false) (h1 : c ≠ '$') (h2 : c ≠ '@') :
    ∀ (n : Nat) (spaces : List Char), spaces.length ≤ n →
      (∀ x ∈ spaces, is_space_character x = true) →
      ∃ fuel, parse_loop to_integer fuel ⟨.start, .bracket, [], [], spaces ++ c :: rest⟩ =
        some ([], some jsonpath_errc.expected_root_or_current_node) := by
  intro n
  induction n with
  | zero =>
    intro spaces hlen _
    have hnil : spaces = [] := List.length_eq_zero.1 (by omega)
    subst hnil
    exact ⟨1, parse_loop_return to_integer 0 _ c rest _ rfl (by simp [parse_step, hc, h1, h2])⟩
  | succ n ih =>
    intro spaces hlen hsp
    cases spaces with
    | nil =>
      exact ⟨1, parse_loop_return to_integer 0 _ c rest _ rfl (by simp [parse_step, hc, h1, h2])⟩
    | cons s t =>
      have hs : is_space_character s = true := hsp s (List.mem_cons_self _ _)
      obtain ⟨t1, heq, ht1, hlen1⟩ := advance_over_space s c t rest hs
        (fun x hx => hsp x (List.mem_cons_of_mem _ hx)) hc
      obtain ⟨fuel, hfuel⟩ := ih t1 (by simp only [List.length_cons] at hlen; omega) ht1
      refine ⟨fuel + 1, ?_⟩
      rw [parse_loop_step to_integer fuel _ ⟨.start, .bracket, [], [], t1 ++ c :: rest⟩ s
        (t ++ c :: rest) rfl (by simp [parse_step, hs, heq])]
      exact hfuel

theorem decimal_value_of_toDigitsCore :
    ∀ (fuel n : Nat) (ds : List Char), n < fuel →
      (Nat.toDigitsCore 10 fuel n ds).foldl (fun acc c => acc * 10 + (c.toNat - 48)) 0 =
        ds.foldl (fun acc c => acc * 10 + (c.toNat - 48)) n := by
  have hdigit : ∀ k, k < 10 → (Nat.digitChar k).toNat - 48 = k := by decide
  intro fuel
  induction fuel with
  | zero => intro n ds h; omega
  | succ fuel ih =>
    intro n ds h
    have hd := hdigit (n % 10) (Nat.mod_lt _ (by decide))
    simp only [Nat.toDigitsCore]
    split_ifs with h0
    · simp only [List.foldl_cons, hd]
      congr 1
      omega
    · rw [ih (n / 10) _ (by omega)]
      simp only [List.foldl_cons, hd]
      congr 1
      omega

/-- The reader `decimal_to_integer` reads every index below `2 ^ 64` back from
its decimal digits. -/
theorem decimal_to_integer_toDigits (n : Nat) (h : n < 2 ^ 64) :
    decimal_to_integer (Nat.toDigits 10 n) = some n := by
  have hval : (Nat.toDigits 10 n).foldl (fun acc c => acc * 10 + (c.toNat - 48)) 0 = n := by
    rw [Nat.toDigits, decimal_value_of_toDigitsCore (n + 1) n [] (by omega)]
    rfl
  have hcond : ¬ (Nat.toDigits 10 n = [] ∨ ∃ c ∈ Nat.toDigits 10 n, ¬ c.isDigit = true) := by
    rintro (h1 | ⟨c, hc, hnd⟩)
    · exact toDigits_ne_nil n h1
    · exact hnd (toDigits_isDigit n c hc)
  unfold decimal_to_integer
  rw [if_neg hcond]
  simp only [hval, h, if_true]

end jsonpath

end jsoncons

namespace jsoncons

namespace jsonpath

/-- C36: the round trip of the location parser on normalized paths. For every
list of path elements in which a name holds no single quote and no backslash
and every index is one that `to_integer` reads back from its decimal digits,
parsing the text `$` followed by `['name']` for an element with a name and
`[index]` for an element with an index returns exactly this list, in order, with
no error code set. Parsing `$` alone returns the empty path with no error code.
A text whose first character behind leading space characters is neither `$` nor
`@` fails with `expected_root_or_current_node` and an empty path. In every case
the loop ends within its bound of rounds. -/
theorem location_parser_round_trip (to_integer : List Char → Option Nat)
    (elements : List basic_path_element) (spaces rest : List Char) (c : Char)
    (helements : ∀ e ∈ elements,
      (e.has_name_ = true → e.index_ = 0 ∧ '\'' ∉ e.name_ ∧ '\\' ∉ e.name_) ∧
      (e.has_name_ = false →
        e.name_ = [] ∧ to_integer (Nat.toDigits 10 e.index_) = some e.index_))
    (hspaces : ∀ x ∈ spaces, is_space_character x = true)
    (hc : is_space_character c = false ∧ c ≠ '$' ∧ c ≠ '@') :
    parse to_integer (normalized_path elements) = some (elements, none) ∧
    parse to_integer ['$'] = some ([], none) ∧
    parse to_integer (spaces ++ c :: rest) =
      some ([], some jsonpath_errc.expected_root_or_current_node) := by
  refine ⟨?_, rfl, ?_⟩
  · obtain ⟨fuel, hfuel⟩ := read_normalized_elements to_integer elements [] .bracket helements
    apply parse_eq_of_loop to_integer _ (fuel + 1)
    rw [normalized_path, parse_loop_step to_integer fuel _
      ⟨.relative_location, .bracket, [], [], normalized_elements elements⟩ '$'
      (normalized_elements elements) rfl (by simp [parse_step, is_space_character])]
    simpa using hfuel
  · obtain ⟨fuel, hfuel⟩ := read_wrong_first_character to_integer c rest hc.1 hc.2.1 hc.2.2
      spaces.length spaces (le_refl _) hspaces
    exact parse_eq_of_loop to_integer _ fuel _ hfuel

theorem location_parser_round_trip_witness :
    (∀ e ∈ [basic_path_element.of_name ['x', ' ', 'y'], basic_path_element.of_index 120,
        basic_path_element.of_name []],
      (e.has_name_ = true → e.index_ = 0 ∧ '\'' ∉ e.name_ ∧ '\\' ∉ e.name_) ∧
      (e.has_name_ = false →
        e.name_ = [] ∧ decimal_to_integer (Nat.toDigits 10 e.index_) = some e.index_)) ∧
    (∀ x ∈ [' ', '\t'], is_space_character x = true) ∧
    (is_space_character 'x' = false ∧ 'x' ≠ '$' ∧ 'x' ≠ '@') ∧
    normalized_path [basic_path_element.of_name ['x', ' ', 'y'],
        basic_path_element.of_index 120, basic_path_element.of_name []] =
      ['$', '[', '\'', 'x', ' ', 'y', '\'', ']', '[', '1', '2', '0', ']', '[', '\'', '\'', ']'] ∧
    parse decimal_to_integer (normalized_path [basic_path_element.of_name ['x', ' ', 'y'],
        basic_path_element.of_index 120, basic_path_element.of_name []]) =
      some ([basic_path_element.of_name ['x', ' ', 'y'], basic_path_element.of_index 120,
        basic_path_element.of_name []], none) ∧
    parse decimal_to_integer ([' ', '\t'] ++ 'x' :: ['y']) =
      some ([], some jsonpath_errc.expected_root_or_current_node) :=
  ⟨by decide, by decide, by decide, by decide,
   (location_parser_round_trip decimal_to_integer
      [basic_path_element.of_name ['x', ' ', 'y'], basic_path_element.of_index 120,
        basic_path_element.of_name []] [' ', '\t'] ['y'] 'x'
      (by decide) (by decide) (by decide)).1,
   (location_parser_round_trip decimal_to_integer
      [basic_path_element.of_name ['x', ' ', 'y'], basic_path_element.of_index 120,
        basic_path_element.of_name []] [' ', '\t'] ['y'] 'x'
      (by decide) (by decide) (by decide)).2.2⟩

end jsonpath

end jsoncons
